import Mathlib

/-!
# FastR native bridge: unwind-protect, transient arena, vector-pointer cache, upcall
dispatchers, UTF-8 decoding, numeric literal parsing, exact sum and input handlers

A shallow embedding of the C sources

* `fficall/src/truffle_nfi/Rinternals.c` (`R_UnwindProtect`, `R_ContinueUnwind`,
  `R_MakeUnwindCont`, `array_cache_lookup`, `array_cache_insert`, `INTEGER`, `REAL`),
* `fficall/src/truffle_llvm/Memory.c` (`R_alloc`, `allocExit`, `R_chk_calloc`),
* `fficall/src/JavaGD/fastrUpcalls.c`, `fficall/src/truffle_common/Random.c`,
  `fficall/src/truffle_common/Utils.c`, `fficall/src/truffle_common/Parse.c` (the upcall
  dispatchers),
* `fficall/src/common/util_fastr.c` (`utf8toucs`, `utf8towcs`, `R_strtod5`, `R_strtod4`,
  `R_strtod`),
* `fficall/src/truffle_common/misc_rffi.c` (`call_misc_exactSumFunc`),
* `gnur/patch/src/unix/sys-std.c` (`addInputHandler`, `removeInputHandler`),

together with the properties proved about them.

Conventions: pointers and handles are natural numbers, `0` is `NULL`.  C code that
can leave by `longjmp` is a state transformer that yields an `Outcome`: a normal
return, a jump in flight toward a target, or undefined behaviour.  A C string is the
list of its bytes; it ends at the first `0` or at the end of the list.  A `double` is
modelled exactly, as a sign and a magnitude counted in units of `2^(-1074)`, with
round-to-nearest-even.
-/

namespace FastR

/-! ## Part 1. Unwind-protect bridge (`Rinternals.c`, lines 132-193) -/

/-- A handle of the managed runtime (`SEXP`); `0` is `NULL`. -/
abbrev SEXP := Nat

/-- The address of a `jmp_buf`. -/
abbrev JmpBuf := Nat

/-- One continuation token `CONS(result, RAW(unwind_cont_t))`: its `CAR` and the
`jumptarget` field of the payload (`none` while the field is not a valid target). -/
structure UnwindCont where
  car : SEXP
  jumptarget : Option JmpBuf
  deriving DecidableEq, Repr

/-- The events of the log.  Three are ghost events, recorded only to state properties: an
invocation of `R_UnwindProtect` with the given continuation argument, the call
`cleanfun(cleandata, jump)` about to be made, and the normal return of an invocation with
its result.  The fourth, `cleaned`, is written by a cleanup function itself when it runs,
with the arguments it received. -/
inductive Event where
  | call (cont : SEXP)
  | cleanup (cleandata : Nat) (jump : Bool)
  | ret (result : SEXP)
  | cleaned (cleandata : Nat) (jump : Bool)
  deriving DecidableEq, Repr

/-- The part of the runtime state the bridge touches: the jump-target stack (top first),
the continuation tokens allocated so far (handle `i + 1` is `conts[i]`), the PROTECT
stack (top first) and the ghost event log. -/
structure RState where
  jmpStack : List JmpBuf
  conts : List UnwindCont
  protectStack : List SEXP
  trace : List Event
  deriving DecidableEq, Repr

/-- How a piece of C code leaves: by returning, by a `longjmp` toward `target`, or by
undefined behaviour. -/
inductive Outcome (α : Type) where
  | ret (v : α)
  | jump (target : JmpBuf)
  | undef
  deriving DecidableEq, Repr

/-- C code with access to the runtime state. -/
abbrev M (α : Type) := RState → Outcome α × RState

/-- Ghost: append an event to the log. -/
def logEvent (e : Event) (s : RState) : RState :=
  { s with trace := s.trace ++ [e] }

/-- Modelled from the spec: `peekJmpBuf` (not in the sources) reads the enclosing jump
target, the top of the jump-target stack, without removing it. -/
def peekJmpBuf (s : RState) : Option JmpBuf :=
  s.jmpStack.head?

/-- Modelled from the spec: `pushJmpBuf` (not in the sources) pushes a jump target. -/
def pushJmpBuf (b : JmpBuf) (s : RState) : RState :=
  { s with jmpStack := b :: s.jmpStack }

/-- Modelled from the spec: `popJmpBuf` (not in the sources) removes the top of the
jump-target stack. -/
def popJmpBuf (s : RState) : RState :=
  { s with jmpStack := s.jmpStack.tail }

/-- The address of the local `jmp_buf cjmpbuf` of a new frame: distinct from every jump
target that is live on the stack (and not `NULL`). -/
def freshJmpBuf (stack : List JmpBuf) : JmpBuf :=
  stack.foldr max 0 + 1

/-- Modelled from the spec: `PROTECT` (R API, not in the sources) pushes a handle on the
PROTECT stack. -/
def PROTECT (x : SEXP) (s : RState) : RState :=
  { s with protectStack := x :: s.protectStack }

/-- Modelled from the spec: `UNPROTECT(n)` (R API, not in the sources) pops `n` handles
from the PROTECT stack. -/
def UNPROTECT (n : Nat) (s : RState) : RState :=
  { s with protectStack := s.protectStack.drop n }

/-- The token behind a continuation handle, if the handle is one. -/
def getCont (s : RState) (cont : SEXP) : Option UnwindCont :=
  if cont = 0 then none else s.conts.get? (cont - 1)

/-- A handle that denotes an allocated continuation token. -/
def validCont (s : RState) (cont : SEXP) : Prop :=
  cont ≠ 0 ∧ cont - 1 < s.conts.length

instance (s : RState) (cont : SEXP) : Decidable (validCont s cont) := by
  unfold validCont; infer_instance

/-- `CAR(cont)`. -/
def CAR (s : RState) (cont : SEXP) : Option SEXP :=
  (getCont s cont).map UnwindCont.car

/-- `SETCAR(cont, result)`; `none` when `cont` is not a token. -/
def SETCAR (cont : SEXP) (result : SEXP) (s : RState) : Option RState :=
  match getCont s cont with
  | none => none
  | some u => some { s with conts := s.conts.set (cont - 1) { u with car := result } }

/-- The assignment `u->jumptarget = jumptarget` with `u = RAWDATA(CDR(cont))`; `none` when
`cont` is not a token. -/
def setJumptarget (cont : SEXP) (jumptarget : Option JmpBuf) (s : RState) : Option RState :=
  match getCont s cont with
  | none => none
  | some u => some { s with conts := s.conts.set (cont - 1) { u with jumptarget := jumptarget } }

/-- `R_MakeUnwindCont`: `CONS(R_NilValue, allocVector(RAWSXP, sizeof(unwind_cont_t)))`, a
new token whose payload is not yet set.  `nil` is `R_NilValue`. -/
def R_MakeUnwindCont (nil : SEXP) (s : RState) : SEXP × RState :=
  (s.conts.length + 1, { s with conts := s.conts ++ [{ car := nil, jumptarget := none }] })

/-- `R_ContinueUnwind`: `longjmp(*(u->jumptarget), 1)` with `u = RAWDATA(CDR(cont))`.  It
never returns. -/
def R_ContinueUnwind (cont : SEXP) : M SEXP := fun s =>
  match getCont s cont with
  | none => (.undef, s)
  | some u =>
    match u.jumptarget with
    | none => (.undef, s)
    | some target => (.jump target, s)

/-- Lines 170-193 of `R_UnwindProtect`, the path taken with a non-null continuation.
`setjmp(cjmpbuf)` returns non-zero exactly when the body leaves by a jump whose target is
`cjmpbuf`; a jump to any other target passes through the frame.  A jump out of `cleanfun`
back to this frame's own, already popped, target is not modelled (`undef`). -/
def protectedFrame (fun_ : Nat → M SEXP) (data : Nat)
    (cleanfun : Nat → Bool → M Unit) (cleandata : Nat) (cont : SEXP) : M SEXP := fun s =>
  -- jmp_buf *jumptarget = peekJmpBuf(); jmp_buf cjmpbuf; pushJmpBuf(&cjmpbuf);
  let jumptarget := peekJmpBuf s
  let cjmpbuf := freshJmpBuf s.jmpStack
  let s1 := pushJmpBuf cjmpbuf s
  -- if (setjmp(cjmpbuf)) ... else result = fun(data); ...
  match fun_ data s1 with
  | (.ret result, s2) =>
    -- SETCAR(cont, result); jump = FALSE;
    match SETCAR cont result s2 with
    | none => (.undef, s2)
    | some s3 =>
      -- popJmpBuf(); cleanfun(cleandata, jump);
      match cleanfun cleandata false (logEvent (.cleanup cleandata false) (popJmpBuf s3)) with
      -- return result;
      | (.ret _, s5) => (.ret result, logEvent (.ret result) s5)
      | (.jump target, s5) => if target = cjmpbuf then (.undef, s5) else (.jump target, s5)
      | (.undef, s5) => (.undef, s5)
  | (.jump target, s2) =>
    if target = cjmpbuf then
      -- jump = TRUE; u->jumptarget = jumptarget;
      match setJumptarget cont jumptarget s2 with
      | none => (.undef, s2)
      | some s3 =>
        -- popJmpBuf(); cleanfun(cleandata, jump);
        match cleanfun cleandata true (logEvent (.cleanup cleandata true) (popJmpBuf s3)) with
        -- if (jump) R_ContinueUnwind(cont);
        | (.ret _, s5) => R_ContinueUnwind cont s5
        | (.jump target', s5) =>
          if target' = cjmpbuf then (.undef, s5) else (.jump target', s5)
        | (.undef, s5) => (.undef, s5)
    else (.jump target, s2)
  | (.undef, s2) => (.undef, s2)

/-- `R_UnwindProtect`: with a `NULL` continuation it makes a token, protects it and calls
itself; otherwise it runs the protected frame. -/
def R_UnwindProtect (nil : SEXP) (fun_ : Nat → M SEXP) (data : Nat)
    (cleanfun : Nat → Bool → M Unit) (cleandata : Nat) (cont : SEXP) (s : RState) :
    Outcome SEXP × RState :=
  let s := logEvent (.call cont) s
  if cont = 0 then
    -- PROTECT(cont = R_MakeUnwindCont());
    let s1 := PROTECT (R_MakeUnwindCont nil s).1 (R_MakeUnwindCont nil s).2
    -- result = R_UnwindProtect(fun, data, cleanfun, cleandata, cont);
    match R_UnwindProtect nil fun_ data cleanfun cleandata (R_MakeUnwindCont nil s).1 s1 with
    | (.ret result, s2) =>
      -- UNPROTECT(1); return result;
      (.ret result, logEvent (.ret result) (UNPROTECT 1 s2))
    | (.jump target, s2) => (.jump target, s2)
    | (.undef, s2) => (.undef, s2)
  else
    protectedFrame fun_ data cleanfun cleandata cont s
termination_by (if cont = 0 then 1 else 0)
decreasing_by simp_all [R_MakeUnwindCont]

/-- One level of a nest of protected calls: the arguments of the `R_UnwindProtect`
invocation and what its body does with the result of the next level (`post`). -/
structure Frame where
  data : Nat
  cleanfun : Nat → Bool → M Unit
  cleandata : Nat
  cont : SEXP
  post : SEXP → SEXP

/-- A nest of protected calls, outermost first: the body of every level invokes the next
level, and the body of the innermost level is `inner`. -/
def nest (nil : SEXP) : List Frame → M SEXP → M SEXP
  | [], inner => inner
  | fr :: frs, inner =>
    R_UnwindProtect nil
      (fun _ s =>
        match nest nil frs inner s with
        | (.ret r, s') => (.ret (fr.post r), s')
        | (.jump target, s') => (.jump target, s')
        | (.undef, s') => (.undef, s'))
      fr.data fr.cleanfun fr.cleandata fr.cont

/-- The value a nest returns when its innermost body returns `v`. -/
def resultOf : List Frame → SEXP → SEXP
  | [], v => v
  | fr :: frs, v => fr.post (resultOf frs v)

/-- The events of a nest that returns normally, after the calls: innermost first, for each
level the call of its cleanup with `jump = FALSE`, what that run of the cleanup function
writes to the log itself (`emits`), and then the return of that level. -/
def normalUnwind (emits : Frame → Nat → Bool → List Event) : List Frame → SEXP → List Event
  | [], _ => []
  | fr :: frs, v =>
    normalUnwind emits frs v ++ [.cleanup fr.cleandata false] ++
      emits fr fr.cleandata false ++ [.ret (resultOf (fr :: frs) v)]

/-- The events of a nest that is left by a jump, after the jump: innermost first, for each
level the call of its cleanup with `jump = TRUE` and what that run of the cleanup function
writes to the log itself (`emits`). -/
def jumpUnwind (emits : Frame → Nat → Bool → List Event) : List Frame → List Event
  | [] => []
  | fr :: frs =>
    jumpUnwind emits frs ++ [.cleanup fr.cleandata true] ++ emits fr fr.cleandata true

/-- A body that raises an error: `longjmp` to the top of the jump-target stack. -/
def errorJump : M SEXP := fun s =>
  match peekJmpBuf s with
  | some target => (.jump target, s)
  | none => (.undef, s)

/-- A cleanup function that returns normally and leaves the continuation tokens alone;
every run of it with the arguments `d` and `j` appends the events `emits d j` to the log,
so that its runs can be told from the log. -/
def LoggingClean (cleanfun : Nat → Bool → M Unit) (emits : Nat → Bool → List Event) : Prop :=
  ∀ d j s, ∃ s', cleanfun d j s = (.ret (), s') ∧ s'.conts = s.conts ∧
    s'.trace = s.trace ++ emits d j

/-- A cleanup function that leaves the jump-target stack as it found it. -/
def BalancedClean (cleanfun : Nat → Bool → M Unit) : Prop :=
  ∀ d j s, (cleanfun d j s).2.jmpStack = s.jmpStack

/-- The state in which the innermost body of a nest starts: every level has logged its
call and pushed its jump target. -/
def bodyState : List Frame → RState → RState
  | [], s => s
  | fr :: frs, s =>
    bodyState frs (pushJmpBuf (freshJmpBuf s.jmpStack) (logEvent (.call fr.cont) s))

/-- A cleanup function that does nothing. -/
def noCleanup : Nat → Bool → M Unit := fun _ _ s => (.ret (), s)

/-- A cleanup function that records its run, with the arguments it received, in the log. -/
def recordCleanup : Nat → Bool → M Unit := fun d j s => (.ret (), logEvent (.cleaned d j) s)

/-- What a run of `recordCleanup` writes to the log. -/
def recordEmits : Frame → Nat → Bool → List Event := fun _ d j => [.cleaned d j]

/-- A sample state: one enclosing jump target `7`, two allocated continuation tokens. -/
def demoState : RState :=
  { jmpStack := [7], conts := [⟨0, none⟩, ⟨0, none⟩], protectStack := [], trace := [] }

/-- The outer level of a sample nest: a recording cleanup with data `1`, token `1`. -/
def outerFrame : Frame := ⟨0, recordCleanup, 1, 1, id⟩

/-- The inner level of a sample nest: a recording cleanup with data `2`, token `2`. -/
def innerFrame : Frame := ⟨0, recordCleanup, 2, 2, id⟩

/-! ## Part 2. Transient allocation arena (`truffle_llvm/Memory.c`) -/

/-- A raw pointer; `0` is `NULL`. -/
abbrev Ptr := Nat

/-- The largest value of the C type `int`. -/
def INT_MAX : Int := 2147483647

/-- Ways in which the behaviour of the arena code becomes undefined. -/
inductive Fault where
  /-- signed overflow of an `int` -/
  | intOverflow
  /-- `tMemTable[index] = p` with `index` outside the table of `capacity` slots -/
  | storeOutOfBounds (index : Int) (capacity : Nat)
  /-- `tMemTable[index]` read outside the table of `capacity` slots (`0` for the `NULL` table) -/
  | readOutOfBounds (index : Nat) (capacity : Nat)
  /-- `tMemTable[index]` read although the slot was never written -/
  | readUninit (index : Nat)
  /-- `free(p)` of a pointer that is not an allocated block, as in a double free -/
  | invalidFree (p : Ptr)
  deriving DecidableEq, Repr

/-- The static variables of `Memory.c` and, as ghost state, the heap they act on:
`tMemTable` is the backing storage (a slot is `none` until it is written; the `NULL` table
has no slot), `live` are the blocks obtained from `calloc` and not yet freed, `freed` is
the log of the non-null pointers passed to `free` by `allocExit`, oldest first. -/
structure Arena where
  tMemTable : List (Option Ptr)
  tMemTableIndex : Int
  tMemTableLength : Int
  live : List Ptr
  freed : List Ptr
  deriving DecidableEq, Repr

/-- The state at program start: `tMemTable = NULL`, `tMemTableIndex = -1`,
`tMemTableLength = 0`. -/
def Arena.initial : Arena :=
  { tMemTable := [], tMemTableIndex := -1, tMemTableLength := 0, live := [], freed := [] }

/-- How a call into the arena ends: it returns `v`, it is aborted by the R-level
`error(...)` raised in `R_chk_calloc`, it ends the process in `fatalError`, or its
behaviour is undefined.  The state is kept where execution can go on afterwards. -/
inductive Res (α : Type) where
  | ok (v : α) (s : Arena)
  | error (s : Arena)
  | fatal
  | fault (f : Fault)
  deriving DecidableEq, Repr

/-- `R_chk_calloc(nelem, elsize)`.  `haveWorkingCalloc` says whether the macro
`HAVE_WORKING_CALLOC` is defined; `callocResult` is what `calloc(nelem, elsize)` yields
when it is called (`0` for `NULL`); the element size reaches nothing but `calloc`. -/
def R_chk_calloc (haveWorkingCalloc : Bool) (nelem : Nat) (_elsize : Nat)
    (callocResult : Ptr) (s : Arena) : Res Ptr :=
  if !haveWorkingCalloc && nelem == 0 then
    .ok 0 s
  else if callocResult = 0 then
    .error s
  else
    .ok callocResult { s with live := callocResult :: s.live }

/-- `R_alloc(n, size)`.  `mallocOk` says whether the `malloc` of a new table succeeds. -/
def R_alloc (haveWorkingCalloc : Bool) (n : Nat) (size : Int) (callocResult : Ptr)
    (mallocOk : Bool) (s : Arena) : Res Ptr :=
  -- tMemTableIndex++;
  if s.tMemTableIndex ≥ INT_MAX then .fault .intOverflow else
  let s := { s with tMemTableIndex := s.tMemTableIndex + 1 }
  -- void *p = R_chk_calloc(n, size);
  match R_chk_calloc haveWorkingCalloc n (size % 2 ^ 64).toNat callocResult s with
  | .error s' => .error s'
  | .fatal => .fatal
  | .fault f => .fault f
  | .ok p s =>
    -- if (tMemTableIndex >= tMemTableLength) { ... }
    let grown : Res Unit :=
      if s.tMemTableIndex ≥ s.tMemTableLength then
        -- int newLength = tMemTableLength == 0 ? 1 : 2 * tMemTableLength;
        if 2 * s.tMemTableLength > INT_MAX then .fault .intOverflow else
        let newLength : Int := if s.tMemTableLength = 0 then 1 else 2 * s.tMemTableLength
        -- void *newtMemTable = malloc(sizeof(void*) * newLength);
        if !mallocOk then .fatal else
        -- if (tMemTableLength > 0) memcpy(newtMemTable, tMemTable, ...); free(tMemTable);
        if s.tMemTableLength.toNat > s.tMemTable.length then
          .fault (.readOutOfBounds s.tMemTable.length s.tMemTable.length)
        else
          .ok () { s with
            tMemTable := s.tMemTable.take s.tMemTableLength.toNat ++
              List.replicate (newLength.toNat - s.tMemTableLength.toNat) none
            tMemTableLength := newLength }
      else .ok () s
    match grown with
    | .error s' => .error s'
    | .fatal => .fatal
    | .fault f => .fault f
    | .ok _ s =>
      -- tMemTable[tMemTableIndex] = p;
      if 0 ≤ s.tMemTableIndex ∧ s.tMemTableIndex.toNat < s.tMemTable.length then
        .ok p { s with tMemTable := s.tMemTable.set s.tMemTableIndex.toNat (some p) }
      else
        .fault (.storeOutOfBounds s.tMemTableIndex s.tMemTable.length)

/-- One iteration `free(tMemTable[i])` of the loop in `allocExit`. -/
def freeSlot (i : Nat) (s : Arena) : Except Fault Arena :=
  match s.tMemTable.get? i with
  | none => .error (.readOutOfBounds i s.tMemTable.length)
  | some none => .error (.readUninit i)
  | some (some p) =>
    if p = 0 then .ok s
    else if p ∈ s.live then .ok { s with live := s.live.erase p, freed := s.freed ++ [p] }
    else .error (.invalidFree p)

/-- The loop `for (i = 0; i <= tMemTableIndex; i++) free(tMemTable[i]);` over the indices
still to visit. -/
def freeSlots : List Nat → Arena → Except Fault Arena
  | [], s => .ok s
  | i :: is, s =>
    match freeSlot i s with
    | .ok s' => freeSlots is s'
    | .error f => .error f

/-- `allocExit()`: free every slot up to the high-water mark, then `tMemTableIndex = 0`. -/
def allocExit (s : Arena) : Res Unit :=
  if s.tMemTableIndex ≥ INT_MAX then .fault .intOverflow else
  match freeSlots (List.range (s.tMemTableIndex + 1).toNat) s with
  | .ok s' => .ok () { s' with tMemTableIndex := 0 }
  | .error f => .fault f

/-- One step of a client of the arena: an `R_alloc` call, with the element count, the
element size and what the allocators yield during it, or an `allocExit` call. -/
inductive ArenaOp where
  | alloc (n : Nat) (size : Int) (callocResult : Ptr) (mallocOk : Bool)
  | exit
  deriving DecidableEq, Repr

/-- Run a sequence of arena calls; the pointers returned by the `R_alloc` calls are
collected in call order. -/
def runArena (haveWorkingCalloc : Bool) : List ArenaOp → Arena → Res (List Ptr)
  | [], s => .ok [] s
  | .alloc n size c m :: ops, s =>
    match R_alloc haveWorkingCalloc n size c m s with
    | .ok p s' =>
      match runArena haveWorkingCalloc ops s' with
      | .ok ps s'' => .ok (p :: ps) s''
      | r => r
    | .error s' => .error s'
    | .fatal => .fatal
    | .fault f => .fault f
  | .exit :: ops, s =>
    match allocExit s with
    | .ok _ s' => runArena haveWorkingCalloc ops s'
    | .error s' => .error s'
    | .fatal => .fatal
    | .fault f => .fault f

/-! ## Part 3. Vector-pointer cache (`Rinternals.c`, lines 58-130) -/

/-- `ARRAY_CACHE_SIZE`. -/
def ARRAY_CACHE_SIZE : Nat := 5

/-- `ArrayCacheEntry`: the vector handle, the raw pointer of its storage and the hit
counter (an `unsigned int`). -/
structure ArrayCacheEntry where
  key : SEXP
  data : Ptr
  hits : Nat
  deriving DecidableEq, Repr

/-- The zero-initialised entry. -/
instance : Inhabited ArrayCacheEntry := ⟨⟨0, 0, 0⟩⟩

/-- A cache is an array of `ARRAY_CACHE_SIZE` entries. -/
abbrev ArrayCache := List ArrayCacheEntry

/-- The zero-initialised thread-local array `int_cache` (or `real_cache`). -/
def emptyCache : ArrayCache := List.replicate ARRAY_CACHE_SIZE default

/-- `cache[i]`. -/
def entryAt (cache : ArrayCache) (i : Nat) : ArrayCacheEntry :=
  cache.getD i default

/-- The loop `for (i = ...; i < ARRAY_CACHE_SIZE; i++)` of `array_cache_lookup` from
index `i` on, with `remaining = ARRAY_CACHE_SIZE - i` iterations left: the first index
whose key is `key`. -/
def lookupLoop (cache : ArrayCache) (key : SEXP) : (remaining : Nat) → (i : Nat) → Option Nat
  | 0, _ => none
  | remaining + 1, i =>
    if (entryAt cache i).key = key then some i
    else lookupLoop cache key remaining (i + 1)

/-- `array_cache_lookup`: on a hit `(cache[i].hits)++` (an `unsigned int`) and the index
`i`, otherwise `-1`. -/
def array_cache_lookup (cache : ArrayCache) (key : SEXP) : Int × ArrayCache :=
  match lookupLoop cache key ARRAY_CACHE_SIZE 0 with
  | some i =>
    (i, cache.set i { entryAt cache i with hits := ((entryAt cache i).hits + 1) % 2 ^ 32 })
  | none => (-1, cache)

/-- The loop `for (i = 1; i < ARRAY_CACHE_SIZE && hits != 0; i++)` of `array_cache_insert`
from index `i` on, with `remaining = ARRAY_CACHE_SIZE - i` iterations left; it yields the
final `hits` and `idx`. -/
def insertLoop (cache : ArrayCache) :
    (remaining : Nat) → (i : Nat) → (hits : Nat) → (idx : Nat) → Nat × Nat
  | 0, _, hits, idx => (hits, idx)
  | remaining + 1, i, hits, idx =>
    if hits ≠ 0 then
      if (entryAt cache i).hits < hits then
        insertLoop cache remaining (i + 1) (entryAt cache i).hits i
      else
        insertLoop cache remaining (i + 1) hits idx
    else (hits, idx)

/-- The index `idx` that `array_cache_insert` overwrites ("replace least frequent"). -/
def victimIndex (cache : ArrayCache) : Nat :=
  (insertLoop cache (ARRAY_CACHE_SIZE - 1) 1 (entryAt cache 0).hits 0).2

/-- `array_cache_insert`. -/
def array_cache_insert (cache : ArrayCache) (key : SEXP) (data : Ptr) : ArrayCache :=
  cache.set (victimIndex cache) { key := key, data := data, hits := 0 }

/-- Ghost record of an upcall into the managed runtime made by an accessor. -/
inductive Upcall where
  | FASTR_INTEGER (x : SEXP)
  | FASTR_REAL (x : SEXP)
  deriving DecidableEq, Repr

/-- The thread-local caches and, as ghost state, the log of conversion upcalls. -/
structure ThreadState where
  int_cache : ArrayCache
  real_cache : ArrayCache
  upcalls : List Upcall
  deriving DecidableEq, Repr

/-- The state of a new thread: both caches zero-initialised. -/
def ThreadState.initial : ThreadState :=
  { int_cache := emptyCache, real_cache := emptyCache, upcalls := [] }

/-- `INTEGER(x)`.  `fastrInteger` is the conversion `FASTR_INTEGER` (a macro over an
upcall, not in the sources), taken as a fixed function of the handle. -/
def INTEGER (fastrInteger : SEXP → Ptr) (x : SEXP) (st : ThreadState) : Ptr × ThreadState :=
  -- int idx = array_cache_lookup(int_cache, x);
  let r := array_cache_lookup st.int_cache x
  if r.1 ≥ 0 then
    -- return (int *)int_cache[idx].data;
    ((entryAt r.2 r.1.toNat).data, { st with int_cache := r.2 })
  else
    -- int *result = FASTR_INTEGER(x); array_cache_insert(int_cache, x, result);
    let result := fastrInteger x
    (result, { st with int_cache := array_cache_insert r.2 x result,
                       upcalls := st.upcalls ++ [.FASTR_INTEGER x] })

/-- `REAL(x)`.  `fastrReal` is the conversion `FASTR_REAL` (a macro over an upcall, not in
the sources), taken as a fixed function of the handle. -/
def REAL (fastrReal : SEXP → Ptr) (x : SEXP) (st : ThreadState) : Ptr × ThreadState :=
  -- int idx = array_cache_lookup(real_cache, x);
  let r := array_cache_lookup st.real_cache x
  if r.1 ≥ 0 then
    -- return (double *)real_cache[idx].data;
    ((entryAt r.2 r.1.toNat).data, { st with real_cache := r.2 })
  else
    -- double *result = FASTR_REAL(x); array_cache_insert(real_cache, x, result);
    let result := fastrReal x
    (result, { st with real_cache := array_cache_insert r.2 x result,
                       upcalls := st.upcalls ++ [.FASTR_REAL x] })

/-- A call of one of the two accessors on a handle. -/
inductive AccessorCall where
  | INTEGER (x : SEXP)
  | REAL (x : SEXP)
  deriving DecidableEq, Repr

/-- The handle an accessor call is made on. -/
def AccessorCall.handle : AccessorCall → SEXP
  | .INTEGER x => x
  | .REAL x => x

/-- What the uncached conversion yields for an accessor call. -/
def AccessorCall.uncached (fastrInteger fastrReal : SEXP → Ptr) : AccessorCall → Ptr
  | .INTEGER x => fastrInteger x
  | .REAL x => fastrReal x

/-- Run a sequence of accessor calls on one thread; the returned pointers are collected in
call order. -/
def runAccessors (fastrInteger fastrReal : SEXP → Ptr) :
    List AccessorCall → ThreadState → List Ptr × ThreadState
  | [], st => ([], st)
  | .INTEGER x :: calls, st =>
    let r := INTEGER fastrInteger x st
    let rest := runAccessors fastrInteger fastrReal calls r.2
    (r.1 :: rest.1, rest.2)
  | .REAL x :: calls, st =>
    let r := REAL fastrReal x st
    let rest := runAccessors fastrInteger fastrReal calls r.2
    (r.1 :: rest.1, rest.2)

/-- Every entry of the cache with a non-null key holds the pointer the conversion
`convert` yields for that key. -/
def Coherent (convert : SEXP → Ptr) (cache : ArrayCache) : Prop :=
  ∀ i, (entryAt cache i).key ≠ 0 → (entryAt cache i).data = convert (entryAt cache i).key

/-! ## Part 4. Upcall dispatchers (`JavaGD/fastrUpcalls.c`, `truffle_common/Random.c`,
`truffle_common/Utils.c`, `truffle_common/Parse.c`) -/

/-- The indices of the callback table used by the dispatchers below (`gdcSetColor_x`,
...), declared in `rffi_upcalls.h`. -/
inductive Slot where
  | gdcSetColor_x | gdcSetFill_x | gdcSetLine_x | gdcSetFont_x | gdNewPage_x
  | gdActivate_x | gdCircle_x | gdClip_x | gdDeactivate_x | gdHold_x | gdFlush_x
  | gdLocator_x | gdLine_x | gdMode_x | gdOpen_x | gdClose_x | gdPath_x | gdPolygon_x
  | gdPolyline_x | gdRect_x | gdSize_x | getStrWidth_x | gdText_x | gdRaster_x
  | gdMetricInfo_x | GetRNGstate_x | PutRNGstate_x | unif_rand_x | norm_rand_x
  | exp_rand_x | octsize_x | DispatchPRIMFUN_x | R_ParseVector_x
  deriving DecidableEq, Repr

/-- A C value that crosses the native boundary: an `int` (also `Rboolean`), a `double`
(given by its 64-bit pattern, never computed with here) or a pointer (also `SEXP`). -/
inductive CVal where
  | int (v : Int)
  | double (bits : Nat)
  | ptr (p : Ptr)
  deriving DecidableEq, Repr

/-- Ghost events of the dispatch layer: a call through a callback-table slot with its
positional arguments, and a call of `checkExitCall`. -/
inductive UpEvent where
  | callback (slot : Slot) (args : List CVal)
  | checkExitCall
  deriving DecidableEq, Repr

/-- The state seen by a dispatcher: the state `managed` of the managed runtime, which only
callbacks change, and the ghost log of the dispatch layer. -/
structure UpState (σ : Type) where
  managed : σ
  log : List UpEvent

/-- The managed runtime as the dispatchers see it: the populated callback table (a slot
maps its arguments and the managed state to a result and a new managed state), whether
an exit condition is pending, and the accessors `VECTOR_ELT` and `Rf_asInteger` that
`R_ParseVector` applies to its result (dispatchers of their own, not in the sources,
taken as functions of the managed state). -/
structure Runtime (σ : Type) where
  callbacks : Slot → List CVal → σ → CVal × σ
  exitPending : σ → Bool
  VECTOR_ELT : σ → CVal → Int → CVal
  Rf_asInteger : σ → CVal → Int

/-- How a dispatcher ends: it returns to native code, or the exit check unwinds. -/
inductive Dispatched (α : Type) where
  | returned (v : α)
  | unwound
  deriving DecidableEq, Repr

/-- A dispatcher body: a state transformer that may end by unwinding. -/
def UpM (σ α : Type) := UpState σ → Dispatched α × UpState σ

instance (σ : Type) : Monad (UpM σ) where
  pure v := fun s => (.returned v, s)
  bind m f := fun s =>
    match m s with
    | (.returned v, s') => f v s'
    | (.unwound, s') => (.unwound, s')

/-- The call `((call_X) callbacks[X_x])(args)`. -/
def upcall {σ : Type} (rt : Runtime σ) (slot : Slot) (args : List CVal) : UpM σ CVal := fun s =>
  (.returned (rt.callbacks slot args s.managed).1,
    { managed := (rt.callbacks slot args s.managed).2,
      log := s.log ++ [.callback slot args] })

/-- Modelled from the spec: `checkExitCall` (declared `extern`, not in the sources) checks
whether an exit condition has been raised by the managed side and, if so, unwinds
instead of returning. -/
def checkExitCall {σ : Type} (rt : Runtime σ) : UpM σ Unit := fun s =>
  if rt.exitPending s.managed then (.unwound, { s with log := s.log ++ [.checkExitCall] })
  else (.returned (), { s with log := s.log ++ [.checkExitCall] })

/-- `ensure_string` (`Rinternals.c`): the identity on the pointer. -/
def ensure_string (x : Ptr) : Ptr := x

section Dispatchers

variable {σ : Type} (rt : Runtime σ)

/-- `gdcSetColor`. -/
def gdcSetColor (gdId cc : Int) : UpM σ Unit := do
  let _ ← upcall rt .gdcSetColor_x [.int gdId, .int cc]
  checkExitCall rt

/-- `gdcSetFill`. -/
def gdcSetFill (gdId cc : Int) : UpM σ Unit := do
  let _ ← upcall rt .gdcSetFill_x [.int gdId, .int cc]
  checkExitCall rt

/-- `gdcSetLine`. -/
def gdcSetLine (gdId : Int) (lwd : Nat) (lty : Int) : UpM σ Unit := do
  let _ ← upcall rt .gdcSetLine_x [.int gdId, .double lwd, .int lty]
  checkExitCall rt

/-- `gdcSetFont`. -/
def gdcSetFont (gdId : Int) (cex ps lineheight : Nat) (fontface : Int) (fontfamily : Ptr) :
    UpM σ Unit := do
  let _ ← upcall rt .gdcSetFont_x
    [.int gdId, .double cex, .double ps, .double lineheight, .int fontface,
      .ptr (ensure_string fontfamily)]
  checkExitCall rt

/-- `gdNewPage`. -/
def gdNewPage (gdId deviceNumber pageNumber : Int) : UpM σ Unit := do
  let _ ← upcall rt .gdNewPage_x [.int gdId, .int deviceNumber, .int pageNumber]
  checkExitCall rt

/-- `gdActivate`. -/
def gdActivate (gdId : Int) : UpM σ Unit := do
  let _ ← upcall rt .gdActivate_x [.int gdId]
  checkExitCall rt

/-- `gdCircle`. -/
def gdCircle (gdId : Int) (x y r : Nat) : UpM σ Unit := do
  let _ ← upcall rt .gdCircle_x [.int gdId, .double x, .double y, .double r]
  checkExitCall rt

/-- `gdClip`. -/
def gdClip (gdId : Int) (x0 x1 y0 y1 : Nat) : UpM σ Unit := do
  let _ ← upcall rt .gdClip_x [.int gdId, .double x0, .double x1, .double y0, .double y1]
  checkExitCall rt

/-- `gdDeactivate`. -/
def gdDeactivate (gdId : Int) : UpM σ Unit := do
  let _ ← upcall rt .gdDeactivate_x [.int gdId]
  checkExitCall rt

/-- `gdHold`. -/
def gdHold (gdId : Int) : UpM σ Unit := do
  let _ ← upcall rt .gdHold_x [.int gdId]
  checkExitCall rt

/-- `gdFlush`. -/
def gdFlush (gdId flush : Int) : UpM σ Unit := do
  let _ ← upcall rt .gdFlush_x [.int gdId, .int flush]
  checkExitCall rt

/-- `gdLocator`. -/
def gdLocator (gdId : Int) : UpM σ CVal := do
  let ret ← upcall rt .gdLocator_x [.int gdId]
  checkExitCall rt
  return ret

/-- `gdLine`. -/
def gdLine (gdId : Int) (x1 y1 x2 y2 : Nat) : UpM σ Unit := do
  let _ ← upcall rt .gdLine_x [.int gdId, .double x1, .double y1, .double x2, .double y2]
  checkExitCall rt

/-- `gdMode`. -/
def gdMode (gdId mode : Int) : UpM σ Unit := do
  let _ ← upcall rt .gdMode_x [.int gdId, .int mode]
  checkExitCall rt

/-- `gdOpen`. -/
def gdOpen (gdId : Int) (name : Ptr) (w h : Nat) : UpM σ CVal := do
  let result ← upcall rt .gdOpen_x [.int gdId, .ptr (ensure_string name), .double w, .double h]
  checkExitCall rt
  return result

/-- `gdClose`. -/
def gdClose (gdId : Int) : UpM σ Unit := do
  let _ ← upcall rt .gdClose_x [.int gdId]
  checkExitCall rt

/-- `gdPath`. -/
def gdPath (gdId npoly : Int) (nper : Ptr) (n : Int) (x y : Ptr) (winding : Int) :
    UpM σ Unit := do
  let _ ← upcall rt .gdPath_x
    [.int gdId, .int npoly, .ptr nper, .int n, .ptr x, .ptr y, .int winding]
  checkExitCall rt

/-- `gdPolygon`. -/
def gdPolygon (gdId n : Int) (x y : Ptr) : UpM σ Unit := do
  let _ ← upcall rt .gdPolygon_x [.int gdId, .int n, .ptr x, .ptr y]
  checkExitCall rt

/-- `gdPolyline`. -/
def gdPolyline (gdId n : Int) (x y : Ptr) : UpM σ Unit := do
  let _ ← upcall rt .gdPolyline_x [.int gdId, .int n, .ptr x, .ptr y]
  checkExitCall rt

/-- `gdRect`. -/
def gdRect (gdId : Int) (x0 y0 x1 y1 : Nat) : UpM σ Unit := do
  let _ ← upcall rt .gdRect_x [.int gdId, .double x0, .double y0, .double x1, .double y1]
  checkExitCall rt

/-- `gdSize`. -/
def gdSize (gdId : Int) : UpM σ CVal := do
  let ret ← upcall rt .gdSize_x [.int gdId]
  checkExitCall rt
  return ret

/-- `getStrWidth`. -/
def getStrWidth (gdId : Int) (str : Ptr) : UpM σ CVal := do
  let res ← upcall rt .getStrWidth_x [.int gdId, .ptr (ensure_string str)]
  checkExitCall rt
  return res

/-- `gdText`. -/
def gdText (gdId : Int) (x y : Nat) (str : Ptr) (rot hadj : Nat) : UpM σ Unit := do
  let _ ← upcall rt .gdText_x
    [.int gdId, .double x, .double y, .ptr (ensure_string str), .double rot, .double hadj]
  checkExitCall rt

/-- `gdRaster`: the callback receives `img_w, img_h` before `img`. -/
def gdRaster (gdId : Int) (img : Ptr) (img_w img_h : Int) (x y w h rot : Nat)
    (interpolate : Int) : UpM σ Unit := do
  let _ ← upcall rt .gdRaster_x
    [.int gdId, .int img_w, .int img_h, .ptr img, .double x, .double y, .double w,
      .double h, .double rot, .int interpolate]
  checkExitCall rt

/-- `gdMetricInfo`. -/
def gdMetricInfo (gdId ch : Int) : UpM σ CVal := do
  let res ← upcall rt .gdMetricInfo_x [.int gdId, .int ch]
  checkExitCall rt
  return res

/-- `GetRNGstate` (`Random.c`). -/
def GetRNGstate : UpM σ Unit := do
  let _ ← upcall rt .GetRNGstate_x []

/-- `PutRNGstate` (`Random.c`). -/
def PutRNGstate : UpM σ Unit := do
  let _ ← upcall rt .PutRNGstate_x []

/-- `unif_rand` (`Random.c`). -/
def unif_rand : UpM σ CVal :=
  upcall rt .unif_rand_x []

/-- `norm_rand` (`Random.c`). -/
def norm_rand : UpM σ CVal :=
  upcall rt .norm_rand_x []

/-- `exp_rand` (`Random.c`). -/
def exp_rand : UpM σ CVal :=
  upcall rt .exp_rand_x []

/-- `octsize` (`Utils.c`). -/
def octsize (s : Ptr) : UpM σ CVal :=
  upcall rt .octsize_x [.ptr s]

/-- `DispatchPRIMFUN` (`Utils.c`). -/
def DispatchPRIMFUN (call op args env : Ptr) : UpM σ CVal := do
  let result ← upcall rt .DispatchPRIMFUN_x [.ptr call, .ptr op, .ptr args, .ptr env]
  checkExitCall rt
  return result

/-- `R_ParseVector` (`Parse.c`): it yields the returned element and the status stored
through `z`. -/
def R_ParseVector (text : Ptr) (n : Int) (srcfile : Ptr) : UpM σ (CVal × Int) := fun s =>
  match upcall rt .R_ParseVector_x [.ptr text, .int n, .ptr srcfile] s with
  | (.returned resultList, s') =>
    -- *z = Rf_asInteger(VECTOR_ELT(resultList, 0)); return VECTOR_ELT(resultList, 1);
    (.returned (rt.VECTOR_ELT s'.managed resultList 1,
        rt.Rf_asInteger s'.managed (rt.VECTOR_ELT s'.managed resultList 0)), s')
  | (.unwound, s') => (.unwound, s')

end Dispatchers

/-- The dispatcher `m` calls through `slot` with `args` exactly once and then calls
`checkExitCall` exactly once, and does nothing else that is logged. -/
def CallsThenChecks {σ α : Type} (m : UpM σ α) (slot : Slot) (args : List CVal) : Prop :=
  ∀ s, (m s).2.log = s.log ++ [.callback slot args, .checkExitCall]

/-- The dispatcher `m` calls through `slot` with `args` exactly once and makes no exit
check. -/
def CallsOnly {σ α : Type} (m : UpM σ α) (slot : Slot) (args : List CVal) : Prop :=
  ∀ s, (m s).2.log = s.log ++ [.callback slot args]

/-- The dispatcher `m` forwards to `slot` with `args`: the managed state becomes what the
callback leaves, and `m` returns `proj` of the callback's result unless the exit check
that follows unwinds. -/
def Forwards {σ α : Type} (rt : Runtime σ) (m : UpM σ α) (slot : Slot) (args : List CVal)
    (proj : CVal → α) : Prop :=
  ∀ s, (m s).2.managed = (rt.callbacks slot args s.managed).2 ∧
    (m s).1 =
      if rt.exitPending (rt.callbacks slot args s.managed).2 then .unwound
      else .returned (proj (rt.callbacks slot args s.managed).1)

/-- A sample runtime over a trivial managed state: every callback returns `int 0`, no
exit condition is ever pending. -/
def quietRuntime : Runtime Unit :=
  { callbacks := fun _ _ m => (.int 0, m)
    exitPending := fun _ => false
    VECTOR_ELT := fun _ v _ => v
    Rf_asInteger := fun _ _ => 0 }

/-! ## Part 5. UTF-8 decoding (`common/util_fastr.c`, lines 142-202) -/

/-- A C string: the bytes in memory from the pointer on; the string ends at the first `0`
byte, and past the end of the list the terminator is read. -/
abbrev CString := List Nat

/-- `s[i]`, for `i` up to the terminator. -/
def byteAt (s : CString) (i : Nat) : Nat :=
  s.getD i 0

/-- `strlen(s)`. -/
def strlen (s : CString) : Nat :=
  (s.takeWhile (· ≠ 0)).length

/-- The value `(size_t)-1`, with `size_t` of 64 bits. -/
def SIZE_T_MINUS_1 : Nat := 2 ^ 64 - 1

/-- The value `(size_t)-2`, with `size_t` of 64 bits. -/
def SIZE_T_MINUS_2 : Nat := 2 ^ 64 - 2

/-- The cast `(wchar_t) v` of an `unsigned int`, as the bit pattern that is stored, for a
`wchar_t` of `wcharBytes` bytes. -/
def toWchar (wcharBytes : Nat) (v : Nat) : Nat :=
  v % 2 ^ (8 * wcharBytes)

/-- `utf8toucs(wc, s)`: what is stored through `w` (`none` when nothing is stored) and the
returned `size_t`.  `wcharBytes` is `sizeof(wchar_t)`; `unsigned int` has 32 bits. -/
def utf8toucs (wcharBytes : Nat) (s : CString) : Option Nat × Nat :=
  let byte := byteAt s 0
  if byte = 0 then
    (some (toWchar wcharBytes 0), 0)
  else if byte < 0xC0 then
    (some (toWchar wcharBytes byte), 1)
  else if byte < 0xE0 then
    if strlen s < 2 then (none, SIZE_T_MINUS_2)
    else if byteAt s 1 &&& 0xC0 = 0x80 then
      (some (toWchar wcharBytes (((byte &&& 0x1F) <<< 6) ||| (byteAt s 1 &&& 0x3F))), 2)
    else (none, SIZE_T_MINUS_1)
  else if byte < 0xF0 then
    if strlen s < 3 then (none, SIZE_T_MINUS_2)
    else if byteAt s 1 &&& 0xC0 = 0x80 ∧ byteAt s 2 &&& 0xC0 = 0x80 then
      let w := toWchar wcharBytes
        (((byte &&& 0x0F) <<< 12) ||| ((byteAt s 1 &&& 0x3F) <<< 6) ||| (byteAt s 2 &&& 0x3F))
      -- byte = (unsigned int) *w;
      let byte := w % 2 ^ 32
      if byte ≥ 0xD800 ∧ byte ≤ 0xDFFF then (some w, SIZE_T_MINUS_1)
      else if byte = 0xFFFE ∨ byte = 0xFFFF then (some w, SIZE_T_MINUS_1)
      else (some w, 3)
    else (none, SIZE_T_MINUS_1)
  else if wcharBytes < 4 then (none, SIZE_T_MINUS_2)
  else if byte < 0xF8 then
    if strlen s < 4 then (none, SIZE_T_MINUS_2)
    else
      (some (toWchar wcharBytes
        ((((byte &&& 0x0F) <<< 18) ||| ((byteAt s 1 &&& 0x3F) <<< 12)
          ||| ((byteAt s 2 &&& 0x3F) <<< 6) ||| (byteAt s 3 &&& 0x3F)) % 2 ^ 32)), 4)
  else if byte < 0xFC then
    if strlen s < 5 then (none, SIZE_T_MINUS_2)
    else
      (some (toWchar wcharBytes
        ((((byte &&& 0x0F) <<< 24) ||| ((byteAt s 1 &&& 0x3F) <<< 12)
          ||| ((byteAt s 2 &&& 0x3F) <<< 12) ||| ((byteAt s 3 &&& 0x3F) <<< 6)
          ||| (byteAt s 4 &&& 0x3F)) % 2 ^ 32)), 5)
  else
    if strlen s < 6 then (none, SIZE_T_MINUS_2)
    else
      (some (toWchar wcharBytes
        ((((byte &&& 0x0F) <<< 30) ||| ((byteAt s 1 &&& 0x3F) <<< 24)
          ||| ((byteAt s 2 &&& 0x3F) <<< 18) ||| ((byteAt s 3 &&& 0x3F) <<< 12)
          ||| ((byteAt s 4 &&& 0x3F) <<< 6) ||| (byteAt s 5 &&& 0x3F)) % 2 ^ 32)), 6)

/-- The standard UTF-8 encoding of a code point `c <= 0x10FFFF`, stated from the
definition of UTF-8 (1 byte below `0x80`, 2 below `0x800`, 3 below `0x10000`, else 4). -/
def utf8Encode (c : Nat) : List Nat :=
  if c < 0x80 then [c]
  else if c < 0x800 then [0xC0 + c / 64, 0x80 + c % 64]
  else if c < 0x10000 then [0xE0 + c / 4096, 0x80 + c / 64 % 64, 0x80 + c % 64]
  else [0xF0 + c / 262144, 0x80 + c / 4096 % 64, 0x80 + c / 64 % 64, 0x80 + c % 64]

/-! ## Part 6. Numeric literal parsing (`common/util_fastr.c`, lines 314-476)

`LDOUBLE` is `double`.  Doubles are modelled exactly: IEEE 754 binary64 with
round-to-nearest-even, each C operation rounded once (no extended precision, no
contraction into fused operations).  The `int` counters of `R_strtod5` are unbounded
integers here; they stay below `2^31` for every string shorter than `2^31` bytes. -/

/-- A binary64 value.  A finite value is `(-1)^neg * mag * 2^(-1074)`: the magnitude is
counted in units of the smallest subnormal.  A NaN carries only whether it is the
`NA_REAL` NaN (payload 1954), which arithmetic propagates. -/
inductive Dbl where
  | finite (neg : Bool) (mag : Nat)
  | inf (neg : Bool)
  | nan (na : Bool)
  deriving DecidableEq, Repr

/-- The number of units of `2^(-1074)` in `1.0`. -/
def unitsPerOne : Nat := 2 ^ 1074

/-- The magnitude `2^1024`, in units of `2^(-1074)`, at which rounding overflows. -/
def overflowUnits : Nat := 2 ^ 2098

/-- The loop of `ilog2`: halve `n` until it is below 2, counting the steps. -/
def log2Loop : (fuel n : Nat) → Nat
  | 0, _ => 0
  | fuel + 1, n => if n < 2 then 0 else log2Loop fuel (n / 2) + 1

/-- The position of the leading bit of `n`, which is `⌊log₂ n⌋` for `n ≠ 0`. -/
def ilog2 (n : Nat) : Nat := log2Loop n n

/-- Round the positive rational `P / Q`, counted in units of `2^(-1074)`, to the nearest
magnitude with a 53-bit significand, ties to even. -/
def roundUnits (P Q : Nat) : Nat :=
  let quantum := if P / Q < 2 ^ 53 then 1 else 2 ^ (ilog2 (P / Q) - 52)
  let k := P / (Q * quantum)
  let r := P % (Q * quantum)
  if 2 * r > Q * quantum ∨ (2 * r = Q * quantum ∧ k % 2 = 1) then (k + 1) * quantum
  else k * quantum

/-- The double nearest to `(-1)^neg * P / Q` units of `2^(-1074)`; overflow gives an
infinity. -/
def Dbl.ofUnits (neg : Bool) (P Q : Nat) : Dbl :=
  if roundUnits P Q ≥ overflowUnits then .inf neg else .finite neg (roundUnits P Q)

/-- The double nearest to `(-1)^neg * num / den`. -/
def Dbl.ofRatio (neg : Bool) (num den : Nat) : Dbl :=
  Dbl.ofUnits neg (num * unitsPerOne) den

/-- The double of a natural number below `2^53` (exact). -/
def Dbl.ofNat (n : Nat) : Dbl := .finite false (n * unitsPerOne)

/-- The conversion `(double) sign` of the `int` variable `sign`, which is `1` or `-1`. -/
def Dbl.ofSign (sign : Int) : Dbl := .finite (decide (sign < 0)) unitsPerOne

/-- `NA_REAL`. -/
def NA_REAL : Dbl := .nan true

/-- `R_NaN`. -/
def R_NaN : Dbl := .nan false

/-- `R_PosInf`. -/
def R_PosInf : Dbl := .inf false

/-- `R_NegInf`. -/
def R_NegInf : Dbl := .inf true

/-- `DBL_MAX`, `(2^53 - 1) * 2^971`. -/
def DBL_MAX : Dbl := .finite false ((2 ^ 53 - 1) * 2 ^ 2045)

/-- `a * b`. -/
def Dbl.mul : Dbl → Dbl → Dbl
  | .nan a, _ => .nan a
  | _, .nan b => .nan b
  | .inf n1, .inf n2 => .inf (xor n1 n2)
  | .inf n1, .finite n2 m => if m = 0 then .nan false else .inf (xor n1 n2)
  | .finite n1 m, .inf n2 => if m = 0 then .nan false else .inf (xor n1 n2)
  | .finite n1 m1, .finite n2 m2 => Dbl.ofUnits (xor n1 n2) (m1 * m2) unitsPerOne

/-- `a / b`. -/
def Dbl.div : Dbl → Dbl → Dbl
  | .nan a, _ => .nan a
  | _, .nan b => .nan b
  | .inf _, .inf _ => .nan false
  | .inf n1, .finite n2 _ => .inf (xor n1 n2)
  | .finite n1 _, .inf n2 => .finite (xor n1 n2) 0
  | .finite n1 m1, .finite n2 m2 =>
    if m2 = 0 then (if m1 = 0 then .nan false else .inf (xor n1 n2))
    else Dbl.ofUnits (xor n1 n2) (m1 * unitsPerOne) m2

/-- `a + b`. -/
def Dbl.add : Dbl → Dbl → Dbl
  | .nan a, _ => .nan a
  | _, .nan b => .nan b
  | .inf n1, .inf n2 => if n1 = n2 then .inf n1 else .nan false
  | .inf n1, .finite _ _ => .inf n1
  | .finite _ _, .inf n2 => .inf n2
  | .finite n1 m1, .finite n2 m2 =>
    if n1 = n2 then Dbl.ofUnits n1 (m1 + m2) 1
    else if m1 > m2 then Dbl.ofUnits n1 (m1 - m2) 1
    else if m2 > m1 then Dbl.ofUnits n2 (m2 - m1) 1
    else .finite false 0

/-- The place of a double in the order of the extended reals, in units of `2^(-1074)`;
a NaN has none. -/
def Dbl.rank : Dbl → Option Int
  | .finite neg m => some (if neg then -(m : Int) else m)
  | .inf neg => some (if neg then -(overflowUnits : Int) else overflowUnits)
  | .nan _ => none

/-- `a > b`. -/
def Dbl.gt (a b : Dbl) : Bool :=
  match a.rank, b.rank with
  | some x, some y => decide (x > y)
  | _, _ => false

/-- `a != 0.0`. -/
def Dbl.neZero : Dbl → Bool
  | .finite _ m => decide (m ≠ 0)
  | _ => true

/-- The code of a character. -/
def chr (c : Char) : Nat := c.toNat

/-- `isspace(c)` in the C locale. -/
def isspace (c : Nat) : Bool := c = 32 || (9 ≤ c && c ≤ 13)

/-- The test `c >= '0' && c <= '9'`. -/
def isDigit (c : Nat) : Bool := chr '0' ≤ c && c ≤ chr '9'

/-- `tolower(c)` in the C locale. -/
def tolower (c : Nat) : Nat := if chr 'A' ≤ c ∧ c ≤ chr 'Z' then c + 32 else c

/-- The test `strncmp(p, lit, n) == 0` for a literal `lit` of `n` non-NUL characters. -/
def strncmpEq : CString → List Nat → Bool
  | _, [] => true
  | [], _ :: _ => false
  | c :: cs, l :: ls => c == l && strncmpEq cs ls

/-- The test `strncasecmp(p, lit, n) == 0` for a literal `lit` of `n` non-NUL characters. -/
def strncasecmpEq : CString → List Nat → Bool
  | _, [] => true
  | [], _ :: _ => false
  | c :: cs, l :: ls => tolower c == tolower l && strncasecmpEq cs ls

/-- The loop `while (isspace(*p)) p++;`: the number of characters skipped. -/
def skipSpace : CString → Nat
  | [] => 0
  | c :: cs => if isspace c then skipSpace cs + 1 else 0

/-- The loop `for ( ; *p >= '0' && *p <= '9'; p++, ndigits++) ans = 10*ans + (*p - '0');`:
the final `ans` and the number of digits consumed. -/
def decDigits (ans : Dbl) : CString → Dbl × Nat
  | [] => (ans, 0)
  | c :: cs =>
    if isDigit c then
      ((decDigits ((Dbl.mul (Dbl.ofNat 10) ans).add (Dbl.ofNat (c - chr '0'))) cs).1,
        (decDigits ((Dbl.mul (Dbl.ofNat 10) ans).add (Dbl.ofNat (c - chr '0'))) cs).2 + 1)
    else (ans, 0)

/-- The loop over the hexadecimal digits, lines 356-363: the final `ans` and `exph` and the
number of characters consumed; `none` when it runs past the terminator, which happens
only for `dec == 0`. -/
def hexDigits (dec : Nat) : Dbl → Int → CString → Option (Dbl × Int × Nat)
  | ans, exph, [] => if dec = 0 then none else some (ans, exph, 0)
  | ans, exph, c :: cs =>
    let next (v : Nat) : Option (Dbl × Int × Nat) :=
      (hexDigits dec ((Dbl.mul (Dbl.ofNat 16) ans).add (Dbl.ofNat v))
        (if exph ≥ 0 then exph + 4 else exph) cs).map fun r => (r.1, r.2.1, r.2.2 + 1)
    if isDigit c then next (c - chr '0')
    else if chr 'a' ≤ c ∧ c ≤ chr 'f' then next (c - chr 'a' + 10)
    else if chr 'A' ≤ c ∧ c ≤ chr 'F' then next (c - chr 'A' + 10)
    else if c = dec then (hexDigits dec ans 0 cs).map fun r => (r.1, r.2.1, r.2.2 + 1)
    else some (ans, exph, 0)

/-- `MAX_EXPONENT_PREFIX`. -/
def MAX_EXPONENT_PREFIX : Int := 9999

/-- The loop `for (n = 0; *p >= '0' && *p <= '9'; p++) n = (n < MAX_EXPONENT_PREFIX) ?
n * 10 + (*p - '0') : n;` from the current `n`: the final `n` and the number of digits
consumed. -/
def expDigits (n : Int) : CString → Int × Nat
  | [] => (n, 0)
  | c :: cs =>
    if isDigit c then
      ((expDigits (if n < MAX_EXPONENT_PREFIX then n * 10 + ((c : Int) - chr '0') else n) cs).1,
        (expDigits (if n < MAX_EXPONENT_PREFIX then n * 10 + ((c : Int) - chr '0') else n) cs).2
          + 1)
    else (n, 0)

/-- The optional sign of an exponent, `switch(*++p) { case '-': expsign = -1; case '+':
p++; }`, read at the character after the exponent letter: `expsign` and the number of
characters consumed. -/
def expSign (c : Nat) : Int × Nat :=
  if c = chr '-' then (-1, 1) else if c = chr '+' then (1, 1) else (1, 0)

/-- The loop `for (n = ..., fac = 1.0; n; n >>= 1, p *= p) if (n & 1) fac = op(fac, p);`
with at most `fuel` iterations: the final `fac`.  `fuel = n` always suffices. -/
def powLoop (op : Dbl → Dbl → Dbl) : (fuel n : Nat) → (fac p : Dbl) → Dbl
  | 0, _, fac, _ => fac
  | fuel + 1, n, fac, p =>
    if n = 0 then fac
    else powLoop op fuel (n / 2) (if n % 2 = 1 then op fac p else fac) (p.mul p)

/-- The loop `for (n = 0; n < ndigits; n++) ans /= 10.0;`. -/
def divTen : Nat → Dbl → Dbl
  | 0, ans => ans
  | n + 1, ans => divTen n (ans.div (Dbl.ofNat 10))

/-- `NA_LOGICAL`, which is `INT_MIN`. -/
def NA_LOGICAL : Int := -2147483648

/-- What `R_strtod5` yields: the returned double, the offset `*endptr - str` and whether
the accuracy warning was raised. -/
structure Strtod where
  value : Dbl
  endptr : Nat
  warned : Bool
  deriving DecidableEq, Repr

/-- The label `done`: `*endptr = p; return sign * (double) ans;`. -/
def strtodDone (sign : Int) (ans : Dbl) (p : Nat) (warned : Bool) : Strtod :=
  { value := (Dbl.ofSign sign).mul ans, endptr := p, warned := warned }

/-- The hexadecimal branch of `R_strtod5`, lines 355-412, entered with `p` at the `0` of
the prefix; `s` is the whole string. -/
def strtodHex (s : CString) (dec : Nat) (exact : Int) (sign : Int) (p : Nat) :
    Option Strtod :=
  match hexDigits dec (Dbl.ofNat 0) (-1) (s.drop (p + 2)) with
  | none => none
  | some (ans, exph, k) =>
    let p := p + 2 + k
    -- strtod_EXACT_CLAUSE
    if exact ≠ 0 ∧ ans.gt (Dbl.ofNat (2 ^ 53 - 1)) ∧ exact ≠ NA_LOGICAL then
      some (strtodDone sign NA_REAL 0 false)
    else
      let warned := decide (exact ≠ 0 ∧ ans.gt (Dbl.ofNat (2 ^ 53 - 1)) = true)
      if byteAt s p = chr 'p' ∨ byteAt s p = chr 'P' then
        let expsign := (expSign (byteAt s (p + 1))).1
        let p := p + 1 + (expSign (byteAt s (p + 1))).2
        let n := (expDigits 0 (s.drop p)).1
        let p := p + (expDigits 0 (s.drop p)).2
        if ans.neZero then
          let expn : Int := expsign * n
          -- if (exph > 0) { if (expn - exph < -122) { ...; ans /= fac; } else expn -= exph; }
          let ans1 := if exph > 0 ∧ expn - exph < -122 then
              ans.div (powLoop Dbl.mul exph.toNat exph.toNat (Dbl.ofNat 1) (Dbl.ofNat 2))
            else ans
          let expn1 := if exph > 0 ∧ ¬ (expn - exph < -122) then expn - exph else expn
          if expn1 < 0 then
            some (strtodDone sign
              (ans1.div (powLoop Dbl.mul (-expn1).toNat (-expn1).toNat (Dbl.ofNat 1)
                (Dbl.ofNat 2))) p warned)
          else
            some (strtodDone sign
              (ans1.mul (powLoop Dbl.mul expn1.toNat expn1.toNat (Dbl.ofNat 1)
                (Dbl.ofNat 2))) p warned)
        else some (strtodDone sign ans p warned)
      else some (strtodDone sign ans p warned)

/-- The scaling by the decimal exponent and the final overflow test, lines 437-464. -/
def strtodScale (sign : Int) (ans : Dbl) (expn : Int) (ndigits : Nat) (p : Nat)
    (warned : Bool) : Strtod :=
  -- if (expn + ndigits < -300) { for (...) ans /= 10.0; expn += ndigits; }
  let ans1 := if expn + ndigits < -300 then divTen ndigits ans else ans
  let expn1 := if expn + ndigits < -300 then expn + ndigits else expn
  let ans2 :=
    if expn1 < -307 then
      ans1.mul (powLoop Dbl.div (-expn1).toNat (-expn1).toNat (Dbl.ofNat 1) (Dbl.ofNat 10))
    else if expn1 < 0 then
      ans1.div (powLoop Dbl.mul (-expn1).toNat (-expn1).toNat (Dbl.ofNat 1) (Dbl.ofNat 10))
    else if ans1.neZero then
      ans1.mul (powLoop Dbl.mul expn1.toNat expn1.toNat (Dbl.ofNat 1) (Dbl.ofNat 10))
    else ans1
  -- if (ans > DBL_MAX) return (sign > 0) ? R_PosInf : R_NegInf;
  if ans2.gt DBL_MAX then
    { value := if sign > 0 then R_PosInf else R_NegInf, endptr := p, warned := warned }
  else strtodDone sign ans2 p warned

/-- The optional decimal exponent and what follows it, lines 426-464, entered with `p`
after the digits; `s` is the whole string. -/
def strtodExponent (s : CString) (sign : Int) (ans : Dbl) (expn : Int) (ndigits : Nat)
    (p : Nat) (warned : Bool) : Strtod :=
  if byteAt s p = chr 'e' ∨ byteAt s p = chr 'E' then
    let expsign := (expSign (byteAt s (p + 1))).1
    let q := p + 1 + (expSign (byteAt s (p + 1))).2
    let n := (expDigits 0 (s.drop q)).1
    strtodScale sign ans (expn + expsign * n) ndigits (q + (expDigits 0 (s.drop q)).2) warned
  else strtodScale sign ans expn ndigits p warned

/-- The decimal branch of `R_strtod5`, lines 415-464, entered with `p` after the sign;
`s` is the whole string. -/
def strtodDecimal (s : CString) (dec : Nat) (exact : Int) (sign : Int) (p : Nat) :
    Option Strtod :=
  let ans := (decDigits (Dbl.ofNat 0) (s.drop p)).1
  let n1 := (decDigits (Dbl.ofNat 0) (s.drop p)).2
  -- if (*p == dec) for (p++; ...; p++, ndigits++, expn--) ans = 10*ans + (*p - '0');
  if byteAt s (p + n1) = dec ∧ dec = 0 then none
  else
    let frac := byteAt s (p + n1) = dec
    let ans2 := if frac then (decDigits ans (s.drop (p + n1 + 1))).1 else ans
    let n2 := if frac then (decDigits ans (s.drop (p + n1 + 1))).2 else 0
    let p := if frac then p + n1 + 1 + n2 else p + n1
    if n1 + n2 = 0 then some (strtodDone sign NA_REAL 0 false)
    -- strtod_EXACT_CLAUSE
    else if exact ≠ 0 ∧ ans2.gt (Dbl.ofNat (2 ^ 53 - 1)) ∧ exact ≠ NA_LOGICAL then
      some (strtodDone sign NA_REAL 0 false)
    else
      some (strtodExponent s sign ans2 (-(n2 : Int)) (n1 + n2) p
        (decide (exact ≠ 0 ∧ ans2.gt (Dbl.ofNat (2 ^ 53 - 1)) = true)))

/-- `R_strtod5(str, endptr, dec, NA, exact)`.  The result is `none` when the code reads
past the terminator of `str`, which happens only for `dec == 0`. -/
def R_strtod5 (str : CString) (dec : Nat) (NA : Bool) (exact : Int) : Option Strtod :=
  let s := str.takeWhile (· ≠ 0)
  -- while (isspace(*p)) p++;
  let p := skipSpace s
  if NA && strncmpEq (s.drop p) [chr 'N', chr 'A'] then
    some (strtodDone 1 NA_REAL (p + 2) false)
  else
    -- switch (*p) { case '-': sign = -1; case '+': p++; default: ; }
    let sign : Int := if byteAt s p = chr '-' then -1 else 1
    let p := if byteAt s p = chr '-' ∨ byteAt s p = chr '+' then p + 1 else p
    if strncasecmpEq (s.drop p) [chr 'N', chr 'a', chr 'N'] then
      some (strtodDone sign R_NaN (p + 3) false)
    else if strncasecmpEq (s.drop p)
        [chr 'i', chr 'n', chr 'f', chr 'i', chr 'n', chr 'i', chr 't', chr 'y'] then
      some (strtodDone sign R_PosInf (p + 8) false)
    else if strncasecmpEq (s.drop p) [chr 'I', chr 'n', chr 'f'] then
      some (strtodDone sign R_PosInf (p + 3) false)
    else if (s.drop p).length > 2 ∧ byteAt s p = chr '0' ∧
        (byteAt s (p + 1) = chr 'x' ∨ byteAt s (p + 1) = chr 'X') then
      strtodHex s dec exact sign p
    else strtodDecimal s dec exact sign p

/-- `R_strtod4(str, endptr, dec, NA)`. -/
def R_strtod4 (str : CString) (dec : Nat) (NA : Bool) : Option Strtod :=
  R_strtod5 str dec NA 0

/-- `R_strtod(str, endptr)`. -/
def R_strtod (str : CString) : Option Strtod :=
  R_strtod5 str (chr '.') false 0

/-- The bytes of a text. -/
def bytes (text : List Char) : CString := text.map Char.toNat

/-! ### Notions used to state the properties of `R_strtod5` -/

/-- A magnitude, in units of `2^(-1074)`, that a double can have: its significand fits in
53 bits. -/
def Representable (M : Nat) : Prop :=
  M < 2 ^ 53 ∨ 2 ^ (Nat.log2 M - 52) ∣ M

/-- The number denoted by the decimal digits `ds` written after the number `a`. -/
def digitsVal (a : Nat) (ds : List Nat) : Nat :=
  ds.foldl (fun acc c => 10 * acc + (c - chr '0')) a

/-- The double nearest to `(-1)^neg * N * 10^x`. -/
def Dbl.ofDecimal (neg : Bool) (N : Nat) (x : Int) : Dbl :=
  if x < 0 then Dbl.ofRatio neg N (10 ^ (-x).toNat) else Dbl.ofRatio neg (N * 10 ^ x.toNat) 1

/-- A letter of the ASCII alphabet. -/
def isLetter (c : Nat) : Bool :=
  (chr 'a' ≤ c && c ≤ chr 'z') || (chr 'A' ≤ c && c ≤ chr 'Z')

/-! ## Part 7. Exact sum (`truffle_common/misc_rffi.c`, lines 26-50) -/

/-- `R_IsNA(x)`: `x` is the NaN that carries the `NA_REAL` payload. -/
def R_IsNA : Dbl → Bool
  | .nan na => na
  | _ => false

/-- The arithmetic of the accumulator `long double sum`, whose format depends on the
platform and is taken as a parameter: the type of its values, the value of `sum = 0`,
the step `sum += value` for a `double` value, and the conversion of `return sum;`. -/
structure LongDouble where
  carrier : Type
  zero : carrier
  addDouble : carrier → Dbl → carrier
  toDouble : carrier → Dbl

/-- The loop `for (; i < length - 3; i += 4) { sum += contents[i]; ...; sum +=
contents[i + 3]; }` with at most `fuel` iterations: the final `i` and `sum`, or `none`
when the iterations do not suffice. -/
def unrolledLoop (L : LongDouble) (contents : Nat → Dbl) (length : Int) :
    (fuel : Nat) → (i : Nat) → (sum : L.carrier) → Option (Nat × L.carrier)
  | 0, _, _ => none
  | fuel + 1, i, sum =>
    if (i : Int) < length - 3 then
      unrolledLoop L contents length fuel (i + 4)
        (L.addDouble (L.addDouble (L.addDouble (L.addDouble sum (contents i))
          (contents (i + 1))) (contents (i + 2))) (contents (i + 3)))
    else some (i, sum)

/-- The loop `for (; i < length; i++) { ... }` with at most `fuel` iterations: the value
returned by the function, or `none` when the iterations do not suffice. -/
def tailLoop (L : LongDouble) (contents : Nat → Dbl) (length : Int) (naRm : Int) :
    (fuel : Nat) → (i : Nat) → (sum : L.carrier) → Option Dbl
  | 0, _, _ => none
  | fuel + 1, i, sum =>
    if (i : Int) < length then
      -- double value = contents[i];
      if R_IsNA (contents i) then
        -- if (!naRm) return R_NaReal;
        if naRm = 0 then some NA_REAL
        else tailLoop L contents length naRm fuel (i + 1) sum
      else tailLoop L contents length naRm fuel (i + 1) (L.addDouble sum (contents i))
    else
      -- return sum;
      some (L.toDouble sum)

/-- `call_misc_exactSumFunc(contents, length, hasNa, naRm)`.  Each loop gets
`length + 1` iterations, which always suffice. -/
def call_misc_exactSumFunc (L : LongDouble) (contents : Nat → Dbl) (length : Int)
    (hasNa naRm : Int) : Option Dbl :=
  -- long double sum = 0; int i = 0;
  match (if hasNa = 0 then unrolledLoop L contents length (length.toNat + 1) 0 L.zero
         else some (0, L.zero)) with
  | none => none
  | some (i, sum) => tailLoop L contents length naRm (length.toNat + 1) i sum

/-- The accumulator after `sum += contents[i]; ...; sum += contents[i + n - 1];` in index
order. -/
def sumRange (L : LongDouble) (contents : Nat → Dbl) : (n : Nat) → (i : Nat) →
    (sum : L.carrier) → L.carrier
  | 0, _, sum => sum
  | n + 1, i, sum => sumRange L contents n (i + 1) (L.addDouble sum (contents i))

/-- A platform on which `long double` is `double`. -/
def doubleAsLongDouble : LongDouble :=
  { carrier := Dbl, zero := .finite false 0, addDouble := Dbl.add, toDouble := id }

/-! ## Part 8. Input handlers (`gnur/patch/src/unix/sys-std.c`, lines 137-209) -/

/-- The fields of `InputHandler` (declared in `R_ext/eventloop.h`) that
`addInputHandler` and `removeInputHandler` use; `handler` is the function pointer and
`next` the link, `0` for `NULL`. -/
structure InputHandler where
  activity : Int
  fileDescriptor : Int
  handler : Ptr
  next : Ptr
  deriving DecidableEq, Repr

/-- The `InputHandler` objects in memory: the object at an address, `none` where no
object is allocated. -/
abbrev HandlerHeap := Ptr → Option InputHandler

/-- The heap with the object at `p` replaced (`none` frees it). -/
def HandlerHeap.store (heap : HandlerHeap) (p : Ptr) (v : Option InputHandler) :
    HandlerHeap :=
  fun q => if q = p then v else heap q

/-- The memory of the handler objects and the global `R_InputHandlers`. -/
structure HandlerState where
  heap : HandlerHeap
  R_InputHandlers : Ptr

/-- The loop `while(tmp->next != NULL) tmp = tmp->next;` with at most `fuel` tests: the
final `tmp`; `none` when the tests do not suffice or `tmp` points to no object. -/
def lastHandler (heap : HandlerHeap) : (fuel : Nat) → (tmp : Ptr) → Option Ptr
  | 0, _ => none
  | fuel + 1, tmp =>
    match heap tmp with
    | none => none
    | some node => if node.next ≠ 0 then lastHandler heap fuel node.next else some tmp

/-- `addInputHandler(handlers, fd, handler, activity)`.  `input` is the block that
`Calloc(1, InputHandler)` returns when it returns: non-null, zero-filled and distinct
from every allocated object; the result is the returned pointer and the new state,
`none` when `input` is no such block, a loop runs out of `fuel` or a pointer to no
object is dereferenced. -/
def addInputHandler (fuel : Nat) (st : HandlerState) (handlers : Ptr) (fd : Int)
    (handler : Ptr) (activity : Int) (input : Ptr) : Option (Ptr × HandlerState) :=
  -- input = Calloc(1, InputHandler);
  if input = 0 ∨ (st.heap input).isSome then none else
  -- input->activity = activity; input->fileDescriptor = fd; input->handler = handler;
  let heap := st.heap.store input
    (some { activity := activity, fileDescriptor := fd, handler := handler, next := 0 })
  -- if(handlers == NULL) { R_InputHandlers = input; return(input); }
  if handlers = 0 then some (input, { heap := heap, R_InputHandlers := input })
  else
    -- while(tmp->next != NULL) tmp = tmp->next;  tmp->next = input;
    match lastHandler heap fuel handlers with
    | none => none
    | some tmp =>
      match heap tmp with
      | none => none
      | some node =>
        some (input, { st with heap := heap.store tmp (some { node with next := input }) })

/-- The loop `while(tmp) { if(tmp->next == it) { tmp->next = it->next; Free(it);
return(1); } tmp = tmp->next; }` with at most `fuel` tests, followed by `return(0)`. -/
def removeLoop (it : Ptr) : (fuel : Nat) → (heap : HandlerHeap) → (tmp : Ptr) →
    Option (Int × HandlerHeap)
  | 0, _, _ => none
  | fuel + 1, heap, tmp =>
    if tmp = 0 then some (0, heap)
    else
      match heap tmp with
      | none => none
      | some node =>
        if node.next = it then
          match heap it with
          | none => none
          | some itNode =>
            some (1, (heap.store tmp (some { node with next := itNode.next })).store it none)
        else removeLoop it fuel heap node.next

/-- `removeInputHandler(handlers, it)`, where `head` is the value of `*handlers`: the
returned `int`, the new value of `*handlers` and the new state. -/
def removeInputHandler (fuel : Nat) (st : HandlerState) (head : Ptr) (it : Ptr) :
    Option (Int × Ptr × HandlerState) :=
  -- if (it == NULL) return(0);
  if it = 0 then some (0, head, st)
  -- if(*handlers == it) { *handlers = (*handlers)->next; Free(it); return(1); }
  else if head = it then
    match st.heap head with
    | none => none
    | some node => some (1, node.next, { st with heap := st.heap.store it none })
  else
    match removeLoop it fuel st.heap head with
    | none => none
    | some (r, heap) => some (r, head, { st with heap := heap })

/-- The handlers linked from `p` are, in order, the objects at the addresses `ps`, and
the list ends with `NULL`. -/
def IsHandlerList (heap : HandlerHeap) : Ptr → List Ptr → Prop
  | p, [] => p = 0
  | p, q :: qs => p = q ∧ q ≠ 0 ∧ ∃ node, heap q = some node ∧ IsHandlerList heap node.next qs

/-- A memory with two handlers, at the addresses 10 and 20, linked in that order. -/
def twoHandlers : HandlerState :=
  { heap := fun p =>
      if p = 10 then some { activity := 1, fileDescriptor := 3, handler := 0, next := 20 }
      else if p = 20 then some { activity := 1, fileDescriptor := 4, handler := 0, next := 0 }
      else none,
    R_InputHandlers := 10 }

/-! ## Part 9. UTF-8 strings (`common/util_fastr.c`, lines 208-230) -/

/-- How `utf8towcs` ends: it returns `(size_t) res`, or it is aborted by
`error(_("invalid input '%s' in 'utf8towcs'"), s)`.  `writes` are the stores
`wc[index] = value` made through the output buffer, oldest first. -/
inductive WcsOutcome where
  | returned (res : Nat) (writes : List (Nat × Nat))
  | error (writes : List (Nat × Nat))
  deriving DecidableEq, Repr

/-- The loop of `utf8towcs`, entered with `t`, `res` and, when `wc` is non-null,
`p = wc + res`, with at most `fuel` iterations; `none` when the iterations do not
suffice.  `hasBuffer` says whether `wc` is non-null. -/
def utf8towcsLoop (wcharBytes : Nat) (hasBuffer : Bool) (n : Nat) :
    (fuel : Nat) → (t : CString) → (res : Nat) → (writes : List (Nat × Nat)) →
      Option WcsOutcome
  | 0, _, _, _ => none
  | fuel + 1, t, res, writes =>
    -- m = (ssize_t) utf8toucs(p, t);   (utf8toucs(&local, t) when wc is NULL)
    let writes1 :=
      if hasBuffer then
        match (utf8toucs wcharBytes t).1 with
        | some w => writes ++ [(res, w)]
        | none => writes
      else writes
    -- if (m < 0) error(...);
    if (utf8toucs wcharBytes t).2 ≥ 2 ^ 63 then some (.error writes1)
    -- if (m == 0) break;
    else if (utf8toucs wcharBytes t).2 = 0 then some (.returned res writes1)
    -- res++; if (res >= n) break;   (the test is made only when wc is non-null)
    else if hasBuffer = true ∧ res + 1 ≥ n then some (.returned (res + 1) writes1)
    else utf8towcsLoop wcharBytes hasBuffer n fuel (t.drop (utf8toucs wcharBytes t).2)
      (res + 1) writes1

/-- `utf8towcs(wc, s, n)`.  The loop gets `strlen(s) + 1` iterations, which always
suffice. -/
def utf8towcs (wcharBytes : Nat) (hasBuffer : Bool) (s : CString) (n : Nat) :
    Option WcsOutcome :=
  utf8towcsLoop wcharBytes hasBuffer n (strlen s + 1) s 0 []

/-- A code point that `utf8toucs` accepts in its standard encoding: a Unicode scalar
value that is neither NUL nor `0xFFFE` nor `0xFFFF`. -/
def ValidCodePoint (c : Nat) : Prop :=
  0 < c ∧ c ≤ 0x10FFFF ∧ ¬ (0xD800 ≤ c ∧ c ≤ 0xDFFF) ∧ c ≠ 0xFFFE ∧ c ≠ 0xFFFF

instance : DecidablePred ValidCodePoint := fun c => by
  unfold ValidCodePoint
  infer_instance

/-- The UTF-8 encoding of a sequence of code points. -/
def utf8EncodeAll (cps : List Nat) : CString :=
  cps.flatMap utf8Encode

/-- The stores `wc[i] = cs[0]`, `wc[i + 1] = cs[1]`, and so on. -/
def storesFrom : Nat → List Nat → List (Nat × Nat)
  | _, [] => []
  | i, c :: cs => (i, c) :: storesFrom (i + 1) cs

/-! ## Part 10. The reads of `R_strtod5` (`common/util_fastr.c`, lines 316-465)

`R_strtod5` once more, statement by statement, with `p` an offset into `str` and every
read of `*p` checked against the extent of the string: the result is `none` as soon as a
byte beyond the terminating NUL is read.  The loops take `fuel` iterations at most; each
iteration reads one more byte, so `strlen(str) + 2` iterations are never used up. -/

/-- The read `str[p]`: the byte when `p <= strlen(str)`, so up to and including the
terminating NUL, and `none` when the byte lies beyond the terminator. -/
def readAt (str : CString) (p : Nat) : Option Nat :=
  if p ≤ strlen str then some (byteAt str p) else none

/-- `while (isspace(*p)) p++;`: the final `p`. -/
def skipSpaceAt (str : CString) : (fuel p : Nat) → Option Nat
  | 0, _ => none
  | fuel + 1, p =>
    (readAt str p).bind fun c =>
      if isspace c then skipSpaceAt str fuel (p + 1) else some p

/-- `strncmp(p, lit, n) == 0` for a literal `lit` of `n` non-NUL characters: the bytes are
compared one after the other up to the first difference. -/
def strncmpAt (str : CString) : (p : Nat) → List Nat → Option Bool
  | _, [] => some true
  | p, l :: ls =>
    (readAt str p).bind fun c =>
      if c = l then strncmpAt str (p + 1) ls else some false

/-- `strncasecmp(p, lit, n) == 0` for a literal `lit` of `n` non-NUL characters. -/
def strncasecmpAt (str : CString) : (p : Nat) → List Nat → Option Bool
  | _, [] => some true
  | p, l :: ls =>
    (readAt str p).bind fun c =>
      if tolower c = tolower l then strncasecmpAt str (p + 1) ls else some false

/-- `strlen(p)`. -/
def strlenAt (str : CString) (p : Nat) : Option Nat :=
  if p ≤ strlen str then some (strlen str - p) else none

/-- The loop `for ( ; *p >= '0' && *p <= '9'; p++, ndigits++) ans = 10*ans + (*p - '0');`
from `p`, `ans` and a count `k` of digits: the final `p`, `ans` and count. -/
def decDigitsAt (str : CString) :
    (fuel p : Nat) → (ans : Dbl) → (k : Nat) → Option (Nat × Dbl × Nat)
  | 0, _, _, _ => none
  | fuel + 1, p, ans, k =>
    (readAt str p).bind fun c =>
      if isDigit c then
        decDigitsAt str fuel (p + 1) ((Dbl.mul (Dbl.ofNat 10) ans).add (Dbl.ofNat (c - chr '0')))
          (k + 1)
      else some (p, ans, k)

/-- The loop `for(p += 2; p; p++)` over the hexadecimal digits, lines 356-363, from `p`,
`ans` and `exph`: the final `p`, `ans` and `exph`.  The condition `p` of the loop holds
always; the loop is left by `break`. -/
def hexDigitsAt (str : CString) (dec : Nat) :
    (fuel p : Nat) → (ans : Dbl) → (exph : Int) → Option (Nat × Dbl × Int)
  | 0, _, _, _ => none
  | fuel + 1, p, ans, exph =>
    (readAt str p).bind fun c =>
      if isDigit c then
        hexDigitsAt str dec fuel (p + 1) ((Dbl.mul (Dbl.ofNat 16) ans).add (Dbl.ofNat (c - chr '0')))
          (if exph ≥ 0 then exph + 4 else exph)
      else if chr 'a' ≤ c ∧ c ≤ chr 'f' then
        hexDigitsAt str dec fuel (p + 1)
          ((Dbl.mul (Dbl.ofNat 16) ans).add (Dbl.ofNat (c - chr 'a' + 10)))
          (if exph ≥ 0 then exph + 4 else exph)
      else if chr 'A' ≤ c ∧ c ≤ chr 'F' then
        hexDigitsAt str dec fuel (p + 1)
          ((Dbl.mul (Dbl.ofNat 16) ans).add (Dbl.ofNat (c - chr 'A' + 10)))
          (if exph ≥ 0 then exph + 4 else exph)
      else if c = dec then hexDigitsAt str dec fuel (p + 1) ans 0
      else some (p, ans, exph)

/-- The loop `for (n = 0; *p >= '0' && *p <= '9'; p++) n = (n < MAX_EXPONENT_PREFIX) ?
n * 10 + (*p - '0') : n;` from `p` and `n`: the final `p` and `n`. -/
def expDigitsAt (str : CString) : (fuel p : Nat) → (n : Int) → Option (Nat × Int)
  | 0, _, _ => none
  | fuel + 1, p, n =>
    (readAt str p).bind fun c =>
      if isDigit c then
        expDigitsAt str fuel (p + 1)
          (if n < MAX_EXPONENT_PREFIX then n * 10 + ((c : Int) - chr '0') else n)
      else some (p, n)

/-- An exponent, entered with `p` at its letter: `switch(*++p) { case '-': expsign = -1;
case '+': p++; default: ; }` and the loop over its digits.  The final `p`, `expsign` and
`n`. -/
def exponentAt (str : CString) (fuel p : Nat) : Option (Nat × Int × Int) :=
  (readAt str (p + 1)).bind fun c =>
    (expDigitsAt str fuel (p + 1 + (expSign c).2) 0).bind fun r =>
      some (r.1, (expSign c).1, r.2)

/-- The hexadecimal branch, lines 355-412, entered with `p` at the `0` of the prefix. -/
def strtodHexAt (str : CString) (fuel : Nat) (dec : Nat) (exact : Int) (sign : Int)
    (p : Nat) : Option Strtod :=
  (hexDigitsAt str dec fuel (p + 2) (Dbl.ofNat 0) (-1)).bind fun h =>
    let p := h.1
    let ans := h.2.1
    let exph := h.2.2
    -- strtod_EXACT_CLAUSE
    if exact ≠ 0 ∧ ans.gt (Dbl.ofNat (2 ^ 53 - 1)) ∧ exact ≠ NA_LOGICAL then
      some (strtodDone sign NA_REAL 0 false)
    else
      let warned := decide (exact ≠ 0 ∧ ans.gt (Dbl.ofNat (2 ^ 53 - 1)) = true)
      (readAt str p).bind fun c =>
        if c = chr 'p' ∨ c = chr 'P' then
          (exponentAt str fuel p).bind fun e =>
            let p := e.1
            let expsign := e.2.1
            let n := e.2.2
            if ans.neZero then
              let expn : Int := expsign * n
              let ans1 := if exph > 0 ∧ expn - exph < -122 then
                  ans.div (powLoop Dbl.mul exph.toNat exph.toNat (Dbl.ofNat 1) (Dbl.ofNat 2))
                else ans
              let expn1 := if exph > 0 ∧ ¬ (expn - exph < -122) then expn - exph else expn
              if expn1 < 0 then
                some (strtodDone sign
                  (ans1.div (powLoop Dbl.mul (-expn1).toNat (-expn1).toNat (Dbl.ofNat 1)
                    (Dbl.ofNat 2))) p warned)
              else
                some (strtodDone sign
                  (ans1.mul (powLoop Dbl.mul expn1.toNat expn1.toNat (Dbl.ofNat 1)
                    (Dbl.ofNat 2))) p warned)
            else some (strtodDone sign ans p warned)
        else some (strtodDone sign ans p warned)

/-- The decimal branch, lines 415-464, entered with `p` after the sign. -/
def strtodDecimalAt (str : CString) (fuel : Nat) (dec : Nat) (exact : Int) (sign : Int)
    (p : Nat) : Option Strtod :=
  (decDigitsAt str fuel p (Dbl.ofNat 0) 0).bind fun d1 =>
    (readAt str d1.1).bind fun c =>
      -- if (*p == dec) for (p++; ...; p++, ndigits++, expn--) ans = 10*ans + (*p - '0');
      (if c = dec then decDigitsAt str fuel (d1.1 + 1) d1.2.1 0
        else some (d1.1, d1.2.1, 0)).bind fun d2 =>
        let p := d2.1
        let ans := d2.2.1
        let ndigits := d1.2.2 + d2.2.2
        let expn : Int := -(d2.2.2 : Int)
        if ndigits = 0 then some (strtodDone sign NA_REAL 0 false)
        -- strtod_EXACT_CLAUSE
        else if exact ≠ 0 ∧ ans.gt (Dbl.ofNat (2 ^ 53 - 1)) ∧ exact ≠ NA_LOGICAL then
          some (strtodDone sign NA_REAL 0 false)
        else
          let warned := decide (exact ≠ 0 ∧ ans.gt (Dbl.ofNat (2 ^ 53 - 1)) = true)
          (readAt str p).bind fun c =>
            if c = chr 'e' ∨ c = chr 'E' then
              (exponentAt str fuel p).bind fun e =>
                some (strtodScale sign ans (expn + e.2.1 * e.2.2) ndigits e.1 warned)
            else some (strtodScale sign ans expn ndigits p warned)

/-- The part of `R_strtod5` after the optional sign, lines 338-464, entered with `p` after
the sign. -/
def strtodNumberAt (str : CString) (fuel : Nat) (dec : Nat) (exact : Int) (sign : Int)
    (p : Nat) : Option Strtod :=
  (strncasecmpAt str p [chr 'N', chr 'a', chr 'N']).bind fun isNaN =>
    if isNaN then some (strtodDone sign R_NaN (p + 3) false)
    else
      (strncasecmpAt str p
        [chr 'i', chr 'n', chr 'f', chr 'i', chr 'n', chr 'i', chr 't', chr 'y']).bind
      fun isInfinity =>
        if isInfinity then some (strtodDone sign R_PosInf (p + 8) false)
        else
          (strncasecmpAt str p [chr 'I', chr 'n', chr 'f']).bind fun isInf =>
            if isInf then some (strtodDone sign R_PosInf (p + 3) false)
            else
              -- strlen(p) > 2 && p[0] == '0' && (p[1] == 'x' || p[1] == 'X')
              (strlenAt str p).bind fun len =>
                (if len > 2 then
                  (readAt str p).bind fun c0 =>
                    if c0 = chr '0' then
                      (readAt str (p + 1)).bind fun c1 =>
                        some (decide (c1 = chr 'x' ∨ c1 = chr 'X'))
                    else some false
                  else some false).bind fun isHex =>
                  if isHex then strtodHexAt str fuel dec exact sign p
                  else strtodDecimalAt str fuel dec exact sign p

/-- `R_strtod5(str, endptr, dec, NA, exact)` with every read checked: `none` when a byte
beyond the terminating NUL of `str` is read. -/
def R_strtod5_checked (str : CString) (dec : Nat) (NA : Bool) (exact : Int) :
    Option Strtod :=
  let fuel := strlen str + 2
  -- while (isspace(*p)) p++;
  (skipSpaceAt str fuel 0).bind fun p =>
    -- if (NA && strncmp(p, "NA", 2) == 0)
    (if NA then strncmpAt str p [chr 'N', chr 'A'] else some false).bind fun isNA =>
      if isNA then some (strtodDone 1 NA_REAL (p + 2) false)
      else
        -- switch (*p) { case '-': sign = -1; case '+': p++; default: ; }
        (readAt str p).bind fun c =>
          strtodNumberAt str fuel dec exact (if c = chr '-' then -1 else 1)
            (if c = chr '-' ∨ c = chr '+' then p + 1 else p)

/-! ## Theorems -/

/-! ### Unfolding of `R_UnwindProtect` -/

theorem R_UnwindProtect_null (nil : SEXP) (fun_ : Nat → M SEXP) (data : Nat)
    (cleanfun : Nat → Bool → M Unit) (cleandata : Nat) (s : RState) :
    R_UnwindProtect nil fun_ data cleanfun cleandata 0 s =
      match R_UnwindProtect nil fun_ data cleanfun cleandata
          (R_MakeUnwindCont nil (logEvent (.call 0) s)).1
          (PROTECT (R_MakeUnwindCont nil (logEvent (.call 0) s)).1
            (R_MakeUnwindCont nil (logEvent (.call 0) s)).2) with
      | (.ret result, s2) => (.ret result, logEvent (.ret result) (UNPROTECT 1 s2))
      | (.jump target, s2) => (.jump target, s2)
      | (.undef, s2) => (.undef, s2) := by
  rw [R_UnwindProtect]
  simp

theorem R_UnwindProtect_nonnull (nil : SEXP) (fun_ : Nat → M SEXP) (data : Nat)
    (cleanfun : Nat → Bool → M Unit) (cleandata : Nat) (cont : SEXP) (s : RState)
    (h : cont ≠ 0) :
    R_UnwindProtect nil fun_ data cleanfun cleandata cont s =
      match fun_ data (pushJmpBuf (freshJmpBuf s.jmpStack) (logEvent (.call cont) s)) with
      | (.ret result, s2) =>
        match SETCAR cont result s2 with
        | none => (.undef, s2)
        | some s3 =>
          match cleanfun cleandata false
              (logEvent (.cleanup cleandata false) (popJmpBuf s3)) with
          | (.ret _, s5) => (.ret result, logEvent (.ret result) s5)
          | (.jump target, s5) =>
            if target = freshJmpBuf s.jmpStack then (.undef, s5) else (.jump target, s5)
          | (.undef, s5) => (.undef, s5)
      | (.jump target, s2) =>
        if target = freshJmpBuf s.jmpStack then
          match setJumptarget cont (peekJmpBuf s) s2 with
          | none => (.undef, s2)
          | some s3 =>
            match cleanfun cleandata true
                (logEvent (.cleanup cleandata true) (popJmpBuf s3)) with
            | (.ret _, s5) => R_ContinueUnwind cont s5
            | (.jump target', s5) =>
              if target' = freshJmpBuf s.jmpStack then (.undef, s5) else (.jump target', s5)
            | (.undef, s5) => (.undef, s5)
        else (.jump target, s2)
      | (.undef, s2) => (.undef, s2) := by
  rw [R_UnwindProtect]
  simp only [h, if_false, protectedFrame, logEvent, peekJmpBuf]

theorem R_UnwindProtect_frame (nil : SEXP) (fun_ : Nat → M SEXP) (data : Nat)
    (cleanfun : Nat → Bool → M Unit) (cleandata : Nat) (cont : SEXP) (s : RState)
    (h : cont ≠ 0) :
    R_UnwindProtect nil fun_ data cleanfun cleandata cont s =
      protectedFrame fun_ data cleanfun cleandata cont (logEvent (.call cont) s) := by
  rw [R_UnwindProtect]
  simp only [h, if_false]

/-! ### Frame lemmas -/

theorem getCont_of_valid (s : RState) (cont : SEXP) (h : validCont s cont) :
    ∃ u, getCont s cont = some u := by
  obtain ⟨h0, hlt⟩ := h
  refine ⟨s.conts.get ⟨cont - 1, hlt⟩, ?_⟩
  simp [getCont, h0, List.get?_eq_get hlt]

theorem validCont_of_length (s s' : RState) (cont : SEXP) (h : validCont s cont)
    (hl : s'.conts.length = s.conts.length) : validCont s' cont := by
  obtain ⟨h0, hlt⟩ := h
  exact ⟨h0, by rw [hl]; exact hlt⟩

theorem SETCAR_of_valid (s : RState) (cont result : SEXP) (h : validCont s cont) :
    ∃ s3, SETCAR cont result s = some s3 ∧ s3.jmpStack = s.jmpStack ∧
      s3.trace = s.trace ∧ s3.protectStack = s.protectStack ∧
      s3.conts.length = s.conts.length ∧ CAR s3 cont = some result := by
  obtain ⟨u, hu⟩ := getCont_of_valid s cont h
  obtain ⟨h0, hlt⟩ := h
  simp only [SETCAR, hu]
  refine ⟨_, rfl, rfl, rfl, rfl, by simp, ?_⟩
  simp [CAR, getCont, h0, hlt]

theorem setJumptarget_of_valid (s : RState) (cont : SEXP) (jt : Option JmpBuf)
    (h : validCont s cont) :
    ∃ s3, setJumptarget cont jt s = some s3 ∧ s3.jmpStack = s.jmpStack ∧
      s3.trace = s.trace ∧ s3.protectStack = s.protectStack ∧
      s3.conts.length = s.conts.length ∧
      ∃ u, getCont s3 cont = some u ∧ u.jumptarget = jt := by
  obtain ⟨u, hu⟩ := getCont_of_valid s cont h
  obtain ⟨h0, hlt⟩ := h
  simp only [setJumptarget, hu]
  refine ⟨_, rfl, rfl, rfl, rfl, by simp, ?_⟩
  simp [getCont, h0, hlt]

theorem R_ContinueUnwind_state (cont : SEXP) (s : RState) :
    (R_ContinueUnwind cont s).2 = s := by
  unfold R_ContinueUnwind
  split
  · rfl
  · split <;> rfl

theorem bodyState_trace : ∀ (frames : List Frame) (s : RState),
    (bodyState frames s).trace = s.trace ++ frames.map (fun fr => Event.call fr.cont) := by
  intro frames
  induction frames with
  | nil => intro s; simp [bodyState]
  | cons fr frs ih =>
    intro s
    rw [bodyState, ih]
    simp [pushJmpBuf, logEvent]

/-- A nest whose innermost body jumps to the top of the stack: every level catches the
jump, runs its cleanup with `jump = TRUE` and jumps on to the target it peeked. -/
theorem nest_jump_aux (nil : SEXP) (inner : M SEXP)
    (emits : Frame → Nat → Bool → List Event) (s2 : RState) :
    ∀ (frames : List Frame) (s : RState) (t c : JmpBuf) (rest : List JmpBuf),
      s.jmpStack = t :: rest →
      peekJmpBuf (bodyState frames s) = some c →
      inner (bodyState frames s) = (.jump c, s2) →
      s2.jmpStack = (bodyState frames s).jmpStack →
      (∀ fr ∈ frames, validCont s2 fr.cont) →
      (∀ fr ∈ frames, LoggingClean fr.cleanfun (emits fr) ∧ BalancedClean fr.cleanfun) →
      ∃ s', nest nil frames inner s = (.jump t, s') ∧ s'.jmpStack = t :: rest ∧
        s'.conts.length = s2.conts.length ∧
        s'.trace = s2.trace ++ jumpUnwind emits frames := by
  intro frames
  induction frames with
  | nil =>
    intro s t c rest hs hpk hin hst _ _
    simp only [bodyState] at hpk hin hst
    have hct : c = t := by simpa [peekJmpBuf, hs] using hpk.symm
    subst hct
    exact ⟨s2, hin, by rw [hst, hs], rfl, by simp [jumpUnwind]⟩
  | cons fr frs ih =>
    intro s t c rest hs hpk hin hst hv hc
    have hvfr : validCont s2 fr.cont := hv fr (List.mem_cons_self _ _)
    obtain ⟨hq, hb⟩ := hc fr (List.mem_cons_self _ _)
    -- the state in which the body of this level runs
    let s1 := pushJmpBuf (freshJmpBuf s.jmpStack) (logEvent (.call fr.cont) s)
    have hs1 : s1.jmpStack = freshJmpBuf s.jmpStack :: (t :: rest) := by
      simp [s1, pushJmpBuf, logEvent, hs]
    obtain ⟨s3', e2, st2, len2, tr2⟩ := ih s1 (freshJmpBuf s.jmpStack) c (t :: rest) hs1
      hpk hin hst (fun f hf => hv f (List.mem_cons_of_mem _ hf))
      (fun f hf => hc f (List.mem_cons_of_mem _ hf))
    have hv2 : validCont s3' fr.cont := validCont_of_length s2 s3' fr.cont hvfr len2
    obtain ⟨s3, e3, st3, tr3, _, len3, u, hu, hjt⟩ :=
      setJumptarget_of_valid s3' fr.cont (peekJmpBuf s) hv2
    obtain ⟨s5, e5, c5, tr5⟩ :=
      hq fr.cleandata true (logEvent (.cleanup fr.cleandata true) (popJmpBuf s3))
    have st5 : s5.jmpStack = t :: rest := by
      have := hb fr.cleandata true (logEvent (.cleanup fr.cleandata true) (popJmpBuf s3))
      rw [e5] at this
      simpa [logEvent, popJmpBuf, st3, st2] using this
    have hg5 : getCont s5 fr.cont = some u := by
      have : getCont s5 fr.cont = getCont s3 fr.cont := by
        simp [getCont, c5, logEvent, popJmpBuf]
      rw [this, hu]
    have hpk' : peekJmpBuf s = some t := by simp [peekJmpBuf, hs]
    refine ⟨s5, ?_, st5, ?_, ?_⟩
    · show R_UnwindProtect nil _ fr.data fr.cleanfun fr.cleandata fr.cont s = _
      rw [R_UnwindProtect_nonnull _ _ _ _ _ _ _ hvfr.1]
      simp only [show pushJmpBuf (freshJmpBuf s.jmpStack) (logEvent (.call fr.cont) s) = s1
        from rfl, e2, if_true, e3, e5]
      simp [R_ContinueUnwind, hg5, hjt, hpk']
    · rw [c5]
      simp [logEvent, popJmpBuf, len3, len2]
    · rw [tr5]
      simp [logEvent, popJmpBuf, tr3, tr2, jumpUnwind]

/-- A nest whose innermost body returns `v`: every level stores its result in its token,
runs its cleanup with `jump = FALSE` and returns the result of its body. -/
theorem nest_normal_aux (nil : SEXP) (inner : M SEXP)
    (emits : Frame → Nat → Bool → List Event) (v : SEXP) (s2 : RState) :
    ∀ (frames : List Frame) (s : RState),
      inner (bodyState frames s) = (.ret v, s2) →
      (∀ fr ∈ frames, validCont s2 fr.cont) →
      (∀ fr ∈ frames, LoggingClean fr.cleanfun (emits fr)) →
      ∃ s', nest nil frames inner s = (.ret (resultOf frames v), s') ∧
        s'.conts.length = s2.conts.length ∧
        s'.trace = s2.trace ++ normalUnwind emits frames v ∧
        ∀ fr ∈ frames.head?, CAR s' fr.cont = some (resultOf frames v) := by
  intro frames
  induction frames with
  | nil =>
    intro s hin _ _
    exact ⟨s2, hin, rfl, by simp [normalUnwind], by simp⟩
  | cons fr frs ih =>
    intro s hin hv hc
    have hvfr : validCont s2 fr.cont := hv fr (List.mem_cons_self _ _)
    have hq := hc fr (List.mem_cons_self _ _)
    let s1 := pushJmpBuf (freshJmpBuf s.jmpStack) (logEvent (.call fr.cont) s)
    obtain ⟨s3', e2, len2, tr2, _⟩ := ih s1 hin
      (fun f hf => hv f (List.mem_cons_of_mem _ hf))
      (fun f hf => hc f (List.mem_cons_of_mem _ hf))
    have hv2 : validCont s3' fr.cont := validCont_of_length s2 s3' fr.cont hvfr len2
    obtain ⟨s3, e3, _, tr3, _, len3, car3⟩ :=
      SETCAR_of_valid s3' fr.cont (fr.post (resultOf frs v)) hv2
    obtain ⟨s5, e5, c5, tr5⟩ :=
      hq fr.cleandata false (logEvent (.cleanup fr.cleandata false) (popJmpBuf s3))
    refine ⟨logEvent (.ret (fr.post (resultOf frs v))) s5, ?_, ?_, ?_, ?_⟩
    · show R_UnwindProtect nil _ fr.data fr.cleanfun fr.cleandata fr.cont s = _
      rw [R_UnwindProtect_nonnull _ _ _ _ _ _ _ hvfr.1]
      simp only [show pushJmpBuf (freshJmpBuf s.jmpStack) (logEvent (.call fr.cont) s) = s1
        from rfl, e2, e3, e5, resultOf]
    · simp [logEvent, c5, popJmpBuf, len3, len2]
    · simp [logEvent, tr5, popJmpBuf, tr3, tr2, normalUnwind, resultOf]
    · intro f hf
      simp only [List.head?_cons, Option.mem_def, Option.some.injEq] at hf
      subst hf
      have : CAR (logEvent (.ret (fr.post (resultOf frs v))) s5) fr.cont = CAR s3 fr.cont := by
        simp [CAR, getCont, logEvent, c5, popJmpBuf]
      rw [this, car3]
      rfl

theorem loggingClean_recordCleanup (fr : Frame) :
    LoggingClean recordCleanup (recordEmits fr) :=
  fun _ _ _ => ⟨_, rfl, rfl, rfl⟩

theorem balancedClean_recordCleanup : BalancedClean recordCleanup :=
  fun _ _ _ => rfl

theorem balancedClean_noCleanup : BalancedClean noCleanup :=
  fun _ _ _ => rfl

theorem jumpUnwind_runs (emits : Frame → Nat → Bool → List Event) :
    ∀ frames : List Frame, jumpUnwind emits frames =
      frames.reverse.flatMap fun f => Event.cleanup f.cleandata true :: emits f f.cleandata true
  | [] => rfl
  | fr :: frs => by
    rw [jumpUnwind, jumpUnwind_runs emits frs, List.reverse_cons, List.flatMap_append]
    simp

/-! ### The claims on the unwind-protect bridge -/

/-- C1. A nest of `N >= 1` protected calls with valid (non-null) continuations, whose
innermost body jumps to the target `c` on top of the jump-target stack, leaving the stack
as it found it; every cleanup function returns, leaves the tokens and the stack alone and
writes the events `emits f d j` to the log when it runs with the arguments `d` and `j`.
The outcome is a jump to the target `t` that was on top of the stack before the outermost
call, and the stack is then again the one before the outermost call.  Up to the innermost
body the log gained exactly the `N` calls; after the jump it gained, innermost level
first, for each level the call of its cleanup with `jump = TRUE` followed by what that
cleanup function wrote in this one run with `jump = TRUE`, and nothing else: every cleanup
function ran exactly once, and no invocation returned normally. -/
theorem unwind_nest_jump (nil : SEXP) (fr : Frame) (frs : List Frame) (inner : M SEXP)
    (emits : Frame → Nat → Bool → List Event)
    (s s2 : RState) (t c : JmpBuf) (rest : List JmpBuf)
    (hs : s.jmpStack = t :: rest)
    (hpk : peekJmpBuf (bodyState (fr :: frs) s) = some c)
    (hin : inner (bodyState (fr :: frs) s) = (.jump c, s2))
    (hst : s2.jmpStack = (bodyState (fr :: frs) s).jmpStack)
    (hv : ∀ f ∈ fr :: frs, validCont s2 f.cont)
    (hc : ∀ f ∈ fr :: frs, LoggingClean f.cleanfun (emits f) ∧ BalancedClean f.cleanfun) :
    ∃ s', nest nil (fr :: frs) inner s = (.jump t, s') ∧
      s'.jmpStack = s.jmpStack ∧
      (bodyState (fr :: frs) s).trace =
        s.trace ++ (fr :: frs).map (fun f => Event.call f.cont) ∧
      s'.trace = s2.trace ++
        (fr :: frs).reverse.flatMap
          (fun f => Event.cleanup f.cleandata true :: emits f f.cleandata true) := by
  obtain ⟨s', h1, h2, _, h4⟩ :=
    nest_jump_aux nil inner emits s2 (fr :: frs) s t c rest hs hpk hin hst hv hc
  exact ⟨s', h1, by rw [h2, hs], bodyState_trace _ _, by rw [h4, jumpUnwind_runs]⟩

/-- Two nested protected calls with recording cleanups, the inner body jumps: the log
shows the run of the inner cleanup and then the run of the outer cleanup, each once and
with `jump = TRUE`, and the jump arrives at the enclosing target `7`. -/
theorem unwind_nest_jump_witness :
    ∃ s', nest 0 [outerFrame, innerFrame] errorJump demoState = (.jump 7, s') ∧
      s'.jmpStack = [7] ∧
      s'.trace = [.call 1, .call 2, .cleanup 2 true, .cleaned 2 true,
        .cleanup 1 true, .cleaned 1 true] := by
  obtain ⟨s', h1, h2, _, h4⟩ := unwind_nest_jump 0 outerFrame [innerFrame] errorJump
    recordEmits demoState
    (bodyState [outerFrame, innerFrame] demoState) 7 9 [] rfl rfl rfl rfl
    (by intro f hf; simp at hf; rcases hf with rfl | rfl <;> decide)
    (by
      intro f hf; simp at hf
      rcases hf with rfl | rfl <;>
        exact ⟨loggingClean_recordCleanup _, balancedClean_recordCleanup⟩)
  exact ⟨s', h1, h2, h4⟩

/-- C2. A nest of `N >= 1` protected calls with valid (non-null) continuations whose
innermost body returns `v` without a jump; every cleanup function returns, leaves the
tokens alone and writes the events `emits f d j` to the log when it runs with the
arguments `d` and `j`.  The outermost call returns the result of its body unchanged and
that result is stored in `CAR` of its continuation.  Up to the innermost body the log
gained exactly the `N` calls; after it, innermost first, for each level the call of its
cleanup with `jump = FALSE`, what that cleanup function wrote in this one run with
`jump = FALSE`, and the normal return of that level with the result of its body, and
nothing else: every cleanup function ran exactly once, after the body.  With `N = 1` this
is a single call with an arbitrary returning body. -/
theorem unwind_nest_normal (nil : SEXP) (fr : Frame) (frs : List Frame) (inner : M SEXP)
    (emits : Frame → Nat → Bool → List Event)
    (v : SEXP) (s s2 : RState)
    (hin : inner (bodyState (fr :: frs) s) = (.ret v, s2))
    (hv : ∀ f ∈ fr :: frs, validCont s2 f.cont)
    (hc : ∀ f ∈ fr :: frs, LoggingClean f.cleanfun (emits f)) :
    ∃ s', nest nil (fr :: frs) inner s = (.ret (fr.post (resultOf frs v)), s') ∧
      CAR s' fr.cont = some (fr.post (resultOf frs v)) ∧
      (bodyState (fr :: frs) s).trace =
        s.trace ++ (fr :: frs).map (fun f => Event.call f.cont) ∧
      s'.trace = s2.trace ++ normalUnwind emits (fr :: frs) v := by
  obtain ⟨s', h1, _, h3, h4⟩ := nest_normal_aux nil inner emits v s2 (fr :: frs) s hin hv hc
  exact ⟨s', h1, h4 fr rfl, bodyState_trace _ _, h3⟩

/-- Two nested protected calls with recording cleanups whose inner body returns `42`: the
log shows the run of the inner cleanup and then the run of the outer cleanup, each once
and with `jump = FALSE`, and the outer call returns `42`. -/
theorem unwind_nest_normal_witness :
    ∃ s', nest 0 [outerFrame, innerFrame] (fun s => (.ret 42, s)) demoState = (.ret 42, s') ∧
      CAR s' 1 = some 42 ∧
      s'.trace = [.call 1, .call 2, .cleanup 2 false, .cleaned 2 false, .ret 42,
        .cleanup 1 false, .cleaned 1 false, .ret 42] := by
  obtain ⟨s', h1, h2, _, h4⟩ := unwind_nest_normal 0 outerFrame [innerFrame]
    (fun s => (.ret 42, s)) recordEmits 42 demoState
    (bodyState [outerFrame, innerFrame] demoState) rfl
    (by intro f hf; simp at hf; rcases hf with rfl | rfl <;> decide)
    (by intro f hf; simp at hf; rcases hf with rfl | rfl <;> exact loggingClean_recordCleanup _)
  exact ⟨s', h1, h2, h4⟩

/-- C3. One protected call with a non-null continuation whose body leaves the
jump-target stack balanced.  In the normal branch and in the jump branch alike,
`cleanfun` is applied to a state `s4` whose jump-target stack is the stack at entry (this
frame's target is already popped), and what the call does is determined by that
application; if moreover `cleanfun` leaves the stack as it found it, the stack after the
call is the stack at entry, whichever way the call ends. -/
theorem unwind_pop_before_cleanup (nil : SEXP) (fun_ : Nat → M SEXP) (data : Nat)
    (cleanfun : Nat → Bool → M Unit) (cleandata : Nat) (cont : SEXP) (s s2 : RState)
    (o : Outcome SEXP)
    (hbody : fun_ data (pushJmpBuf (freshJmpBuf s.jmpStack) (logEvent (.call cont) s))
      = (o, s2))
    (hbal : s2.jmpStack = freshJmpBuf s.jmpStack :: s.jmpStack)
    (hv : validCont s2 cont) :
    (∀ v, o = .ret v →
      ∃ s4, s4.jmpStack = s.jmpStack ∧
        R_UnwindProtect nil fun_ data cleanfun cleandata cont s =
          match cleanfun cleandata false s4 with
          | (.ret _, s5) => (.ret v, logEvent (.ret v) s5)
          | (.jump target, s5) =>
            if target = freshJmpBuf s.jmpStack then (.undef, s5) else (.jump target, s5)
          | (.undef, s5) => (.undef, s5)) ∧
    (o = .jump (freshJmpBuf s.jmpStack) →
      ∃ s4, s4.jmpStack = s.jmpStack ∧
        R_UnwindProtect nil fun_ data cleanfun cleandata cont s =
          match cleanfun cleandata true s4 with
          | (.ret _, s5) => R_ContinueUnwind cont s5
          | (.jump target, s5) =>
            if target = freshJmpBuf s.jmpStack then (.undef, s5) else (.jump target, s5)
          | (.undef, s5) => (.undef, s5)) ∧
    (((∃ v, o = .ret v) ∨ o = .jump (freshJmpBuf s.jmpStack)) → BalancedClean cleanfun →
      (R_UnwindProtect nil fun_ data cleanfun cleandata cont s).2.jmpStack = s.jmpStack) := by
  have hnormal : ∀ v, o = .ret v →
      ∃ s4, s4.jmpStack = s.jmpStack ∧
        R_UnwindProtect nil fun_ data cleanfun cleandata cont s =
          match cleanfun cleandata false s4 with
          | (.ret _, s5) => (.ret v, logEvent (.ret v) s5)
          | (.jump target, s5) =>
            if target = freshJmpBuf s.jmpStack then (.undef, s5) else (.jump target, s5)
          | (.undef, s5) => (.undef, s5) := by
    intro v hov
    subst hov
    obtain ⟨s3, e3, st3, _⟩ := SETCAR_of_valid s2 cont v hv
    refine ⟨logEvent (.cleanup cleandata false) (popJmpBuf s3), ?_, ?_⟩
    · simp [logEvent, popJmpBuf, st3, hbal]
    · rw [R_UnwindProtect_nonnull _ _ _ _ _ _ _ hv.1]
      simp only [hbody, e3]
  have hjump : o = .jump (freshJmpBuf s.jmpStack) →
      ∃ s4, s4.jmpStack = s.jmpStack ∧
        R_UnwindProtect nil fun_ data cleanfun cleandata cont s =
          match cleanfun cleandata true s4 with
          | (.ret _, s5) => R_ContinueUnwind cont s5
          | (.jump target, s5) =>
            if target = freshJmpBuf s.jmpStack then (.undef, s5) else (.jump target, s5)
          | (.undef, s5) => (.undef, s5) := by
    intro hoj
    subst hoj
    obtain ⟨s3, e3, st3, _⟩ := setJumptarget_of_valid s2 cont (peekJmpBuf s) hv
    refine ⟨logEvent (.cleanup cleandata true) (popJmpBuf s3), ?_, ?_⟩
    · simp [logEvent, popJmpBuf, st3, hbal]
    · rw [R_UnwindProtect_nonnull _ _ _ _ _ _ _ hv.1]
      simp only [hbody, if_true, e3]
  refine ⟨hnormal, hjump, ?_⟩
  intro hbr hclean
  rcases hbr with ⟨v, hov⟩ | hoj
  · obtain ⟨s4, st4, e⟩ := hnormal v hov
    have hb := hclean cleandata false s4
    rw [e]
    rcases hcf : cleanfun cleandata false s4 with ⟨r, s5⟩
    rw [hcf] at hb
    simp only at hb
    cases r with
    | ret u => simp [logEvent, hb, st4]
    | jump target => by_cases ht : target = freshJmpBuf s.jmpStack <;> simp [ht, hb, st4]
    | undef => simp [hb, st4]
  · obtain ⟨s4, st4, e⟩ := hjump hoj
    have hb := hclean cleandata true s4
    rw [e]
    rcases hcf : cleanfun cleandata true s4 with ⟨r, s5⟩
    rw [hcf] at hb
    simp only at hb
    cases r with
    | ret u => simp [R_ContinueUnwind_state, hb, st4]
    | jump target => by_cases ht : target = freshJmpBuf s.jmpStack <;> simp [ht, hb, st4]
    | undef => simp [hb, st4]

/-- A single protected call on the sample state, once with a body that jumps to the top
of the stack and once with a body that returns: in both the stack afterwards is the
stack at entry. -/
theorem unwind_pop_before_cleanup_witness :
    (R_UnwindProtect 0 (fun _ => errorJump) 0 noCleanup 1 1 demoState).2.jmpStack
        = demoState.jmpStack ∧
      (R_UnwindProtect 0 (fun _ s => (.ret 42, s)) 0 noCleanup 1 1 demoState).2.jmpStack
        = demoState.jmpStack :=
  ⟨(unwind_pop_before_cleanup 0 (fun _ => errorJump) 0 noCleanup 1 1 demoState _
      (.jump (freshJmpBuf demoState.jmpStack)) rfl rfl (by decide)).2.2
      (Or.inr rfl) balancedClean_noCleanup,
    (unwind_pop_before_cleanup 0 (fun _ s => (.ret 42, s)) 0 noCleanup 1 1 demoState _
      (.ret 42) rfl rfl (by decide)).2.2
      (Or.inl ⟨42, rfl⟩) balancedClean_noCleanup⟩

/-- C4. `R_UnwindProtect` with a `NULL` continuation: it makes a fresh non-null token,
protects it and calls itself once with it; that self-call is the protected frame itself
(no further self-call).  The outcome (returned value or jump), the jump-target stack, the
tokens and the logged cleanup calls are those of the call with the fresh token, the
log gaining only the outer return; on normal return one handle is popped from the
PROTECT stack, so that it is the stack at entry whenever the inner call left it as it
found it. -/
theorem unwind_null_cont (nil : SEXP) (fun_ : Nat → M SEXP) (data : Nat)
    (cleanfun : Nat → Bool → M Unit) (cleandata : Nat) (s : RState) :
    let made := R_MakeUnwindCont nil (logEvent (.call 0) s)
    let s1 := PROTECT made.1 made.2
    let direct := R_UnwindProtect nil fun_ data cleanfun cleandata made.1 s1
    let viaNull := R_UnwindProtect nil fun_ data cleanfun cleandata 0 s
    made.1 ≠ 0 ∧ getCont s made.1 = none ∧ getCont s1 made.1 = some ⟨nil, none⟩ ∧
    direct = protectedFrame fun_ data cleanfun cleandata made.1 (logEvent (.call made.1) s1) ∧
    viaNull.1 = direct.1 ∧
    viaNull.2.jmpStack = direct.2.jmpStack ∧
    viaNull.2.conts = direct.2.conts ∧
    viaNull.2.trace = direct.2.trace ++
      (match direct.1 with
        | .ret v => [Event.ret v]
        | _ => []) ∧
    (∀ v, direct.1 = .ret v → viaNull.2.protectStack = direct.2.protectStack.tail) ∧
    (∀ v, direct.1 = .ret v → direct.2.protectStack = s1.protectStack →
      viaNull.2.protectStack = s.protectStack) := by
  intro made s1 direct viaNull
  have hne : made.1 ≠ 0 := by simp [made, R_MakeUnwindCont]
  have hvia : viaNull = match direct with
      | (.ret result, s2) => (.ret result, logEvent (.ret result) (UNPROTECT 1 s2))
      | (.jump target, s2) => (.jump target, s2)
      | (.undef, s2) => (.undef, s2) := R_UnwindProtect_null nil fun_ data cleanfun cleandata s
  refine ⟨hne, ?_, ?_, R_UnwindProtect_frame _ _ _ _ _ _ _ hne, ?_⟩
  · simp [made, getCont, R_MakeUnwindCont, logEvent]
  · simp [s1, made, getCont, R_MakeUnwindCont, logEvent, PROTECT]
  · rw [hvia]
    rcases direct with ⟨r, s2⟩
    cases r with
    | ret v =>
      refine ⟨rfl, rfl, rfl, rfl, fun _ _ => ?_, fun _ _ h => ?_⟩
      · simp [logEvent, UNPROTECT]
      · simp only at h
        simp [logEvent, UNPROTECT, h, s1, PROTECT, made, R_MakeUnwindCont]
    | jump target =>
      refine ⟨rfl, rfl, rfl, by simp, ?_, ?_⟩
      · intro v h; cases h
      · intro v h; cases h
    | undef =>
      refine ⟨rfl, rfl, rfl, by simp, ?_, ?_⟩
      · intro v h; cases h
      · intro v h; cases h

/-- A call with a `NULL` continuation on the sample state, body returning `42`: it
returns `42`, the cleanup ran once with `jump = FALSE`, and the PROTECT stack is the one
at entry. -/
theorem unwind_null_cont_witness :
    (R_UnwindProtect 0 (fun _ s => (.ret 42, s)) 0 noCleanup 5 0 demoState).1 = .ret 42 ∧
      (R_UnwindProtect 0 (fun _ s => (.ret 42, s)) 0 noCleanup 5 0 demoState).2.protectStack
        = demoState.protectStack ∧
      (R_UnwindProtect 0 (fun _ s => (.ret 42, s)) 0 noCleanup 5 0 demoState).2.trace
        = [.call 0, .call 3, .cleanup 5 false, .ret 42, .ret 42] := by
  obtain ⟨_, _, _, hd, h1, _, _, htr, _, hp⟩ :=
    unwind_null_cont 0 (fun _ s => (.ret 42, s)) 0 noCleanup 5 demoState
  have hv : protectedFrame (fun _ s => (.ret 42, s)) 0 noCleanup 5
      (R_MakeUnwindCont 0 (logEvent (.call 0) demoState)).1
      (logEvent (.call (R_MakeUnwindCont 0 (logEvent (.call 0) demoState)).1)
        (PROTECT (R_MakeUnwindCont 0 (logEvent (.call 0) demoState)).1
          (R_MakeUnwindCont 0 (logEvent (.call 0) demoState)).2))
      = (.ret 42, { jmpStack := [7], conts := [⟨0, none⟩, ⟨0, none⟩, ⟨42, none⟩],
                    protectStack := [3],
                    trace := [.call 0, .call 3, .cleanup 5 false, .ret 42] }) := by
    decide
  rw [hv] at hd
  refine ⟨by rw [h1, hd], hp 42 (by rw [hd]) (by rw [hd]; rfl), ?_⟩
  rw [htr, hd]
  rfl

/-! ### The claims on the transient allocation arena -/

/-- C5 (failing input). Every `allocExit` that completes leaves the high-water mark at
`0`, not at its empty value `-1`.  One `R_alloc` and one `allocExit` from the initial
state: the pointer is freed, the mark is `0`, and an immediately following `allocExit`
frees slot `0` again, a double free. -/
theorem allocExit_leaves_mark_at_zero :
    (∀ s s', allocExit s = .ok () s' → s'.tMemTableIndex = 0) ∧
      Arena.initial.tMemTableIndex = -1 ∧
      runArena true [.alloc 1 1 100 true, .exit] Arena.initial =
        .ok [100] { tMemTable := [some 100], tMemTableIndex := 0, tMemTableLength := 1,
                    live := [], freed := [100] } ∧
      runArena true [.alloc 1 1 100 true, .exit, .exit] Arena.initial =
        .fault (.invalidFree 100) := by
  refine ⟨?_, by decide, by decide, by decide⟩
  intro s s' h
  unfold allocExit at h
  split at h
  · cases h
  · split at h
    · cases h; rfl
    · cases h

/-- C6 (failing input). `R_alloc`, `allocExit`, `R_alloc`, `allocExit`: before the second
`allocExit` the table holds the stale pointer `100` in slot `0` (already freed by the
first `allocExit`) and the new pointer `200` in slot `1`, with the high-water mark at
`1`; the second `allocExit` passes the stale pointer to `free` a second time. -/
theorem allocExit_frees_stale_pointer :
    runArena true [.alloc 1 1 100 true, .exit, .alloc 1 1 200 true] Arena.initial =
        .ok [100, 200] { tMemTable := [some 100, some 200], tMemTableIndex := 1,
                         tMemTableLength := 2, live := [200], freed := [100] } ∧
      runArena true [.alloc 1 1 100 true, .exit, .alloc 1 1 200 true, .exit] Arena.initial =
        .fault (.invalidFree 100) := by
  decide

/-- C7 (failing input). `allocExit` on the initial state and then `R_alloc`: the
high-water mark goes `-1`, `0`, `1`, the table is grown from `0` to `1` slot, and the
pointer is stored at index `1` of a table of capacity `1`. -/
theorem R_alloc_stores_past_capacity :
    runArena true [.exit] Arena.initial =
        .ok [] { tMemTable := [], tMemTableIndex := 0, tMemTableLength := 0,
                 live := [], freed := [] } ∧
      runArena true [.exit, .alloc 1 1 100 true] Arena.initial =
        .fault (.storeOutOfBounds 1 1) := by
  decide

/-- What `R_alloc` does after a successful `R_chk_calloc` that gave `p`, in a state whose
high-water mark is below the capacity: it grows the table if needed (or dies in
`fatalError` when that `malloc` fails), records `p` at the new high-water mark and
returns `p`. -/
theorem R_alloc_records (hwc : Bool) (n : Nat) (size : Int) (c : Ptr) (mallocOk : Bool)
    (s : Arena) (p : Ptr) (live : List Ptr)
    (hlo : -1 ≤ s.tMemTableIndex) (hhi : s.tMemTableIndex < s.tMemTableLength)
    (hcap : s.tMemTable.length = s.tMemTableLength.toNat)
    (hmax : 2 * s.tMemTableLength ≤ INT_MAX)
    (hchk : R_chk_calloc hwc n (size % 2 ^ 64).toNat c
      { s with tMemTableIndex := s.tMemTableIndex + 1 } =
        .ok p { s with tMemTableIndex := s.tMemTableIndex + 1, live := live }) :
    (mallocOk = false ∧ s.tMemTableIndex + 1 ≥ s.tMemTableLength →
        R_alloc hwc n size c mallocOk s = .fatal) ∧
    (mallocOk = true ∨ s.tMemTableIndex + 1 < s.tMemTableLength →
      ∃ s', R_alloc hwc n size c mallocOk s = .ok p s' ∧
        s'.tMemTableIndex = s.tMemTableIndex + 1 ∧
        s'.tMemTable.get? s'.tMemTableIndex.toNat = some (some p)) := by
  have hI : ¬ s.tMemTableIndex ≥ INT_MAX := by
    unfold INT_MAX at *; omega
  have hM : ¬ 2 * s.tMemTableLength > INT_MAX := by omega
  constructor
  · rintro ⟨hm, hg⟩
    simp only [R_alloc, hI, if_false, hchk, hg, if_true, hM, hm]
    rfl
  · intro h
    by_cases hg : s.tMemTableIndex + 1 ≥ s.tMemTableLength
    · have hm : mallocOk = true := by
        rcases h with h | h
        · exact h
        · omega
      have hidx : s.tMemTableIndex + 1 = s.tMemTableLength := by omega
      have hcap' : ¬ s.tMemTableLength.toNat > s.tMemTable.length := by omega
      simp only [R_alloc, hI, if_false, hchk, hg, if_true, hM, hm, hcap']
      by_cases h0 : s.tMemTableLength = 0
      · have hl : s.tMemTable = [] := by
          apply List.eq_nil_of_length_eq_zero; rw [hcap, h0]; rfl
        have hi0 : s.tMemTableIndex + 1 = 0 := by omega
        simp [h0, hl, hi0]
      · have hpos : 0 < s.tMemTableLength := by omega
        have hb : (s.tMemTableIndex + 1).toNat <
            (List.take s.tMemTableLength.toNat s.tMemTable ++
              List.replicate ((2 * s.tMemTableLength).toNat - s.tMemTableLength.toNat)
                none).length := by
          simp only [List.length_append, List.length_take, List.length_replicate, hcap]
          omega
        have h0le : 0 ≤ s.tMemTableIndex + 1 := by omega
        simp only [h0, if_false, Bool.not_true, Bool.false_eq_true, h0le, hb, and_self,
          if_true]
        refine ⟨_, rfl, rfl, ?_⟩
        simp only [List.get?_eq_getElem?]
        rw [List.getElem?_set_self hb]
    · have hb : (s.tMemTableIndex + 1).toNat < s.tMemTable.length := by omega
      have h0le : 0 ≤ s.tMemTableIndex + 1 := by omega
      simp only [R_alloc, hI, if_false, hchk, hg, h0le, hb, and_self, if_true]
      refine ⟨_, rfl, rfl, ?_⟩
      simp only [List.get?_eq_getElem?]
      rw [List.getElem?_set_self hb]

/-- C8 (counterexample). Without `HAVE_WORKING_CALLOC`, `R_alloc(0, 8)` returns `NULL`
(the guard of `R_chk_calloc` returns before `calloc` is called) and records it. -/
theorem R_alloc_returns_null_for_zero_count :
    R_alloc false 0 8 100 true Arena.initial =
      .ok 0 { tMemTable := [some 0], tMemTableIndex := 0, tMemTableLength := 1,
              live := [], freed := [] } := by
  decide

/-- C8 (amended). In an arena state whose high-water mark is below the capacity:
when `calloc` is consulted (`HAVE_WORKING_CALLOC` defined, or a non-zero element count)
and yields `NULL`, `R_alloc` is aborted with the allocation error; when it yields a
non-null `c`, `R_alloc` returns `c`, recorded at the new high-water mark; only for a zero
count without `HAVE_WORKING_CALLOC` does it return (and record) `NULL`; and when the table
has to grow and that `malloc` fails, it ends in `fatalError` instead of returning. -/
theorem R_alloc_null_only_for_zero_count (hwc : Bool) (n : Nat) (size : Int) (c : Ptr)
    (mallocOk : Bool) (s : Arena)
    (hlo : -1 ≤ s.tMemTableIndex) (hhi : s.tMemTableIndex < s.tMemTableLength)
    (hcap : s.tMemTable.length = s.tMemTableLength.toNat)
    (hmax : 2 * s.tMemTableLength ≤ INT_MAX) :
    ((hwc = true ∨ 0 < n) → c = 0 →
      R_alloc hwc n size c mallocOk s =
        .error { s with tMemTableIndex := s.tMemTableIndex + 1 }) ∧
    ((hwc = true ∨ 0 < n) → c ≠ 0 →
      (mallocOk = true ∨ s.tMemTableIndex + 1 < s.tMemTableLength) →
      ∃ s', R_alloc hwc n size c mallocOk s = .ok c s' ∧
        s'.tMemTableIndex = s.tMemTableIndex + 1 ∧
        s'.tMemTable.get? s'.tMemTableIndex.toNat = some (some c)) ∧
    (hwc = false → n = 0 →
      (mallocOk = true ∨ s.tMemTableIndex + 1 < s.tMemTableLength) →
      ∃ s', R_alloc hwc n size c mallocOk s = .ok 0 s' ∧
        s'.tMemTableIndex = s.tMemTableIndex + 1 ∧
        s'.tMemTable.get? s'.tMemTableIndex.toNat = some (some 0)) ∧
    (c ≠ 0 ∨ (hwc = false ∧ n = 0) →
      mallocOk = false ∧ s.tMemTableIndex + 1 ≥ s.tMemTableLength →
      R_alloc hwc n size c mallocOk s = .fatal) := by
  have hI : ¬ s.tMemTableIndex ≥ INT_MAX := by
    unfold INT_MAX at *; omega
  have hcalled : (hwc = true ∨ 0 < n) → (!hwc && n == 0) = false := by
    intro h
    rcases h with h | h
    · simp [h]
    · have : n ≠ 0 := by omega
      simp [this]
  have hok : (hwc = true ∨ 0 < n) → c ≠ 0 →
      R_chk_calloc hwc n (size % 2 ^ 64).toNat c
        { s with tMemTableIndex := s.tMemTableIndex + 1 } =
        .ok c { s with tMemTableIndex := s.tMemTableIndex + 1, live := c :: s.live } := by
    intro h hc
    simp [R_chk_calloc, hcalled h, hc]
  have hnull : hwc = false → n = 0 →
      R_chk_calloc hwc n (size % 2 ^ 64).toNat c
        { s with tMemTableIndex := s.tMemTableIndex + 1 } =
        .ok 0 { s with tMemTableIndex := s.tMemTableIndex + 1, live := s.live } := by
    intro h hn
    simp [R_chk_calloc, h, hn]
  refine ⟨?_, ?_, ?_, ?_⟩
  · intro h hc
    simp [R_alloc, hI, R_chk_calloc, hcalled h, hc]
  · intro h hc hm
    exact (R_alloc_records hwc n size c mallocOk s c _ hlo hhi hcap hmax (hok h hc)).2 hm
  · intro h hn hm
    exact (R_alloc_records hwc n size c mallocOk s 0 _ hlo hhi hcap hmax (hnull h hn)).2 hm
  · intro h hm
    rcases h with hc | ⟨h, hn⟩
    · by_cases hz : hwc = false ∧ n = 0
      · exact (R_alloc_records hwc n size c mallocOk s 0 _ hlo hhi hcap hmax
          (hnull hz.1 hz.2)).1 hm
      · have hcall : hwc = true ∨ 0 < n := by
          by_cases hw : hwc = true
          · exact Or.inl hw
          · right
            have : hwc = false := by simpa using hw
            have : n ≠ 0 := fun h0 => hz ⟨this, h0⟩
            omega
        exact (R_alloc_records hwc n size c mallocOk s c _ hlo hhi hcap hmax
          (hok hcall hc)).1 hm
    · exact (R_alloc_records hwc n size c mallocOk s 0 _ hlo hhi hcap hmax (hnull h hn)).1 hm

/-- With `HAVE_WORKING_CALLOC`, `R_alloc(3, 8)` on the initial arena: a failing `calloc`
aborts the call, a `calloc` that yields `100` makes it return `100`, recorded in slot `0`. -/
theorem R_alloc_null_only_for_zero_count_witness :
    R_alloc true 3 8 0 true Arena.initial =
        .error { Arena.initial with tMemTableIndex := Arena.initial.tMemTableIndex + 1 } ∧
      ∃ s', R_alloc true 3 8 100 true Arena.initial = .ok 100 s' ∧
        s'.tMemTableIndex = Arena.initial.tMemTableIndex + 1 ∧
        s'.tMemTable.get? s'.tMemTableIndex.toNat = some (some 100) :=
  ⟨(R_alloc_null_only_for_zero_count true 3 8 0 true Arena.initial (by decide) (by decide)
      (by decide) (by decide)).1 (Or.inl rfl) rfl,
    (R_alloc_null_only_for_zero_count true 3 8 100 true Arena.initial (by decide) (by decide)
      (by decide) (by decide)).2.1 (Or.inl rfl) (by decide) (Or.inl rfl)⟩

/-! ### Lemmas on the vector-pointer cache -/

theorem entryAt_set (cache : ArrayCache) (i j : Nat) (e : ArrayCacheEntry) :
    entryAt (cache.set i e) j = if i = j ∧ j < cache.length then e else entryAt cache j := by
  unfold entryAt
  simp only [List.getD_eq_getElem?_getD, List.getElem?_set]
  by_cases hij : i = j
  · subst hij
    by_cases hlt : i < cache.length
    · simp [hlt]
    · have : cache[i]? = none := List.getElem?_eq_none (by omega)
      simp [hlt, this]
  · simp [hij]

/-- The loop of `array_cache_insert` keeps `idx` at the lowest index of the least hit
counter seen so far. -/
theorem insertLoop_spec (cache : ArrayCache) :
    ∀ (r i hits idx : Nat), idx < i → hits = (entryAt cache idx).hits →
      (∀ j < i, hits ≤ (entryAt cache j).hits) →
      (∀ j < idx, hits < (entryAt cache j).hits) →
      (insertLoop cache r i hits idx).2 < i + r ∧
      (insertLoop cache r i hits idx).1 =
        (entryAt cache (insertLoop cache r i hits idx).2).hits ∧
      (∀ j < i + r, (insertLoop cache r i hits idx).1 ≤ (entryAt cache j).hits) ∧
      (∀ j < (insertLoop cache r i hits idx).2,
        (insertLoop cache r i hits idx).1 < (entryAt cache j).hits) := by
  intro r
  induction r with
  | zero =>
    intro i hits idx hlt hh hmin hlow
    exact ⟨by simpa [insertLoop] using hlt, by simpa [insertLoop] using hh,
      by simpa [insertLoop] using hmin, by simpa [insertLoop] using hlow⟩
  | succ r ih =>
    intro i hits idx hlt hh hmin hlow
    by_cases h0 : hits = 0
    · subst h0
      simp only [insertLoop, ne_eq, not_true_eq_false, if_false]
      exact ⟨by omega, hh, fun j _ => Nat.zero_le _, hlow⟩
    · by_cases hless : (entryAt cache i).hits < hits
      · simp only [insertLoop, ne_eq, h0, not_false_eq_true, if_true, hless]
        have := ih (i + 1) (entryAt cache i).hits i (by omega) rfl
          (fun j hj => by
            by_cases hji : j = i
            · subst hji; exact le_refl _
            · have := hmin j (by omega); omega)
          (fun j hj => by have := hmin j hj; omega)
        rw [show i + 1 + r = i + (r + 1) by omega] at this
        exact this
      · simp only [insertLoop, ne_eq, h0, not_false_eq_true, if_true, hless, if_false]
        have := ih (i + 1) hits idx (by omega) hh
          (fun j hj => by
            by_cases hji : j = i
            · subst hji; omega
            · exact hmin j (by omega))
          hlow
        rw [show i + 1 + r = i + (r + 1) by omega] at this
        exact this

theorem victimIndex_spec (cache : ArrayCache) :
    victimIndex cache < ARRAY_CACHE_SIZE ∧
    (∀ j < ARRAY_CACHE_SIZE,
      (entryAt cache (victimIndex cache)).hits ≤ (entryAt cache j).hits) ∧
    (∀ j < victimIndex cache,
      (entryAt cache (victimIndex cache)).hits < (entryAt cache j).hits) := by
  obtain ⟨h1, h2, h3, h4⟩ := insertLoop_spec cache (ARRAY_CACHE_SIZE - 1) 1
    (entryAt cache 0).hits 0 (by omega) rfl
    (fun j hj => by
      have : j = 0 := by omega
      subst this; exact le_refl _)
    (fun j hj => by omega)
  unfold victimIndex
  refine ⟨by simpa [ARRAY_CACHE_SIZE] using h1, ?_, ?_⟩
  · intro j hj
    rw [← h2]
    exact h3 j (by simpa [ARRAY_CACHE_SIZE] using hj)
  · intro j hj
    rw [← h2]
    exact h4 j hj

theorem lookupLoop_key (cache : ArrayCache) (key : SEXP) :
    ∀ (r i k : Nat), lookupLoop cache key r i = some k → (entryAt cache k).key = key := by
  intro r
  induction r with
  | zero => intro i k h; simp [lookupLoop] at h
  | succ r ih =>
    intro i k h
    by_cases hk : (entryAt cache i).key = key
    · simp only [lookupLoop, hk, if_true, Option.some.injEq] at h
      subst h; exact hk
    · simp only [lookupLoop, hk, if_false] at h
      exact ih (i + 1) k h

theorem coherent_emptyCache (convert : SEXP → Ptr) : Coherent convert emptyCache := by
  intro i h
  exfalso
  apply h
  unfold entryAt emptyCache
  simp only [List.getD_eq_getElem?_getD, List.getElem?_replicate]
  split <;> rfl

theorem coherent_lookup (convert : SEXP → Ptr) (cache : ArrayCache) (key : SEXP)
    (hc : Coherent convert cache) : Coherent convert (array_cache_lookup cache key).2 := by
  unfold array_cache_lookup
  cases hl : lookupLoop cache key ARRAY_CACHE_SIZE 0 with
  | none => exact hc
  | some k =>
    intro j
    simp only [entryAt_set]
    by_cases hj : k = j ∧ j < cache.length
    · obtain ⟨hkj, hlt⟩ := hj
      subst hkj
      simp only [hlt, and_self, if_true]
      exact hc k
    · simp only [hj, if_false]
      exact hc j

theorem lookup_hit_data (convert : SEXP → Ptr) (cache : ArrayCache) (key : SEXP)
    (hc : Coherent convert cache) (hkey : key ≠ 0)
    (hhit : (array_cache_lookup cache key).1 ≥ 0) :
    (entryAt (array_cache_lookup cache key).2 (array_cache_lookup cache key).1.toNat).data
      = convert key := by
  unfold array_cache_lookup at hhit ⊢
  cases hl : lookupLoop cache key ARRAY_CACHE_SIZE 0 with
  | none => rw [hl] at hhit; simp at hhit
  | some k =>
    have hk := lookupLoop_key cache key _ _ k hl
    have hd := hc k (by rw [hk]; exact hkey)
    simp only [Int.toNat_ofNat, entryAt_set]
    by_cases hlt : k < cache.length
    · simp [hlt, hd, hk]
    · simp [hlt, hd, hk]

theorem lookup_miss_cache (cache : ArrayCache) (key : SEXP)
    (hmiss : ¬ (array_cache_lookup cache key).1 ≥ 0) :
    (array_cache_lookup cache key).2 = cache := by
  unfold array_cache_lookup at hmiss ⊢
  cases hl : lookupLoop cache key ARRAY_CACHE_SIZE 0 with
  | none => rfl
  | some k => rw [hl] at hmiss; simp at hmiss

theorem coherent_insert (convert : SEXP → Ptr) (cache : ArrayCache) (key : SEXP)
    (hc : Coherent convert cache) :
    Coherent convert (array_cache_insert cache key (convert key)) := by
  intro j
  simp only [array_cache_insert, entryAt_set]
  by_cases hj : victimIndex cache = j ∧ j < cache.length
  · simp [hj]
  · simp only [hj, if_false]
    exact hc j

theorem INTEGER_coherent (fastrInteger : SEXP → Ptr) (x : SEXP) (st : ThreadState)
    (hc : Coherent fastrInteger st.int_cache) (hx : x ≠ 0) :
    (INTEGER fastrInteger x st).1 = fastrInteger x ∧
    Coherent fastrInteger (INTEGER fastrInteger x st).2.int_cache ∧
    (INTEGER fastrInteger x st).2.real_cache = st.real_cache := by
  unfold INTEGER
  by_cases hhit : (array_cache_lookup st.int_cache x).1 ≥ 0
  · simp only [hhit, if_true]
    exact ⟨lookup_hit_data fastrInteger _ x hc hx hhit, coherent_lookup _ _ _ hc, trivial⟩
  · simp only [hhit, if_false]
    refine ⟨trivial, ?_, trivial⟩
    rw [lookup_miss_cache _ _ hhit]
    exact coherent_insert _ _ _ hc

theorem REAL_coherent (fastrReal : SEXP → Ptr) (x : SEXP) (st : ThreadState)
    (hc : Coherent fastrReal st.real_cache) (hx : x ≠ 0) :
    (REAL fastrReal x st).1 = fastrReal x ∧
    Coherent fastrReal (REAL fastrReal x st).2.real_cache ∧
    (REAL fastrReal x st).2.int_cache = st.int_cache := by
  unfold REAL
  by_cases hhit : (array_cache_lookup st.real_cache x).1 ≥ 0
  · simp only [hhit, if_true]
    exact ⟨lookup_hit_data fastrReal _ x hc hx hhit, coherent_lookup _ _ _ hc, trivial⟩
  · simp only [hhit, if_false]
    refine ⟨trivial, ?_, trivial⟩
    rw [lookup_miss_cache _ _ hhit]
    exact coherent_insert _ _ _ hc

theorem runAccessors_coherent (fastrInteger fastrReal : SEXP → Ptr) :
    ∀ (calls : List AccessorCall) (st : ThreadState),
      Coherent fastrInteger st.int_cache → Coherent fastrReal st.real_cache →
      (∀ c ∈ calls, c.handle ≠ 0) →
      (runAccessors fastrInteger fastrReal calls st).1 =
        calls.map (AccessorCall.uncached fastrInteger fastrReal) := by
  intro calls
  induction calls with
  | nil => intro st _ _ _; rfl
  | cons c calls ih =>
    intro st hi hr hnz
    have hc : c.handle ≠ 0 := hnz c (List.mem_cons_self _ _)
    have hrest : ∀ c' ∈ calls, c'.handle ≠ 0 := fun c' h => hnz c' (List.mem_cons_of_mem _ h)
    cases c with
    | INTEGER x =>
      obtain ⟨h1, h2, h3⟩ := INTEGER_coherent fastrInteger x st hi hc
      simp only [runAccessors, List.map_cons, AccessorCall.uncached, h1]
      rw [ih _ h2 (by rw [h3]; exact hr) hrest]
    | REAL x =>
      obtain ⟨h1, h2, h3⟩ := REAL_coherent fastrReal x st hr hc
      simp only [runAccessors, List.map_cons, AccessorCall.uncached, h1]
      rw [ih _ (by rw [h3]; exact hi) h2 hrest]

/-! ### The claims on the vector-pointer cache -/

/-- C10. `array_cache_insert` on a cache of `ARRAY_CACHE_SIZE` entries overwrites exactly
the entry at `idx = victimIndex cache`: `idx` is in range, its hit counter is minimal, it
is the lowest index with that counter (every lower index has a strictly larger counter),
the entry becomes `(key, data, 0)` and every other entry is unchanged.  So no entry is
evicted while another entry has a strictly lower hit counter. -/
theorem array_cache_insert_evicts_least (cache : ArrayCache) (key : SEXP) (data : Ptr)
    (hlen : cache.length = ARRAY_CACHE_SIZE) :
    victimIndex cache < ARRAY_CACHE_SIZE ∧
    (∀ j < ARRAY_CACHE_SIZE,
      (entryAt cache (victimIndex cache)).hits ≤ (entryAt cache j).hits) ∧
    (∀ j < victimIndex cache,
      (entryAt cache (victimIndex cache)).hits < (entryAt cache j).hits) ∧
    (array_cache_insert cache key data).length = ARRAY_CACHE_SIZE ∧
    entryAt (array_cache_insert cache key data) (victimIndex cache) =
      { key := key, data := data, hits := 0 } ∧
    (∀ j, j ≠ victimIndex cache →
      entryAt (array_cache_insert cache key data) j = entryAt cache j) := by
  obtain ⟨h1, h2, h3⟩ := victimIndex_spec cache
  refine ⟨h1, h2, h3, by simp [array_cache_insert, hlen], ?_, ?_⟩
  · rw [array_cache_insert, entryAt_set]
    simp [hlen, h1]
  · intro j hj
    rw [array_cache_insert, entryAt_set]
    simp [Ne.symm hj]

/-- A cache with counters `3, 1, 4, 1, 5`: the entry at index `1`, the lower of the two
with the least counter, is replaced, the others stay. -/
theorem array_cache_insert_evicts_least_witness :
    victimIndex [⟨1, 11, 3⟩, ⟨2, 12, 1⟩, ⟨3, 13, 4⟩, ⟨4, 14, 1⟩, ⟨5, 15, 5⟩] = 1 ∧
      array_cache_insert [⟨1, 11, 3⟩, ⟨2, 12, 1⟩, ⟨3, 13, 4⟩, ⟨4, 14, 1⟩, ⟨5, 15, 5⟩] 9 19 =
        [⟨1, 11, 3⟩, ⟨9, 19, 0⟩, ⟨3, 13, 4⟩, ⟨4, 14, 1⟩, ⟨5, 15, 5⟩] ∧
      entryAt (array_cache_insert
          [⟨1, 11, 3⟩, ⟨2, 12, 1⟩, ⟨3, 13, 4⟩, ⟨4, 14, 1⟩, ⟨5, 15, 5⟩] 9 19)
          (victimIndex [⟨1, 11, 3⟩, ⟨2, 12, 1⟩, ⟨3, 13, 4⟩, ⟨4, 14, 1⟩, ⟨5, 15, 5⟩]) =
        { key := 9, data := 19, hits := 0 } :=
  ⟨by decide, by decide,
    (array_cache_insert_evicts_least
      [⟨1, 11, 3⟩, ⟨2, 12, 1⟩, ⟨3, 13, 4⟩, ⟨4, 14, 1⟩, ⟨5, 15, 5⟩] 9 19 (by decide)).2.2.2.2.1⟩

/-- C9 (counterexample). On the zero-initialised cache `INTEGER(NULL)` is a hit on entry
`0`, whose key is `NULL`: it returns the `NULL` data pointer of that entry and makes no
upcall, whatever `FASTR_INTEGER(NULL)` would yield (here `7`). -/
theorem INTEGER_null_handle_hits_empty_entry :
    INTEGER (fun _ => 7) 0 ThreadState.initial =
        (0, { ThreadState.initial with
                int_cache := [⟨0, 0, 1⟩, ⟨0, 0, 0⟩, ⟨0, 0, 0⟩, ⟨0, 0, 0⟩, ⟨0, 0, 0⟩] }) ∧
      (INTEGER (fun _ => 7) 0 ThreadState.initial).1 ≠ (fun _ : SEXP => 7) 0 := by
  decide

/-- C9 (amended). With `FASTR_INTEGER` and `FASTR_REAL` fixed functions of the handle: for
every sequence of `INTEGER` and `REAL` calls on non-null handles, starting from the
zero-initialised thread-local caches, each call returns exactly what the uncached
conversion yields for its handle. -/
theorem accessors_agree_with_uncached (fastrInteger fastrReal : SEXP → Ptr)
    (calls : List AccessorCall) (hnz : ∀ c ∈ calls, c.handle ≠ 0) :
    (runAccessors fastrInteger fastrReal calls ThreadState.initial).1 =
      calls.map (AccessorCall.uncached fastrInteger fastrReal) :=
  runAccessors_coherent fastrInteger fastrReal calls ThreadState.initial
    (coherent_emptyCache _) (coherent_emptyCache _) hnz

/-- Seven accessor calls on the handles `1, 2, 3`, with hits and evictions: every call
returns the uncached conversion of its handle. -/
theorem accessors_agree_with_uncached_witness :
    (runAccessors (fun x => 1000 + x) (fun x => 2000 + x)
        [.INTEGER 1, .INTEGER 2, .REAL 1, .INTEGER 1, .INTEGER 3, .REAL 1, .INTEGER 3]
        ThreadState.initial).1 =
      [1001, 1002, 2001, 1001, 1003, 2001, 1003] :=
  accessors_agree_with_uncached (fun x => 1000 + x) (fun x => 2000 + x)
    [.INTEGER 1, .INTEGER 2, .REAL 1, .INTEGER 1, .INTEGER 3, .REAL 1, .INTEGER 3]
    (by decide)

/-- The loop of `array_cache_lookup` yields the first index at or after `i` whose key is
`key`. -/
theorem lookupLoop_first (cache : ArrayCache) (key : SEXP) :
    ∀ (r i m : Nat), i ≤ m → m < i + r → (entryAt cache m).key = key →
      (∀ j, i ≤ j → j < m → (entryAt cache j).key ≠ key) →
      lookupLoop cache key r i = some m := by
  intro r
  induction r with
  | zero => intro i m h1 h2; omega
  | succ r ih =>
    intro i m h1 h2 hk hbelow
    by_cases hi : (entryAt cache i).key = key
    · have : i = m := by
        by_contra hne
        exact hbelow i (le_refl _) (by omega) hi
      subst this
      simp [lookupLoop, hi]
    · have hlt : i < m := by
        rcases Nat.lt_or_ge i m with h | h
        · exact h
        · have : i = m := by omega
          subst this; exact absurd hk hi
      simp only [lookupLoop, hi, if_false]
      exact ih (i + 1) m (by omega) (by omega) hk (fun j hj1 hj2 => hbelow j (by omega) hj2)

/-- C11 (counterexample). A cache that already holds key `7` (data `70`, counter `3`) at
index `0`: `array_cache_insert(cache, 7, 99)` overwrites index `1`, and the lookup of
`7` that follows returns index `0`, whose data is still `70`, not `99`. -/
theorem lookup_after_insert_finds_older_entry :
    array_cache_insert [⟨7, 70, 3⟩, ⟨0, 0, 0⟩, ⟨0, 0, 0⟩, ⟨0, 0, 0⟩, ⟨0, 0, 0⟩] 7 99 =
        [⟨7, 70, 3⟩, ⟨7, 99, 0⟩, ⟨0, 0, 0⟩, ⟨0, 0, 0⟩, ⟨0, 0, 0⟩] ∧
      array_cache_lookup
          (array_cache_insert [⟨7, 70, 3⟩, ⟨0, 0, 0⟩, ⟨0, 0, 0⟩, ⟨0, 0, 0⟩, ⟨0, 0, 0⟩] 7 99) 7 =
        (0, [⟨7, 70, 4⟩, ⟨7, 99, 0⟩, ⟨0, 0, 0⟩, ⟨0, 0, 0⟩, ⟨0, 0, 0⟩]) := by
  decide

/-- C11 (amended). For a cache of `ARRAY_CACHE_SIZE` entries in which no entry below the
replaced index already has key `k` (in particular for every cache without key `k`, as
after the lookup miss that precedes each insert in `INTEGER` and `REAL`):
after `array_cache_insert(cache, k, p)` an immediately following
`array_cache_lookup(cache, k)` returns the replaced index `i >= 0`, and `cache[i].data`
is `p`. -/
theorem lookup_after_insert (cache : ArrayCache) (k : SEXP) (p : Ptr)
    (hlen : cache.length = ARRAY_CACHE_SIZE)
    (hnew : ∀ j < victimIndex cache, (entryAt cache j).key ≠ k) :
    (array_cache_lookup (array_cache_insert cache k p) k).1 = (victimIndex cache : Int) ∧
    (array_cache_lookup (array_cache_insert cache k p) k).1 ≥ 0 ∧
    (entryAt (array_cache_lookup (array_cache_insert cache k p) k).2
      (array_cache_lookup (array_cache_insert cache k p) k).1.toNat).data = p := by
  obtain ⟨hv, _, _⟩ := victimIndex_spec cache
  have hat : entryAt (array_cache_insert cache k p) (victimIndex cache) =
      { key := k, data := p, hits := 0 } := by
    rw [array_cache_insert, entryAt_set]; simp [hlen, hv]
  have hother : ∀ j, j ≠ victimIndex cache →
      entryAt (array_cache_insert cache k p) j = entryAt cache j := by
    intro j hj
    rw [array_cache_insert, entryAt_set]; simp [Ne.symm hj]
  have hfind : lookupLoop (array_cache_insert cache k p) k ARRAY_CACHE_SIZE 0 =
      some (victimIndex cache) :=
    lookupLoop_first _ k ARRAY_CACHE_SIZE 0 (victimIndex cache) (Nat.zero_le _)
      (by simpa using hv) (by rw [hat])
      (fun j _ hj => by rw [hother j (by omega)]; exact hnew j hj)
  have hlen' : (array_cache_insert cache k p).length = ARRAY_CACHE_SIZE := by
    simp [array_cache_insert, hlen]
  simp only [array_cache_lookup, hfind]
  refine ⟨trivial, by simp, ?_⟩
  simp only [Int.toNat_ofNat, entryAt_set, hlen', hv, and_self, if_true, hat]

/-- A cache without key `9`: after the insert of `(9, 19)` the lookup of `9` returns the
replaced index `1` and the inserted pointer. -/
theorem lookup_after_insert_witness :
    (array_cache_lookup (array_cache_insert
        [⟨1, 11, 3⟩, ⟨2, 12, 1⟩, ⟨3, 13, 4⟩, ⟨4, 14, 1⟩, ⟨5, 15, 5⟩] 9 19) 9).1 = 1 ∧
      (entryAt (array_cache_lookup (array_cache_insert
          [⟨1, 11, 3⟩, ⟨2, 12, 1⟩, ⟨3, 13, 4⟩, ⟨4, 14, 1⟩, ⟨5, 15, 5⟩] 9 19) 9).2
        (array_cache_lookup (array_cache_insert
          [⟨1, 11, 3⟩, ⟨2, 12, 1⟩, ⟨3, 13, 4⟩, ⟨4, 14, 1⟩, ⟨5, 15, 5⟩] 9 19) 9).1.toNat).data
        = 19 :=
  have h := lookup_after_insert [⟨1, 11, 3⟩, ⟨2, 12, 1⟩, ⟨3, 13, 4⟩, ⟨4, 14, 1⟩, ⟨5, 15, 5⟩]
    9 19 (by decide) (by decide)
  ⟨h.1, h.2.2⟩

/-! ### The claims on the upcall dispatchers -/

theorem callsThenChecks_void {σ : Type} (rt : Runtime σ) (slot : Slot) (args : List CVal) :
    CallsThenChecks (do let _ ← upcall rt slot args; checkExitCall rt : UpM σ Unit)
      slot args := by
  intro s
  simp only [bind, upcall, checkExitCall]
  by_cases h : rt.exitPending (rt.callbacks slot args s.managed).2 = true <;> simp [h]

theorem callsThenChecks_value {σ : Type} (rt : Runtime σ) (slot : Slot) (args : List CVal) :
    CallsThenChecks
      (do let r ← upcall rt slot args; checkExitCall rt; return r : UpM σ CVal)
      slot args := by
  intro s
  simp only [bind, upcall, checkExitCall, pure]
  by_cases h : rt.exitPending (rt.callbacks slot args s.managed).2 = true <;> simp [h]

theorem callsOnly_upcall {σ : Type} (rt : Runtime σ) (slot : Slot) (args : List CVal) :
    CallsOnly (upcall rt slot args) slot args :=
  fun _ => rfl

theorem callsOnly_void {σ : Type} (rt : Runtime σ) (slot : Slot) (args : List CVal) :
    CallsOnly (do let _ ← upcall rt slot args : UpM σ Unit) slot args :=
  fun _ => rfl

theorem forwards_void {σ : Type} (rt : Runtime σ) (slot : Slot) (args : List CVal) :
    Forwards rt (do let _ ← upcall rt slot args; checkExitCall rt : UpM σ Unit)
      slot args (fun _ => ()) := by
  intro s
  simp only [bind, upcall, checkExitCall]
  by_cases h : rt.exitPending (rt.callbacks slot args s.managed).2 = true <;> simp [h]

theorem forwards_value {σ : Type} (rt : Runtime σ) (slot : Slot) (args : List CVal) :
    Forwards rt (do let r ← upcall rt slot args; checkExitCall rt; return r : UpM σ CVal)
      slot args id := by
  intro s
  simp only [bind, upcall, checkExitCall, pure]
  by_cases h : rt.exitPending (rt.callbacks slot args s.managed).2 = true <;> simp [h]

/-- C12 (counterexample). `unif_rand` calls through its slot and returns: its log holds
the callback and no `checkExitCall`. -/
theorem unif_rand_makes_no_exit_check :
    (unif_rand quietRuntime { managed := (), log := [] }).2.log =
        [.callback .unif_rand_x []] ∧
      UpEvent.checkExitCall ∉ (unif_rand quietRuntime { managed := (), log := [] }).2.log := by
  decide

/-- C12 (amended). Every graphics dispatcher of `fastrUpcalls.c` and `DispatchPRIMFUN`
call through their callback-table slot exactly once and then call `checkExitCall`
exactly once (callback first, exit check second).  `octsize`, `R_ParseVector` and the
random-number dispatchers `GetRNGstate`, `PutRNGstate`, `unif_rand`, `norm_rand` and
`exp_rand` call through their slot exactly once and make no exit check of their own. -/
theorem dispatchers_callback_then_exit_check {σ : Type} (rt : Runtime σ) :
(∀ (gdId : Int) (cc : Int), CallsThenChecks (gdcSetColor rt gdId cc) .gdcSetColor_x [.int gdId,
      .int cc]) ∧
(∀ (gdId : Int) (cc : Int), CallsThenChecks (gdcSetFill rt gdId cc) .gdcSetFill_x [.int gdId,
      .int cc]) ∧
(∀ (gdId : Int) (lwd : Nat) (lty : Int), CallsThenChecks (gdcSetLine rt gdId lwd lty)
      .gdcSetLine_x [.int gdId, .double lwd, .int lty]) ∧
(∀ (gdId : Int) (cex : Nat) (ps : Nat) (lineheight : Nat) (fontface : Int) (fontfamily : Ptr),
      CallsThenChecks (gdcSetFont rt gdId cex ps lineheight fontface fontfamily) .gdcSetFont_x
      [.int gdId, .double cex, .double ps, .double lineheight, .int fontface, .ptr fontfamily]) ∧
(∀ (gdId : Int) (deviceNumber : Int) (pageNumber : Int), CallsThenChecks (gdNewPage rt gdId
      deviceNumber pageNumber) .gdNewPage_x [.int gdId, .int deviceNumber, .int pageNumber]) ∧
    (∀ (gdId : Int), CallsThenChecks (gdActivate rt gdId) .gdActivate_x [.int gdId]) ∧
(∀ (gdId : Int) (x : Nat) (y : Nat) (r : Nat), CallsThenChecks (gdCircle rt gdId x y r)
      .gdCircle_x [.int gdId, .double x, .double y, .double r]) ∧
(∀ (gdId : Int) (x0 : Nat) (x1 : Nat) (y0 : Nat) (y1 : Nat), CallsThenChecks (gdClip rt gdId x0
      x1 y0 y1) .gdClip_x [.int gdId, .double x0, .double x1, .double y0, .double y1]) ∧
    (∀ (gdId : Int), CallsThenChecks (gdDeactivate rt gdId) .gdDeactivate_x [.int gdId]) ∧
    (∀ (gdId : Int), CallsThenChecks (gdHold rt gdId) .gdHold_x [.int gdId]) ∧
(∀ (gdId : Int) (flush : Int), CallsThenChecks (gdFlush rt gdId flush) .gdFlush_x [.int gdId,
      .int flush]) ∧
    (∀ (gdId : Int), CallsThenChecks (gdLocator rt gdId) .gdLocator_x [.int gdId]) ∧
(∀ (gdId : Int) (x1 : Nat) (y1 : Nat) (x2 : Nat) (y2 : Nat), CallsThenChecks (gdLine rt gdId x1
      y1 x2 y2) .gdLine_x [.int gdId, .double x1, .double y1, .double x2, .double y2]) ∧
(∀ (gdId : Int) (mode : Int), CallsThenChecks (gdMode rt gdId mode) .gdMode_x [.int gdId, .int
      mode]) ∧
(∀ (gdId : Int) (name : Ptr) (w : Nat) (h : Nat), CallsThenChecks (gdOpen rt gdId name w h)
      .gdOpen_x [.int gdId, .ptr name, .double w, .double h]) ∧
    (∀ (gdId : Int), CallsThenChecks (gdClose rt gdId) .gdClose_x [.int gdId]) ∧
(∀ (gdId : Int) (npoly : Int) (nper : Ptr) (n : Int) (x : Ptr) (y : Ptr) (winding : Int),
      CallsThenChecks (gdPath rt gdId npoly nper n x y winding) .gdPath_x [.int gdId, .int
      npoly, .ptr nper, .int n, .ptr x, .ptr y, .int winding]) ∧
(∀ (gdId : Int) (n : Int) (x : Ptr) (y : Ptr), CallsThenChecks (gdPolygon rt gdId n x y)
      .gdPolygon_x [.int gdId, .int n, .ptr x, .ptr y]) ∧
(∀ (gdId : Int) (n : Int) (x : Ptr) (y : Ptr), CallsThenChecks (gdPolyline rt gdId n x y)
      .gdPolyline_x [.int gdId, .int n, .ptr x, .ptr y]) ∧
(∀ (gdId : Int) (x0 : Nat) (y0 : Nat) (x1 : Nat) (y1 : Nat), CallsThenChecks (gdRect rt gdId x0
      y0 x1 y1) .gdRect_x [.int gdId, .double x0, .double y0, .double x1, .double y1]) ∧
    (∀ (gdId : Int), CallsThenChecks (gdSize rt gdId) .gdSize_x [.int gdId]) ∧
(∀ (gdId : Int) (str : Ptr), CallsThenChecks (getStrWidth rt gdId str) .getStrWidth_x [.int
      gdId, .ptr str]) ∧
(∀ (gdId : Int) (x : Nat) (y : Nat) (str : Ptr) (rot : Nat) (hadj : Nat), CallsThenChecks
      (gdText rt gdId x y str rot hadj) .gdText_x [.int gdId, .double x, .double y, .ptr str,
      .double rot, .double hadj]) ∧
(∀ (gdId : Int) (img : Ptr) (img_w : Int) (img_h : Int) (x : Nat) (y : Nat) (w : Nat) (h : Nat)
      (rot : Nat) (interpolate : Int), CallsThenChecks (gdRaster rt gdId img img_w img_h x y w h
      rot interpolate) .gdRaster_x [.int gdId, .int img_w, .int img_h, .ptr img, .double x,
      .double y, .double w, .double h, .double rot, .int interpolate]) ∧
(∀ (gdId : Int) (ch : Int), CallsThenChecks (gdMetricInfo rt gdId ch) .gdMetricInfo_x [.int
      gdId, .int ch]) ∧
(∀ (call op args env : Ptr), CallsThenChecks (DispatchPRIMFUN rt call op args env)
      .DispatchPRIMFUN_x [.ptr call, .ptr op, .ptr args, .ptr env]) ∧
    (∀ (s : Ptr), CallsOnly (octsize rt s) .octsize_x [.ptr s]) ∧
(∀ (text : Ptr) (n : Int) (srcfile : Ptr), CallsOnly (R_ParseVector rt text n srcfile)
      .R_ParseVector_x [.ptr text, .int n, .ptr srcfile]) ∧
    CallsOnly (GetRNGstate rt) .GetRNGstate_x [] ∧
    CallsOnly (PutRNGstate rt) .PutRNGstate_x [] ∧
    CallsOnly (unif_rand rt) .unif_rand_x [] ∧
    CallsOnly (norm_rand rt) .norm_rand_x [] ∧
    CallsOnly (exp_rand rt) .exp_rand_x [] := by
  refine ⟨?_, ?_, ?_, ?_, ?_, ?_, ?_, ?_, ?_, ?_, ?_, ?_, ?_, ?_, ?_, ?_, ?_, ?_, ?_, ?_, ?_, ?_, ?_, ?_, ?_, ?_, ?_, ?_, ?_, ?_, ?_, ?_, ?_⟩
  · intros; exact callsThenChecks_void rt _ _
  · intros; exact callsThenChecks_void rt _ _
  · intros; exact callsThenChecks_void rt _ _
  · intros; exact callsThenChecks_void rt _ _
  · intros; exact callsThenChecks_void rt _ _
  · intros; exact callsThenChecks_void rt _ _
  · intros; exact callsThenChecks_void rt _ _
  · intros; exact callsThenChecks_void rt _ _
  · intros; exact callsThenChecks_void rt _ _
  · intros; exact callsThenChecks_void rt _ _
  · intros; exact callsThenChecks_void rt _ _
  · intros; exact callsThenChecks_value rt _ _
  · intros; exact callsThenChecks_void rt _ _
  · intros; exact callsThenChecks_void rt _ _
  · intros; exact callsThenChecks_value rt _ _
  · intros; exact callsThenChecks_void rt _ _
  · intros; exact callsThenChecks_void rt _ _
  · intros; exact callsThenChecks_void rt _ _
  · intros; exact callsThenChecks_void rt _ _
  · intros; exact callsThenChecks_void rt _ _
  · intros; exact callsThenChecks_value rt _ _
  · intros; exact callsThenChecks_value rt _ _
  · intros; exact callsThenChecks_void rt _ _
  · intros; exact callsThenChecks_void rt _ _
  · intros; exact callsThenChecks_value rt _ _
  · intros; exact callsThenChecks_value rt _ _
  · intros; exact callsOnly_upcall rt _ _
  · intro text n srcfile s; rfl
  · exact callsOnly_void rt _ _
  · exact callsOnly_void rt _ _
  · exact callsOnly_upcall rt _ _
  · exact callsOnly_upcall rt _ _
  · exact callsOnly_upcall rt _ _

/-- C13 (counterexample). `gdRaster(1, img = 500, img_w = 2, img_h = 3, ...)` passes
`img_w` and `img_h` before `img`: the callback arguments are not in the order of the
native signature `(gdId, img, img_w, img_h, x, y, w, h, rot, interpolate)`. -/
theorem gdRaster_reorders_arguments :
    (gdRaster quietRuntime 1 500 2 3 10 11 12 13 14 0 { managed := (), log := [] }).2.log =
        [.callback .gdRaster_x
            [.int 1, .int 2, .int 3, .ptr 500, .double 10, .double 11, .double 12,
              .double 13, .double 14, .int 0],
          .checkExitCall] ∧
      (gdRaster quietRuntime 1 500 2 3 10 11 12 13 14 0 { managed := (), log := [] }).2.log ≠
        [.callback .gdRaster_x
            [.int 1, .ptr 500, .int 2, .int 3, .double 10, .double 11, .double 12,
              .double 13, .double 14, .int 0],
          .checkExitCall] := by
  decide

/-- C13 (amended). Every graphics dispatcher of `fastrUpcalls.c` forwards to the callback
slot of its own name and, unless the exit check unwinds, returns the callback's result
unchanged (nothing for a `void` dispatcher); string arguments pass through
`ensure_string`, the identity.  Every dispatcher but `gdRaster` passes exactly its own
arguments in the order of its native signature; `gdRaster` passes
`(gdId, img_w, img_h, img, x, y, w, h, rot, interpolate)`. -/
theorem graphics_dispatchers_forward {σ : Type} (rt : Runtime σ) :
(∀ (gdId : Int) (cc : Int), Forwards rt (gdcSetColor rt gdId cc) .gdcSetColor_x [.int gdId, .int
      cc] (fun _ => ())) ∧
(∀ (gdId : Int) (cc : Int), Forwards rt (gdcSetFill rt gdId cc) .gdcSetFill_x [.int gdId, .int
      cc] (fun _ => ())) ∧
(∀ (gdId : Int) (lwd : Nat) (lty : Int), Forwards rt (gdcSetLine rt gdId lwd lty) .gdcSetLine_x
      [.int gdId, .double lwd, .int lty] (fun _ => ())) ∧
(∀ (gdId : Int) (cex : Nat) (ps : Nat) (lineheight : Nat) (fontface : Int) (fontfamily : Ptr),
      Forwards rt (gdcSetFont rt gdId cex ps lineheight fontface fontfamily) .gdcSetFont_x [.int
      gdId, .double cex, .double ps, .double lineheight, .int fontface, .ptr fontfamily] (fun _
      => ())) ∧
(∀ (gdId : Int) (deviceNumber : Int) (pageNumber : Int), Forwards rt (gdNewPage rt gdId
      deviceNumber pageNumber) .gdNewPage_x [.int gdId, .int deviceNumber, .int pageNumber] (fun
      _ => ())) ∧
    (∀ (gdId : Int), Forwards rt (gdActivate rt gdId) .gdActivate_x [.int gdId] (fun _ => ())) ∧
(∀ (gdId : Int) (x : Nat) (y : Nat) (r : Nat), Forwards rt (gdCircle rt gdId x y r) .gdCircle_x
      [.int gdId, .double x, .double y, .double r] (fun _ => ())) ∧
(∀ (gdId : Int) (x0 : Nat) (x1 : Nat) (y0 : Nat) (y1 : Nat), Forwards rt (gdClip rt gdId x0 x1
      y0 y1) .gdClip_x [.int gdId, .double x0, .double x1, .double y0, .double y1] (fun _ =>
      ())) ∧
    (∀ (gdId : Int), Forwards rt (gdDeactivate rt gdId) .gdDeactivate_x [.int gdId] (fun _ => ())) ∧
    (∀ (gdId : Int), Forwards rt (gdHold rt gdId) .gdHold_x [.int gdId] (fun _ => ())) ∧
(∀ (gdId : Int) (flush : Int), Forwards rt (gdFlush rt gdId flush) .gdFlush_x [.int gdId, .int
      flush] (fun _ => ())) ∧
    (∀ (gdId : Int), Forwards rt (gdLocator rt gdId) .gdLocator_x [.int gdId] id) ∧
(∀ (gdId : Int) (x1 : Nat) (y1 : Nat) (x2 : Nat) (y2 : Nat), Forwards rt (gdLine rt gdId x1 y1
      x2 y2) .gdLine_x [.int gdId, .double x1, .double y1, .double x2, .double y2] (fun _ =>
      ())) ∧
(∀ (gdId : Int) (mode : Int), Forwards rt (gdMode rt gdId mode) .gdMode_x [.int gdId, .int mode]
      (fun _ => ())) ∧
(∀ (gdId : Int) (name : Ptr) (w : Nat) (h : Nat), Forwards rt (gdOpen rt gdId name w h)
      .gdOpen_x [.int gdId, .ptr name, .double w, .double h] id) ∧
    (∀ (gdId : Int), Forwards rt (gdClose rt gdId) .gdClose_x [.int gdId] (fun _ => ())) ∧
(∀ (gdId : Int) (npoly : Int) (nper : Ptr) (n : Int) (x : Ptr) (y : Ptr) (winding : Int),
      Forwards rt (gdPath rt gdId npoly nper n x y winding) .gdPath_x [.int gdId, .int npoly,
      .ptr nper, .int n, .ptr x, .ptr y, .int winding] (fun _ => ())) ∧
(∀ (gdId : Int) (n : Int) (x : Ptr) (y : Ptr), Forwards rt (gdPolygon rt gdId n x y)
      .gdPolygon_x [.int gdId, .int n, .ptr x, .ptr y] (fun _ => ())) ∧
(∀ (gdId : Int) (n : Int) (x : Ptr) (y : Ptr), Forwards rt (gdPolyline rt gdId n x y)
      .gdPolyline_x [.int gdId, .int n, .ptr x, .ptr y] (fun _ => ())) ∧
(∀ (gdId : Int) (x0 : Nat) (y0 : Nat) (x1 : Nat) (y1 : Nat), Forwards rt (gdRect rt gdId x0 y0
      x1 y1) .gdRect_x [.int gdId, .double x0, .double y0, .double x1, .double y1] (fun _ =>
      ())) ∧
    (∀ (gdId : Int), Forwards rt (gdSize rt gdId) .gdSize_x [.int gdId] id) ∧
(∀ (gdId : Int) (str : Ptr), Forwards rt (getStrWidth rt gdId str) .getStrWidth_x [.int gdId,
      .ptr str] id) ∧
(∀ (gdId : Int) (x : Nat) (y : Nat) (str : Ptr) (rot : Nat) (hadj : Nat), Forwards rt (gdText rt
      gdId x y str rot hadj) .gdText_x [.int gdId, .double x, .double y, .ptr str, .double rot,
      .double hadj] (fun _ => ())) ∧
(∀ (gdId : Int) (img : Ptr) (img_w : Int) (img_h : Int) (x : Nat) (y : Nat) (w : Nat) (h : Nat)
      (rot : Nat) (interpolate : Int), Forwards rt (gdRaster rt gdId img img_w img_h x y w h rot
      interpolate) .gdRaster_x [.int gdId, .int img_w, .int img_h, .ptr img, .double x, .double
      y, .double w, .double h, .double rot, .int interpolate] (fun _ => ())) ∧
(∀ (gdId : Int) (ch : Int), Forwards rt (gdMetricInfo rt gdId ch) .gdMetricInfo_x [.int gdId,
      .int ch] id) := by
  refine ⟨?_, ?_, ?_, ?_, ?_, ?_, ?_, ?_, ?_, ?_, ?_, ?_, ?_, ?_, ?_, ?_, ?_, ?_, ?_, ?_, ?_, ?_, ?_, ?_, ?_⟩
  · intros; exact forwards_void rt _ _
  · intros; exact forwards_void rt _ _
  · intros; exact forwards_void rt _ _
  · intros; exact forwards_void rt _ _
  · intros; exact forwards_void rt _ _
  · intros; exact forwards_void rt _ _
  · intros; exact forwards_void rt _ _
  · intros; exact forwards_void rt _ _
  · intros; exact forwards_void rt _ _
  · intros; exact forwards_void rt _ _
  · intros; exact forwards_void rt _ _
  · intros; exact forwards_value rt _ _
  · intros; exact forwards_void rt _ _
  · intros; exact forwards_void rt _ _
  · intros; exact forwards_value rt _ _
  · intros; exact forwards_void rt _ _
  · intros; exact forwards_void rt _ _
  · intros; exact forwards_void rt _ _
  · intros; exact forwards_void rt _ _
  · intros; exact forwards_void rt _ _
  · intros; exact forwards_value rt _ _
  · intros; exact forwards_value rt _ _
  · intros; exact forwards_void rt _ _
  · intros; exact forwards_void rt _ _
  · intros; exact forwards_value rt _ _

/-! ### The claims on UTF-8 decoding -/

theorem strlen_cons_of_ne_zero (a : Nat) (s : CString) (h : a ≠ 0) :
    strlen (a :: s) = strlen s + 1 := by
  simp [strlen, List.takeWhile, h]

theorem toWchar_of_lt (wcharBytes v : Nat) (hw : 4 ≤ wcharBytes) (hv : v < 2 ^ 32) :
    toWchar wcharBytes v = v := by
  unfold toWchar
  apply Nat.mod_eq_of_lt
  calc v < 2 ^ 32 := hv
    _ ≤ 2 ^ (8 * wcharBytes) := Nat.pow_le_pow_right (by norm_num) (by omega)

theorem continuation_masks : ∀ r, r < 64 →
    (0x80 + r) &&& 0xC0 = 0x80 ∧ (0x80 + r) &&& 0x3F = r := by
  decide

theorem lead2_mask : ∀ q, q < 32 → (0xC0 + q) &&& 0x1F = q := by
  decide

theorem lead3_mask : ∀ q, q < 16 → (0xE0 + q) &&& 0x0F = q := by
  decide

theorem lead4_mask : ∀ q, q < 8 → (0xF0 + q) &&& 0x0F = q := by
  decide

theorem mul_or_eq (a b i : Nat) (hb : b < 2 ^ i) : (a * 2 ^ i) ||| b = a * 2 ^ i + b := by
  rw [Nat.mul_comm a, Nat.mul_add_lt_is_or hb]

theorem shift_or_eq (a b i : Nat) (hb : b < 2 ^ i) : (a <<< i) ||| b = a * 2 ^ i + b := by
  rw [Nat.shiftLeft_eq, Nat.mul_comm a, Nat.mul_add_lt_is_or hb]



theorem utf8toucs_one (w c : Nat) (rest : CString) (hw : 4 ≤ w) (h0 : 0 < c) (h : c < 0x80) :
    utf8toucs w (c :: rest) = (some c, 1) := by
  have hc : c ≠ 0 := by omega
  have hlt : c < 0xC0 := by omega
  simp only [utf8toucs, byteAt, List.getD_cons_zero, hc, if_false, hlt, if_true]
  rw [toWchar_of_lt w c hw (by omega)]

theorem utf8toucs_two (w q r : Nat) (rest : CString) (hw : 4 ≤ w) (hq1 : 2 ≤ q) (hq : q < 32)
    (hr : r < 64) :
    utf8toucs w ((0xC0 + q) :: (0x80 + r) :: rest) = (some (q * 64 + r), 2) := by
  obtain ⟨hm1, hm2⟩ := continuation_masks r hr
  have hl := lead2_mask q hq
  have hb0 : ¬ (0xC0 + q = 0) := by omega
  have hb1 : ¬ (0xC0 + q < 0xC0) := by omega
  have hb2 : 0xC0 + q < 0xE0 := by omega
  have hlen : ¬ strlen ((0xC0 + q) :: (0x80 + r) :: rest) < 2 := by
    rw [strlen_cons_of_ne_zero _ _ (by omega), strlen_cons_of_ne_zero _ _ (by omega)]
    omega
  simp only [utf8toucs, byteAt, List.getD_cons_zero, List.getD_cons_succ, hb0, hb1, hb2,
    if_false, if_true, hlen, hm1, hm2, hl]
  rw [shift_or_eq q r 6 (by simpa using hr), toWchar_of_lt w _ hw (by norm_num; omega)]
  norm_num

theorem utf8toucs_three (w q1 q2 r : Nat) (rest : CString) (hw : 4 ≤ w) (hq1 : q1 < 16)
    (hq2 : q2 < 64) (hr : r < 64)
    (hsur : ¬ (0xD800 ≤ q1 * 4096 + q2 * 64 + r ∧ q1 * 4096 + q2 * 64 + r ≤ 0xDFFF))
    (hfe : q1 * 4096 + q2 * 64 + r ≠ 0xFFFE) (hff : q1 * 4096 + q2 * 64 + r ≠ 0xFFFF) :
    utf8toucs w ((0xE0 + q1) :: (0x80 + q2) :: (0x80 + r) :: rest) =
      (some (q1 * 4096 + q2 * 64 + r), 3) := by
  obtain ⟨hm1, hm2⟩ := continuation_masks q2 hq2
  obtain ⟨hm3, hm4⟩ := continuation_masks r hr
  have hl := lead3_mask q1 hq1
  have hb0 : ¬ (0xE0 + q1 = 0) := by omega
  have hb1 : ¬ (0xE0 + q1 < 0xC0) := by omega
  have hb2 : ¬ (0xE0 + q1 < 0xE0) := by omega
  have hb3 : 0xE0 + q1 < 0xF0 := by omega
  have hlen : ¬ strlen ((0xE0 + q1) :: (0x80 + q2) :: (0x80 + r) :: rest) < 3 := by
    rw [strlen_cons_of_ne_zero _ _ (by omega), strlen_cons_of_ne_zero _ _ (by omega),
      strlen_cons_of_ne_zero _ _ (by omega)]
    omega
  have hval : ((q1 <<< 12) ||| (q2 <<< 6)) ||| r = q1 * 4096 + q2 * 64 + r := by
    have h1 : (q1 <<< 12) ||| (q2 <<< 6) = q1 * 4096 + q2 * 64 := by
      rw [Nat.shiftLeft_eq q2 6, shift_or_eq q1 (q2 * 2 ^ 6) 12 (by norm_num; omega)]
      norm_num
    have h2 : q1 * 4096 + q2 * 64 = (q1 * 64 + q2) * 2 ^ 6 := by ring
    calc ((q1 <<< 12) ||| (q2 <<< 6)) ||| r
        = ((q1 * 64 + q2) * 2 ^ 6) ||| r := by rw [h1, h2]
      _ = (q1 * 64 + q2) * 2 ^ 6 + r := mul_or_eq _ r 6 (by simpa using hr)
      _ = q1 * 4096 + q2 * 64 + r := by ring
  have hlt : q1 * 4096 + q2 * 64 + r < 2 ^ 32 := by norm_num; omega
  have hsur' : ¬ (q1 * 4096 + q2 * 64 + r ≥ 0xD800 ∧ q1 * 4096 + q2 * 64 + r ≤ 0xDFFF) :=
    fun h => hsur ⟨h.1, h.2⟩
  have hfef : ¬ (q1 * 4096 + q2 * 64 + r = 0xFFFE ∨ q1 * 4096 + q2 * 64 + r = 0xFFFF) := by
    rintro (h | h)
    · exact hfe h
    · exact hff h
  simp only [utf8toucs, byteAt, List.getD_cons_zero, List.getD_cons_succ, hb0, hb1, hb2, hb3,
    if_false, if_true, hlen, hm1, hm2, hm3, hm4, hl, and_self, hval,
    toWchar_of_lt w _ hw hlt, Nat.mod_eq_of_lt hlt, hsur', hfef]

theorem utf8toucs_four (w q0 q1 q2 r : Nat) (rest : CString) (hw : 4 ≤ w) (hq0 : q0 < 8)
    (hq1 : q1 < 64) (hq2 : q2 < 64) (hr : r < 64) :
    utf8toucs w ((0xF0 + q0) :: (0x80 + q1) :: (0x80 + q2) :: (0x80 + r) :: rest) =
      (some (q0 * 262144 + q1 * 4096 + q2 * 64 + r), 4) := by
  obtain ⟨_, hm1⟩ := continuation_masks q1 hq1
  obtain ⟨_, hm2⟩ := continuation_masks q2 hq2
  obtain ⟨_, hm3⟩ := continuation_masks r hr
  have hl := lead4_mask q0 hq0
  have hb0 : ¬ (0xF0 + q0 = 0) := by omega
  have hb1 : ¬ (0xF0 + q0 < 0xC0) := by omega
  have hb2 : ¬ (0xF0 + q0 < 0xE0) := by omega
  have hb3 : ¬ (0xF0 + q0 < 0xF0) := by omega
  have hb4 : 0xF0 + q0 < 0xF8 := by omega
  have hw' : ¬ w < 4 := by omega
  have hlen : ¬ strlen ((0xF0 + q0) :: (0x80 + q1) :: (0x80 + q2) :: (0x80 + r) :: rest) < 4 := by
    rw [strlen_cons_of_ne_zero _ _ (by omega), strlen_cons_of_ne_zero _ _ (by omega),
      strlen_cons_of_ne_zero _ _ (by omega), strlen_cons_of_ne_zero _ _ (by omega)]
    omega
  have hval : (((q0 <<< 18) ||| (q1 <<< 12)) ||| (q2 <<< 6)) ||| r =
      q0 * 262144 + q1 * 4096 + q2 * 64 + r := by
    have h1 : (q0 <<< 18) ||| (q1 <<< 12) = q0 * 262144 + q1 * 4096 := by
      rw [Nat.shiftLeft_eq q1 12, shift_or_eq q0 (q1 * 2 ^ 12) 18 (by norm_num; omega)]
      norm_num
    have h2 : q0 * 262144 + q1 * 4096 = (q0 * 64 + q1) * 2 ^ 12 := by ring
    have h3 : q2 <<< 6 = q2 * 64 := by rw [Nat.shiftLeft_eq]
    have h4 : (q0 * 64 + q1) * 2 ^ 12 + q2 * 64 = (q0 * 4096 + q1 * 64 + q2) * 2 ^ 6 := by ring
    calc (((q0 <<< 18) ||| (q1 <<< 12)) ||| (q2 <<< 6)) ||| r
        = (((q0 * 64 + q1) * 2 ^ 12) ||| (q2 * 64)) ||| r := by rw [h1, h2, h3]
      _ = ((q0 * 64 + q1) * 2 ^ 12 + q2 * 64) ||| r := by
          rw [mul_or_eq _ (q2 * 64) 12 (by norm_num; omega)]
      _ = ((q0 * 4096 + q1 * 64 + q2) * 2 ^ 6) ||| r := by rw [h4]
      _ = (q0 * 4096 + q1 * 64 + q2) * 2 ^ 6 + r := mul_or_eq _ r 6 (by simpa using hr)
      _ = q0 * 262144 + q1 * 4096 + q2 * 64 + r := by ring
  have hlt : q0 * 262144 + q1 * 4096 + q2 * 64 + r < 2 ^ 32 := by norm_num; omega
  simp only [utf8toucs, byteAt, List.getD_cons_zero, List.getD_cons_succ, hb0, hb1, hb2, hb3,
    hb4, hw', if_false, if_true, hlen, hm1, hm2, hm3, hl, hval,
    toWchar_of_lt w _ hw hlt, Nat.mod_eq_of_lt hlt]

/-- C20. `utf8toucs` decodes standard UTF-8: for a code point `0 < c <= 0x10FFFF` that is
neither a surrogate nor `0xFFFE` or `0xFFFF`, a `wchar_t` of at least 4 bytes and a string
that starts with the 1-, 2-, 3- or 4-byte encoding of `c`, it stores `c` through `wc` and
returns the number of bytes of the encoding; for the empty string it stores `0` and
returns `0`. -/
theorem utf8toucs_decodes_utf8 (wcharBytes c : Nat) (rest : CString)
    (hw : 4 ≤ wcharBytes) (hpos : 0 < c) (hmax : c ≤ 0x10FFFF)
    (hsur : ¬ (0xD800 ≤ c ∧ c ≤ 0xDFFF)) (hfe : c ≠ 0xFFFE) (hff : c ≠ 0xFFFF) :
    utf8toucs wcharBytes (utf8Encode c ++ rest) = (some c, (utf8Encode c).length) ∧
    1 ≤ (utf8Encode c).length ∧ (utf8Encode c).length ≤ 4 ∧
    utf8toucs wcharBytes [] = (some 0, 0) := by
  have hempty : utf8toucs wcharBytes [] = (some 0, 0) := by
    simp [utf8toucs, byteAt, toWchar]
  by_cases h1 : c < 0x80
  · simp only [utf8Encode, h1, if_true, List.singleton_append, List.length_singleton]
    exact ⟨utf8toucs_one wcharBytes c rest hw hpos h1, le_refl _, by norm_num, hempty⟩
  by_cases h2 : c < 0x800
  · simp only [utf8Encode, h1, h2, if_false, if_true, List.cons_append, List.nil_append,
      List.length_cons, List.length_nil]
    refine ⟨?_, by norm_num, by norm_num, hempty⟩
    have := utf8toucs_two wcharBytes (c / 64) (c % 64) rest hw (by omega) (by omega)
      (Nat.mod_lt _ (by norm_num))
    rw [this]
    congr 2
    omega
  by_cases h3 : c < 0x10000
  · simp only [utf8Encode, h1, h2, h3, if_false, if_true, List.cons_append, List.nil_append,
      List.length_cons, List.length_nil]
    refine ⟨?_, by norm_num, by norm_num, hempty⟩
    have hc : c / 4096 * 4096 + c / 64 % 64 * 64 + c % 64 = c := by omega
    have := utf8toucs_three wcharBytes (c / 4096) (c / 64 % 64) (c % 64) rest hw (by omega)
      (Nat.mod_lt _ (by norm_num)) (Nat.mod_lt _ (by norm_num))
      (by rw [hc]; exact hsur) (by rw [hc]; exact hfe) (by rw [hc]; exact hff)
    rw [this, hc]
  · simp only [utf8Encode, h1, h2, h3, if_false, List.cons_append, List.nil_append,
      List.length_cons, List.length_nil]
    refine ⟨?_, by norm_num, by norm_num, hempty⟩
    have hc : c / 262144 * 262144 + c / 4096 % 64 * 4096 + c / 64 % 64 * 64 + c % 64 = c := by
      omega
    have := utf8toucs_four wcharBytes (c / 262144) (c / 4096 % 64) (c / 64 % 64) (c % 64) rest
      hw (by omega) (Nat.mod_lt _ (by norm_num)) (Nat.mod_lt _ (by norm_num))
      (Nat.mod_lt _ (by norm_num))
    rw [this, hc]

/-- The euro sign `U+20AC`, encoded `E2 82 AC` and followed by `A`, decodes to `0x20AC`
with length `3`. -/
theorem utf8toucs_decodes_utf8_witness :
    utf8toucs 4 (utf8Encode 0x20AC ++ [65]) = (some 0x20AC, (utf8Encode 0x20AC).length) ∧
      utf8Encode 0x20AC = [0xE2, 0x82, 0xAC] :=
  ⟨(utf8toucs_decodes_utf8 4 0x20AC [65] (by decide) (by decide) (by decide) (by decide)
      (by decide) (by decide)).1, by decide⟩

/-! ### Lemmas on the arithmetic of doubles -/

theorem log2_mul_two_pow (n k : Nat) (hn : n ≠ 0) : Nat.log2 (n * 2 ^ k) = Nat.log2 n + k := by
  have hpos : n * 2 ^ k ≠ 0 := Nat.mul_ne_zero hn (by positivity)
  apply Nat.le_antisymm
  · have : Nat.log2 (n * 2 ^ k) < Nat.log2 n + k + 1 := by
      rw [Nat.log2_lt hpos]
      have h1 : n < 2 ^ (Nat.log2 n + 1) := Nat.lt_log2_self
      calc n * 2 ^ k < 2 ^ (Nat.log2 n + 1) * 2 ^ k :=
            Nat.mul_lt_mul_of_pos_right h1 (by positivity)
        _ = 2 ^ (Nat.log2 n + k + 1) := by rw [← Nat.pow_add]; congr 1; omega
    omega
  · rw [Nat.le_log2 hpos]
    have h1 : 2 ^ Nat.log2 n ≤ n := Nat.log2_self_le hn
    calc 2 ^ (Nat.log2 n + k) = 2 ^ Nat.log2 n * 2 ^ k := Nat.pow_add _ _ _
      _ ≤ n * 2 ^ k := Nat.mul_le_mul_right _ h1

theorem log2Loop_eq : ∀ fuel n, n ≤ fuel → log2Loop fuel n = Nat.log2 n := by
  intro fuel
  induction fuel with
  | zero =>
    intro n hn
    have : n = 0 := by omega
    subst this
    rw [Nat.log2]; simp [log2Loop]
  | succ f ih =>
    intro n hn
    rw [Nat.log2]
    by_cases h : n < 2
    · simp [log2Loop, h, Nat.not_le.2 h]
    · have h2 : n ≥ 2 := by omega
      simp only [log2Loop, h, if_false, h2, if_true]
      rw [ih (n / 2) (by omega)]

theorem ilog2_eq (n : Nat) : ilog2 n = Nat.log2 n := log2Loop_eq n n (le_refl n)

theorem roundUnits_eq (P Q : Nat) :
    roundUnits P Q =
      if 2 * (P % (Q * (if P / Q < 2 ^ 53 then 1 else 2 ^ (Nat.log2 (P / Q) - 52)))) >
            Q * (if P / Q < 2 ^ 53 then 1 else 2 ^ (Nat.log2 (P / Q) - 52)) ∨
          (2 * (P % (Q * (if P / Q < 2 ^ 53 then 1 else 2 ^ (Nat.log2 (P / Q) - 52)))) =
            Q * (if P / Q < 2 ^ 53 then 1 else 2 ^ (Nat.log2 (P / Q) - 52)) ∧
            P / (Q * (if P / Q < 2 ^ 53 then 1 else 2 ^ (Nat.log2 (P / Q) - 52))) % 2 = 1)
      then (P / (Q * (if P / Q < 2 ^ 53 then 1 else 2 ^ (Nat.log2 (P / Q) - 52))) + 1) *
        (if P / Q < 2 ^ 53 then 1 else 2 ^ (Nat.log2 (P / Q) - 52))
      else P / (Q * (if P / Q < 2 ^ 53 then 1 else 2 ^ (Nat.log2 (P / Q) - 52))) *
        (if P / Q < 2 ^ 53 then 1 else 2 ^ (Nat.log2 (P / Q) - 52)) := by
  simp only [roundUnits, ilog2_eq]

/-- Rounding a representable magnitude leaves it unchanged. -/
theorem roundUnits_exact (M Q : Nat) (hM : Representable M) (hQ : 0 < Q) :
    roundUnits (Q * M) Q = M := by
  have hfl : Q * M / Q = M := Nat.mul_div_cancel_left M hQ
  rw [roundUnits_eq, hfl]
  generalize hq : (if M < 2 ^ 53 then 1 else 2 ^ (Nat.log2 M - 52)) = q
  have hdvd : q ∣ M := by
    by_cases hsmall : M < 2 ^ 53
    · simp only [hsmall, if_true] at hq
      rw [← hq]; exact one_dvd M
    · simp only [hsmall, if_false] at hq
      rcases hM with h | h
      · exact absurd h hsmall
      · rw [← hq]; exact h
  have hqpos : 0 < q := by
    by_cases hsmall : M < 2 ^ 53
    · simp only [hsmall, if_true] at hq; omega
    · simp only [hsmall, if_false] at hq; rw [← hq]; positivity
  have hk : Q * M / (Q * q) = M / q := Nat.mul_div_mul_left M q hQ
  have hr : Q * M % (Q * q) = 0 := by
    rw [Nat.mul_mod_mul_left, Nat.mod_eq_zero_of_dvd hdvd, Nat.mul_zero]
  have hd : 0 < Q * q := Nat.mul_pos hQ hqpos
  have h1 : ¬ (2 * 0 > Q * q) := by omega
  have h2 : ¬ (2 * 0 = Q * q) := by omega
  rw [hk, hr]
  simp only [h1, h2, false_and, or_self, if_false]
  exact Nat.div_mul_cancel hdvd

theorem unitsPerOne_pos : 0 < unitsPerOne := by
  unfold unitsPerOne; positivity

theorem representable_nat (n : Nat) (hn : n < 2 ^ 53) : Representable (n * unitsPerOne) := by
  by_cases h0 : n = 0
  · exact Or.inl (by rw [h0, Nat.zero_mul]; positivity)
  · refine Or.inr ?_
    unfold unitsPerOne
    rw [log2_mul_two_pow n 1074 h0]
    have hlog : Nat.log2 n < 53 := (Nat.log2_lt h0).2 hn
    have : 2 ^ (Nat.log2 n + 1074 - 52) ∣ 2 ^ 1074 := Nat.pow_dvd_pow 2 (by omega)
    exact Dvd.dvd.mul_left this n

/-- Scaling numerator and denominator by the same factor does not change the rounding. -/
theorem roundUnits_scale (P Q c : Nat) (hc : 0 < c) :
    roundUnits (P * c) (Q * c) = roundUnits P Q := by
  rw [roundUnits_eq, roundUnits_eq]
  have hfl : P * c / (Q * c) = P / Q := Nat.mul_div_mul_right P Q hc
  rw [hfl]
  generalize (if P / Q < 2 ^ 53 then 1 else 2 ^ (Nat.log2 (P / Q) - 52)) = q
  have e1 : Q * c * q = Q * q * c := by ring
  have hk : P * c / (Q * c * q) = P / (Q * q) := by
    rw [e1, Nat.mul_div_mul_right P (Q * q) hc]
  have hr : P * c % (Q * c * q) = P % (Q * q) * c := by
    rw [e1, Nat.mul_mod_mul_right]
  rw [hk, hr, e1]
  have c1 : (2 * (P % (Q * q) * c) > Q * q * c) ↔ (2 * (P % (Q * q)) > Q * q) := by
    constructor
    · intro h
      by_contra hn
      have h3 : 2 * (P % (Q * q)) ≤ Q * q := by omega
      have := Nat.mul_le_mul_right c h3
      nlinarith
    · intro h
      have := Nat.mul_lt_mul_of_pos_right h hc
      nlinarith
  have c2 : (2 * (P % (Q * q) * c) = Q * q * c) ↔ (2 * (P % (Q * q)) = Q * q) := by
    constructor
    · intro h
      have h' : 2 * (P % (Q * q)) * c = Q * q * c := by rw [← h]; ring
      exact Nat.eq_of_mul_eq_mul_right hc h'
    · intro h
      calc 2 * (P % (Q * q) * c) = 2 * (P % (Q * q)) * c := by ring
        _ = Q * q * c := by rw [h]
  simp only [c1, c2]

/-- Rounding at most doubles a magnitude. -/
theorem roundUnits_le (P Q : Nat) : roundUnits P Q ≤ 2 * (P / Q) + 1 := by
  rw [roundUnits_eq]
  by_cases hsmall : P / Q < 2 ^ 53
  · simp only [hsmall, if_true, Nat.mul_one]
    split <;> omega
  · simp only [hsmall, if_false]
    have hfl0 : P / Q ≠ 0 := by
      intro h; rw [h] at hsmall; exact hsmall (by positivity)
    have hq : 2 ^ (Nat.log2 (P / Q) - 52) ≤ P / Q :=
      le_trans (Nat.pow_le_pow_right (by norm_num) (Nat.sub_le _ _)) (Nat.log2_self_le hfl0)
    have hk : P / (Q * 2 ^ (Nat.log2 (P / Q) - 52)) * 2 ^ (Nat.log2 (P / Q) - 52) ≤ P / Q := by
      rw [← Nat.div_div_eq_div_mul]
      exact Nat.div_mul_le_self _ _
    split
    · rw [Nat.add_mul, Nat.one_mul]; omega
    · omega

theorem log2_two_pow_53 : Nat.log2 (2 ^ 53) = 53 := Nat.log2_two_pow

theorem representable_two_pow_53 : Representable (2 ^ 53) :=
  Or.inr (by rw [log2_two_pow_53]; exact Nat.pow_dvd_pow 2 (by omega))

theorem representable_of_le (m : Nat) (hm : m ≤ 2 ^ 53) : Representable m := by
  by_cases h : m < 2 ^ 53
  · exact Or.inl h
  · have : m = 2 ^ 53 := Nat.le_antisymm hm (Nat.not_lt.mp h)
    rw [this]
    exact representable_two_pow_53

theorem representable_mul_two_pow (k j : Nat) (hlo : 2 ^ 52 ≤ k) (hhi : k ≤ 2 ^ 53) :
    Representable (k * 2 ^ j) := by
  have hk0 : k ≠ 0 := by
    intro h; rw [h] at hlo; exact absurd hlo (by norm_num)
  refine Or.inr ?_
  rw [log2_mul_two_pow k j hk0]
  by_cases h : k < 2 ^ 53
  · have h52 : Nat.log2 k = 52 := by
      apply Nat.le_antisymm
      · have := (Nat.log2_lt hk0).2 h; omega
      · exact (Nat.le_log2 hk0).2 hlo
    rw [h52]
    have : 52 + j - 52 = j := by omega
    rw [this]
    exact Dvd.intro_left k rfl
  · have hk : k = 2 ^ 53 := Nat.le_antisymm hhi (Nat.not_lt.mp h)
    rw [hk, log2_two_pow_53, ← Nat.pow_add]
    exact Nat.pow_dvd_pow 2 (by omega)

/-- The result of rounding is representable. -/
theorem roundUnits_representable (P Q : Nat) : Representable (roundUnits P Q) := by
  rw [roundUnits_eq]
  by_cases hsmall : P / Q < 2 ^ 53
  · simp only [hsmall, if_true, Nat.mul_one]
    split
    · exact representable_of_le _ (by omega)
    · exact representable_of_le _ (by omega)
  · simp only [hsmall, if_false]
    have hfl0 : P / Q ≠ 0 := by
      intro h; rw [h] at hsmall; exact hsmall (by positivity)
    have hlog : 53 ≤ Nat.log2 (P / Q) := by
      rw [Nat.le_log2 hfl0]; omega
    generalize hj : Nat.log2 (P / Q) - 52 = j
    have hkdef : P / (Q * 2 ^ j) = P / Q / 2 ^ j := by rw [Nat.div_div_eq_div_mul]
    have hklo : 2 ^ 52 ≤ P / (Q * 2 ^ j) := by
      rw [hkdef, Nat.le_div_iff_mul_le (by positivity), ← Nat.pow_add]
      have : 52 + j = Nat.log2 (P / Q) := by omega
      rw [this]; exact Nat.log2_self_le hfl0
    have hkhi : P / (Q * 2 ^ j) < 2 ^ 53 := by
      rw [hkdef, Nat.div_lt_iff_lt_mul (by positivity), ← Nat.pow_add]
      have : 53 + j = Nat.log2 (P / Q) + 1 := by omega
      rw [this]; exact Nat.lt_log2_self
    split
    · exact representable_mul_two_pow _ j (by omega) (by omega)
    · exact representable_mul_two_pow _ j hklo (by omega)

theorem nat_units_lt (n : Nat) (hn : n < 2 ^ 1000) : n * unitsPerOne < overflowUnits := by
  unfold unitsPerOne overflowUnits
  calc n * 2 ^ 1074 < 2 ^ 1000 * 2 ^ 1074 := Nat.mul_lt_mul_of_pos_right hn (by positivity)
    _ = 2 ^ (1000 + 1074) := by rw [← Nat.pow_add]
    _ < 2 ^ 2098 := Nat.pow_lt_pow_right (by decide) (by decide)

theorem ofUnits_exact (neg : Bool) (M Q : Nat) (hM : Representable M) (hlt : M < overflowUnits)
    (hQ : 0 < Q) : Dbl.ofUnits neg (Q * M) Q = .finite neg M := by
  unfold Dbl.ofUnits
  rw [roundUnits_exact M Q hM hQ]
  simp only [ge_iff_le, Nat.not_le.mpr hlt, if_false]

theorem ofUnits_scale (neg : Bool) (P Q c : Nat) (hc : 0 < c) :
    Dbl.ofUnits neg (P * c) (Q * c) = Dbl.ofUnits neg P Q := by
  unfold Dbl.ofUnits
  rw [roundUnits_scale P Q c hc]

theorem lt_two_pow_1000 (n : Nat) (hn : n < 2 ^ 53) : n < 2 ^ 1000 :=
  lt_trans hn (Nat.pow_lt_pow_right (by decide) (by decide))

/-- Products of small naturals are exact. -/
theorem mul_ofNat (a b : Nat) (h : a * b < 2 ^ 53) :
    (Dbl.ofNat a).mul (Dbl.ofNat b) = Dbl.ofNat (a * b) := by
  simp only [Dbl.ofNat, Dbl.mul, Bool.xor_false]
  have e : a * unitsPerOne * (b * unitsPerOne) = unitsPerOne * (a * b * unitsPerOne) := by ring
  rw [e, ofUnits_exact _ _ _ (representable_nat _ h)
    (nat_units_lt _ (lt_two_pow_1000 _ h)) unitsPerOne_pos]

/-- Sums of small naturals are exact. -/
theorem add_ofNat (a b : Nat) (h : a + b < 2 ^ 53) :
    (Dbl.ofNat a).add (Dbl.ofNat b) = Dbl.ofNat (a + b) := by
  simp only [Dbl.ofNat, Dbl.add, if_true]
  have e : a * unitsPerOne + b * unitsPerOne = 1 * ((a + b) * unitsPerOne) := by ring
  rw [e, ofUnits_exact _ _ _ (representable_nat _ h)
    (nat_units_lt _ (lt_two_pow_1000 _ h)) (by decide)]

/-- The quotient of two naturals is the double nearest to the ratio. -/
theorem div_ofNat (a b : Nat) (hb : b ≠ 0) :
    (Dbl.ofNat a).div (Dbl.ofNat b) = Dbl.ofRatio false a b := by
  have hb' : b * unitsPerOne ≠ 0 := Nat.mul_ne_zero hb (Nat.ne_of_gt unitsPerOne_pos)
  simp only [Dbl.ofNat, Dbl.div, Bool.xor_false, hb', if_false, Dbl.ofRatio]
  exact ofUnits_scale _ _ _ _ unitsPerOne_pos

/-- The product of two naturals is the double nearest to the exact product. -/
theorem mul_ofNat_round (a b : Nat) :
    (Dbl.ofNat a).mul (Dbl.ofNat b) = Dbl.ofRatio false (a * b) 1 := by
  simp only [Dbl.ofNat, Dbl.mul, Bool.xor_false, Dbl.ofRatio]
  have e : a * unitsPerOne * (b * unitsPerOne) = a * b * unitsPerOne * unitsPerOne := by ring
  rw [e]
  have := ofUnits_scale false (a * b * unitsPerOne) 1 unitsPerOne unitsPerOne_pos
  rw [Nat.one_mul] at this
  exact this

/-- Multiplying by `(double) sign` keeps a rounded magnitude and sets its sign. -/
theorem sign_mul_finite (sign : Int) (neg : Bool) (m : Nat) (hm : Representable m)
    (hlt : m < overflowUnits) :
    (Dbl.ofSign sign).mul (.finite neg m) = .finite (xor (decide (sign < 0)) neg) m := by
  simp only [Dbl.ofSign, Dbl.mul]
  exact ofUnits_exact _ m unitsPerOne hm hlt unitsPerOne_pos

theorem sign_mul_ofUnits (sign : Int) (P Q : Nat) :
    (Dbl.ofSign sign).mul (Dbl.ofUnits false P Q) = Dbl.ofUnits (decide (sign < 0)) P Q := by
  unfold Dbl.ofUnits
  by_cases h : roundUnits P Q ≥ overflowUnits
  · simp only [h, if_true, Dbl.ofSign, Dbl.mul, Nat.ne_of_gt unitsPerOne_pos, if_false,
      Bool.xor_false]
  · simp only [h, if_false]
    rw [sign_mul_finite sign false _ (roundUnits_representable P Q) (Nat.not_le.mp h)]
    simp

/-! ### Lemmas on the phases of `R_strtod5` -/

theorem byteAt_drop (s : CString) (p i : Nat) : byteAt (s.drop p) i = byteAt s (p + i) := by
  simp [byteAt, List.getD_eq_getElem?_getD, List.getElem?_drop]

theorem byteAt_append_left (a b : CString) (i : Nat) (h : i < a.length) :
    byteAt (a ++ b) i = byteAt a i := by
  simp [byteAt, List.getD_eq_getElem?_getD, List.getElem?_append_left h]

theorem byteAt_append_right (a b : CString) (i : Nat) :
    byteAt (a ++ b) (a.length + i) = byteAt b i := by
  simp [byteAt, List.getD_eq_getElem?_getD, List.getElem?_append_right]

theorem digitsVal_cons (a c : Nat) (ds : List Nat) :
    digitsVal a (c :: ds) = digitsVal (10 * a + (c - chr '0')) ds := rfl

theorem digitsVal_append (a : Nat) (ds es : List Nat) :
    digitsVal a (ds ++ es) = digitsVal (digitsVal a ds) es := by
  simp [digitsVal, List.foldl_append]

theorem le_digitsVal (ds : List Nat) : ∀ a, a ≤ digitsVal a ds := by
  induction ds with
  | nil => intro a; exact le_refl _
  | cons c ds ih =>
    intro a
    rw [digitsVal_cons]
    exact le_trans (by omega) (ih _)

/-- A number of at most `n` digits written after `a` is below `(a + 1) * 10^n`. -/
theorem digitsVal_lt (ds : List Nat) (hd : ∀ c ∈ ds, isDigit c = true) :
    ∀ a, digitsVal a ds < (a + 1) * 10 ^ ds.length := by
  induction ds with
  | nil => intro a; simp [digitsVal]
  | cons c ds ih =>
    intro a
    rw [digitsVal_cons]
    have hc := hd c (List.mem_cons_self _ _)
    simp only [isDigit, chr, Bool.and_eq_true, decide_eq_true_eq] at hc
    have hc9 : c - chr '0' ≤ 9 := by
      simp only [chr]
      have h1 : ('0' : Char).toNat = 48 := rfl
      have h2 : ('9' : Char).toNat = 57 := rfl
      omega
    have := ih (fun x hx => hd x (List.mem_cons_of_mem _ hx)) (10 * a + (c - chr '0'))
    calc digitsVal (10 * a + (c - chr '0')) ds
        < (10 * a + (c - chr '0') + 1) * 10 ^ ds.length := this
      _ ≤ ((a + 1) * 10) * 10 ^ ds.length := Nat.mul_le_mul_right _ (by omega)
      _ = (a + 1) * 10 ^ (c :: ds).length := by
          rw [List.length_cons, Nat.pow_succ]; ring

/-- The digit loop is exact as long as the number stays below `2^53`. -/
theorem decDigits_exact (ds rest : List Nat) (hd : ∀ c ∈ ds, isDigit c = true)
    (hrest : isDigit (byteAt rest 0) = false ∨ rest = []) :
    ∀ a, digitsVal a ds < 2 ^ 53 →
      decDigits (Dbl.ofNat a) (ds ++ rest) = (Dbl.ofNat (digitsVal a ds), ds.length) := by
  induction ds with
  | nil =>
    intro a _
    cases rest with
    | nil => rfl
    | cons c cs =>
      have : isDigit c = false := by
        rcases hrest with h | h
        · simpa [byteAt] using h
        · cases h
      simp [decDigits, this, digitsVal]
  | cons c ds ih =>
    intro a ha
    have hc := hd c (List.mem_cons_self _ _)
    rw [digitsVal_cons] at ha
    have hle := le_digitsVal ds (10 * a + (c - chr '0'))
    have hmul : (Dbl.ofNat 10).mul (Dbl.ofNat a) = Dbl.ofNat (10 * a) :=
      mul_ofNat 10 a (by omega)
    have hadd : (Dbl.ofNat (10 * a)).add (Dbl.ofNat (c - chr '0')) =
        Dbl.ofNat (10 * a + (c - chr '0')) := add_ofNat _ _ (by omega)
    have hih := ih (fun x hx => hd x (List.mem_cons_of_mem _ hx)) _ ha
    simp only [List.cons_append, decDigits, hc, if_true, hmul, hadd, digitsVal_cons,
      List.length_cons]
    rw [show ds.append rest = ds ++ rest from rfl, hih]

theorem powLoop_ten : ∀ k, k ≤ 22 →
    powLoop Dbl.mul k k (Dbl.ofNat 1) (Dbl.ofNat 10) = Dbl.ofNat (10 ^ k) := by
  decide!

theorem unitsPerOne_ne_zero : unitsPerOne ≠ 0 := Nat.ne_of_gt unitsPerOne_pos

theorem four_mul_two_pow : 4 * (2:Nat) ^ 2000 = 2 ^ 2002 := by
  rw [show (4:Nat) = 2 ^ 2 from rfl, ← Nat.pow_add]

theorem four_pow_le_overflow : 4 * 2 ^ 2000 ≤ overflowUnits := by
  rw [four_mul_two_pow]
  exact Nat.pow_le_pow_right (by decide) (by decide)

theorem two_pow_2045_le_max : (2:Nat) ^ 2045 ≤ (2 ^ 53 - 1) * 2 ^ 2045 :=
  Nat.le_mul_of_pos_left _ (by decide)

theorem two_pow_2002_le : (2:Nat) ^ 2002 ≤ 2 ^ 2045 :=
  Nat.pow_le_pow_right (by decide) (by decide)

theorem two_pow_le_max : (2:Nat) ^ 2002 ≤ (2 ^ 53 - 1) * 2 ^ 2045 :=
  le_trans two_pow_2002_le two_pow_2045_le_max

theorem four_pow_le_max : 4 * 2 ^ 2000 ≤ (2 ^ 53 - 1) * 2 ^ 2045 := by
  rw [four_mul_two_pow]; exact two_pow_le_max

/-- A rounded quotient below `2^2000` units does not exceed `DBL_MAX`. -/
theorem ofUnits_not_gt_DBL_MAX (P Q : Nat) (h : P / Q < 2 ^ 2000) :
    (Dbl.ofUnits false P Q).gt DBL_MAX = false := by
  have hle := roundUnits_le P Q
  have h1 := four_pow_le_overflow
  have h2 := four_pow_le_max
  generalize (2:Nat) ^ 2000 = A at h h1 h2
  have hov : ¬ roundUnits P Q ≥ overflowUnits := by omega
  simp only [Dbl.ofUnits, hov, if_false, Dbl.gt, Dbl.rank, DBL_MAX]
  generalize (2 ^ 53 - 1) * 2 ^ 2045 = B at h2
  simp only [Bool.false_eq_true, if_false, decide_eq_false_iff_not, gt_iff_lt, not_lt]
  have : roundUnits P Q ≤ B := by omega
  exact_mod_cast this

/-- The double of a natural number below `2^53` is the number itself. -/
theorem ofRatio_one (neg : Bool) (n : Nat) (hn : n < 2 ^ 53) :
    Dbl.ofRatio neg n 1 = .finite neg (n * unitsPerOne) := by
  have := ofUnits_exact neg (n * unitsPerOne) 1 (representable_nat n hn)
    (nat_units_lt _ (lt_two_pow_1000 _ hn)) (by decide)
  rw [Nat.one_mul] at this
  exact this

theorem ten_pow_22_lt : (10:Nat) ^ 22 < 2 ^ 74 := by decide

/-- Quotients of a 53-bit number by a power of ten up to `10^22`, and its products with
one, stay far below the overflow threshold. -/
theorem small_units_div (N q : Nat) (hN : N < 2 ^ 53) :
    N * unitsPerOne / q < 2 ^ 2000 := by
  have h1 : N * unitsPerOne / q ≤ N * unitsPerOne := Nat.div_le_self _ _
  have h2 : N * unitsPerOne < 2 ^ 53 * 2 ^ 1074 := by
    unfold unitsPerOne
    exact Nat.mul_lt_mul_of_pos_right hN (by positivity)
  have h3 : (2:Nat) ^ 53 * 2 ^ 1074 ≤ 2 ^ 2000 := by
    rw [← Nat.pow_add]; exact Nat.pow_le_pow_right (by decide) (by decide)
  omega

theorem small_units_mul (N k : Nat) (hN : N < 2 ^ 53) (hk : k ≤ 22) :
    N * 10 ^ k * unitsPerOne / 1 < 2 ^ 2000 := by
  rw [Nat.div_one]
  have hk10 : (10:Nat) ^ k ≤ 10 ^ 22 := Nat.pow_le_pow_right (by decide) hk
  have h74 := ten_pow_22_lt
  have h1 : N * 10 ^ k < 2 ^ 53 * 2 ^ 74 := by
    calc N * 10 ^ k ≤ N * 10 ^ 22 := Nat.mul_le_mul_left _ hk10
      _ < 2 ^ 53 * 10 ^ 22 := Nat.mul_lt_mul_of_pos_right hN (by positivity)
      _ ≤ 2 ^ 53 * 2 ^ 74 := Nat.mul_le_mul_left _ (le_of_lt h74)
  have h2 : N * 10 ^ k * unitsPerOne < 2 ^ 53 * 2 ^ 74 * 2 ^ 1074 := by
    unfold unitsPerOne
    exact Nat.mul_lt_mul_of_pos_right h1 (by positivity)
  have h3 : (2:Nat) ^ 53 * 2 ^ 74 * 2 ^ 1074 ≤ 2 ^ 2000 := by
    rw [← Nat.pow_add, ← Nat.pow_add]; exact Nat.pow_le_pow_right (by decide) (by decide)
  omega

/-- The scaling step is correctly rounded for a 53-bit digit value and a decimal exponent
of magnitude at most 22: one rounding of the exact decimal value. -/
theorem strtodScale_exact (sign : Int) (N : Nat) (x : Int) (nd p : Nat) (w : Bool)
    (hN : N < 2 ^ 53) (hlo : -22 ≤ x) (hhi : x ≤ 22) :
    strtodScale sign (Dbl.ofNat N) x nd p w =
      { value := Dbl.ofDecimal (decide (sign < 0)) N x, endptr := p, warned := w } := by
  have h300 : ¬ (x + (nd : Int) < -300) := by omega
  have h307 : ¬ (x < -307) := by omega
  by_cases hx : x < 0
  · have hk : (-x).toNat ≤ 22 := by omega
    have hq : 10 ^ (-x).toNat ≠ 0 := by positivity
    simp only [strtodScale, h300, h307, hx, if_false, if_true, powLoop_ten _ hk,
      div_ofNat N _ hq, Dbl.ofDecimal, Dbl.ofRatio, strtodDone, sign_mul_ofUnits,
      ofUnits_not_gt_DBL_MAX _ _ (small_units_div N _ hN),
      Bool.false_eq_true]
  · have hk : x.toNat ≤ 22 := by omega
    by_cases hz : N = 0
    · subst hz
      have hnz : (Dbl.ofNat 0).neZero = false := by simp [Dbl.ofNat, Dbl.neZero]
      have e0 : Dbl.ofNat 0 = Dbl.ofUnits false (0 * 10 ^ x.toNat * unitsPerOne) 1 := by
        have := ofRatio_one false 0 (by decide)
        simp only [Dbl.ofRatio] at this
        simp only [Dbl.ofNat, Nat.zero_mul]
        rw [Nat.zero_mul] at this
        exact this.symm
      simp only [strtodScale, h300, h307, hx, if_false, hnz, Bool.false_eq_true,
        Dbl.ofDecimal, Dbl.ofRatio, strtodDone]
      rw [e0, sign_mul_ofUnits,
        ofUnits_not_gt_DBL_MAX _ _ (small_units_mul 0 _ (by decide) hk)]
      simp
    · have hnz : (Dbl.ofNat N).neZero = true := by
        simp [Dbl.ofNat, Dbl.neZero, hz, unitsPerOne_ne_zero]
      simp only [strtodScale, h300, h307, hx, if_false, if_true, hnz, powLoop_ten _ hk,
        mul_ofNat_round, Dbl.ofDecimal, Dbl.ofRatio, strtodDone, sign_mul_ofUnits,
        ofUnits_not_gt_DBL_MAX _ _ (small_units_mul N _ hN hk), Bool.false_eq_true]

/-! ### The phases of the decimal branch -/

theorem isDigit_iff (c : Nat) : isDigit c = true ↔ 48 ≤ c ∧ c ≤ 57 := by
  simp only [isDigit, Bool.and_eq_true, decide_eq_true_eq]
  exact Iff.rfl

theorem isDigit_zero : isDigit 0 = false := by decide

theorem drop_add_of_drop_eq (s a b : CString) (p : Nat) (hs : s.drop p = a ++ b) :
    s.drop (p + a.length) = b := by
  rw [← List.drop_drop, hs, List.drop_left]

theorem byteAt_of_drop_eq (s t : CString) (p i : Nat) (hs : s.drop p = t) :
    byteAt s (p + i) = byteAt t i := by
  rw [← hs, byteAt_drop]

theorem byteAt_cons_zero (c : Nat) (cs : CString) : byteAt (c :: cs) 0 = c := rfl

theorem byteAt_cons_succ (c : Nat) (cs : CString) (i : Nat) :
    byteAt (c :: cs) (i + 1) = byteAt cs i := rfl

theorem byteAt_nil (i : Nat) : byteAt [] i = 0 := by
  simp [byteAt]

theorem gt_ofNat_max (N : Nat) (hN : N < 2 ^ 53) :
    (Dbl.ofNat N).gt (Dbl.ofNat (2 ^ 53 - 1)) = false := by
  have h : N * unitsPerOne ≤ (2 ^ 53 - 1) * unitsPerOne :=
    Nat.mul_le_mul_right _ (by omega)
  simp only [Dbl.gt, Dbl.ofNat, Dbl.rank, Bool.false_eq_true, if_false,
    decide_eq_false_iff_not, gt_iff_lt, not_lt]
  exact_mod_cast h

/-- The exponent loop reads the number written by the digits while it stays at most
`MAX_EXPONENT_PREFIX`. -/
theorem expDigits_exact (E rest : List Nat) (hd : ∀ c ∈ E, isDigit c = true)
    (hrest : isDigit (byteAt rest 0) = false) :
    ∀ n : Nat, digitsVal n E ≤ 9999 →
      expDigits (n : Int) (E ++ rest) = (((digitsVal n E : Nat) : Int), E.length) := by
  induction E with
  | nil =>
    intro n _
    cases rest with
    | nil => rfl
    | cons c cs =>
      have : isDigit c = false := by simpa [byteAt] using hrest
      simp [expDigits, this, digitsVal]
  | cons c E ih =>
    intro n hn
    have hc := hd c (List.mem_cons_self _ _)
    have hc' := (isDigit_iff c).1 hc
    rw [digitsVal_cons] at hn
    have hle := le_digitsVal E (10 * n + (c - chr '0'))
    have h0 : chr '0' = 48 := rfl
    have hlt : (n : Int) < MAX_EXPONENT_PREFIX := by
      simp only [MAX_EXPONENT_PREFIX]; omega
    have hcast : (n : Int) * 10 + ((c : Int) - ((chr '0' : Nat) : Int)) =
        ((10 * n + (c - chr '0') : Nat) : Int) := by
      rw [h0]; omega
    have hih := ih (fun x hx => hd x (List.mem_cons_of_mem _ hx)) _ hn
    simp only [List.cons_append, expDigits, hc, if_true, hlt, hcast, digitsVal_cons,
      List.length_cons]
    rw [show E.append rest = E ++ rest from rfl, hih]

/-- The integer part alone: digits not followed by the separator. -/
theorem strtodDecimal_int (s : CString) (dec : Nat) (exact sign : Int) (p : Nat)
    (D1 tail : CString) (hs : s.drop p = D1 ++ tail)
    (hD1 : ∀ c ∈ D1, isDigit c = true) (hne : D1 ≠ [])
    (htail : isDigit (byteAt tail 0) = false) (hsep : byteAt tail 0 ≠ dec)
    (hN : digitsVal 0 D1 < 2 ^ 53) :
    strtodDecimal s dec exact sign p =
      some (strtodExponent s sign (Dbl.ofNat (digitsVal 0 D1)) 0 D1.length
        (p + D1.length) false) := by
  have h1 := decDigits_exact D1 tail hD1 (Or.inl htail) 0 hN
  have hb : byteAt s (p + D1.length) = byteAt tail 0 := by
    rw [← Nat.add_zero (p + D1.length), byteAt_of_drop_eq s tail (p + D1.length) 0
      (drop_add_of_drop_eq s D1 tail p hs)]
  have hlen : D1.length ≠ 0 := fun h => hne (List.length_eq_zero.1 h)
  simp only [strtodDecimal, hs, h1, hb, hsep, false_and, if_false, Nat.add_zero, hlen,
    gt_ofNat_max _ hN, Bool.false_eq_true, and_false, decide_False, Nat.cast_zero, neg_zero]

/-- The integer and fractional parts around the separator. -/
theorem strtodDecimal_frac (s : CString) (dec : Nat) (exact sign : Int) (p : Nat)
    (D1 D2 tail : CString) (hs : s.drop p = D1 ++ dec :: (D2 ++ tail))
    (hdec0 : dec ≠ 0) (hdecd : isDigit dec = false)
    (hD1 : ∀ c ∈ D1, isDigit c = true) (hD2 : ∀ c ∈ D2, isDigit c = true)
    (hne : D1.length + D2.length ≠ 0)
    (htail : isDigit (byteAt tail 0) = false)
    (hN : digitsVal 0 (D1 ++ D2) < 2 ^ 53) :
    strtodDecimal s dec exact sign p =
      some (strtodExponent s sign (Dbl.ofNat (digitsVal 0 (D1 ++ D2))) (-(D2.length : Int))
        (D1.length + D2.length) (p + D1.length + 1 + D2.length) false) := by
  rw [digitsVal_append] at hN
  have hN1 : digitsVal 0 D1 < 2 ^ 53 := lt_of_le_of_lt (le_digitsVal D2 _) hN
  have h1 := decDigits_exact D1 (dec :: (D2 ++ tail)) hD1
    (Or.inl (by rw [byteAt_cons_zero]; exact hdecd)) 0 hN1
  have hb : byteAt s (p + D1.length) = dec := by
    rw [← Nat.add_zero (p + D1.length), byteAt_of_drop_eq s _ (p + D1.length) 0
      (drop_add_of_drop_eq s D1 _ p hs), byteAt_cons_zero]
  have hs2 : s.drop (p + D1.length + 1) = D2 ++ tail := by
    have := drop_add_of_drop_eq s (D1 ++ [dec]) (D2 ++ tail) p (by simpa using hs)
    simpa [Nat.add_assoc] using this
  have h2 := decDigits_exact D2 tail hD2 (Or.inl htail) (digitsVal 0 D1) hN
  simp only [strtodDecimal, hs, h1, hb, hdec0, and_false, false_and, if_false, if_true, hs2,
    h2, hne, digitsVal_append, gt_ofNat_max _ hN, Bool.false_eq_true, decide_False]

/-- No exponent follows the digits. -/
theorem strtodExponent_none (s : CString) (sign : Int) (ans : Dbl) (expn : Int)
    (nd p : Nat) (w : Bool) (h1 : byteAt s p ≠ chr 'e') (h2 : byteAt s p ≠ chr 'E') :
    strtodExponent s sign ans expn nd p w = strtodScale sign ans expn nd p w := by
  simp only [strtodExponent, h1, h2, or_self, if_false]

/-- An exponent `e`, optional sign, digits follows. -/
theorem strtodExponent_some (s : CString) (sign : Int) (ans : Dbl) (expn : Int)
    (nd p : Nat) (w : Bool) (ec : Nat) (esg E tail : CString)
    (hs : s.drop p = ec :: (esg ++ (E ++ tail)))
    (hec : ec = chr 'e' ∨ ec = chr 'E')
    (hesg : esg = [] ∨ esg = [chr '-'] ∨ esg = [chr '+'])
    (hE : ∀ c ∈ E, isDigit c = true) (hEne : E ≠ [])
    (htail : isDigit (byteAt tail 0) = false) (hval : digitsVal 0 E ≤ 9999) :
    strtodExponent s sign ans expn nd p w =
      strtodScale sign ans
        (expn + (if esg = [chr '-'] then -1 else 1) * ((digitsVal 0 E : Nat) : Int)) nd
        (p + 1 + esg.length + E.length) w := by
  have hb : byteAt s p = ec := by
    rw [← Nat.add_zero p, byteAt_of_drop_eq s _ p 0 hs, byteAt_cons_zero]
  have hb1 : byteAt s (p + 1) = byteAt (esg ++ (E ++ tail)) 0 := by
    rw [byteAt_of_drop_eq s _ p 1 hs]; rfl
  have hs1 : s.drop (p + 1) = esg ++ (E ++ tail) := by
    have := drop_add_of_drop_eq s [ec] (esg ++ (E ++ tail)) p (by simpa using hs)
    simpa using this
  have hs2 : s.drop (p + 1 + esg.length) = E ++ tail :=
    drop_add_of_drop_eq s esg (E ++ tail) (p + 1) hs1
  have hexp : expDigits 0 (E ++ tail) = (((digitsVal 0 E : Nat) : Int), E.length) := by
    simpa using expDigits_exact E tail hE htail 0 hval
  have hcond : byteAt s p = chr 'e' ∨ byteAt s p = chr 'E' := by rw [hb]; exact hec
  have hm : chr '-' = 45 := rfl
  have hp : chr '+' = 43 := rfl
  have hhead : isDigit (byteAt (E ++ tail) 0) = true := by
    obtain ⟨c, cs, rfl⟩ := List.exists_cons_of_ne_nil hEne
    exact hE c (List.mem_cons_self _ _)
  rcases hesg with h | h | h
  · subst h
    have hc := (isDigit_iff _).1 hhead
    have hsgn : expSign (byteAt s (p + 1)) = (1, 0) := by
      rw [hb1]
      simp only [List.nil_append, expSign, hm, hp]
      rw [if_neg (by omega), if_neg (by omega)]
    simp only [List.length_nil, Nat.add_zero] at hs2
    simp only [strtodExponent, hcond, if_true, hsgn, Nat.add_zero, hs2, hexp,
      List.length_nil]
    simp
  · subst h
    have hsgn : expSign (byteAt s (p + 1)) = (-1, 1) := by
      rw [hb1]; simp [byteAt_cons_zero, expSign]
    simp only [List.length_singleton] at hs2
    simp only [strtodExponent, hcond, if_true, hsgn, hs2, hexp, List.length_singleton]
  · subst h
    have hsgn : expSign (byteAt s (p + 1)) = (1, 1) := by
      rw [hb1]
      simp [byteAt_cons_zero, expSign, hm, hp]
    simp only [List.length_singleton] at hs2
    have hne : ¬ ([chr '+'] = [chr '-']) := by
      rw [hm, hp]; decide
    simp only [strtodExponent, hcond, if_true, hsgn, hs2, hexp, List.length_singleton, hne,
      if_false]

/-! ### The front end of `R_strtod5` -/

theorem isspace_ne_zero (c : Nat) (h : isspace c = true) : c ≠ 0 := by
  intro h0; subst h0; revert h; decide

theorem skipSpace_append (ws body : CString) (hws : ∀ c ∈ ws, isspace c = true)
    (hb : isspace (byteAt body 0) = false) : skipSpace (ws ++ body) = ws.length := by
  induction ws with
  | nil =>
    cases body with
    | nil => rfl
    | cons c cs =>
      have : isspace c = false := by simpa [byteAt] using hb
      simp [skipSpace, this]
  | cons c ws ih =>
    have hc := hws c (List.mem_cons_self _ _)
    simp only [List.cons_append, skipSpace, hc, if_true, List.length_cons]
    rw [show ws.append body = ws ++ body from rfl, ih (fun x hx => hws x (List.mem_cons_of_mem _ hx))]

/-- The steps of `R_strtod5` before the digits: white space, the `NA` token, the sign, the
special values and the choice between the hexadecimal and the decimal branch. -/
theorem R_strtod5_front (ws sg t : CString) (dec : Nat) (NA : Bool) (exact : Int)
    (hws : ∀ c ∈ ws, isspace c = true)
    (hsg : sg = [] ∨ sg = [chr '-'] ∨ sg = [chr '+'])
    (ht0 : ∀ c ∈ t, c ≠ 0)
    (hhead : sg = [] →
      isspace (byteAt t 0) = false ∧ byteAt t 0 ≠ chr '-' ∧ byteAt t 0 ≠ chr '+') :
    R_strtod5 (ws ++ (sg ++ t)) dec NA exact =
      if (NA && strncmpEq (sg ++ t) [chr 'N', chr 'A']) = true then
        some (strtodDone 1 NA_REAL (ws.length + 2) false)
      else if strncasecmpEq t [chr 'N', chr 'a', chr 'N'] = true then
        some (strtodDone (if sg = [chr '-'] then -1 else 1) R_NaN
          (ws.length + sg.length + 3) false)
      else if strncasecmpEq t
          [chr 'i', chr 'n', chr 'f', chr 'i', chr 'n', chr 'i', chr 't', chr 'y'] = true then
        some (strtodDone (if sg = [chr '-'] then -1 else 1) R_PosInf
          (ws.length + sg.length + 8) false)
      else if strncasecmpEq t [chr 'I', chr 'n', chr 'f'] = true then
        some (strtodDone (if sg = [chr '-'] then -1 else 1) R_PosInf
          (ws.length + sg.length + 3) false)
      else if t.length > 2 ∧ byteAt t 0 = chr '0' ∧
          (byteAt t 1 = chr 'x' ∨ byteAt t 1 = chr 'X') then
        strtodHex (ws ++ (sg ++ t)) dec exact (if sg = [chr '-'] then -1 else 1)
          (ws.length + sg.length)
      else
        strtodDecimal (ws ++ (sg ++ t)) dec exact (if sg = [chr '-'] then -1 else 1)
          (ws.length + sg.length) := by
  have hm : chr '-' = 45 := rfl
  have hp : chr '+' = 43 := rfl
  have hsg0 : ∀ c ∈ sg, c ≠ 0 := by
    rcases hsg with h | h | h <;> subst h <;> simp [hm, hp]
  have htw : (ws ++ (sg ++ t)).takeWhile (· ≠ 0) = ws ++ (sg ++ t) := by
    rw [List.takeWhile_eq_self_iff]
    intro c hc
    simp only [List.mem_append] at hc
    have : c ≠ 0 := by
      rcases hc with h | h | h
      · exact isspace_ne_zero c (hws c h)
      · exact hsg0 c h
      · exact ht0 c h
    simpa using this
  have hsp : isspace (byteAt (sg ++ t) 0) = false := by
    rcases hsg with h | h | h
    · subst h; exact (hhead rfl).1
    · subst h; rw [List.singleton_append, byteAt_cons_zero, hm]; decide
    · subst h; rw [List.singleton_append, byteAt_cons_zero, hp]; decide
  have hskip := skipSpace_append ws (sg ++ t) hws hsp
  have hd0 : (ws ++ (sg ++ t)).drop ws.length = sg ++ t := List.drop_left _ _
  have hb0 : byteAt (ws ++ (sg ++ t)) ws.length = byteAt (sg ++ t) 0 := by
    have := byteAt_append_right ws (sg ++ t) 0
    simpa using this
  have hb : ∀ i, byteAt (ws ++ (sg ++ t)) (ws.length + sg.length + i) = byteAt t i := by
    intro i
    have := byteAt_append_right (ws ++ sg) t i
    simpa [List.append_assoc] using this
  have hd : (ws ++ (sg ++ t)).drop (ws.length + sg.length) = t := by
    have := List.drop_left (ws ++ sg) t
    rw [List.append_assoc, List.length_append] at this
    exact this
  have hb' : byteAt (ws ++ (sg ++ t)) (ws.length + sg.length) = byteAt t 0 := hb 0
  rcases hsg with h | h | h
  · subst h
    obtain ⟨-, h1, h2⟩ := hhead rfl
    simp only [List.nil_append, List.length_nil, Nat.add_zero] at hd hb hb' hb0 hd0 htw hskip ⊢
    simp only [R_strtod5, htw, hskip, hd0, hb0, h1, h2, or_self, if_false, hd, hb, hb']
    simp
  · subst h
    simp only [List.length_singleton] at hd hb hb' 
    have hs0 : byteAt ([chr '-'] ++ t) 0 = chr '-' := rfl
    simp only [R_strtod5, htw, hskip, hd0, hb0, hs0, true_or, if_true, hd, hb, hb']
    simp [strncmpEq, hm]
  · subst h
    simp only [List.length_singleton] at hd hb hb' 
    have hs0 : byteAt ([chr '+'] ++ t) 0 = chr '+' := rfl
    have hne : chr '+' ≠ chr '-' := by rw [hm, hp]; decide
    have hne' : ¬ ([chr '+'] = [chr '-']) := by rw [hm, hp]; decide
    simp only [R_strtod5, htw, hskip, hd0, hb0, hs0, hne, false_or, or_true, if_true,
      if_false, hd, hb, hb', hne']
    simp [strncmpEq, hp]

/-! ### The decimal branch as a whole -/

theorem digitsVal_nil (a : Nat) : digitsVal a [] = a := rfl

theorem ten_pow_15_lt : (10:Nat) ^ 15 < 2 ^ 53 := by decide

theorem digitsVal_lt_two_pow (ds : List Nat) (hd : ∀ c ∈ ds, isDigit c = true)
    (hlen : ds.length ≤ 15) : digitsVal 0 ds < 2 ^ 53 := by
  have h1 := digitsVal_lt ds hd 0
  have h2 : (10:Nat) ^ ds.length ≤ 10 ^ 15 := Nat.pow_le_pow_right (by decide) hlen
  have h3 := ten_pow_15_lt
  omega

/-- The digits of the decimal branch: an integer part `D1` and an optional fraction
`dec D2`, together at most 15 digits, are read exactly. -/
theorem strtodDecimal_digits (s : CString) (dec : Nat) (exact sign : Int) (p : Nat)
    (D1 D2 frac tail : CString) (hs : s.drop p = D1 ++ (frac ++ tail))
    (hD1 : ∀ c ∈ D1, isDigit c = true) (hD2 : ∀ c ∈ D2, isDigit c = true)
    (hfrac : (frac = [] ∧ D2 = [] ∧ byteAt tail 0 ≠ dec) ∨
      (frac = dec :: D2 ∧ dec ≠ 0 ∧ isDigit dec = false))
    (hne : D1.length + D2.length ≠ 0) (hlen : D1.length + D2.length ≤ 15)
    (htail : isDigit (byteAt tail 0) = false) :
    strtodDecimal s dec exact sign p =
      some (strtodExponent s sign (Dbl.ofNat (digitsVal 0 (D1 ++ D2))) (-(D2.length : Int))
        (D1.length + D2.length) (p + D1.length + frac.length) false) := by
  have hN : digitsVal 0 (D1 ++ D2) < 2 ^ 53 :=
    digitsVal_lt_two_pow _ (by
      intro c hc
      rcases List.mem_append.1 hc with h | h
      · exact hD1 c h
      · exact hD2 c h) (by simpa using hlen)
  rcases hfrac with ⟨h1, h2, h3⟩ | ⟨h1, h2, h3⟩
  · subst h1; subst h2
    simp only [List.nil_append, List.append_nil, List.length_nil, Nat.add_zero] at hs hN hne ⊢
    have := strtodDecimal_int s dec exact sign p D1 tail hs hD1
      (fun h => hne (by simp [h])) htail h3 hN
    simpa using this
  · subst h1
    have hs' : s.drop p = D1 ++ dec :: (D2 ++ tail) := by simpa using hs
    have e : p + D1.length + (dec :: D2).length = p + D1.length + 1 + D2.length := by
      rw [List.length_cons]; omega
    rw [e]
    exact strtodDecimal_frac s dec exact sign p D1 D2 tail hs' h2 h3 hD1 hD2 hne htail hN

/-- The optional exponent `e[±]E` of the decimal branch. -/
theorem strtodExponent_value (s : CString) (sign : Int) (ans : Dbl) (expn : Int)
    (nd p : Nat) (w : Bool) (ec : Nat) (esg E expo tail : CString)
    (hs : s.drop p = expo ++ tail)
    (hE : ∀ c ∈ E, isDigit c = true)
    (hexpo : (expo = [] ∧ E = [] ∧ byteAt tail 0 ≠ chr 'e' ∧ byteAt tail 0 ≠ chr 'E') ∨
      (expo = ec :: (esg ++ E) ∧ E ≠ [] ∧ (ec = chr 'e' ∨ ec = chr 'E') ∧
        (esg = [] ∨ esg = [chr '-'] ∨ esg = [chr '+'])))
    (htail : isDigit (byteAt tail 0) = false) (hval : digitsVal 0 E ≤ 9999) :
    strtodExponent s sign ans expn nd p w =
      strtodScale sign ans
        (expn + (if esg = [chr '-'] then -1 else 1) * ((digitsVal 0 E : Nat) : Int)) nd
        (p + expo.length) w := by
  rcases hexpo with ⟨h1, h2, h3, h4⟩ | ⟨h1, h2, h3, h4⟩
  · subst h1; subst h2
    have hb : byteAt s p = byteAt tail 0 := by
      rw [← Nat.add_zero p, byteAt_of_drop_eq s _ p 0 (by simpa using hs)]
    rw [strtodExponent_none s sign ans expn nd p w (by rw [hb]; exact h3)
      (by rw [hb]; exact h4)]
    simp [digitsVal_nil]
  · subst h1
    have hs' : s.drop p = ec :: (esg ++ (E ++ tail)) := by simpa using hs
    have e : p + (ec :: (esg ++ E)).length = p + 1 + esg.length + E.length := by
      rw [List.length_cons, List.length_append]; omega
    rw [e]
    exact strtodExponent_some s sign ans expn nd p w ec esg E tail hs' h3 h4 hE h2 htail hval

/-- The decimal branch on a text `D1 [dec D2] [e[±]E]` of at most 15 digits whose
decimal exponent has magnitude at most 22: the result is the double nearest to the
value of the text, and the text is consumed. -/
theorem strtodDecimal_value (s : CString) (dec : Nat) (exact sign : Int) (p : Nat)
    (ec : Nat) (D1 D2 frac esg E expo tail : CString)
    (hs : s.drop p = D1 ++ (frac ++ (expo ++ tail)))
    (hD1 : ∀ c ∈ D1, isDigit c = true) (hD2 : ∀ c ∈ D2, isDigit c = true)
    (hE : ∀ c ∈ E, isDigit c = true)
    (hfrac : (frac = [] ∧ D2 = [] ∧ byteAt (expo ++ tail) 0 ≠ dec) ∨
      (frac = dec :: D2 ∧ dec ≠ 0 ∧ isDigit dec = false))
    (hexpo : (expo = [] ∧ E = [] ∧ byteAt tail 0 ≠ chr 'e' ∧ byteAt tail 0 ≠ chr 'E') ∨
      (expo = ec :: (esg ++ E) ∧ E ≠ [] ∧ (ec = chr 'e' ∨ ec = chr 'E') ∧
        (esg = [] ∨ esg = [chr '-'] ∨ esg = [chr '+'])))
    (hne : D1.length + D2.length ≠ 0) (hlen : D1.length + D2.length ≤ 15)
    (htail : isDigit (byteAt tail 0) = false)
    (hlo : -22 ≤ (if esg = [chr '-'] then -1 else 1) * ((digitsVal 0 E : Nat) : Int)
      - (D2.length : Int))
    (hhi : (if esg = [chr '-'] then -1 else 1) * ((digitsVal 0 E : Nat) : Int)
      - (D2.length : Int) ≤ 22) :
    strtodDecimal s dec exact sign p =
      some { value := Dbl.ofDecimal (decide (sign < 0)) (digitsVal 0 (D1 ++ D2))
               ((if esg = [chr '-'] then -1 else 1) * ((digitsVal 0 E : Nat) : Int)
                 - (D2.length : Int)),
             endptr := p + D1.length + frac.length + expo.length,
             warned := false } := by
  have hN : digitsVal 0 (D1 ++ D2) < 2 ^ 53 :=
    digitsVal_lt_two_pow _ (by
      intro c hc
      rcases List.mem_append.1 hc with h | h
      · exact hD1 c h
      · exact hD2 c h) (by simpa using hlen)
  have htail' : isDigit (byteAt (expo ++ tail) 0) = false := by
    rcases hexpo with ⟨h1, -, -, -⟩ | ⟨h1, -, h3, -⟩
    · subst h1; simpa using htail
    · subst h1
      rw [List.cons_append, byteAt_cons_zero]
      rcases h3 with h | h <;> subst h <;> decide
  have hs2 : s.drop (p + D1.length + frac.length) = expo ++ tail := by
    have := drop_add_of_drop_eq s (D1 ++ frac) (expo ++ tail) p (by simpa using hs)
    simpa [Nat.add_assoc] using this
  have hval : digitsVal 0 E ≤ 9999 := by
    by_cases h : esg = [chr '-']
    · simp only [h, if_true] at hlo hhi; omega
    · simp only [h, if_false] at hlo hhi; omega
  generalize hc : (if esg = [chr '-'] then (-1 : Int) else 1) * ((digitsVal 0 E : Nat) : Int)
    = c at hlo hhi ⊢
  have hx : -(D2.length : Int) + c = c - (D2.length : Int) := by omega
  rw [strtodDecimal_digits s dec exact sign p D1 D2 frac (expo ++ tail) hs hD1 hD2 hfrac hne
      hlen htail',
    strtodExponent_value s sign _ _ _ _ false ec esg E expo tail hs2 hE hexpo htail hval,
    hc, hx, strtodScale_exact sign _ _ _ _ false hN hlo hhi]

/-! ### Letters, tokens and the special values -/

theorem isLetter_iff (c : Nat) :
    isLetter c = true ↔ (97 ≤ c ∧ c ≤ 122) ∨ (65 ≤ c ∧ c ≤ 90) := by
  simp only [isLetter, Bool.or_eq_true, Bool.and_eq_true, decide_eq_true_eq]
  exact Iff.rfl

theorem tolower_eq (c : Nat) : tolower c = if 65 ≤ c ∧ c ≤ 90 then c + 32 else c := rfl

theorem tolower_of_not_letter (c : Nat) (h : isLetter c = false) : tolower c = c := by
  have h' : ¬ ((97 ≤ c ∧ c ≤ 122) ∨ (65 ≤ c ∧ c ≤ 90)) := by
    rw [← isLetter_iff]; simp [h]
  rw [tolower_eq, if_neg (by omega)]

theorem isLetter_of_tolower (c : Nat) (h : isLetter (tolower c) = true) :
    isLetter c = true := by
  rw [isLetter_iff] at h ⊢
  rw [tolower_eq] at h
  by_cases hc : 65 ≤ c ∧ c ≤ 90
  · exact Or.inr hc
  · rw [if_neg hc] at h; exact h

theorem strncasecmpEq_nil_right (t : CString) : strncasecmpEq t [] = true := by
  cases t <;> rfl

theorem strncmpEq_not_letter (t : CString) (l : Nat) (ls : List Nat)
    (hl : isLetter l = true) (h : isLetter (byteAt t 0) = false) :
    strncmpEq t (l :: ls) = false := by
  cases t with
  | nil => rfl
  | cons c cs =>
    rw [byteAt_cons_zero] at h
    have : c ≠ l := by intro e; rw [e, hl] at h; cases h
    simp [strncmpEq, this]

theorem strncasecmpEq_not_letter (t : CString) (l : Nat) (ls : List Nat)
    (hl : isLetter (tolower l) = true) (h : isLetter (byteAt t 0) = false) :
    strncasecmpEq t (l :: ls) = false := by
  cases t with
  | nil => rfl
  | cons c cs =>
    rw [byteAt_cons_zero] at h
    have : c ≠ tolower l := by intro e; rw [e, hl] at h; cases h
    simp [strncasecmpEq, tolower_of_not_letter c h, this]

theorem strncasecmpEq_append (tok rest : CString) :
    ∀ l1 l2 : List Nat, tok.map tolower = l1.map tolower →
      strncasecmpEq (tok ++ rest) (l1 ++ l2) = strncasecmpEq rest l2 := by
  induction tok with
  | nil =>
    intro l1 l2 h
    cases l1 with
    | nil => rfl
    | cons l l1 => simp at h
  | cons c tok ih =>
    intro l1 l2 h
    cases l1 with
    | nil => simp at h
    | cons l l1 =>
      simp only [List.map_cons, List.cons.injEq] at h
      simp only [List.cons_append, strncasecmpEq, h.1, beq_self_eq_true, Bool.true_and]
      exact ih l1 l2 h.2

theorem strncasecmpEq_head_ne (c l : Nat) (cs ls : List Nat) (h : tolower c ≠ tolower l) :
    strncasecmpEq (c :: cs) (l :: ls) = false := by
  simp [strncasecmpEq, h]

/-- A token spelled with letters only has no NUL and begins with neither white space nor
a sign. -/
theorem token_props (tok rest lit : CString) (h : tok.map tolower = lit)
    (hlit : ∀ l ∈ lit, isLetter l = true) (hne : lit ≠ []) (hrest : ∀ c ∈ rest, c ≠ 0) :
    (∀ c ∈ tok ++ rest, c ≠ 0) ∧ isspace (byteAt (tok ++ rest) 0) = false ∧
      byteAt (tok ++ rest) 0 ≠ chr '-' ∧ byteAt (tok ++ rest) 0 ≠ chr '+' := by
  have hlet : ∀ c ∈ tok, isLetter c = true := by
    intro c hc
    apply isLetter_of_tolower
    apply hlit
    rw [← h]
    exact List.mem_map_of_mem _ hc
  have hm : chr '-' = 45 := rfl
  have hp : chr '+' = 43 := rfl
  refine ⟨?_, ?_⟩
  · intro c hc
    rcases List.mem_append.1 hc with h1 | h1
    · have := (isLetter_iff c).1 (hlet c h1); omega
    · exact hrest c h1
  · cases tok with
    | nil => subst h; exact absurd rfl hne
    | cons c tok =>
      have hc := (isLetter_iff c).1 (hlet c (List.mem_cons_self _ _))
      rw [List.cons_append, byteAt_cons_zero, hm, hp]
      refine ⟨?_, by omega, by omega⟩
      simp only [isspace, Bool.or_eq_false_iff, Bool.and_eq_false_iff, decide_eq_false_iff_not]
      omega

theorem strtodDone_nan (sign : Int) (b : Bool) (p : Nat) (w : Bool) :
    strtodDone sign (.nan b) p w = { value := .nan b, endptr := p, warned := w } := rfl

theorem strtodDone_inf (sign : Int) (p : Nat) (w : Bool) :
    strtodDone sign R_PosInf p w =
      { value := .inf (decide (sign < 0)), endptr := p, warned := w } := by
  simp [strtodDone, R_PosInf, Dbl.ofSign, Dbl.mul, unitsPerOne_ne_zero]

/-- Without a digit in the integer or the fractional position the decimal branch backs
out. -/
theorem strtodDecimal_reject (s : CString) (dec : Nat) (exact sign : Int) (p : Nat)
    (t : CString) (hs : s.drop p = t) (hdig : isDigit (byteAt t 0) = false)
    (hfrac : byteAt t 0 = dec → isDigit (byteAt t 1) = false ∧ dec ≠ 0) :
    strtodDecimal s dec exact sign p =
      some { value := NA_REAL, endptr := 0, warned := false } := by
  have h1 : decDigits (Dbl.ofNat 0) (s.drop p) = (Dbl.ofNat 0, 0) := by
    rw [hs]; exact decDigits_exact [] t (by simp) (Or.inl hdig) 0 (by decide)
  have hb : byteAt s p = byteAt t 0 := byteAt_of_drop_eq s t p 0 hs
  by_cases hd : byteAt t 0 = dec
  · obtain ⟨hf, hz⟩ := hfrac hd
    have h2 : decDigits (Dbl.ofNat 0) (s.drop (p + 1)) = (Dbl.ofNat 0, 0) := by
      have e : s.drop (p + 1) = t.drop 1 := by
        rw [← List.drop_drop, hs]
      rw [e]
      exact decDigits_exact [] (t.drop 1) (by simp)
        (Or.inl (by rw [byteAt_drop]; exact hf)) 0 (by decide)
    simp only [strtodDecimal, h1, Nat.add_zero, hb, hd, hz, and_false, if_false, if_true, h2]
    rfl
  · simp only [strtodDecimal, h1, Nat.add_zero, hb, hd, false_and, if_false, if_true]
    rfl

theorem infinity_imp_inf (t : CString)
    (h : strncasecmpEq t [chr 'I', chr 'n', chr 'f'] = false) :
    strncasecmpEq t
      [chr 'i', chr 'n', chr 'f', chr 'i', chr 'n', chr 'i', chr 't', chr 'y'] = false := by
  have e1 : tolower (chr 'I') = tolower (chr 'i') := by decide
  rcases t with _ | ⟨a, _ | ⟨b, _ | ⟨c, r⟩⟩⟩
  · rfl
  · simp [strncasecmpEq]
  · simp [strncasecmpEq]
  · simp only [strncasecmpEq, e1, strncasecmpEq_nil_right, Bool.and_true] at h ⊢
    cases h1 : (tolower a == tolower (chr 'i')) <;>
    cases h2 : (tolower b == tolower (chr 'n')) <;>
    cases h3 : (tolower c == tolower (chr 'f')) <;> simp [h1, h2, h3] at h ⊢

/-- A text with no digit in the integer or the fractional position that spells none of
the special values is rejected: `NA_REAL` with `*endptr = str`. -/
theorem R_strtod5_reject (ws sg t : CString) (dec : Nat) (NA : Bool) (exact : Int)
    (hws : ∀ c ∈ ws, isspace c = true)
    (hsg : sg = [] ∨ sg = [chr '-'] ∨ sg = [chr '+'])
    (ht0 : ∀ c ∈ t, c ≠ 0)
    (hhead : sg = [] →
      isspace (byteAt t 0) = false ∧ byteAt t 0 ≠ chr '-' ∧ byteAt t 0 ≠ chr '+')
    (hna : NA = true → sg = [] → strncmpEq t [chr 'N', chr 'A'] = false)
    (hnan : strncasecmpEq t [chr 'N', chr 'a', chr 'N'] = false)
    (hinf : strncasecmpEq t [chr 'I', chr 'n', chr 'f'] = false)
    (hdig : isDigit (byteAt t 0) = false)
    (hfrac : byteAt t 0 = dec → isDigit (byteAt t 1) = false)
    (hdec : t = [] → dec ≠ 0) :
    R_strtod5 (ws ++ (sg ++ t)) dec NA exact =
      some { value := NA_REAL, endptr := 0, warned := false } := by
  have hna' : (NA && strncmpEq (sg ++ t) [chr 'N', chr 'A']) = false := by
    cases NA with
    | false => rfl
    | true =>
      rcases hsg with h | h | h
      · subst h; simpa using hna rfl rfl
      · subst h
        have : chr '-' ≠ chr 'N' := by decide
        simp [strncmpEq, this]
      · subst h
        have : chr '+' ≠ chr 'N' := by decide
        simp [strncmpEq, this]
  have hhex : ¬ (t.length > 2 ∧ byteAt t 0 = chr '0' ∧
      (byteAt t 1 = chr 'x' ∨ byteAt t 1 = chr 'X')) := by
    rintro ⟨-, h, -⟩
    rw [h] at hdig; revert hdig; decide
  have hd : (ws ++ (sg ++ t)).drop (ws.length + sg.length) = t := by
    have := List.drop_left (ws ++ sg) t
    rw [List.append_assoc, List.length_append] at this
    exact this
  rw [R_strtod5_front ws sg t dec NA exact hws hsg ht0 hhead]
  simp only [hna', Bool.false_eq_true, if_false, hnan, infinity_imp_inf t hinf, hinf, hhex]
  apply strtodDecimal_reject _ dec exact _ _ t hd hdig
  intro h
  refine ⟨hfrac h, ?_⟩
  cases t with
  | nil => exact hdec rfl
  | cons c cs =>
    rw [byteAt_cons_zero] at h
    rw [← h]; exact ht0 c (List.mem_cons_self _ _)

/-! ### Decimal texts -/

theorem isDigit_not_letter (c : Nat) (h : isDigit c = true) : isLetter c = false := by
  have h1 := (isDigit_iff c).1 h
  cases hl : isLetter c with
  | false => rfl
  | true => have := (isLetter_iff c).1 hl; omega

theorem isDigit_not_space (c : Nat) (h : isDigit c = true) : isspace c = false := by
  have h1 := (isDigit_iff c).1 h
  simp only [isspace, Bool.or_eq_false_iff, Bool.and_eq_false_iff, decide_eq_false_iff_not]
  omega

/-- Where the first character after the sign is no letter and no hexadecimal prefix
follows, `R_strtod5` takes the decimal branch. -/
theorem R_strtod5_decimal_branch (ws sg t : CString) (dec : Nat) (NA : Bool) (exact : Int)
    (hws : ∀ c ∈ ws, isspace c = true)
    (hsg : sg = [] ∨ sg = [chr '-'] ∨ sg = [chr '+'])
    (ht0 : ∀ c ∈ t, c ≠ 0)
    (hhead : sg = [] →
      isspace (byteAt t 0) = false ∧ byteAt t 0 ≠ chr '-' ∧ byteAt t 0 ≠ chr '+')
    (hlet : isLetter (byteAt t 0) = false)
    (hhex : byteAt t 0 = chr '0' → byteAt t 1 ≠ chr 'x' ∧ byteAt t 1 ≠ chr 'X') :
    R_strtod5 (ws ++ (sg ++ t)) dec NA exact =
      strtodDecimal (ws ++ (sg ++ t)) dec exact (if sg = [chr '-'] then -1 else 1)
        (ws.length + sg.length) := by
  have hna' : (NA && strncmpEq (sg ++ t) [chr 'N', chr 'A']) = false := by
    cases NA with
    | false => rfl
    | true =>
      rcases hsg with h | h | h
      · subst h
        simpa using strncmpEq_not_letter t (chr 'N') [chr 'A'] (by decide) hlet
      · subst h
        have : chr '-' ≠ chr 'N' := by decide
        simp [strncmpEq, this]
      · subst h
        have : chr '+' ≠ chr 'N' := by decide
        simp [strncmpEq, this]
  have hnan := strncasecmpEq_not_letter t (chr 'N') [chr 'a', chr 'N'] (by decide) hlet
  have hinf := strncasecmpEq_not_letter t (chr 'I') [chr 'n', chr 'f'] (by decide) hlet
  have hinfty := strncasecmpEq_not_letter t (chr 'i')
    [chr 'n', chr 'f', chr 'i', chr 'n', chr 'i', chr 't', chr 'y'] (by decide) hlet
  have hhex' : ¬ (t.length > 2 ∧ byteAt t 0 = chr '0' ∧
      (byteAt t 1 = chr 'x' ∨ byteAt t 1 = chr 'X')) := by
    rintro ⟨-, h, h1 | h1⟩
    · exact (hhex h).1 h1
    · exact (hhex h).2 h1
  rw [R_strtod5_front ws sg t dec NA exact hws hsg ht0 hhead]
  simp only [hna', Bool.false_eq_true, if_false, hnan, hinf, hinfty, hhex']

theorem ofDecimal_neg_nat (neg : Bool) (N k : Nat) :
    Dbl.ofDecimal neg N (-(k : Int)) = Dbl.ofRatio neg N (10 ^ k) := by
  unfold Dbl.ofDecimal
  by_cases hk : k = 0
  · subst hk; simp
  · have : -(k : Int) < 0 := by omega
    simp [this]

/-- The general form of a decimal text: optional white space and sign, an integer part
`D1`, an optional fraction `dec D2`, an optional exponent `e[±]E`, and a tail that
begins with neither a digit, a letter nor `dec`.  With at most 15 digits and a decimal
exponent of magnitude at most 22 the result is the double nearest to the value of the
text, and `*endptr` is at the tail. -/
theorem R_strtod5_decimal_text (dec : Nat) (NA : Bool) (exact : Int) (ec : Nat)
    (ws sg D1 D2 frac esg E expo tail : CString)
    (hws : ∀ c ∈ ws, isspace c = true)
    (hsg : sg = [] ∨ sg = [chr '-'] ∨ sg = [chr '+'])
    (hD1 : ∀ c ∈ D1, isDigit c = true) (hD2 : ∀ c ∈ D2, isDigit c = true)
    (hE : ∀ c ∈ E, isDigit c = true)
    (hdec : dec ≠ 0 ∧ isDigit dec = false ∧ isLetter dec = false ∧ dec ≠ chr '-' ∧
      dec ≠ chr '+')
    (hsp : D1 = [] → sg = [] → isspace dec = false)
    (hfrac : (frac = [] ∧ D2 = []) ∨ frac = dec :: D2)
    (hexpo : (expo = [] ∧ E = []) ∨
      (expo = ec :: (esg ++ E) ∧ E ≠ [] ∧ (ec = chr 'e' ∨ ec = chr 'E') ∧
        (esg = [] ∨ esg = [chr '-'] ∨ esg = [chr '+'])))
    (htail0 : ∀ c ∈ tail, c ≠ 0)
    (htail : isDigit (byteAt tail 0) = false ∧ isLetter (byteAt tail 0) = false ∧
      byteAt tail 0 ≠ dec)
    (hne : D1.length + D2.length ≠ 0) (hlen : D1.length + D2.length ≤ 15)
    (hlo : -22 ≤ (if esg = [chr '-'] then -1 else 1) * ((digitsVal 0 E : Nat) : Int)
      - (D2.length : Int))
    (hhi : (if esg = [chr '-'] then -1 else 1) * ((digitsVal 0 E : Nat) : Int)
      - (D2.length : Int) ≤ 22) :
    R_strtod5 (ws ++ (sg ++ (D1 ++ (frac ++ (expo ++ tail))))) dec NA exact =
      some { value := Dbl.ofDecimal (decide (sg = [chr '-'])) (digitsVal 0 (D1 ++ D2))
               ((if esg = [chr '-'] then -1 else 1) * ((digitsVal 0 E : Nat) : Int)
                 - (D2.length : Int)),
             endptr := ws.length + sg.length + D1.length + frac.length + expo.length,
             warned := false } := by
  obtain ⟨hdec0, hdecd, hdecl, hdecm, hdecp⟩ := hdec
  obtain ⟨htd, htl, htdec⟩ := htail
  have hm : chr '-' = 45 := rfl
  have hp : chr '+' = 43 := rfl
  have he : chr 'e' = 101 := rfl
  have hE' : chr 'E' = 69 := rfl
  have hx : chr 'x' = 120 := rfl
  have hX : chr 'X' = 88 := rfl
  have hz : chr '0' = 48 := rfl
  have hdig0 : ∀ c, isDigit c = true → c ≠ 0 := by
    intro c hc; have := (isDigit_iff c).1 hc; omega
  -- the characters of the text are not NUL
  have hfrac0 : ∀ c ∈ frac, c ≠ 0 := by
    rcases hfrac with ⟨h, -⟩ | h
    · subst h; simp
    · subst h
      intro c hc
      rcases List.mem_cons.1 hc with h1 | h1
      · rw [h1]; exact hdec0
      · exact hdig0 c (hD2 c h1)
  have hexpo0 : ∀ c ∈ expo, c ≠ 0 := by
    rcases hexpo with ⟨h, -⟩ | ⟨h, -, h3, h4⟩
    · subst h; simp
    · subst h
      intro c hc
      rcases List.mem_cons.1 hc with h1 | h1
      · rw [h1]; rcases h3 with h | h <;> rw [h] <;> decide
      · rcases List.mem_append.1 h1 with h2 | h2
        · rcases h4 with h | h | h <;> subst h
          · cases h2
          · rw [List.mem_singleton.1 h2]; decide
          · rw [List.mem_singleton.1 h2]; decide
        · exact hdig0 c (hE c h2)
  have ht0 : ∀ c ∈ D1 ++ (frac ++ (expo ++ tail)), c ≠ 0 := by
    intro c hc
    simp only [List.mem_append] at hc
    rcases hc with h | h | h | h
    · exact hdig0 c (hD1 c h)
    · exact hfrac0 c h
    · exact hexpo0 c h
    · exact htail0 c h
  -- the first character of what follows the digits of the integer part
  have hnext : isLetter (byteAt (frac ++ (expo ++ tail)) 0) = false ∨
      byteAt (frac ++ (expo ++ tail)) 0 = chr 'e' ∨
      byteAt (frac ++ (expo ++ tail)) 0 = chr 'E' := by
    rcases hfrac with ⟨h, -⟩ | h
    · subst h
      rcases hexpo with ⟨h, -⟩ | ⟨h, -, h3, -⟩
      · subst h; exact Or.inl htl
      · subst h; exact Or.inr h3
    · subst h; exact Or.inl hdecl
  have hnextx : byteAt (frac ++ (expo ++ tail)) 0 ≠ chr 'x' ∧
      byteAt (frac ++ (expo ++ tail)) 0 ≠ chr 'X' := by
    rcases hnext with h | h | h
    · constructor
      · intro e; rw [e] at h; revert h; decide
      · intro e; rw [e] at h; revert h; decide
    · rw [h]; constructor <;> decide
    · rw [h]; constructor <;> decide
  have hfirst : (∃ c D1', D1 = c :: D1') ∨ (D1 = [] ∧ frac = dec :: D2) := by
    cases D1 with
    | cons c D1' => exact Or.inl ⟨c, D1', rfl⟩
    | nil =>
      rcases hfrac with ⟨-, h⟩ | h
      · subst h; exact absurd rfl hne
      · exact Or.inr ⟨rfl, h⟩
  have hhead : sg = [] →
      isspace (byteAt (D1 ++ (frac ++ (expo ++ tail))) 0) = false ∧
        byteAt (D1 ++ (frac ++ (expo ++ tail))) 0 ≠ chr '-' ∧
        byteAt (D1 ++ (frac ++ (expo ++ tail))) 0 ≠ chr '+' := by
    intro hsg0
    rcases hfirst with ⟨c, D1', h⟩ | ⟨h1, h2⟩
    · subst h
      have hc := hD1 c (List.mem_cons_self _ _)
      have hc' := (isDigit_iff c).1 hc
      rw [List.cons_append, byteAt_cons_zero, hm, hp]
      exact ⟨isDigit_not_space c hc, by omega, by omega⟩
    · subst h1; subst h2
      rw [List.nil_append, List.cons_append, byteAt_cons_zero]
      exact ⟨hsp rfl hsg0, hdecm, hdecp⟩
  have hlet : isLetter (byteAt (D1 ++ (frac ++ (expo ++ tail))) 0) = false := by
    rcases hfirst with ⟨c, D1', h⟩ | ⟨h1, h2⟩
    · subst h
      rw [List.cons_append, byteAt_cons_zero]
      exact isDigit_not_letter c (hD1 c (List.mem_cons_self _ _))
    · subst h1; subst h2
      rw [List.nil_append, List.cons_append, byteAt_cons_zero]
      exact hdecl
  have hhex : byteAt (D1 ++ (frac ++ (expo ++ tail))) 0 = chr '0' →
      byteAt (D1 ++ (frac ++ (expo ++ tail))) 1 ≠ chr 'x' ∧
        byteAt (D1 ++ (frac ++ (expo ++ tail))) 1 ≠ chr 'X' := by
    intro h0
    rcases hfirst with ⟨c, D1', h⟩ | ⟨h1, h2⟩
    · subst h
      rw [List.cons_append, byteAt_cons_succ]
      cases D1' with
      | nil => rw [List.nil_append]; exact hnextx
      | cons c2 D1'' =>
        have hc := (isDigit_iff c2).1
          (hD1 c2 (List.mem_cons_of_mem _ (List.mem_cons_self _ _)))
        rw [List.cons_append, byteAt_cons_zero, hx, hX]
        constructor <;> omega
    · subst h1; subst h2
      rw [List.nil_append, List.cons_append, byteAt_cons_zero] at h0
      rw [h0] at hdecd
      exact absurd hdecd (by decide)
  have hd : (ws ++ (sg ++ (D1 ++ (frac ++ (expo ++ tail))))).drop (ws.length + sg.length) =
      D1 ++ (frac ++ (expo ++ tail)) := by
    have := List.drop_left (ws ++ sg) (D1 ++ (frac ++ (expo ++ tail)))
    rw [List.append_assoc, List.length_append] at this
    exact this
  have hfrac' : (frac = [] ∧ D2 = [] ∧ byteAt (expo ++ tail) 0 ≠ dec) ∨
      (frac = dec :: D2 ∧ dec ≠ 0 ∧ isDigit dec = false) := by
    rcases hfrac with ⟨h1, h2⟩ | h
    · refine Or.inl ⟨h1, h2, ?_⟩
      rcases hexpo with ⟨h, -⟩ | ⟨h, -, h3, -⟩
      · subst h; exact htdec
      · subst h
        rw [List.cons_append, byteAt_cons_zero]
        intro e; rw [← e] at hdecl
        rcases h3 with h | h <;> rw [h] at hdecl <;> revert hdecl <;> decide
    · exact Or.inr ⟨h, hdec0, hdecd⟩
  have hexpo' : (expo = [] ∧ E = [] ∧ byteAt tail 0 ≠ chr 'e' ∧ byteAt tail 0 ≠ chr 'E') ∨
      (expo = ec :: (esg ++ E) ∧ E ≠ [] ∧ (ec = chr 'e' ∨ ec = chr 'E') ∧
        (esg = [] ∨ esg = [chr '-'] ∨ esg = [chr '+'])) := by
    rcases hexpo with ⟨h1, h2⟩ | h
    · refine Or.inl ⟨h1, h2, ?_, ?_⟩
      · intro e; rw [e] at htl; revert htl; decide
      · intro e; rw [e] at htl; revert htl; decide
    · exact Or.inr h
  rw [R_strtod5_decimal_branch ws sg _ dec NA exact hws hsg ht0 hhead hlet hhex,
    strtodDecimal_value _ dec exact _ _ ec D1 D2 frac esg E expo tail hd hD1 hD2 hE hfrac'
      hexpo' hne hlen htd hlo hhi]
  rcases hsg with h | h | h <;> subst h <;> simp [hm, hp]

/-! ### Claims on `R_strtod5` -/

/-- C14. For every text that, after optional white space `ws` and an optional sign `sg`,
continues with a `t` that has no digit in the integer position, no digit in the
fractional position (after a leading `dec`), spells neither NaN nor Inf (nor infinity)
in any letter case and, in NA mode, is not the token `NA`, `R_strtod5` returns `NA_REAL`
and sets `*endptr` to `str`: the offset is 0, nothing is consumed, and the accuracy
warning is not raised.  The separator is a character of the text alphabet: when `t` is
empty, `dec` is not NUL. -/
theorem R_strtod5_rejects_non_numeric (ws sg t : CString) (dec : Nat) (NA : Bool)
    (exact : Int)
    (hws : ∀ c ∈ ws, isspace c = true)
    (hsg : sg = [] ∨ sg = [chr '-'] ∨ sg = [chr '+'])
    (ht0 : ∀ c ∈ t, c ≠ 0)
    (hhead : sg = [] →
      isspace (byteAt t 0) = false ∧ byteAt t 0 ≠ chr '-' ∧ byteAt t 0 ≠ chr '+')
    (hna : NA = true → sg = [] → strncmpEq t [chr 'N', chr 'A'] = false)
    (hnan : strncasecmpEq t [chr 'N', chr 'a', chr 'N'] = false)
    (hinf : strncasecmpEq t [chr 'I', chr 'n', chr 'f'] = false)
    (hdig : isDigit (byteAt t 0) = false)
    (hfrac : byteAt t 0 = dec → isDigit (byteAt t 1) = false)
    (hdec : t = [] → dec ≠ 0) :
    R_strtod5 (ws ++ (sg ++ t)) dec NA exact =
      some { value := NA_REAL, endptr := 0, warned := false } :=
  R_strtod5_reject ws sg t dec NA exact hws hsg ht0 hhead hna hnan hinf hdig hfrac hdec

theorem R_strtod5_rejects_non_numeric_witness :
    R_strtod5 ([chr ' '] ++ ([chr '-'] ++ [chr 'a', chr 'b', chr 'c'])) (chr '.') true 0 =
      some { value := NA_REAL, endptr := 0, warned := false } :=
  R_strtod5_rejects_non_numeric [chr ' '] [chr '-'] [chr 'a', chr 'b', chr 'c'] (chr '.')
    true 0 (by decide) (by decide) (by decide) (by decide) (by decide) (by decide)
    (by decide) (by decide) (by decide) (by decide)

/-- C15 (defect). With `LDOUBLE` defined as `double`, the factor `2^1024` of the binary
exponent overflows to infinity, so the hexadecimal literal `0x8p-1024`, whose value
`2^(-1021)` is a normal double (`2^53` units of `2^(-1074)`), is returned as `0`; the
literal is consumed.  The example `0x1.8p3` of the claim does yield `12.0`. -/
theorem R_strtod_hex_exponent_underflows :
    R_strtod (bytes ['0', 'x', '8', 'p', '-', '1', '0', '2', '4']) =
        some { value := .finite false 0, endptr := 9, warned := false } ∧
      Dbl.ofRatio false 8 (2 ^ 1024) = .finite false (2 ^ 53) ∧
      powLoop Dbl.mul 1024 1024 (Dbl.ofNat 1) (Dbl.ofNat 2) = R_PosInf ∧
      R_strtod (bytes ['0', 'x', '1', '.', '8', 'p', '3']) =
        some { value := Dbl.ofNat 12, endptr := 7, warned := false } := by
  decide!

/-- C16. With NA mode disabled, for every text that, after optional white space `ws` and
an optional sign `sg`, continues with a token `tok` spelling `nan`, `infinity` or `inf`
in any letter case, `R_strtod5` returns NaN, respectively the infinity of the sign
(negative exactly for the sign `-`), and sets `*endptr` just past the token: 3 characters
for NaN, 8 for infinity, and 3 for Inf when `inity` does not follow. -/
theorem R_strtod5_special_values (ws sg tok rest : CString) (dec : Nat) (exact : Int)
    (hws : ∀ c ∈ ws, isspace c = true)
    (hsg : sg = [] ∨ sg = [chr '-'] ∨ sg = [chr '+'])
    (hrest : ∀ c ∈ rest, c ≠ 0) :
    (tok.map tolower = [chr 'n', chr 'a', chr 'n'] →
      R_strtod5 (ws ++ (sg ++ (tok ++ rest))) dec false exact =
        some { value := R_NaN, endptr := ws.length + sg.length + 3, warned := false }) ∧
    (tok.map tolower =
        [chr 'i', chr 'n', chr 'f', chr 'i', chr 'n', chr 'i', chr 't', chr 'y'] →
      R_strtod5 (ws ++ (sg ++ (tok ++ rest))) dec false exact =
        some { value := if sg = [chr '-'] then R_NegInf else R_PosInf,
               endptr := ws.length + sg.length + 8, warned := false }) ∧
    (tok.map tolower = [chr 'i', chr 'n', chr 'f'] →
      strncasecmpEq rest [chr 'i', chr 'n', chr 'i', chr 't', chr 'y'] = false →
      R_strtod5 (ws ++ (sg ++ (tok ++ rest))) dec false exact =
        some { value := if sg = [chr '-'] then R_NegInf else R_PosInf,
               endptr := ws.length + sg.length + 3, warned := false }) := by
  have hm : chr '-' = 45 := rfl
  have hp : chr '+' = 43 := rfl
  have hval : Dbl.inf (decide ((if sg = [chr '-'] then (-1 : Int) else 1) < 0)) =
      if sg = [chr '-'] then R_NegInf else R_PosInf := by
    rcases hsg with h | h | h <;> subst h <;> simp [hm, hp, R_NegInf, R_PosInf]
  refine ⟨?_, ?_, ?_⟩
  · intro h
    have hprops := token_props tok rest _ h (by decide) (by simp) hrest
    have hnan : strncasecmpEq (tok ++ rest) [chr 'N', chr 'a', chr 'N'] = true := by
      have := strncasecmpEq_append tok rest [chr 'N', chr 'a', chr 'N'] []
        (by rw [h]; decide)
      rw [strncasecmpEq_nil_right] at this
      exact this
    rw [R_strtod5_front ws sg (tok ++ rest) dec false exact hws hsg hprops.1
      (fun _ => hprops.2)]
    simp only [Bool.false_and, Bool.false_eq_true, if_false, hnan, if_true, R_NaN,
      strtodDone_nan]
  · intro h
    have hprops := token_props tok rest _ h (by decide) (by simp) hrest
    have hnan : strncasecmpEq (tok ++ rest) [chr 'N', chr 'a', chr 'N'] = false := by
      cases tok with
      | nil => simp at h
      | cons c tok' =>
        simp only [List.map_cons, List.cons.injEq] at h
        exact strncasecmpEq_head_ne c _ _ _ (by rw [h.1]; decide)
    have hinfty : strncasecmpEq (tok ++ rest)
        [chr 'i', chr 'n', chr 'f', chr 'i', chr 'n', chr 'i', chr 't', chr 'y'] = true := by
      have := strncasecmpEq_append tok rest
        [chr 'i', chr 'n', chr 'f', chr 'i', chr 'n', chr 'i', chr 't', chr 'y'] []
        (by rw [h]; decide)
      rw [strncasecmpEq_nil_right] at this
      exact this
    rw [R_strtod5_front ws sg (tok ++ rest) dec false exact hws hsg hprops.1
      (fun _ => hprops.2)]
    simp only [Bool.false_and, Bool.false_eq_true, if_false, hnan, hinfty, if_true,
      strtodDone_inf, hval]
  · intro h hnot
    have hprops := token_props tok rest _ h (by decide) (by simp) hrest
    have hnan : strncasecmpEq (tok ++ rest) [chr 'N', chr 'a', chr 'N'] = false := by
      cases tok with
      | nil => simp at h
      | cons c tok' =>
        simp only [List.map_cons, List.cons.injEq] at h
        exact strncasecmpEq_head_ne c _ _ _ (by rw [h.1]; decide)
    have hinfty : strncasecmpEq (tok ++ rest)
        [chr 'i', chr 'n', chr 'f', chr 'i', chr 'n', chr 'i', chr 't', chr 'y'] = false := by
      have := strncasecmpEq_append tok rest [chr 'i', chr 'n', chr 'f']
        [chr 'i', chr 'n', chr 'i', chr 't', chr 'y'] (by rw [h]; decide)
      rw [hnot] at this
      exact this
    have hinf : strncasecmpEq (tok ++ rest) [chr 'I', chr 'n', chr 'f'] = true := by
      have := strncasecmpEq_append tok rest [chr 'I', chr 'n', chr 'f'] []
        (by rw [h]; decide)
      rw [strncasecmpEq_nil_right] at this
      exact this
    rw [R_strtod5_front ws sg (tok ++ rest) dec false exact hws hsg hprops.1
      (fun _ => hprops.2)]
    simp only [Bool.false_and, Bool.false_eq_true, if_false, hnan, hinfty, hinf, if_true,
      strtodDone_inf, hval]

theorem R_strtod5_special_values_witness :
    R_strtod5 ([] ++ ([chr '-'] ++ ([chr 'I', chr 'n', chr 'f'] ++ []))) (chr '.') false 0 =
        some { value := R_NegInf, endptr := 4, warned := false } ∧
      R_strtod5 ([] ++ ([] ++ ([chr 'I', chr 'n', chr 'f'] ++ []))) (chr '.') false 0 =
        some { value := R_PosInf, endptr := 3, warned := false } ∧
      R_strtod5 ([] ++ ([] ++ ([chr 'N', chr 'a', chr 'N'] ++ []))) (chr '.') false 0 =
        some { value := R_NaN, endptr := 3, warned := false } :=
  ⟨(R_strtod5_special_values [] [chr '-'] [chr 'I', chr 'n', chr 'f'] [] (chr '.') 0
      (by decide) (by decide) (by decide)).2.2 (by decide) (by decide),
    (R_strtod5_special_values [] [] [chr 'I', chr 'n', chr 'f'] [] (chr '.') 0
      (by decide) (by decide) (by decide)).2.2 (by decide) (by decide),
    (R_strtod5_special_values [] [] [chr 'N', chr 'a', chr 'N'] [] (chr '.') 0
      (by decide) (by decide) (by decide)).1 (by decide)⟩

/-- C17 (counterexample). With NA mode disabled the text `NAN` begins with the two
characters `NA`, yet it is accepted: the case-insensitive test for `NaN` matches, the
result is NaN and three characters are consumed. -/
theorem R_strtod5_NAN_without_NA_mode :
    R_strtod5 (bytes ['N', 'A', 'N']) (chr '.') false 0 =
      some { value := R_NaN, endptr := 3, warned := false } := by
  decide!

/-- C17 (amended). For every text that begins, after optional white space, with the two
characters `NA`: in NA mode `R_strtod5` returns `NA_REAL` and sets `*endptr` two
characters past the start of the token; with NA mode disabled it returns `NA_REAL` with
`*endptr = str` unless the next character is `n` or `N`, in which case the text spells
NaN, and NaN is returned with three characters consumed. -/
theorem R_strtod5_NA_token (ws rest : CString) (dec : Nat) (exact : Int)
    (hws : ∀ c ∈ ws, isspace c = true) (hrest : ∀ c ∈ rest, c ≠ 0) :
    R_strtod5 (ws ++ chr 'N' :: chr 'A' :: rest) dec true exact =
        some { value := NA_REAL, endptr := ws.length + 2, warned := false } ∧
    (tolower (byteAt rest 0) ≠ chr 'n' →
      R_strtod5 (ws ++ chr 'N' :: chr 'A' :: rest) dec false exact =
        some { value := NA_REAL, endptr := 0, warned := false }) ∧
    (tolower (byteAt rest 0) = chr 'n' →
      R_strtod5 (ws ++ chr 'N' :: chr 'A' :: rest) dec false exact =
        some { value := R_NaN, endptr := ws.length + 3, warned := false }) := by
  have e : ws ++ chr 'N' :: chr 'A' :: rest = ws ++ ([] ++ chr 'N' :: chr 'A' :: rest) := rfl
  rw [e]
  have ht0 : ∀ c ∈ chr 'N' :: chr 'A' :: rest, c ≠ 0 := by
    intro c hc
    rcases List.mem_cons.1 hc with h | h
    · rw [h]; decide
    · rcases List.mem_cons.1 h with h | h
      · rw [h]; decide
      · exact hrest c h
  have hhead : ([] : CString) = [] →
      isspace (byteAt (chr 'N' :: chr 'A' :: rest) 0) = false ∧
        byteAt (chr 'N' :: chr 'A' :: rest) 0 ≠ chr '-' ∧
        byteAt (chr 'N' :: chr 'A' :: rest) 0 ≠ chr '+' := by
    intro _; rw [byteAt_cons_zero]; decide
  have hnan : strncasecmpEq (chr 'N' :: chr 'A' :: rest) [chr 'N', chr 'a', chr 'N'] =
      decide (tolower (byteAt rest 0) = chr 'n') := by
    have e1 : (tolower (chr 'A') == tolower (chr 'a')) = true := by decide
    have e2 : tolower (chr 'N') = chr 'n' := by decide
    cases rest with
    | nil =>
      simp only [strncasecmpEq, beq_self_eq_true, e1, Bool.true_and, byteAt_nil]
      decide
    | cons c cs =>
      simp only [strncasecmpEq, beq_self_eq_true, e1, Bool.true_and, byteAt_cons_zero, e2,
        strncasecmpEq_nil_right, Bool.and_true]
      by_cases h : tolower c = chr 'n' <;> simp [h]
  refine ⟨?_, ?_, ?_⟩
  · rw [R_strtod5_front ws [] _ dec true exact hws (Or.inl rfl) ht0 hhead]
    simp [strncmpEq, NA_REAL, strtodDone_nan]
  · intro h
    apply R_strtod5_reject ws [] _ dec false exact hws (Or.inl rfl) ht0 hhead
    · intro h1; cases h1
    · rw [hnan]; simp [h]
    · exact strncasecmpEq_head_ne _ _ _ _ (by decide)
    · rw [byteAt_cons_zero]; decide
    · intro _; rw [byteAt_cons_succ, byteAt_cons_zero]; decide
    · intro h1; cases h1
  · intro h
    rw [R_strtod5_front ws [] _ dec false exact hws (Or.inl rfl) ht0 hhead]
    simp only [Bool.false_and, Bool.false_eq_true, if_false, hnan, h, decide_True, if_true,
      R_NaN, strtodDone_nan, List.length_nil, Nat.add_zero]

theorem R_strtod5_NA_token_witness :
    R_strtod5 ([chr ' '] ++ chr 'N' :: chr 'A' :: [chr ' ', chr '1']) (chr '.') true 0 =
        some { value := NA_REAL, endptr := 3, warned := false } ∧
      R_strtod5 ([chr ' '] ++ chr 'N' :: chr 'A' :: [chr ' ', chr '1']) (chr '.') false 0 =
        some { value := NA_REAL, endptr := 0, warned := false } :=
  ⟨(R_strtod5_NA_token [chr ' '] [chr ' ', chr '1'] (chr '.') 0 (by decide) (by decide)).1,
    (R_strtod5_NA_token [chr ' '] [chr ' ', chr '1'] (chr '.') 0 (by decide)
      (by decide)).2.1 (by decide)⟩

/-- C18 (counterexample). Two shortest texts that `R_strtod` consumes without returning
the double they identify.  `255.06977067039597` has 17 digits: their value exceeds
`2^53`, so the digit loop rounds, and the result is the next double above; `R_strtod`
passes `exact = FALSE`, which switches the accuracy test off.  `3e+23` has one digit, but
the factor `10^23` computed by repeated squaring is already rounded and the product is
rounded again: the result is the next double below. -/
theorem R_strtod_round_trip_fails :
    R_strtod (bytes ['2', '5', '5', '.', '0', '6', '9', '7', '7', '0', '6', '7', '0', '3',
          '9', '5', '9', '7']) =
        some { value := .finite false
                 (roundUnits (25506977067039597 * unitsPerOne) (10 ^ 14) + 2 ^ 1029),
               endptr := 18, warned := false } ∧
      Dbl.ofDecimal false 25506977067039597 (-14) =
        .finite false (roundUnits (25506977067039597 * unitsPerOne) (10 ^ 14)) ∧
      R_strtod (bytes ['3', 'e', '+', '2', '3']) =
        some { value := .finite false (roundUnits (3 * 10 ^ 23 * unitsPerOne) 1 - 2 ^ 1099),
               endptr := 5, warned := false } ∧
      Dbl.ofDecimal false 3 23 = .finite false (roundUnits (3 * 10 ^ 23 * unitsPerOne) 1) ∧
      2 ^ 1099 ≤ roundUnits (3 * 10 ^ 23 * unitsPerOne) 1 := by
  decide!

/-- C18 (amended). For every decimal text `[sign] D1 [. D2] [e [sign] E]` with at most
15 digits in `D1 D2` and a decimal exponent `E - |D2|` of magnitude at most 22,
`R_strtod` consumes the whole text and returns the double nearest to its value; so it
returns exactly `d` whenever such a text identifies the double `d`. -/
theorem R_strtod_nearest_double (ec : Nat) (sg D1 D2 frac esg E expo : CString)
    (hsg : sg = [] ∨ sg = [chr '-'] ∨ sg = [chr '+'])
    (hD1 : ∀ c ∈ D1, isDigit c = true) (hD2 : ∀ c ∈ D2, isDigit c = true)
    (hE : ∀ c ∈ E, isDigit c = true)
    (hfrac : (frac = [] ∧ D2 = []) ∨ frac = chr '.' :: D2)
    (hexpo : (expo = [] ∧ E = []) ∨
      (expo = ec :: (esg ++ E) ∧ E ≠ [] ∧ (ec = chr 'e' ∨ ec = chr 'E') ∧
        (esg = [] ∨ esg = [chr '-'] ∨ esg = [chr '+'])))
    (hne : D1.length + D2.length ≠ 0) (hlen : D1.length + D2.length ≤ 15)
    (hlo : -22 ≤ (if esg = [chr '-'] then -1 else 1) * ((digitsVal 0 E : Nat) : Int)
      - (D2.length : Int))
    (hhi : (if esg = [chr '-'] then -1 else 1) * ((digitsVal 0 E : Nat) : Int)
      - (D2.length : Int) ≤ 22) :
    R_strtod (sg ++ (D1 ++ (frac ++ expo))) =
      some { value := Dbl.ofDecimal (decide (sg = [chr '-'])) (digitsVal 0 (D1 ++ D2))
               ((if esg = [chr '-'] then -1 else 1) * ((digitsVal 0 E : Nat) : Int)
                 - (D2.length : Int)),
             endptr := (sg ++ (D1 ++ (frac ++ expo))).length,
             warned := false } := by
  have := R_strtod5_decimal_text (chr '.') false 0 ec [] sg D1 D2 frac esg E expo []
    (by simp) hsg hD1 hD2 hE (by decide) (by intro _ _; decide) hfrac hexpo (by simp)
    (by decide) hne hlen hlo hhi
  simp only [List.nil_append, List.append_nil, List.length_nil, Nat.zero_add] at this
  simp only [R_strtod, this, List.length_append, Nat.add_assoc]

theorem R_strtod_nearest_double_witness :
    R_strtod ([chr '-'] ++ ([chr '1'] ++ ([chr '.', chr '5'] ++ [chr 'e', chr '-', chr '3']))) =
      some { value := Dbl.ofDecimal true 15 (-4), endptr := 7, warned := false } :=
  R_strtod_nearest_double (chr 'e') [chr '-'] [chr '1'] [chr '5'] [chr '.', chr '5']
    [chr '-'] [chr '3'] [chr 'e', chr '-', chr '3'] (by decide) (by decide) (by decide)
    (by decide) (by decide) (by decide) (by decide) (by decide) (by decide) (by decide)

/-- C19 (counterexample). White space is a legal `dec` under the claim, but with
`dec = ' '` the text ` 5` (empty `D1`, `D2 = 5`) loses its separator to the skipping of
leading white space: the result is `5`, not `5 / 10`. -/
theorem R_strtod5_space_separator :
    R_strtod5 ([] ++ chr ' ' :: [chr '5']) (chr ' ') false 0 =
        some { value := Dbl.ofNat 5, endptr := 2, warned := false } ∧
      Dbl.ofRatio false (digitsVal 0 ([] ++ [chr '5'])) (10 ^ [chr '5'].length) =
        .finite false (2 ^ 1073) ∧
      Dbl.ofNat 5 = .finite false (5 * 2 ^ 1074) := by
  decide!

/-- C19 (amended). Let `dec` be no digit, letter, sign or NUL, and `D1`, `D2` digit
strings of fewer than 16 digits together.  If they are not both empty and `dec` is not
white space when `D1` is empty, parsing `D1 dec D2` consumes the whole text and yields
the double nearest to `int(D1 D2) / 10^|D2|`.  And for non-empty `D1` followed by a
character `c` other than `dec` that is no digit, letter or NUL, parsing stops at `c`
and yields `int(D1)` with `*endptr` at `c`. -/
theorem R_strtod5_separator (dec : Nat) (NA : Bool) (exact : Int) (D1 D2 : CString)
    (c : Nat) (rest : CString)
    (hdec : dec ≠ 0 ∧ isDigit dec = false ∧ isLetter dec = false ∧ dec ≠ chr '-' ∧
      dec ≠ chr '+')
    (hD1 : ∀ d ∈ D1, isDigit d = true) (hD2 : ∀ d ∈ D2, isDigit d = true)
    (hlen : D1.length + D2.length < 16) :
    (D1.length + D2.length ≠ 0 → (D1 = [] → isspace dec = false) →
      R_strtod5 (D1 ++ dec :: D2) dec NA exact =
        some { value := Dbl.ofRatio false (digitsVal 0 (D1 ++ D2)) (10 ^ D2.length),
               endptr := D1.length + 1 + D2.length, warned := false }) ∧
    (D1 ≠ [] → c ≠ dec → c ≠ 0 → isDigit c = false → isLetter c = false →
      (∀ r ∈ rest, r ≠ 0) →
      R_strtod5 (D1 ++ c :: rest) dec NA exact =
        some { value := Dbl.ofNat (digitsVal 0 D1), endptr := D1.length,
               warned := false }) := by
  have hlist : ([] : CString) ≠ [chr '-'] := by simp
  constructor
  · intro hne hsp
    have := R_strtod5_decimal_text dec NA exact 0 [] [] D1 D2 (dec :: D2) [] [] [] []
      (by simp) (Or.inl rfl) hD1 hD2 (by simp) hdec (fun h _ => hsp h) (Or.inr rfl)
      (Or.inl ⟨rfl, rfl⟩) (by simp)
      ⟨by decide, by decide, by rw [byteAt_nil]; exact fun h => hdec.1 h.symm⟩
      hne (by omega) (by simp [digitsVal_nil]; omega) (by simp [digitsVal_nil]; omega)
    simp only [List.nil_append, List.append_nil, List.length_nil, Nat.zero_add,
      List.length_cons, Nat.add_zero, hlist, if_false, decide_False, digitsVal_nil,
      Nat.cast_zero, mul_zero, zero_sub, ofDecimal_neg_nat] at this
    rw [this, Nat.add_assoc, Nat.add_comm 1 D2.length]
  · intro hne hc hc0 hcd hcl hrest
    have hl1 : D1.length ≠ 0 := fun h => hne (List.length_eq_zero.1 h)
    have hN : digitsVal 0 D1 < 2 ^ 53 := digitsVal_lt_two_pow D1 hD1 (by omega)
    have := R_strtod5_decimal_text dec NA exact 0 [] [] D1 [] [] [] [] [] (c :: rest)
      (by simp) (Or.inl rfl) hD1 (by simp) (by simp) hdec (fun h _ => absurd h hne)
      (Or.inl ⟨rfl, rfl⟩) (Or.inl ⟨rfl, rfl⟩)
      (by
        intro r hr
        rcases List.mem_cons.1 hr with h | h
        · rw [h]; exact hc0
        · exact hrest r h)
      ⟨by rw [byteAt_cons_zero]; exact hcd, by rw [byteAt_cons_zero]; exact hcl,
        by rw [byteAt_cons_zero]; exact hc⟩
      (by simpa using hl1) (by simp; omega) (by simp [digitsVal_nil])
      (by simp [digitsVal_nil])
    simp only [List.nil_append, List.append_nil, List.length_nil, Nat.zero_add,
      Nat.add_zero, hlist, if_false, decide_False, digitsVal_nil,
      Nat.cast_zero, mul_zero, sub_zero] at this
    rw [this]
    have hv : Dbl.ofDecimal false (digitsVal 0 D1) 0 = Dbl.ofNat (digitsVal 0 D1) := by
      simp only [Dbl.ofDecimal, lt_self_iff_false, if_false, Int.toNat_zero, pow_zero,
        Nat.mul_one, ofRatio_one false _ hN, Dbl.ofNat]
    rw [hv]

theorem R_strtod5_separator_witness :
    R_strtod5 ([chr '1'] ++ chr ',' :: [chr '5']) (chr ',') false 0 =
        some { value := Dbl.ofRatio false (digitsVal 0 ([chr '1'] ++ [chr '5'])) (10 ^ 1),
               endptr := 3, warned := false } ∧
      R_strtod5 ([chr '1'] ++ chr '.' :: [chr '5']) (chr ',') false 0 =
        some { value := Dbl.ofNat (digitsVal 0 [chr '1']), endptr := 1, warned := false } :=
  ⟨(R_strtod5_separator (chr ',') false 0 [chr '1'] [chr '5'] (chr '.') [chr '5']
      (by decide) (by decide) (by decide) (by decide)).1 (by decide) (by decide),
    (R_strtod5_separator (chr ',') false 0 [chr '1'] [chr '5'] (chr '.') [chr '5']
      (by decide) (by decide) (by decide) (by decide)).2 (by decide) (by decide) (by decide)
      (by decide) (by decide) (by decide)⟩

/-! ### Further claims on the vector-pointer cache -/

theorem lookupLoop_none (cache : ArrayCache) (key : SEXP) :
    ∀ (r i : Nat), (∀ j, i ≤ j → j < i + r → (entryAt cache j).key ≠ key) →
      lookupLoop cache key r i = none := by
  intro r
  induction r with
  | zero => intro i _; rfl
  | succ r ih =>
    intro i h
    have hi := h i (le_refl _) (by omega)
    simp only [lookupLoop, hi, if_false]
    exact ih (i + 1) (fun j h1 h2 => h j (by omega) (by omega))

/-- C22. On a hit `array_cache_lookup` returns the lowest index `i` whose key equals the
argument; the cache it leaves has `cache[i].hits` incremented by one modulo `2^32` and
every key, every data pointer and every other counter unchanged.  On a miss it returns
`-1` and leaves the cache unchanged. -/
theorem array_cache_lookup_frame (cache : ArrayCache) (key : SEXP)
    (hlen : cache.length = ARRAY_CACHE_SIZE) :
    (∀ i, i < ARRAY_CACHE_SIZE → (entryAt cache i).key = key →
      (∀ j < i, (entryAt cache j).key ≠ key) →
      (array_cache_lookup cache key).1 = (i : Int) ∧
      (array_cache_lookup cache key).2.length = cache.length ∧
      (entryAt (array_cache_lookup cache key).2 i).hits =
        ((entryAt cache i).hits + 1) % 2 ^ 32 ∧
      (∀ j, (entryAt (array_cache_lookup cache key).2 j).key = (entryAt cache j).key ∧
        (entryAt (array_cache_lookup cache key).2 j).data = (entryAt cache j).data) ∧
      (∀ j, j ≠ i →
        (entryAt (array_cache_lookup cache key).2 j).hits = (entryAt cache j).hits)) ∧
    ((∀ i < ARRAY_CACHE_SIZE, (entryAt cache i).key ≠ key) →
      array_cache_lookup cache key = (-1, cache)) := by
  constructor
  · intro i hi hk hbelow
    have hfind : lookupLoop cache key ARRAY_CACHE_SIZE 0 = some i :=
      lookupLoop_first cache key ARRAY_CACHE_SIZE 0 i (Nat.zero_le _) (by omega) hk
        (fun j _ hj => hbelow j hj)
    have hil : i < cache.length := by omega
    simp only [array_cache_lookup, hfind, List.length_set, entryAt_set]
    refine ⟨trivial, trivial, by simp [hil], ?_, ?_⟩
    · intro j
      by_cases hj : i = j
      · subst hj; simp [hil]
      · simp [hj]
    · intro j hj
      simp [Ne.symm hj]
  · intro h
    have hnone : lookupLoop cache key ARRAY_CACHE_SIZE 0 = none :=
      lookupLoop_none cache key ARRAY_CACHE_SIZE 0 (fun j _ hj => h j (by omega))
    simp only [array_cache_lookup, hnone]

theorem array_cache_lookup_frame_witness :
    (array_cache_lookup [⟨1, 11, 3⟩, ⟨2, 12, 4294967295⟩, ⟨2, 13, 4⟩, ⟨4, 14, 1⟩, ⟨5, 15, 5⟩]
        2).1 = 1 ∧
      (entryAt (array_cache_lookup
        [⟨1, 11, 3⟩, ⟨2, 12, 4294967295⟩, ⟨2, 13, 4⟩, ⟨4, 14, 1⟩, ⟨5, 15, 5⟩] 2).2 1).hits = 0 ∧
      array_cache_lookup [⟨1, 11, 3⟩, ⟨2, 12, 4294967295⟩, ⟨2, 13, 4⟩, ⟨4, 14, 1⟩, ⟨5, 15, 5⟩]
        9 = (-1, [⟨1, 11, 3⟩, ⟨2, 12, 4294967295⟩, ⟨2, 13, 4⟩, ⟨4, 14, 1⟩, ⟨5, 15, 5⟩]) :=
  have h := array_cache_lookup_frame
    [⟨1, 11, 3⟩, ⟨2, 12, 4294967295⟩, ⟨2, 13, 4⟩, ⟨4, 14, 1⟩, ⟨5, 15, 5⟩]
  ⟨((h 2 (by decide)).1 1 (by decide) (by decide) (by decide)).1,
    ((h 2 (by decide)).1 1 (by decide) (by decide) (by decide)).2.2.1,
    (h 9 (by decide)).2 (by decide)⟩

/-- The cache that holds the handle `x` alone, in entry 0 with counter 0. -/
theorem INTEGER_on_single (fI : SEXP → Ptr) (x y : SEXP) (real : ArrayCache)
    (ups : List Upcall) (hy : y ≠ 0) (hxy : y ≠ x) :
    INTEGER fI y { int_cache := [⟨x, fI x, 0⟩, default, default, default, default],
                   real_cache := real, upcalls := ups } =
      (fI y, { int_cache := [⟨y, fI y, 0⟩, default, default, default, default],
               real_cache := real, upcalls := ups ++ [.FASTR_INTEGER y] }) := by
  have hx : ¬ (x = y) := fun h => hxy h.symm
  have h0 : ¬ ((0 : SEXP) = y) := fun h => hy h.symm
  have hd : (default : ArrayCacheEntry) = ⟨0, 0, 0⟩ := rfl
  simp [INTEGER, array_cache_lookup, lookupLoop, entryAt, ARRAY_CACHE_SIZE, hx, h0, hd,
    array_cache_insert, victimIndex, insertLoop]

theorem INTEGER_on_empty (fI : SEXP → Ptr) (y : SEXP) (real : ArrayCache)
    (ups : List Upcall) (hy : y ≠ 0) :
    INTEGER fI y { int_cache := emptyCache, real_cache := real, upcalls := ups } =
      (fI y, { int_cache := [⟨y, fI y, 0⟩, default, default, default, default],
               real_cache := real, upcalls := ups ++ [.FASTR_INTEGER y] }) := by
  have h0 : ¬ ((0 : SEXP) = y) := fun h => hy h.symm
  have hd : (default : ArrayCacheEntry) = ⟨0, 0, 0⟩ := rfl
  simp [INTEGER, array_cache_lookup, lookupLoop, entryAt, ARRAY_CACHE_SIZE, h0, hd,
    array_cache_insert, victimIndex, insertLoop, emptyCache, List.replicate]

theorem INTEGER_hit_single (fI : SEXP → Ptr) (x : SEXP) (real : ArrayCache)
    (ups : List Upcall) :
    INTEGER fI x { int_cache := [⟨x, fI x, 0⟩, default, default, default, default],
                   real_cache := real, upcalls := ups } =
      (fI x, { int_cache := [⟨x, fI x, 1⟩, default, default, default, default],
               real_cache := real, upcalls := ups }) := by
  simp [INTEGER, array_cache_lookup, lookupLoop, entryAt, ARRAY_CACHE_SIZE]

/-- After `INTEGER` on each handle of a non-empty list of pairwise distinct non-null
handles, from a state whose integer cache is empty or holds one other handle in entry
0, the cache holds the last handle alone. -/
theorem runAccessors_INTEGER_last (fI fR : SEXP → Ptr) :
    ∀ (ys : List SEXP) (z : SEXP) (st : ThreadState),
      (st.int_cache = emptyCache ∨ ∃ x, x ∉ ys ∧ x ≠ z ∧
        st.int_cache = [⟨x, fI x, 0⟩, default, default, default, default]) →
      (ys ++ [z]).Nodup → (∀ y ∈ ys ++ [z], y ≠ 0) →
      (runAccessors fI fR ((ys ++ [z]).map AccessorCall.INTEGER) st).2 =
        { int_cache := [⟨z, fI z, 0⟩, default, default, default, default],
          real_cache := st.real_cache,
          upcalls := st.upcalls ++ (ys ++ [z]).map Upcall.FASTR_INTEGER } := by
  intro ys
  induction ys with
  | nil =>
    intro z st hst _ h0
    have hz : z ≠ 0 := h0 z (by simp)
    obtain ⟨ic, rc, ups⟩ := st
    rcases hst with h | ⟨x, -, hxz, h⟩
    · simp only at h; subst h
      simp [runAccessors, INTEGER_on_empty fI z rc ups hz]
    · simp only at h; subst h
      simp [runAccessors, INTEGER_on_single fI x z rc ups hz (Ne.symm hxz)]
  | cons y ys ih =>
    intro z st hst hnd h0
    have hy : y ≠ 0 := h0 y (by simp)
    have hnd' : (ys ++ [z]).Nodup := (List.nodup_cons.1 hnd).2
    have hy' : y ∉ ys ++ [z] := (List.nodup_cons.1 hnd).1
    have hyys : y ∉ ys := fun h => hy' (List.mem_append_left _ h)
    have hyz : y ≠ z := fun h => hy' (by simp [h])
    have h0' : ∀ w ∈ ys ++ [z], w ≠ 0 := fun w hw => h0 w (List.mem_cons_of_mem _ hw)
    obtain ⟨ic, rc, ups⟩ := st
    have hstep : INTEGER fI y { int_cache := ic, real_cache := rc, upcalls := ups } =
        (fI y, { int_cache := [⟨y, fI y, 0⟩, default, default, default, default],
                 real_cache := rc, upcalls := ups ++ [.FASTR_INTEGER y] }) := by
      rcases hst with h | ⟨x, hx, -, h⟩
      · simp only at h; subst h
        exact INTEGER_on_empty fI y rc ups hy
      · simp only at h; subst h
        have hxy : y ≠ x := fun e => hx (by simp [e])
        exact INTEGER_on_single fI x y rc ups hy hxy
    have := ih z { int_cache := [⟨y, fI y, 0⟩, default, default, default, default],
                   real_cache := rc, upcalls := ups ++ [.FASTR_INTEGER y] }
      (Or.inr ⟨y, hyys, hyz, rfl⟩) hnd' h0'
    simp only [List.cons_append, List.map_cons, runAccessors, hstep]
    rw [show ys.append [z] = ys ++ [z] from rfl, this]
    simp

/-- C23 (counterexample). From the empty cache, `INTEGER(1); INTEGER(2)`: the second call
overwrites entry 0, which held handle `1`, so the `INTEGER(1)` that follows is a miss
and invokes `FASTR_INTEGER` again. -/
theorem INTEGER_second_handle_evicts_first :
    (runAccessors (fun x => 100 + x) (fun x => 200 + x) [.INTEGER 1, .INTEGER 2]
        ThreadState.initial).2.int_cache =
        [⟨2, 102, 0⟩, ⟨0, 0, 0⟩, ⟨0, 0, 0⟩, ⟨0, 0, 0⟩, ⟨0, 0, 0⟩] ∧
      (runAccessors (fun x => 100 + x) (fun x => 200 + x)
        [.INTEGER 1, .INTEGER 2, .INTEGER 1] ThreadState.initial).2.upcalls =
        [.FASTR_INTEGER 1, .FASTR_INTEGER 2, .FASTR_INTEGER 1] := by
  decide

/-- C23 (amended). Starting from the empty cache, after `INTEGER` has been called once on
each of `k >= 1` pairwise distinct non-null handles, the cache holds the last handle
alone, in entry 0: every insert finds the counter of entry 0 at 0 and replaces that
entry.  A following `INTEGER` call on the last handle is a hit that does not invoke
`FASTR_INTEGER`; on any earlier handle it is a miss that invokes it again. -/
theorem INTEGER_keeps_last_handle (fI fR : SEXP → Ptr) (ys : List SEXP) (z : SEXP)
    (hnd : (ys ++ [z]).Nodup) (h0 : ∀ y ∈ ys ++ [z], y ≠ 0) :
    (runAccessors fI fR ((ys ++ [z]).map AccessorCall.INTEGER) ThreadState.initial).2 =
        { int_cache := [⟨z, fI z, 0⟩, default, default, default, default],
          real_cache := emptyCache,
          upcalls := (ys ++ [z]).map Upcall.FASTR_INTEGER } ∧
      (INTEGER fI z (runAccessors fI fR ((ys ++ [z]).map AccessorCall.INTEGER)
        ThreadState.initial).2).1 = fI z ∧
      (INTEGER fI z (runAccessors fI fR ((ys ++ [z]).map AccessorCall.INTEGER)
        ThreadState.initial).2).2.upcalls = (ys ++ [z]).map Upcall.FASTR_INTEGER ∧
      ∀ y ∈ ys, (INTEGER fI y (runAccessors fI fR ((ys ++ [z]).map AccessorCall.INTEGER)
        ThreadState.initial).2).2.upcalls =
          (ys ++ [z]).map Upcall.FASTR_INTEGER ++ [.FASTR_INTEGER y] := by
  have h := runAccessors_INTEGER_last fI fR ys z ThreadState.initial (Or.inl rfl) hnd h0
  have hi : ThreadState.initial.upcalls = [] := rfl
  have hr : ThreadState.initial.real_cache = emptyCache := rfl
  rw [hi, hr, List.nil_append] at h
  rw [h]
  refine ⟨rfl, ?_, ?_, ?_⟩
  · rw [INTEGER_hit_single]
  · rw [INTEGER_hit_single]
  · intro y hy
    have hyz : y ≠ z := by
      intro e
      have := (List.nodup_append.1 hnd).2.2
      exact this hy (by simp [e])
    rw [INTEGER_on_single fI z y _ _ (h0 y (List.mem_append_left _ hy)) hyz]

theorem INTEGER_keeps_last_handle_witness :
    (runAccessors (fun x => 100 + x) (fun x => 200 + x)
        (([1, 2] ++ [3]).map AccessorCall.INTEGER) ThreadState.initial).2 =
        { int_cache := [⟨3, 103, 0⟩, default, default, default, default],
          real_cache := emptyCache,
          upcalls := ([1, 2] ++ [3]).map Upcall.FASTR_INTEGER } :=
  (INTEGER_keeps_last_handle (fun x => 100 + x) (fun x => 200 + x) [1, 2] 3 (by decide)
    (by decide)).1

/-! ### A further claim on the transient allocation arena -/

/-- C24 (defect). `R_alloc` increments `tMemTableIndex` before it calls `R_chk_calloc`,
so an allocation error leaves the high-water mark one slot above the last recorded
pointer.  After three recorded allocations (pointers 100, 200, 300 in a table of 4
slots) a failing `R_alloc` ends in the error with the mark at 3 instead of 2, the table
unchanged; the `allocExit` that follows frees the three pointers and then reads slot 3,
which was never written.  From the initial state the failing call leaves the mark at 0
and `allocExit` reads slot 0 of the `NULL` table. -/
theorem R_alloc_error_leaves_mark_incremented :
    (∃ s3, runArena true [.alloc 1 1 100 true, .alloc 1 1 200 true, .alloc 1 1 300 true]
          Arena.initial = .ok [100, 200, 300] s3 ∧
        s3.tMemTableIndex = 2 ∧
        s3.tMemTable = [some 100, some 200, some 300, none] ∧
        R_alloc true 1 1 0 true s3 = .error { s3 with tMemTableIndex := 3 } ∧
        allocExit { s3 with tMemTableIndex := 3 } = .fault (.readUninit 3)) ∧
      R_alloc true 1 1 0 true Arena.initial =
        .error { Arena.initial with tMemTableIndex := 0 } ∧
      allocExit { Arena.initial with tMemTableIndex := 0 } =
        .fault (.readOutOfBounds 0 0) := by
  refine ⟨⟨{ tMemTable := [some 100, some 200, some 300, none], tMemTableIndex := 2,
             tMemTableLength := 4, live := [300, 200, 100], freed := [] },
    by decide, by decide, by decide, by decide, by decide⟩, by decide, by decide⟩

/-! ### Further claims on `R_strtod` and `utf8toucs` -/

/-- C26. For every string of 1 to 15 decimal digits `D`, optionally preceded by white
space `ws` and one sign `sg`, with nothing after the digits, `R_strtod` returns exactly
the integer the digits denote, negated when the sign is `-` (the double of that
magnitude and sign), and sets `*endptr` just past the last digit. -/
theorem R_strtod_integer (ws sg D : CString)
    (hws : ∀ c ∈ ws, isspace c = true)
    (hsg : sg = [] ∨ sg = [chr '-'] ∨ sg = [chr '+'])
    (hD : ∀ c ∈ D, isDigit c = true) (h1 : 1 ≤ D.length) (h15 : D.length ≤ 15) :
    R_strtod (ws ++ (sg ++ D)) =
      some { value := .finite (decide (sg = [chr '-'])) (digitsVal 0 D * unitsPerOne),
             endptr := ws.length + sg.length + D.length, warned := false } := by
  have hN : digitsVal 0 D < 2 ^ 53 := digitsVal_lt_two_pow D hD h15
  have hlist : ([] : CString) ≠ [chr '-'] := by simp
  have := R_strtod5_decimal_text (chr '.') false 0 0 ws sg D [] [] [] [] [] []
    hws hsg hD (by simp) (by simp) (by decide) (by intro _ _; decide) (Or.inl ⟨rfl, rfl⟩)
    (Or.inl ⟨rfl, rfl⟩) (by simp) (by decide)
    (by simp only [List.length_nil, Nat.add_zero]; omega) (by simpa using h15)
    (by simp [digitsVal_nil]) (by simp [digitsVal_nil])
  simp only [List.append_nil, List.length_nil, Nat.add_zero, hlist, if_false, digitsVal_nil,
    Nat.cast_zero, mul_zero, sub_zero] at this
  rw [R_strtod, this]
  simp only [Dbl.ofDecimal, lt_self_iff_false, if_false, Int.toNat_zero, pow_zero,
    Nat.mul_one, ofRatio_one _ _ hN]

theorem R_strtod_integer_witness :
    R_strtod ([chr ' '] ++ ([chr '-'] ++ [chr '4', chr '2'])) =
        some { value := .finite true (digitsVal 0 [chr '4', chr '2'] * unitsPerOne),
               endptr := 4, warned := false } ∧
      digitsVal 0 [chr '4', chr '2'] = 42 :=
  ⟨R_strtod_integer [chr ' '] [chr '-'] [chr '4', chr '2'] (by decide) (by decide)
    (by decide) (by decide) (by decide), by decide⟩

/-- The three-byte form of a surrogate or of `0xFFFE`/`0xFFFF` is rejected. -/
theorem utf8toucs_three_rejected (w q1 q2 r : Nat) (rest : CString) (hw : 2 ≤ w)
    (hq1 : q1 < 16) (hq2 : q2 < 64) (hr : r < 64)
    (hbad : (0xD800 ≤ q1 * 4096 + q2 * 64 + r ∧ q1 * 4096 + q2 * 64 + r ≤ 0xDFFF) ∨
      q1 * 4096 + q2 * 64 + r = 0xFFFE ∨ q1 * 4096 + q2 * 64 + r = 0xFFFF) :
    (utf8toucs w ((0xE0 + q1) :: (0x80 + q2) :: (0x80 + r) :: rest)).2 = SIZE_T_MINUS_1 := by
  obtain ⟨hm1, hm2⟩ := continuation_masks q2 hq2
  obtain ⟨hm3, hm4⟩ := continuation_masks r hr
  have hl := lead3_mask q1 hq1
  have hb0 : ¬ (0xE0 + q1 = 0) := by omega
  have hb1 : ¬ (0xE0 + q1 < 0xC0) := by omega
  have hb2 : ¬ (0xE0 + q1 < 0xE0) := by omega
  have hb3 : 0xE0 + q1 < 0xF0 := by omega
  have hlen : ¬ strlen ((0xE0 + q1) :: (0x80 + q2) :: (0x80 + r) :: rest) < 3 := by
    rw [strlen_cons_of_ne_zero _ _ (by omega), strlen_cons_of_ne_zero _ _ (by omega),
      strlen_cons_of_ne_zero _ _ (by omega)]
    omega
  have hval : ((q1 <<< 12) ||| (q2 <<< 6)) ||| r = q1 * 4096 + q2 * 64 + r := by
    have h1 : (q1 <<< 12) ||| (q2 <<< 6) = q1 * 4096 + q2 * 64 := by
      rw [Nat.shiftLeft_eq q2 6, shift_or_eq q1 (q2 * 2 ^ 6) 12 (by norm_num; omega)]
      norm_num
    have h2 : q1 * 4096 + q2 * 64 = (q1 * 64 + q2) * 2 ^ 6 := by ring
    calc ((q1 <<< 12) ||| (q2 <<< 6)) ||| r
        = ((q1 * 64 + q2) * 2 ^ 6) ||| r := by rw [h1, h2]
      _ = (q1 * 64 + q2) * 2 ^ 6 + r := mul_or_eq _ r 6 (by simpa using hr)
      _ = q1 * 4096 + q2 * 64 + r := by ring
  have hlt16 : q1 * 4096 + q2 * 64 + r < 2 ^ 16 := by norm_num; omega
  have hlt : q1 * 4096 + q2 * 64 + r < 2 ^ 32 := by norm_num; omega
  have hwch : toWchar w (q1 * 4096 + q2 * 64 + r) = q1 * 4096 + q2 * 64 + r := by
    unfold toWchar
    apply Nat.mod_eq_of_lt
    calc q1 * 4096 + q2 * 64 + r < 2 ^ 16 := hlt16
      _ ≤ 2 ^ (8 * w) := Nat.pow_le_pow_right (by norm_num) (by omega)
  simp only [utf8toucs, byteAt, List.getD_cons_zero, List.getD_cons_succ, hb0, hb1, hb2, hb3,
    if_false, if_true, hlen, hm1, hm2, hm3, hm4, hl, and_self, hval, hwch,
    Nat.mod_eq_of_lt hlt]
  rcases hbad with h | h | h
  · simp [h.1, h.2]
  · simp [h]
  · simp [h]

/-- C21 (counterexample). Three strings that are not well-formed UTF-8 and for which
`utf8toucs` returns a positive length: a stray continuation byte `0x80` is returned as a
one-byte character, the overlong form `C0 80` of NUL is decoded with length 2, and the
lead byte `F0` followed by three bytes that are no continuation bytes is decoded with
length 4 (the forms of 4 to 6 bytes are handled with no testing). -/
theorem utf8toucs_accepts_malformed :
    utf8toucs 4 [0x80] = (some 0x80, 1) ∧
      utf8toucs 4 [0xC0, 0x80] = (some 0, 2) ∧
      utf8toucs 4 [0xF0, 0x28, 0x28, 0x28] = (some 0x28A28, 4) := by
  decide

/-- C21 (amended). `utf8toucs` returns a sentinel, never a positive length, in these
cases: after a lead byte `0xC0-0xDF` or `0xE0-0xEF`, `(size_t)-2` when the string is
shorter than the form (2 or 3 bytes) and `(size_t)-1` when a continuation byte of the
form is not `10xxxxxx`; `(size_t)-1` for the three-byte form of a surrogate or of
`0xFFFE`/`0xFFFF`; and after a lead byte from `0xF0` on, `(size_t)-2` when `wchar_t` has
fewer than 4 bytes or the string is shorter than the form (4, 5 or 6 bytes). -/
theorem utf8toucs_rejects (wcharBytes : Nat) (s : CString) :
    (0xC0 ≤ byteAt s 0 → byteAt s 0 < 0xE0 →
      (strlen s < 2 → (utf8toucs wcharBytes s).2 = SIZE_T_MINUS_2) ∧
      (2 ≤ strlen s → byteAt s 1 &&& 0xC0 ≠ 0x80 →
        (utf8toucs wcharBytes s).2 = SIZE_T_MINUS_1)) ∧
    (0xE0 ≤ byteAt s 0 → byteAt s 0 < 0xF0 →
      (strlen s < 3 → (utf8toucs wcharBytes s).2 = SIZE_T_MINUS_2) ∧
      (3 ≤ strlen s → ¬ (byteAt s 1 &&& 0xC0 = 0x80 ∧ byteAt s 2 &&& 0xC0 = 0x80) →
        (utf8toucs wcharBytes s).2 = SIZE_T_MINUS_1)) ∧
    (0xF0 ≤ byteAt s 0 →
      (wcharBytes < 4 → (utf8toucs wcharBytes s).2 = SIZE_T_MINUS_2) ∧
      (byteAt s 0 < 0xF8 → strlen s < 4 → (utf8toucs wcharBytes s).2 = SIZE_T_MINUS_2) ∧
      (0xF8 ≤ byteAt s 0 → byteAt s 0 < 0xFC → strlen s < 5 →
        (utf8toucs wcharBytes s).2 = SIZE_T_MINUS_2) ∧
      (0xFC ≤ byteAt s 0 → strlen s < 6 → (utf8toucs wcharBytes s).2 = SIZE_T_MINUS_2)) ∧
    (∀ c rest, 2 ≤ wcharBytes →
      (0xD800 ≤ c ∧ c ≤ 0xDFFF) ∨ c = 0xFFFE ∨ c = 0xFFFF →
      s = [0xE0 + c / 4096, 0x80 + c / 64 % 64, 0x80 + c % 64] ++ rest →
      (utf8toucs wcharBytes s).2 = SIZE_T_MINUS_1) := by
  refine ⟨?_, ?_, ?_, ?_⟩
  · intro h1 h2
    have hb0 : ¬ (byteAt s 0 = 0) := by omega
    have hb1 : ¬ (byteAt s 0 < 0xC0) := by omega
    constructor
    · intro hl
      simp only [utf8toucs, hb0, hb1, h2, hl, if_false, if_true]
    · intro hl hc
      have hl' : ¬ strlen s < 2 := by omega
      simp only [utf8toucs, hb0, hb1, h2, hl', hc, if_false, if_true]
  · intro h1 h2
    have hb0 : ¬ (byteAt s 0 = 0) := by omega
    have hb1 : ¬ (byteAt s 0 < 0xC0) := by omega
    have hb2 : ¬ (byteAt s 0 < 0xE0) := by omega
    constructor
    · intro hl
      simp only [utf8toucs, hb0, hb1, hb2, h2, hl, if_false, if_true]
    · intro hl hc
      have hl' : ¬ strlen s < 3 := by omega
      simp only [utf8toucs, hb0, hb1, hb2, h2, hl', hc, if_false, if_true]
  · intro h1
    have hb0 : ¬ (byteAt s 0 = 0) := by omega
    have hb1 : ¬ (byteAt s 0 < 0xC0) := by omega
    have hb2 : ¬ (byteAt s 0 < 0xE0) := by omega
    have hb3 : ¬ (byteAt s 0 < 0xF0) := by omega
    refine ⟨?_, ?_, ?_, ?_⟩
    · intro hw
      simp only [utf8toucs, hb0, hb1, hb2, hb3, hw, if_false, if_true]
    · intro h2 hl
      by_cases hw : wcharBytes < 4
      · simp only [utf8toucs, hb0, hb1, hb2, hb3, hw, if_false, if_true]
      · simp only [utf8toucs, hb0, hb1, hb2, hb3, hw, h2, hl, if_false, if_true]
    · intro h2 h3 hl
      have h2' : ¬ (byteAt s 0 < 0xF8) := by omega
      by_cases hw : wcharBytes < 4
      · simp only [utf8toucs, hb0, hb1, hb2, hb3, hw, if_false, if_true]
      · simp only [utf8toucs, hb0, hb1, hb2, hb3, hw, h2', h3, hl, if_false, if_true]
    · intro h2 hl
      have h2' : ¬ (byteAt s 0 < 0xF8) := by omega
      have h3' : ¬ (byteAt s 0 < 0xFC) := by omega
      by_cases hw : wcharBytes < 4
      · simp only [utf8toucs, hb0, hb1, hb2, hb3, hw, if_false, if_true]
      · simp only [utf8toucs, hb0, hb1, hb2, hb3, hw, h2', h3', hl, if_false, if_true]
  · intro c rest hw hbad hs
    subst hs
    have hc : c < 0x10000 := by omega
    have hcc : c / 4096 * 4096 + c / 64 % 64 * 64 + c % 64 = c := by omega
    exact utf8toucs_three_rejected wcharBytes (c / 4096) (c / 64 % 64) (c % 64) rest hw
      (by omega) (Nat.mod_lt _ (by norm_num)) (Nat.mod_lt _ (by norm_num))
      (by rw [hcc]; exact hbad)

theorem utf8toucs_rejects_witness :
    (utf8toucs 4 [0xC3]).2 = SIZE_T_MINUS_2 ∧
      (utf8toucs 4 [0xE2, 0x28, 0xA1]).2 = SIZE_T_MINUS_1 ∧
      (utf8toucs 4 ([0xE0 + 0xD800 / 4096, 0x80 + 0xD800 / 64 % 64, 0x80 + 0xD800 % 64] ++
        [0x41])).2 = SIZE_T_MINUS_1 :=
  ⟨((utf8toucs_rejects 4 [0xC3]).1 (by decide) (by decide)).1 (by decide),
    ((utf8toucs_rejects 4 [0xE2, 0x28, 0xA1]).2.1 (by decide) (by decide)).2 (by decide)
      (by decide),
    (utf8toucs_rejects 4 ([0xE0 + 0xD800 / 4096, 0x80 + 0xD800 / 64 % 64, 0x80 + 0xD800 % 64]
      ++ [0x41])).2.2.2 0xD800 [0x41] (by decide) (by decide) rfl⟩

/-! ### The claim on the exact sum -/

theorem sumRange_add (L : LongDouble) (contents : Nat → Dbl) :
    ∀ (k m i : Nat) (sum : L.carrier),
      sumRange L contents m (i + k) (sumRange L contents k i sum) =
        sumRange L contents (k + m) i sum := by
  intro k
  induction k with
  | zero => intro m i sum; simp [sumRange]
  | succ k ih =>
    intro m i sum
    have e : k + 1 + m = (k + m) + 1 := by omega
    rw [e]
    simp only [sumRange]
    rw [← ih m (i + 1) _]
    congr 1
    omega

theorem unrolledLoop_spec (L : LongDouble) (contents : Nat → Dbl) (n : Nat) :
    ∀ (fuel i : Nat) (sum : L.carrier), i ≤ n → n - i < 4 * fuel →
      ∃ k, unrolledLoop L contents (n : Int) fuel i sum =
        some (i + k, sumRange L contents k i sum) ∧ i + k ≤ n := by
  intro fuel
  induction fuel with
  | zero => intro i sum _ h; omega
  | succ fuel ih =>
    intro i sum hi hf
    by_cases hlt : (i : Int) < (n : Int) - 3
    · obtain ⟨k, hk, hle⟩ := ih (i + 4)
        (L.addDouble (L.addDouble (L.addDouble (L.addDouble sum (contents i))
          (contents (i + 1))) (contents (i + 2))) (contents (i + 3)))
        (by omega) (by omega)
      refine ⟨4 + k, ?_, by omega⟩
      simp only [unrolledLoop, hlt, if_true, hk]
      have e : i + (4 + k) = i + 4 + k := by omega
      rw [e, ← sumRange_add L contents 4 k i sum]
      rfl
    · exact ⟨0, by simp [unrolledLoop, hlt, sumRange], by omega⟩

theorem tailLoop_spec (L : LongDouble) (contents : Nat → Dbl) (n : Nat) (naRm : Int)
    (hna : ∀ j, j < n → R_IsNA (contents j) = false) :
    ∀ (fuel i : Nat) (sum : L.carrier), i ≤ n → n - i < fuel →
      tailLoop L contents (n : Int) naRm fuel i sum =
        some (L.toDouble (sumRange L contents (n - i) i sum)) := by
  intro fuel
  induction fuel with
  | zero => intro i sum _ h; omega
  | succ fuel ih =>
    intro i sum hi hf
    by_cases hlt : (i : Int) < (n : Int)
    · have hin : i < n := by omega
      have e : n - i = (n - (i + 1)) + 1 := by omega
      simp only [tailLoop, hlt, if_true, hna i hin, Bool.false_eq_true, if_false]
      rw [ih (i + 1) _ (by omega) (by omega), e]
      rfl
    · have e : n - i = 0 := by omega
      simp only [tailLoop, hlt, if_false, e, sumRange]

/-- C29. For every array of `length >= 0` doubles that contains no NA value,
`call_misc_exactSumFunc` returns with `hasNa = 0` (the four-way unrolled loop followed
by the tail loop) the same result as with `hasNa != 0` (the plain loop), whatever `naRm`
is: the conversion of the accumulator to which every element has been added once, in
index order, starting from `sum = 0`. -/
theorem exactSum_unrolled_eq_plain (L : LongDouble) (contents : Nat → Dbl) (length : Int)
    (hasNa naRm naRm' : Int) (hlen : 0 ≤ length) (hhas : hasNa ≠ 0)
    (hna : ∀ j : Nat, (j : Int) < length → R_IsNA (contents j) = false) :
    call_misc_exactSumFunc L contents length 0 naRm =
        some (L.toDouble (sumRange L contents length.toNat 0 L.zero)) ∧
      call_misc_exactSumFunc L contents length hasNa naRm' =
        some (L.toDouble (sumRange L contents length.toNat 0 L.zero)) := by
  obtain ⟨n, rfl⟩ := Int.eq_ofNat_of_zero_le hlen
  have hna' : ∀ j, j < n → R_IsNA (contents j) = false := fun j hj => hna j (by omega)
  constructor
  · obtain ⟨k, hk, hle⟩ := unrolledLoop_spec L contents n (n + 1) 0 L.zero (by omega)
      (by omega)
    simp only [call_misc_exactSumFunc, if_true, Int.toNat_ofNat, hk]
    rw [tailLoop_spec L contents n naRm hna' (n + 1) (0 + k) _ (by omega) (by omega)]
    have e : n = k + (n - (0 + k)) := by omega
    rw [sumRange_add L contents k (n - (0 + k)) 0 L.zero, ← e]
  · simp only [call_misc_exactSumFunc, hhas, if_false, Int.toNat_ofNat]
    rw [tailLoop_spec L contents n naRm' hna' (n + 1) 0 _ (by omega) (by omega)]
    simp

theorem exactSum_unrolled_eq_plain_witness :
    call_misc_exactSumFunc doubleAsLongDouble (fun i => Dbl.ofNat (i + 1)) 6 0 0 =
        some (doubleAsLongDouble.toDouble
          (sumRange doubleAsLongDouble (fun i => Dbl.ofNat (i + 1)) (6 : Int).toNat 0
            doubleAsLongDouble.zero)) ∧
      call_misc_exactSumFunc doubleAsLongDouble (fun i => Dbl.ofNat (i + 1)) 6 1 0 =
        some (doubleAsLongDouble.toDouble
          (sumRange doubleAsLongDouble (fun i => Dbl.ofNat (i + 1)) (6 : Int).toNat 0
            doubleAsLongDouble.zero)) :=
  exactSum_unrolled_eq_plain doubleAsLongDouble (fun i => Dbl.ofNat (i + 1)) 6 1 0 0
    (by decide) (by decide) (fun _ _ => rfl)

/-! ### The claim on the input handlers -/

theorem isHandlerList_allocated (heap : HandlerHeap) :
    ∀ (ps : List Ptr) (p : Ptr), IsHandlerList heap p ps →
      ∀ q ∈ ps, q ≠ 0 ∧ ∃ node, heap q = some node := by
  intro ps
  induction ps with
  | nil => intro p _ q hq; cases hq
  | cons a ps ih =>
    intro p h q hq
    obtain ⟨-, ha, node, hnode, hrest⟩ := h
    rcases List.mem_cons.1 hq with h1 | h1
    · subst h1; exact ⟨ha, node, hnode⟩
    · exact ih node.next hrest q h1

theorem isHandlerList_unique (heap : HandlerHeap) :
    ∀ (ps ps' : List Ptr) (p : Ptr), IsHandlerList heap p ps → IsHandlerList heap p ps' →
      ps = ps' := by
  intro ps
  induction ps with
  | nil =>
    intro ps' p h h'
    cases ps' with
    | nil => rfl
    | cons a ps' =>
      obtain ⟨h1, h2, -⟩ := h'
      have : p = 0 := h
      exact absurd (h1.symm.trans this) h2
  | cons a ps ih =>
    intro ps' p h h'
    obtain ⟨h1, h2, node, hnode, hrest⟩ := h
    cases ps' with
    | nil =>
      have : p = 0 := h'
      exact absurd (h1.symm.trans this) h2
    | cons b ps' =>
      obtain ⟨h1', h2', node', hnode', hrest'⟩ := h'
      have hab : a = b := h1.symm.trans h1'
      subst hab
      rw [hnode] at hnode'
      cases hnode'
      rw [ih ps' node.next hrest hrest']

theorem isHandlerList_suffix (heap : HandlerHeap) :
    ∀ (a : List Ptr) (q : Ptr) (b : List Ptr) (p : Ptr),
      IsHandlerList heap p (a ++ q :: b) → IsHandlerList heap q (q :: b) := by
  intro a
  induction a with
  | nil =>
    intro q b p h
    obtain ⟨h1, h2, node, hnode, hrest⟩ := h
    exact ⟨rfl, h2, node, hnode, hrest⟩
  | cons c a ih =>
    intro q b p h
    obtain ⟨-, -, node, -, hrest⟩ := h
    exact ih q b node.next hrest

theorem isHandlerList_nodup (heap : HandlerHeap) :
    ∀ (ps : List Ptr) (p : Ptr), IsHandlerList heap p ps → ps.Nodup := by
  intro ps
  induction ps with
  | nil => intro _ _; exact List.nodup_nil
  | cons a ps ih =>
    intro p h
    have h' := h
    obtain ⟨h1, h2, node, hnode, hrest⟩ := h
    refine List.nodup_cons.2 ⟨?_, ih node.next hrest⟩
    intro hmem
    obtain ⟨x, y, hxy⟩ := List.append_of_mem hmem
    have hsuf : IsHandlerList heap a (a :: y) :=
      isHandlerList_suffix heap x a y node.next (by rw [← hxy]; exact hrest)
    have hfull : IsHandlerList heap a (a :: ps) := ⟨rfl, h2, node, hnode, hrest⟩
    have := isHandlerList_unique heap _ _ a hsuf hfull
    have hl := congrArg List.length this
    rw [hxy] at hl
    simp at hl
    omega

theorem isHandlerList_frame (heap heap' : HandlerHeap) :
    ∀ (ps : List Ptr) (p : Ptr), IsHandlerList heap p ps → (∀ q ∈ ps, heap' q = heap q) →
      IsHandlerList heap' p ps := by
  intro ps
  induction ps with
  | nil => intro p h _; exact h
  | cons a ps ih =>
    intro p h hsame
    obtain ⟨h1, h2, node, hnode, hrest⟩ := h
    refine ⟨h1, h2, node, ?_, ?_⟩
    · rw [hsame a (List.mem_cons_self _ _)]; exact hnode
    · exact ih node.next hrest (fun q hq => hsame q (List.mem_cons_of_mem _ hq))

theorem isHandlerList_head_ne_zero (heap : HandlerHeap) (p a : Ptr) (ps : List Ptr)
    (h : IsHandlerList heap p (a :: ps)) : p ≠ 0 := by
  obtain ⟨h1, h2, -⟩ := h
  rw [h1]; exact h2

theorem lastHandler_spec (heap : HandlerHeap) (last : Ptr) :
    ∀ (init : List Ptr) (p : Ptr) (fuel : Nat), IsHandlerList heap p (init ++ [last]) →
      init.length < fuel → lastHandler heap fuel p = some last := by
  intro init
  induction init with
  | nil =>
    intro p fuel h hf
    obtain ⟨h1, h2, node, hnode, hrest⟩ := h
    have hn : node.next = 0 := hrest
    cases fuel with
    | zero => simp at hf
    | succ fuel =>
      subst h1
      simp only [lastHandler, hnode, hn, ne_eq, not_true_eq_false, if_false]
  | cons a init ih =>
    intro p fuel h hf
    obtain ⟨h1, h2, node, hnode, hrest⟩ := h
    cases fuel with
    | zero => simp at hf
    | succ fuel =>
      subst h1
      have hne : node.next ≠ 0 := by
        cases init with
        | nil => exact isHandlerList_head_ne_zero heap _ _ _ hrest
        | cons b init => exact isHandlerList_head_ne_zero heap _ _ _ hrest
      simp only [lastHandler, hnode, hne, ne_eq, not_false_eq_true, if_true]
      exact ih node.next fuel hrest (by simpa using hf)

/-- Linking a new object after the last handler appends it to the list. -/
theorem isHandlerList_append (heap : HandlerHeap) (last input : Ptr)
    (node inode : InputHandler) (hin : inode.next = 0)
    (hin0 : input ≠ 0) (hne : input ≠ last) :
    ∀ (init : List Ptr) (p : Ptr), IsHandlerList heap p (init ++ [last]) →
      last ∉ init → input ∉ init →
      IsHandlerList
        ((heap.store input (some inode)).store last (some { node with next := input }))
        p (init ++ [last, input]) := by
  intro init
  induction init with
  | nil =>
    intro p h _ _
    obtain ⟨h1, h2, node', hnode', hrest⟩ := h
    refine ⟨h1, h2, { node with next := input }, by simp [HandlerHeap.store], ?_⟩
    refine ⟨rfl, hin0, inode, by simp [HandlerHeap.store, hne], ?_⟩
    exact hin
  | cons a init ih =>
    intro p h hl hi
    obtain ⟨h1, h2, node', hnode', hrest⟩ := h
    have hal : a ≠ last := fun e => hl (by simp [e])
    have hai : a ≠ input := fun e => hi (by simp [e])
    refine ⟨h1, h2, node', by simp [HandlerHeap.store, hal, hai, hnode'], ?_⟩
    exact ih node'.next hrest (fun e => hl (List.mem_cons_of_mem _ e))
      (fun e => hi (List.mem_cons_of_mem _ e))

theorem removeLoop_spec (heap : HandlerHeap) (last input : Ptr)
    (node inode : InputHandler) (hlast : heap last = some node) (hnext : node.next = input)
    (hinput : heap input = some inode) :
    ∀ (init : List Ptr) (p : Ptr) (fuel : Nat),
      IsHandlerList heap p (init ++ [last, input]) → (init ++ [last, input]).Nodup →
      init.length < fuel →
      removeLoop input fuel heap p =
        some (1, (heap.store last (some { node with next := inode.next })).store input none) := by
  intro init
  induction init with
  | nil =>
    intro p fuel h _ hf
    obtain ⟨h1, h2, -⟩ := h
    cases fuel with
    | zero => simp at hf
    | succ fuel =>
      subst h1
      simp only [removeLoop, h2, if_false, hlast, hnext, if_true, hinput]
  | cons a init ih =>
    intro p fuel h hnd hf
    obtain ⟨h1, h2, node', hnode', hrest⟩ := h
    cases fuel with
    | zero => simp at hf
    | succ fuel =>
      subst h1
      have hnd' := (List.nodup_cons.1 hnd).2
      have hne : node'.next ≠ input := by
        intro e
        cases init with
        | nil =>
          obtain ⟨h3, -⟩ := hrest
          have : input = last := e.symm.trans h3
          have hd := hnd'
          simp [this] at hd
        | cons b init =>
          obtain ⟨h3, -⟩ := hrest
          have : input = b := e.symm.trans h3
          have hd := hnd'
          simp [this] at hd
      simp only [removeLoop, h2, if_false, hnode', hne]
      exact ih node'.next fuel hrest hnd' (by simpa using hf)

/-- C30. For every non-empty input-handler list `L` (the handlers at `ps`, in order) and
every descriptor `fd`, `h = addInputHandler(L, fd, handler, activity)` returns the new
object `input` and appends it at the end of `L`: the list is then `ps` followed by
`input`, the new object holds the three arguments and a `NULL` link, every existing
handler keeps its activity, descriptor and handler, and `R_InputHandlers` is untouched.
An immediately following `removeInputHandler(&L, h)` returns 1, leaves `L` pointing to
the same first handler and restores the memory to exactly its contents before the add.
Any `fuel` of at least the length of the list suffices for the loops. -/
theorem add_then_remove_InputHandler (st : HandlerState) (L : Ptr) (ps : List Ptr)
    (fd : Int) (handler : Ptr) (activity : Int) (input : Ptr) (fuel : Nat)
    (hlist : IsHandlerList st.heap L ps) (hne : ps ≠ [])
    (hin0 : input ≠ 0) (hfresh : st.heap input = none) (hfuel : ps.length ≤ fuel) :
    ∃ st1, addInputHandler fuel st L fd handler activity input = some (input, st1) ∧
      IsHandlerList st1.heap L (ps ++ [input]) ∧
      st1.heap input = some { activity := activity, fileDescriptor := fd,
                              handler := handler, next := 0 } ∧
      (∀ p ∈ ps, ∃ n n', st.heap p = some n ∧ st1.heap p = some n' ∧
        n'.activity = n.activity ∧ n'.fileDescriptor = n.fileDescriptor ∧
        n'.handler = n.handler) ∧
      st1.R_InputHandlers = st.R_InputHandlers ∧
      removeInputHandler fuel st1 L input = some (1, L, st) := by
  obtain ⟨init, last, rfl⟩ : ∃ init last, ps = init ++ [last] :=
    ⟨ps.dropLast, ps.getLast hne, (List.dropLast_append_getLast hne).symm⟩
  have halloc := isHandlerList_allocated st.heap _ L hlist
  have hnd := isHandlerList_nodup st.heap _ L hlist
  obtain ⟨-, node, hnode⟩ := halloc last (by simp)
  have hnotin : input ∉ init ++ [last] := by
    intro h
    obtain ⟨-, n, hn⟩ := halloc input h
    rw [hfresh] at hn; cases hn
  have hil : input ≠ last := fun e => hnotin (by simp [e])
  have hlastinit : last ∉ init := by
    intro h
    have := (List.nodup_append.1 hnd).2.2
    exact this h (by simp)
  have hinit : input ∉ init := fun h => hnotin (List.mem_append_left _ h)
  have hL0 : L ≠ 0 := by
    cases init with
    | nil => exact isHandlerList_head_ne_zero st.heap _ _ _ hlist
    | cons b init => exact isHandlerList_head_ne_zero st.heap _ _ _ hlist
  have hLin : L ≠ input := by
    intro e
    apply hnotin
    cases init with
    | nil => obtain ⟨h1, -⟩ := hlist; simp [← e, h1]
    | cons b init => obtain ⟨h1, -⟩ := hlist; simp [← e, h1]
  have hlen : init.length < fuel := by simpa using hfuel
  -- the state after the new object has been filled in
  have hlist1 : IsHandlerList (st.heap.store input
      (some { activity := activity, fileDescriptor := fd, handler := handler, next := 0 }))
      L (init ++ [last]) :=
    isHandlerList_frame st.heap _ _ L hlist (fun q hq => by
      have : q ≠ input := fun e => hnotin (e ▸ hq)
      simp [HandlerHeap.store, this])
  have hfind := lastHandler_spec _ last init L fuel hlist1 hlen
  have hnode1 : (st.heap.store input
      (some { activity := activity, fileDescriptor := fd, handler := handler, next := 0 }))
      last = some node := by
    simp [HandlerHeap.store, Ne.symm hil, hnode]
  have hfresh' : ¬ (input = 0 ∨ (st.heap input).isSome = true) := by
    simp [hin0, hfresh]
  have hlist2 := isHandlerList_append st.heap last input node
    { activity := activity, fileDescriptor := fd, handler := handler, next := 0 }
    rfl hin0 hil init L hlist hlastinit hinit
  refine ⟨⟨HandlerHeap.store (st.heap.store input
      (some { activity := activity, fileDescriptor := fd, handler := handler, next := 0 }))
      last (some { node with next := input }), st.R_InputHandlers⟩, ?_, ?_, ?_, ?_, rfl, ?_⟩
  · simp only [addInputHandler, hfresh', if_false, hL0, hfind, hnode1]
  · simpa using hlist2
  · simp [HandlerHeap.store, hil]
  · intro p hp
    obtain ⟨-, n, hn⟩ := halloc p hp
    have hpi : p ≠ input := fun e => hnotin (e ▸ hp)
    by_cases hpl : p = last
    · subst hpl
      rw [hnode] at hn; cases hn
      exact ⟨node, { node with next := input }, hnode, by simp [HandlerHeap.store], rfl, rfl,
        rfl⟩
    · exact ⟨n, n, hn, by simp [HandlerHeap.store, hpl, hpi, hn], rfl, rfl, rfl⟩
  · have hnd2 := isHandlerList_nodup _ _ L hlist2
    have hrem := removeLoop_spec _ last input { node with next := input }
      { activity := activity, fileDescriptor := fd, handler := handler, next := 0 }
      (by simp [HandlerHeap.store]) rfl (by simp [HandlerHeap.store, hil]) init L fuel
      hlist2 hnd2 hlen
    simp only [removeInputHandler, hin0, if_false, hLin, hrem]
    have hheap : HandlerHeap.store (HandlerHeap.store (HandlerHeap.store (st.heap.store input
        (some { activity := activity, fileDescriptor := fd, handler := handler, next := 0 }))
        last (some { node with next := input })) last
        (some { ({ node with next := input } : InputHandler) with next := 0 }))
        input none = st.heap := by
      funext q
      by_cases hqi : q = input
      · subst hqi; simp [HandlerHeap.store, hfresh]
      · by_cases hql : q = last
        · subst hql
          have hn0 : node.next = 0 := by
            have hl := isHandlerList_suffix st.heap init q [] L hlist
            obtain ⟨-, -, n', hn', hrest⟩ := hl
            rw [hnode] at hn'; cases hn'
            exact hrest
          simp [HandlerHeap.store, hqi, hnode, ← hn0]
        · simp [HandlerHeap.store, hqi, hql]
    simp only [hheap]

theorem add_then_remove_InputHandler_witness :
    ∃ st1, addInputHandler 2 twoHandlers 10 5 77 1 30 = some (30, st1) ∧
      IsHandlerList st1.heap 10 ([10, 20] ++ [30]) ∧
      removeInputHandler 2 st1 10 30 = some (1, 10, twoHandlers) := by
  obtain ⟨st1, h1, h2, -, -, -, h6⟩ :=
    add_then_remove_InputHandler twoHandlers 10 [10, 20] 5 77 1 30 2
      ⟨rfl, by decide, _, rfl, rfl, by decide, _, rfl, rfl⟩ (by simp) (by decide) rfl
      (by decide)
  exact ⟨st1, h1, h2, h6⟩

/-! ### The claims on `utf8towcs` -/

theorem strlen_nil : strlen [] = 0 := rfl

theorem strlen_cons_zero (s : CString) : strlen (0 :: s) = 0 := by
  simp [strlen]

theorem strlen_of_byteAt_zero (s : CString) (h : byteAt s 0 = 0) : strlen s = 0 := by
  cases s with
  | nil => rfl
  | cons a s =>
    have : a = 0 := h
    subst this
    exact strlen_cons_zero s

theorem strlen_pos_of_byteAt (s : CString) (h : byteAt s 0 ≠ 0) : 1 ≤ strlen s := by
  cases s with
  | nil => exact absurd rfl h
  | cons a s =>
    have : a ≠ 0 := h
    rw [strlen_cons_of_ne_zero a s this]
    omega

theorem strlen_drop : ∀ (m : Nat) (s : CString), m ≤ strlen s →
    strlen (s.drop m) = strlen s - m := by
  intro m
  induction m with
  | zero => intro s _; simp
  | succ m ih =>
    intro s h
    cases s with
    | nil => simp [strlen_nil] at h
    | cons a s =>
      by_cases ha : a = 0
      · subst ha; rw [strlen_cons_zero] at h; omega
      · rw [strlen_cons_of_ne_zero a s ha] at h ⊢
        rw [List.drop_succ_cons, ih s (by omega)]
        omega

theorem strlen_append_of_ne_zero : ∀ (a b : CString), (∀ c ∈ a, c ≠ 0) →
    strlen (a ++ b) = a.length + strlen b := by
  intro a
  induction a with
  | nil => intro b _; simp
  | cons c a ih =>
    intro b h
    rw [List.cons_append, strlen_cons_of_ne_zero _ _ (h c (List.mem_cons_self _ _)),
      ih b (fun x hx => h x (List.mem_cons_of_mem _ hx)), List.length_cons]
    omega

theorem sentinels_ge : SIZE_T_MINUS_1 ≥ 2 ^ 63 ∧ SIZE_T_MINUS_2 ≥ 2 ^ 63 := by
  decide

/-- A result of `utf8toucs` is 0, a sentinel, or a length between 1 and the number of
bytes before the terminator. -/
theorem utf8toucs_length_bound (w : Nat) (t : CString) :
    (utf8toucs w t).2 = 0 ∨ (utf8toucs w t).2 ≥ 2 ^ 63 ∨
      (1 ≤ (utf8toucs w t).2 ∧ (utf8toucs w t).2 ≤ strlen t) := by
  have hs1 := sentinels_ge.1
  have hs2 := sentinels_ge.2
  by_cases h0 : byteAt t 0 = 0
  · left; simp only [utf8toucs, h0, if_true]
  have hpos := strlen_pos_of_byteAt t h0
  by_cases h1 : byteAt t 0 < 0xC0
  · right; right
    simp only [utf8toucs, h0, h1, if_false, if_true]
    exact ⟨le_refl _, hpos⟩
  by_cases h2 : byteAt t 0 < 0xE0
  · by_cases hl : strlen t < 2
    · right; left; simp only [utf8toucs, h0, h1, h2, hl, if_false, if_true]; exact hs2
    · by_cases hc : byteAt t 1 &&& 0xC0 = 0x80
      · right; right
        simp only [utf8toucs, h0, h1, h2, hl, hc, if_false, if_true]
        omega
      · right; left; simp only [utf8toucs, h0, h1, h2, hl, hc, if_false, if_true]; exact hs1
  by_cases h3 : byteAt t 0 < 0xF0
  · by_cases hl : strlen t < 3
    · right; left; simp only [utf8toucs, h0, h1, h2, h3, hl, if_false, if_true]; exact hs2
    · by_cases hc : byteAt t 1 &&& 0xC0 = 0x80 ∧ byteAt t 2 &&& 0xC0 = 0x80
      · simp only [utf8toucs, h0, h1, h2, h3, hl, hc.1, hc.2, and_self, if_false, if_true]
        split_ifs
        · right; left; exact hs1
        · right; left; exact hs1
        · right; right; dsimp only; omega
      · right; left
        simp only [utf8toucs, h0, h1, h2, h3, hl, hc, if_false, if_true]; exact hs1
  by_cases hw : w < 4
  · right; left; simp only [utf8toucs, h0, h1, h2, h3, hw, if_false, if_true]; exact hs2
  by_cases h4 : byteAt t 0 < 0xF8
  · by_cases hl : strlen t < 4
    · right; left
      simp only [utf8toucs, h0, h1, h2, h3, hw, h4, hl, if_false, if_true]; exact hs2
    · right; right
      simp only [utf8toucs, h0, h1, h2, h3, hw, h4, hl, if_false, if_true]
      omega
  by_cases h5 : byteAt t 0 < 0xFC
  · by_cases hl : strlen t < 5
    · right; left
      simp only [utf8toucs, h0, h1, h2, h3, hw, h4, h5, hl, if_false, if_true]; exact hs2
    · right; right
      simp only [utf8toucs, h0, h1, h2, h3, hw, h4, h5, hl, if_false, if_true]
      omega
  · by_cases hl : strlen t < 6
    · right; left
      simp only [utf8toucs, h0, h1, h2, h3, hw, h4, h5, hl, if_false, if_true]; exact hs2
    · right; right
      simp only [utf8toucs, h0, h1, h2, h3, hw, h4, h5, hl, if_false, if_true]
      omega

/-- The loop of `utf8towcs` ends within `strlen(t) + 1` iterations. -/
theorem utf8towcsLoop_terminates (w : Nat) (hasBuffer : Bool) (n : Nat) :
    ∀ (fuel : Nat) (t : CString) (res : Nat) (writes : List (Nat × Nat)),
      strlen t < fuel → ∃ o, utf8towcsLoop w hasBuffer n fuel t res writes = some o := by
  intro fuel
  induction fuel with
  | zero => intro t res writes h; omega
  | succ fuel ih =>
    intro t res writes h
    simp only [utf8towcsLoop]
    by_cases h1 : (utf8toucs w t).2 ≥ 2 ^ 63
    · rw [if_pos h1]; exact ⟨_, rfl⟩
    rw [if_neg h1]
    by_cases h2 : (utf8toucs w t).2 = 0
    · rw [if_pos h2]; exact ⟨_, rfl⟩
    rw [if_neg h2]
    by_cases h3 : hasBuffer = true ∧ res + 1 ≥ n
    · rw [if_pos h3]; exact ⟨_, rfl⟩
    rw [if_neg h3]
    rcases utf8toucs_length_bound w t with hb | hb | ⟨hb1, hb2⟩
    · exact absurd hb h2
    · exact absurd hb h1
    · apply ih
      rw [strlen_drop _ t hb2]
      omega

theorem utf8Encode_ne_zero (c : Nat) (hc : ValidCodePoint c) : ∀ b ∈ utf8Encode c, b ≠ 0 := by
  obtain ⟨hpos, -⟩ := hc
  intro b hb
  unfold utf8Encode at hb
  split_ifs at hb <;> simp at hb <;> omega

theorem utf8Encode_length_pos (c : Nat) : 1 ≤ (utf8Encode c).length := by
  unfold utf8Encode
  split_ifs <;> simp

/-- The decoder inverts the standard encoder. -/
theorem utf8toucs_utf8Encode (w c : Nat) (rest : CString) (hw : 4 ≤ w)
    (hc : ValidCodePoint c) :
    utf8toucs w (utf8Encode c ++ rest) = (some c, (utf8Encode c).length) := by
  obtain ⟨hpos, hmax, hsur, hfe, hff⟩ := hc
  by_cases h1 : c < 0x80
  · simp only [utf8Encode, h1, if_true, List.singleton_append, List.length_singleton]
    exact utf8toucs_one w c rest hw hpos h1
  by_cases h2 : c < 0x800
  · simp only [utf8Encode, h1, h2, if_false, if_true, List.cons_append, List.nil_append,
      List.length_cons, List.length_nil]
    have := utf8toucs_two w (c / 64) (c % 64) rest hw (by omega) (by omega)
      (Nat.mod_lt _ (by norm_num))
    rw [this]
    congr 2
    omega
  by_cases h3 : c < 0x10000
  · simp only [utf8Encode, h1, h2, h3, if_false, if_true, List.cons_append, List.nil_append,
      List.length_cons, List.length_nil]
    have hcc : c / 4096 * 4096 + c / 64 % 64 * 64 + c % 64 = c := by omega
    have := utf8toucs_three w (c / 4096) (c / 64 % 64) (c % 64) rest hw (by omega)
      (Nat.mod_lt _ (by norm_num)) (Nat.mod_lt _ (by norm_num))
      (by rw [hcc]; exact hsur) (by rw [hcc]; exact hfe) (by rw [hcc]; exact hff)
    rw [this, hcc]
  · simp only [utf8Encode, h1, h2, h3, if_false, List.cons_append, List.nil_append,
      List.length_cons, List.length_nil]
    have hcc : c / 262144 * 262144 + c / 4096 % 64 * 4096 + c / 64 % 64 * 64 + c % 64 = c := by
      omega
    have := utf8toucs_four w (c / 262144) (c / 4096 % 64) (c / 64 % 64) (c % 64) rest
      hw (by omega) (Nat.mod_lt _ (by norm_num)) (Nat.mod_lt _ (by norm_num))
      (Nat.mod_lt _ (by norm_num))
    rw [this, hcc]

theorem utf8toucs_of_byteAt_zero (w : Nat) (t : CString) (h : byteAt t 0 = 0) :
    utf8toucs w t = (some 0, 0) := by
  simp [utf8toucs, h, toWchar]

theorem utf8EncodeAll_cons (c : Nat) (cps : List Nat) :
    utf8EncodeAll (c :: cps) = utf8Encode c ++ utf8EncodeAll cps := by
  simp [utf8EncodeAll]

theorem utf8EncodeAll_ne_zero (cps : List Nat) (h : ∀ c ∈ cps, ValidCodePoint c) :
    ∀ b ∈ utf8EncodeAll cps, b ≠ 0 := by
  intro b hb
  obtain ⟨c, hc, hbc⟩ := List.mem_flatMap.1 hb
  exact utf8Encode_ne_zero c (h c hc) b hbc

theorem length_le_utf8EncodeAll (cps : List Nat) : cps.length ≤ (utf8EncodeAll cps).length := by
  induction cps with
  | nil => simp
  | cons c cps ih =>
    rw [utf8EncodeAll_cons, List.length_append, List.length_cons]
    have := utf8Encode_length_pos c
    omega

/-- Without a buffer the loop counts the code points of a well-formed string. -/
theorem utf8towcsLoop_count (w n : Nat) (hw : 4 ≤ w) (tail : CString)
    (htail : byteAt tail 0 = 0) :
    ∀ (cps : List Nat) (fuel res : Nat) (writes : List (Nat × Nat)),
      (∀ c ∈ cps, ValidCodePoint c) → cps.length < fuel →
      utf8towcsLoop w false n fuel (utf8EncodeAll cps ++ tail) res writes =
        some (.returned (res + cps.length) writes) := by
  intro cps
  induction cps with
  | nil =>
    intro fuel res writes _ hf
    cases fuel with
    | zero => simp at hf
    | succ fuel =>
      simp [utf8towcsLoop, utf8EncodeAll, utf8toucs_of_byteAt_zero w tail htail]
  | cons c cps ih =>
    intro fuel res writes hv hf
    cases fuel with
    | zero => simp at hf
    | succ fuel =>
      have hc := hv c (List.mem_cons_self _ _)
      have hdec := utf8toucs_utf8Encode w c (utf8EncodeAll cps ++ tail) hw hc
      have hl1 := utf8Encode_length_pos c
      have hl4 : (utf8Encode c).length ≤ 4 := by
        unfold utf8Encode; split_ifs <;> simp
      have hlt : ¬ ((utf8Encode c).length ≥ 2 ^ 63) := by
        have : (4 : Nat) < 2 ^ 63 := by decide
        omega
      have hne : ¬ ((utf8Encode c).length = 0) := by omega
      rw [utf8EncodeAll_cons, List.append_assoc]
      simp only [utf8towcsLoop, hdec, hlt, hne, if_false, Bool.false_eq_true, false_and,
        List.drop_left]
      rw [ih fuel (res + 1) writes (fun x hx => hv x (List.mem_cons_of_mem _ hx))
        (by simpa using hf), List.length_cons]
      congr 2
      omega

/-- C27 (counterexample). The byte strings `EF BF BE` and `EF BF BF` are the UTF-8
encodings of the code points U+FFFE and U+FFFF, one code point each; on them
`utf8towcs(NULL, s, 0)` does not return 1: `utf8toucs` answers `(size_t)-1` and the call
raises the error for invalid input. -/
theorem utf8towcs_noncharacter_error :
    utf8EncodeAll [0xFFFE] = [0xEF, 0xBF, 0xBE] ∧
      utf8towcs 4 false [0xEF, 0xBF, 0xBE] 0 = some (.error []) ∧
      utf8towcs 4 false [0xEF, 0xBF, 0xBE] 0 ≠ some (.returned 1 []) ∧
      utf8EncodeAll [0xFFFF] = [0xEF, 0xBF, 0xBF] ∧
      utf8towcs 4 false [0xEF, 0xBF, 0xBF] 0 = some (.error []) ∧
      utf8towcs 4 false [0xEF, 0xBF, 0xBF] 0 ≠ some (.returned 1 []) := by
  decide

/-- C27 (amended). For every NUL-terminated string `s`, `utf8towcs(NULL, s, 0)` terminates,
by returning or by raising the error for invalid input: every result `m` of `utf8toucs`
that is neither 0 nor a sentinel satisfies `1 <= m <= strlen`, so the scan stays before
the terminator and `strlen(s) + 1` iterations suffice.  When `s` is the UTF-8 encoding of
a sequence of code points other than U+FFFE and U+FFFF (`wchar_t` of at least 4 bytes),
it returns their number, which is `strlen(s)` when all of them are ASCII. -/
theorem utf8towcs_count (w : Nat) (s : CString) :
    (∀ t : CString, (utf8toucs w t).2 ≠ 0 → (utf8toucs w t).2 < 2 ^ 63 →
      1 ≤ (utf8toucs w t).2 ∧ (utf8toucs w t).2 ≤ strlen t) ∧
    (∃ o, utf8towcs w false s 0 = some o) ∧
    (∀ (cps : List Nat) (tail : CString), 4 ≤ w → (∀ c ∈ cps, ValidCodePoint c) →
      byteAt tail 0 = 0 → s = utf8EncodeAll cps ++ tail →
      utf8towcs w false s 0 = some (.returned cps.length []) ∧
      ((∀ c ∈ cps, c < 0x80) → strlen s = cps.length)) := by
  refine ⟨?_, ?_, ?_⟩
  · intro t h0 hlt
    rcases utf8toucs_length_bound w t with hb | hb | hb
    · exact absurd hb h0
    · omega
    · exact hb
  · exact utf8towcsLoop_terminates w false 0 (strlen s + 1) s 0 [] (by omega)
  · intro cps tail hw hv htail hs
    subst hs
    have hlen : strlen (utf8EncodeAll cps ++ tail) = (utf8EncodeAll cps).length := by
      rw [strlen_append_of_ne_zero _ _ (utf8EncodeAll_ne_zero cps hv),
        strlen_of_byteAt_zero tail htail]
      rfl
    constructor
    · have := utf8towcsLoop_count w 0 hw tail htail cps
        (strlen (utf8EncodeAll cps ++ tail) + 1) 0 [] hv
        (by rw [hlen]; have := length_le_utf8EncodeAll cps; omega)
      rw [utf8towcs, this, Nat.zero_add]
    · intro hascii
      rw [hlen]
      clear hlen
      induction cps with
      | nil => rfl
      | cons c cps ih =>
        rw [utf8EncodeAll_cons, List.length_append, List.length_cons,
          ih (fun x hx => hv x (List.mem_cons_of_mem _ hx))
            (fun x hx => hascii x (List.mem_cons_of_mem _ hx))]
        have : c < 0x80 := hascii c (List.mem_cons_self _ _)
        simp [utf8Encode, this]
        omega

theorem utf8towcs_count_witness :
    utf8towcs 4 false (utf8EncodeAll [0x48, 0xE9, 0x20AC] ++ [0, 0x41]) 0 =
        some (.returned [0x48, 0xE9, 0x20AC].length []) ∧
      utf8EncodeAll [0x48, 0xE9, 0x20AC] = [0x48, 0xC3, 0xA9, 0xE2, 0x82, 0xAC] :=
  ⟨((utf8towcs_count 4 (utf8EncodeAll [0x48, 0xE9, 0x20AC] ++ [0, 0x41])).2.2
      [0x48, 0xE9, 0x20AC] [0, 0x41] (by decide) (by decide) rfl rfl).1, by decide⟩

theorem storesFrom_index_lt (n : Nat) : ∀ (cs : List Nat) (i : Nat), i + cs.length ≤ n →
    ∀ x ∈ storesFrom i cs, x.1 < n := by
  intro cs
  induction cs with
  | nil => intro i _ x hx; cases hx
  | cons c cs ih =>
    intro i hi x hx
    rw [List.length_cons] at hi
    rcases List.mem_cons.1 hx with h | h
    · rw [h]; show i < n; omega
    · exact ih (i + 1) (by omega) x h

/-- With a buffer and a limit above `res` the loop stores the code points of a
well-formed string at `wc[res]`, `wc[res + 1]`, ... until the limit is reached, or all
of them and then the terminator. -/
theorem utf8towcsLoop_store (w n : Nat) (hw : 4 ≤ w) (tail : CString)
    (htail : byteAt tail 0 = 0) :
    ∀ (cps : List Nat) (fuel res : Nat) (writes : List (Nat × Nat)),
      (∀ c ∈ cps, ValidCodePoint c) → cps.length < fuel → res < n →
      utf8towcsLoop w true n fuel (utf8EncodeAll cps ++ tail) res writes =
        some (.returned (res + min (n - res) cps.length)
          (writes ++ storesFrom res (cps.take (n - res)) ++
            if cps.length < n - res then [(res + cps.length, 0)] else [])) := by
  intro cps
  induction cps with
  | nil =>
    intro fuel res writes _ hf hres
    cases fuel with
    | zero => simp at hf
    | succ fuel =>
      have hpos : 0 < n - res := by omega
      simp [utf8towcsLoop, utf8EncodeAll, utf8toucs_of_byteAt_zero w tail htail, storesFrom,
        hpos]
  | cons c cps ih =>
    intro fuel res writes hv hf hres
    cases fuel with
    | zero => simp at hf
    | succ fuel =>
      have hc := hv c (List.mem_cons_self _ _)
      have hdec := utf8toucs_utf8Encode w c (utf8EncodeAll cps ++ tail) hw hc
      have hl1 := utf8Encode_length_pos c
      have hl4 : (utf8Encode c).length ≤ 4 := by
        unfold utf8Encode; split_ifs <;> simp
      have hlt : ¬ ((utf8Encode c).length ≥ 2 ^ 63) := by
        have : (4 : Nat) < 2 ^ 63 := by decide
        omega
      have hne : ¬ ((utf8Encode c).length = 0) := by omega
      rw [utf8EncodeAll_cons, List.append_assoc]
      obtain ⟨k, hk⟩ : ∃ k, n - res = k + 1 := ⟨n - res - 1, by omega⟩
      by_cases hstop : res + 1 ≥ n
      · have hk0 : k = 0 := by omega
        subst hk0
        simp only [utf8towcsLoop, hdec, hlt, hne, if_false, if_true, hstop, and_self, hk,
          List.length_cons, List.take_succ_cons, List.take_zero, storesFrom]
        have h1 : min (0 + 1) (cps.length + 1) = 1 := by omega
        have h2 : ¬ (cps.length + 1 < 0 + 1) := by omega
        rw [h1, if_neg h2]
        simp
      · have hres' : res + 1 < n := by omega
        have hk' : n - (res + 1) = k := by omega
        simp only [utf8towcsLoop, hdec, hlt, hne, if_false, if_true, hstop, and_false,
          List.drop_left, hk, List.length_cons, List.take_succ_cons, storesFrom]
        rw [ih fuel (res + 1) _ (fun x hx => hv x (List.mem_cons_of_mem _ hx))
          (by simpa using hf) hres', hk']
        have h1 : res + 1 + min k cps.length = res + min (k + 1) (cps.length + 1) := by omega
        have h2 : (cps.length < k) ↔ (cps.length + 1 < k + 1) := by omega
        have h3 : res + 1 + cps.length = res + (cps.length + 1) := by omega
        rw [h1, h3]
        simp only [h2, List.append_assoc, List.singleton_append]

/-- The calls with a limit `n >= 1` behave as claimed in C28: for a well-formed string
of `k` code points, `utf8towcs(wc, s, n)` returns `min(n, k)` and every store is to an
element `wc[i]` with `i < n`. -/
theorem utf8towcs_store (w n : Nat) (cps : List Nat) (tail : CString) (hw : 4 ≤ w)
    (hn : 1 ≤ n) (hv : ∀ c ∈ cps, ValidCodePoint c) (htail : byteAt tail 0 = 0) :
    ∃ writes, utf8towcs w true (utf8EncodeAll cps ++ tail) n =
        some (.returned (min n cps.length) writes) ∧
      ∀ x ∈ writes, x.1 < n := by
  have hlen : strlen (utf8EncodeAll cps ++ tail) = (utf8EncodeAll cps).length := by
    rw [strlen_append_of_ne_zero _ _ (utf8EncodeAll_ne_zero cps hv),
      strlen_of_byteAt_zero tail htail]
    rfl
  have := utf8towcsLoop_store w n hw tail htail cps
    (strlen (utf8EncodeAll cps ++ tail) + 1) 0 [] hv
    (by rw [hlen]; have := length_le_utf8EncodeAll cps; omega) (by omega)
  simp only [Nat.zero_add, Nat.sub_zero, List.nil_append] at this
  refine ⟨_, this, ?_⟩
  intro x hx
  rcases List.mem_append.1 hx with h | h
  · exact storesFrom_index_lt n _ 0 (by simp) x h
  · by_cases hlt : cps.length < n
    · rw [if_pos hlt] at h
      rw [List.mem_singleton.1 h]
      exact hlt
    · rw [if_neg hlt] at h; cases h

/-- C28 (defect). With a non-null buffer and the limit `n = 0`, `utf8towcs(wc, "a", 0)`
stores `wc[0] = 'a'` and returns 1, and `utf8towcs(wc, "", 0)` stores the terminator in
`wc[0]`: the limit is tested only after the store and the increment of `res`. -/
theorem utf8towcs_zero_limit_stores :
    utf8towcs 4 true [0x61] 0 = some (.returned 1 [(0, 0x61)]) ∧
      utf8towcs 4 true [] 0 = some (.returned 0 [(0, 0)]) := by
  decide

/-! ### The reads of `R_strtod5` stay within the string -/

theorem byteAt_strlen : ∀ s : CString, byteAt s (strlen s) = 0
  | [] => rfl
  | c :: cs => by
    by_cases h : c = 0
    · subst h; rw [strlen_cons_zero]; rfl
    · rw [strlen_cons_of_ne_zero c cs h, byteAt_cons_succ]; exact byteAt_strlen cs

theorem readAt_of_le (str : CString) (p : Nat) (h : p ≤ strlen str) :
    readAt str p = some (byteAt str p) := by
  rw [readAt, if_pos h]

theorem readAt_of_gt (str : CString) (p : Nat) (h : strlen str < p) :
    readAt str p = none := by
  rw [readAt, if_neg (by omega)]

/-- A position at which a non-NUL byte is read lies before the terminator. -/
theorem succ_le_strlen (str : CString) (p : Nat) (h : p ≤ strlen str)
    (hc : byteAt str p ≠ 0) : p + 1 ≤ strlen str := by
  rcases Nat.lt_or_ge p (strlen str) with h1 | h1
  · exact h1
  · have hp : p = strlen str := le_antisymm h h1
    rw [hp, byteAt_strlen] at hc
    exact absurd rfl hc

theorem isDigit_ne_zero (c : Nat) (h : isDigit c = true) : c ≠ 0 := by
  intro h0
  rw [h0, isDigit_zero] at h
  cases h

theorem skipSpaceAt_safe (str : CString) : ∀ (fuel p : Nat), p ≤ strlen str →
    strlen str < p + fuel →
    ∃ q, skipSpaceAt str fuel p = some q ∧ p ≤ q ∧ q ≤ strlen str := by
  intro fuel
  induction fuel with
  | zero => intro p h1 h2; omega
  | succ fuel ih =>
    intro p h1 h2
    rw [skipSpaceAt, readAt_of_le str p h1, Option.some_bind]
    by_cases hsp : isspace (byteAt str p) = true
    · rw [if_pos hsp]
      have h3 := succ_le_strlen str p h1 (isspace_ne_zero _ hsp)
      obtain ⟨q, hq, h4, h5⟩ := ih (p + 1) h3 (by omega)
      exact ⟨q, hq, by omega, h5⟩
    · rw [if_neg hsp]
      exact ⟨p, rfl, le_refl _, h1⟩

theorem strncmpAt_safe (str : CString) : ∀ (lit : List Nat) (p : Nat),
    (∀ l ∈ lit, l ≠ 0) → p ≤ strlen str →
    ∃ b, strncmpAt str p lit = some b ∧ (b = true → p + lit.length ≤ strlen str) := by
  intro lit
  induction lit with
  | nil => intro p _ h; exact ⟨true, rfl, fun _ => h⟩
  | cons l ls ih =>
    intro p hl h
    rw [strncmpAt, readAt_of_le str p h, Option.some_bind]
    by_cases hc : byteAt str p = l
    · rw [if_pos hc]
      have h3 := succ_le_strlen str p h (by rw [hc]; exact hl l (List.mem_cons_self _ _))
      obtain ⟨b, hb, h4⟩ := ih (p + 1) (fun x hx => hl x (List.mem_cons_of_mem _ hx)) h3
      refine ⟨b, hb, fun hbt => ?_⟩
      have := h4 hbt
      rw [List.length_cons]
      omega
    · rw [if_neg hc]
      exact ⟨false, rfl, fun hbt => by cases hbt⟩

theorem tolower_zero : tolower 0 = 0 := by decide

theorem strncasecmpAt_safe (str : CString) : ∀ (lit : List Nat) (p : Nat),
    (∀ l ∈ lit, tolower l ≠ 0) → p ≤ strlen str →
    ∃ b, strncasecmpAt str p lit = some b ∧ (b = true → p + lit.length ≤ strlen str) := by
  intro lit
  induction lit with
  | nil => intro p _ h; exact ⟨true, rfl, fun _ => h⟩
  | cons l ls ih =>
    intro p hl h
    rw [strncasecmpAt, readAt_of_le str p h, Option.some_bind]
    by_cases hc : tolower (byteAt str p) = tolower l
    · rw [if_pos hc]
      have hne : byteAt str p ≠ 0 := by
        intro h0
        rw [h0, tolower_zero] at hc
        exact hl l (List.mem_cons_self _ _) hc.symm
      have h3 := succ_le_strlen str p h hne
      obtain ⟨b, hb, h4⟩ := ih (p + 1) (fun x hx => hl x (List.mem_cons_of_mem _ hx)) h3
      refine ⟨b, hb, fun hbt => ?_⟩
      have := h4 hbt
      rw [List.length_cons]
      omega
    · rw [if_neg hc]
      exact ⟨false, rfl, fun hbt => by cases hbt⟩

theorem decDigitsAt_safe (str : CString) : ∀ (fuel p : Nat) (ans : Dbl) (k : Nat),
    p ≤ strlen str → strlen str < p + fuel →
    ∃ r, decDigitsAt str fuel p ans k = some r ∧ p ≤ r.1 ∧ r.1 ≤ strlen str := by
  intro fuel
  induction fuel with
  | zero => intro p _ _ h1 h2; omega
  | succ fuel ih =>
    intro p ans k h1 h2
    rw [decDigitsAt, readAt_of_le str p h1, Option.some_bind]
    by_cases hd : isDigit (byteAt str p) = true
    · rw [if_pos hd]
      have h3 := succ_le_strlen str p h1 (isDigit_ne_zero _ hd)
      obtain ⟨r, hr, h4, h5⟩ := ih (p + 1) _ (k + 1) h3 (by omega)
      exact ⟨r, hr, by omega, h5⟩
    · rw [if_neg hd]
      exact ⟨_, rfl, le_refl _, h1⟩

theorem expDigitsAt_safe (str : CString) : ∀ (fuel p : Nat) (n : Int),
    p ≤ strlen str → strlen str < p + fuel →
    ∃ r, expDigitsAt str fuel p n = some r ∧ p ≤ r.1 ∧ r.1 ≤ strlen str := by
  intro fuel
  induction fuel with
  | zero => intro p _ h1 h2; omega
  | succ fuel ih =>
    intro p n h1 h2
    rw [expDigitsAt, readAt_of_le str p h1, Option.some_bind]
    by_cases hd : isDigit (byteAt str p) = true
    · rw [if_pos hd]
      have h3 := succ_le_strlen str p h1 (isDigit_ne_zero _ hd)
      obtain ⟨r, hr, h4, h5⟩ := ih (p + 1) _ h3 (by omega)
      exact ⟨r, hr, by omega, h5⟩
    · rw [if_neg hd]
      exact ⟨_, rfl, le_refl _, h1⟩

theorem hexDigitsAt_safe (str : CString) (dec : Nat) (hdec : dec ≠ 0) :
    ∀ (fuel p : Nat) (ans : Dbl) (exph : Int),
    p ≤ strlen str → strlen str < p + fuel →
    ∃ r, hexDigitsAt str dec fuel p ans exph = some r ∧ p ≤ r.1 ∧ r.1 ≤ strlen str := by
  intro fuel
  induction fuel with
  | zero => intro p _ _ h1 h2; omega
  | succ fuel ih =>
    intro p ans exph h1 h2
    have hstep : byteAt str p ≠ 0 → ∀ (a : Dbl) (e : Int),
        ∃ r, hexDigitsAt str dec fuel (p + 1) a e = some r ∧ p ≤ r.1 ∧ r.1 ≤ strlen str := by
      intro hne a e
      have h3 := succ_le_strlen str p h1 hne
      obtain ⟨r, hr, h4, h5⟩ := ih (p + 1) a e h3 (by omega)
      exact ⟨r, hr, by omega, h5⟩
    have ha : chr 'a' = 97 := rfl
    have hA : chr 'A' = 65 := rfl
    rw [hexDigitsAt, readAt_of_le str p h1, Option.some_bind]
    by_cases hd : isDigit (byteAt str p) = true
    · rw [if_pos hd]
      exact hstep (isDigit_ne_zero _ hd) _ _
    · rw [if_neg hd]
      by_cases hl : chr 'a' ≤ byteAt str p ∧ byteAt str p ≤ chr 'f'
      · rw [if_pos hl]
        exact hstep (by have := hl.1; omega) _ _
      · rw [if_neg hl]
        by_cases hu : chr 'A' ≤ byteAt str p ∧ byteAt str p ≤ chr 'F'
        · rw [if_pos hu]
          exact hstep (by have := hu.1; omega) _ _
        · rw [if_neg hu]
          by_cases hs : byteAt str p = dec
          · rw [if_pos hs]
            exact hstep (by rw [hs]; exact hdec) _ _
          · rw [if_neg hs]
            exact ⟨_, rfl, le_refl _, h1⟩

theorem expSign_safe (str : CString) (p : Nat) (h : p ≤ strlen str) :
    p + (expSign (byteAt str p)).2 ≤ strlen str := by
  unfold expSign
  by_cases h1 : byteAt str p = chr '-'
  · rw [if_pos h1]
    exact succ_le_strlen str p h (by rw [h1]; decide)
  · rw [if_neg h1]
    by_cases h2 : byteAt str p = chr '+'
    · rw [if_pos h2]
      exact succ_le_strlen str p h (by rw [h2]; decide)
    · rw [if_neg h2]
      exact h

theorem exponentAt_safe (str : CString) (fuel p : Nat) (h : p + 1 ≤ strlen str)
    (hf : strlen str < fuel) :
    ∃ e, exponentAt str fuel p = some e ∧ e.1 ≤ strlen str := by
  rw [exponentAt, readAt_of_le str (p + 1) h, Option.some_bind]
  obtain ⟨r, hr, _, h5⟩ := expDigitsAt_safe str fuel
    (p + 1 + (expSign (byteAt str (p + 1))).2) 0 (expSign_safe str (p + 1) h) (by omega)
  rw [hr, Option.some_bind]
  exact ⟨_, rfl, h5⟩

theorem strtodScale_endptr (sign : Int) (ans : Dbl) (expn : Int) (ndigits p : Nat)
    (warned : Bool) : (strtodScale sign ans expn ndigits p warned).endptr = p := by
  simp only [strtodScale]
  by_cases h : ((if expn + ndigits < -300 then expn + ndigits else expn) < -307)
  · simp only [h, if_true]
    split_ifs <;> rfl
  · simp only [h, if_false]
    split_ifs <;> rfl

theorem strtodHexAt_safe (str : CString) (fuel dec : Nat) (exact sign : Int) (p : Nat)
    (hdec : dec ≠ 0) (h : p + 2 ≤ strlen str) (hf : strlen str < fuel) :
    ∃ r, strtodHexAt str fuel dec exact sign p = some r ∧ r.endptr ≤ strlen str := by
  obtain ⟨r, hr, _, h2⟩ := hexDigitsAt_safe str dec hdec fuel (p + 2) (Dbl.ofNat 0) (-1) h
    (by omega)
  simp only [strtodHexAt, hr, Option.some_bind]
  by_cases hex : exact ≠ 0 ∧ r.2.1.gt (Dbl.ofNat (2 ^ 53 - 1)) ∧ exact ≠ NA_LOGICAL
  · rw [if_pos hex]
    exact ⟨_, rfl, Nat.zero_le _⟩
  · rw [if_neg hex, readAt_of_le str r.1 h2, Option.some_bind]
    by_cases hp : byteAt str r.1 = chr 'p' ∨ byteAt str r.1 = chr 'P'
    · rw [if_pos hp]
      have hne : byteAt str r.1 ≠ 0 := by
        rcases hp with hp | hp <;> rw [hp] <;> decide
      obtain ⟨e, he, h3⟩ := exponentAt_safe str fuel r.1 (succ_le_strlen str r.1 h2 hne) hf
      rw [he, Option.some_bind]
      split_ifs <;> exact ⟨_, rfl, h3⟩
    · rw [if_neg hp]
      exact ⟨_, rfl, h2⟩

theorem strtodDecimalAt_safe (str : CString) (fuel dec : Nat) (exact sign : Int) (p : Nat)
    (hdec : dec ≠ 0) (h : p ≤ strlen str) (hf : strlen str < fuel) :
    ∃ r, strtodDecimalAt str fuel dec exact sign p = some r ∧ r.endptr ≤ strlen str := by
  obtain ⟨d1, hd1, _, h2⟩ := decDigitsAt_safe str fuel p (Dbl.ofNat 0) 0 h (by omega)
  have hfrac : ∃ d2, (if byteAt str d1.1 = dec then decDigitsAt str fuel (d1.1 + 1) d1.2.1 0
      else some (d1.1, d1.2.1, 0)) = some d2 ∧ d2.1 ≤ strlen str := by
    by_cases hc : byteAt str d1.1 = dec
    · rw [if_pos hc]
      obtain ⟨d2, hd2, _, h4⟩ := decDigitsAt_safe str fuel (d1.1 + 1) d1.2.1 0
        (succ_le_strlen str d1.1 h2 (by rw [hc]; exact hdec)) (by omega)
      exact ⟨d2, hd2, h4⟩
    · rw [if_neg hc]
      exact ⟨_, rfl, h2⟩
  obtain ⟨d2, hd2, h3⟩ := hfrac
  simp only [strtodDecimalAt, hd1, Option.some_bind, readAt_of_le str d1.1 h2, hd2]
  by_cases hn : d1.2.2 + d2.2.2 = 0
  · rw [if_pos hn]
    exact ⟨_, rfl, Nat.zero_le _⟩
  · rw [if_neg hn]
    by_cases hex : exact ≠ 0 ∧ d2.2.1.gt (Dbl.ofNat (2 ^ 53 - 1)) ∧ exact ≠ NA_LOGICAL
    · rw [if_pos hex]
      exact ⟨_, rfl, Nat.zero_le _⟩
    · rw [if_neg hex, readAt_of_le str d2.1 h3, Option.some_bind]
      by_cases he : byteAt str d2.1 = chr 'e' ∨ byteAt str d2.1 = chr 'E'
      · rw [if_pos he]
        have hne : byteAt str d2.1 ≠ 0 := by
          rcases he with he | he <;> rw [he] <;> decide
        obtain ⟨e, hee, h4⟩ := exponentAt_safe str fuel d2.1
          (succ_le_strlen str d2.1 h3 hne) hf
        rw [hee, Option.some_bind]
        exact ⟨_, rfl, by rw [strtodScale_endptr]; exact h4⟩
      · rw [if_neg he]
        exact ⟨_, rfl, by rw [strtodScale_endptr]; exact h3⟩

theorem strtodNumberAt_safe (str : CString) (fuel dec : Nat) (exact sign : Int) (p : Nat)
    (hdec : dec ≠ 0) (h : p ≤ strlen str) (hf : strlen str < fuel) :
    ∃ r, strtodNumberAt str fuel dec exact sign p = some r ∧ r.endptr ≤ strlen str := by
  obtain ⟨b1, hb1, h1⟩ := strncasecmpAt_safe str [chr 'N', chr 'a', chr 'N'] p (by decide) h
  obtain ⟨b2, hb2, h2⟩ := strncasecmpAt_safe str
    [chr 'i', chr 'n', chr 'f', chr 'i', chr 'n', chr 'i', chr 't', chr 'y'] p (by decide) h
  obtain ⟨b3, hb3, h3⟩ := strncasecmpAt_safe str [chr 'I', chr 'n', chr 'f'] p (by decide) h
  have hhex : ∃ b, (if strlen str - p > 2 then
      (readAt str p).bind fun c0 =>
        if c0 = chr '0' then
          (readAt str (p + 1)).bind fun c1 => some (decide (c1 = chr 'x' ∨ c1 = chr 'X'))
        else some false
      else some false) = some b ∧ (b = true → p + 2 ≤ strlen str) := by
    by_cases hlen : strlen str - p > 2
    · rw [if_pos hlen, readAt_of_le str p h, Option.some_bind,
        readAt_of_le str (p + 1) (by omega), Option.some_bind]
      by_cases h0 : byteAt str p = chr '0'
      · rw [if_pos h0]
        exact ⟨_, rfl, fun _ => by omega⟩
      · rw [if_neg h0]
        exact ⟨_, rfl, fun _ => by omega⟩
    · rw [if_neg hlen]
      exact ⟨false, rfl, fun hb => by cases hb⟩
  obtain ⟨b4, hb4, h4⟩ := hhex
  have hlenAt : strlenAt str p = some (strlen str - p) := by rw [strlenAt, if_pos h]
  simp only [strtodNumberAt, hb1, hb2, hb3, hlenAt, hb4, Option.some_bind]
  cases b1
  · cases b2
    · cases b3
      · cases b4
        · simp only [Bool.false_eq_true, if_false]
          exact strtodDecimalAt_safe str fuel dec exact sign p hdec h hf
        · simp only [Bool.false_eq_true, if_false, if_true]
          exact strtodHexAt_safe str fuel dec exact sign p hdec (h4 rfl) hf
      · simp only [Bool.false_eq_true, if_false, if_true]
        exact ⟨_, rfl, h3 rfl⟩
    · simp only [Bool.false_eq_true, if_false, if_true]
      exact ⟨_, rfl, h2 rfl⟩
  · simp only [if_true]
    exact ⟨_, rfl, h1 rfl⟩

/-! ### The checked run of `R_strtod5` and `R_strtod5` agree -/

theorem byteAt_takeWhile : ∀ (str : CString) (q : Nat), q ≤ strlen str →
    byteAt (str.takeWhile (· ≠ 0)) q = byteAt str q
  | [], q, _ => by simp [byteAt]
  | c :: cs, q, h => by
    by_cases hc : c = 0
    · subst hc
      rw [strlen_cons_zero] at h
      have hq : q = 0 := by omega
      subst hq
      simp [byteAt]
    · rw [strlen_cons_of_ne_zero c cs hc] at h
      have htw : (c :: cs).takeWhile (· ≠ 0) = c :: cs.takeWhile (· ≠ 0) := by
        simp [List.takeWhile, hc]
      rw [htw]
      cases q with
      | zero => rfl
      | succ q =>
        rw [byteAt_cons_succ, byteAt_cons_succ]
        exact byteAt_takeWhile cs q (by omega)

theorem readAt_takeWhile (str : CString) (q : Nat) (h : q ≤ strlen str) :
    readAt str q = some (byteAt (str.takeWhile (· ≠ 0)) q) := by
  rw [readAt_of_le str q h, byteAt_takeWhile str q h]

/-- The text from `q` on: empty at the terminator, else the byte at `q`, which is not NUL,
and the text from `q + 1` on. -/
theorem drop_takeWhile_cases (str : CString) (q : Nat) (h : q ≤ strlen str) :
    ((str.takeWhile (· ≠ 0)).drop q = [] ∧ byteAt (str.takeWhile (· ≠ 0)) q = 0 ∧
        q = strlen str) ∨
      ((str.takeWhile (· ≠ 0)).drop q =
          byteAt (str.takeWhile (· ≠ 0)) q :: (str.takeWhile (· ≠ 0)).drop (q + 1) ∧
        byteAt (str.takeWhile (· ≠ 0)) q ≠ 0 ∧ q + 1 ≤ strlen str) := by
  rcases Nat.lt_or_ge q (strlen str) with hlt | hge
  · right
    have hlt' : q < (str.takeWhile (· ≠ 0)).length := hlt
    have hb : byteAt (str.takeWhile (· ≠ 0)) q = (str.takeWhile (· ≠ 0))[q] := by
      rw [byteAt, List.getD_eq_getElem _ _ hlt']
    refine ⟨?_, ?_, hlt⟩
    · rw [hb]
      exact List.drop_eq_getElem_cons hlt'
    · rw [hb]
      have hmem : (str.takeWhile (· ≠ 0))[q] ∈ str.takeWhile (· ≠ 0) := List.getElem_mem _
      have := List.mem_takeWhile_imp hmem
      simpa using this
  · left
    have hq : q = strlen str := le_antisymm h hge
    refine ⟨List.drop_eq_nil_of_le (by rw [hq]; exact le_refl _), ?_, hq⟩
    rw [byteAt_takeWhile str q h, hq, byteAt_strlen]

theorem skipSpaceAt_eq (str s : CString) (hs : s = str.takeWhile (· ≠ 0)) :
    ∀ (fuel q : Nat), q ≤ strlen str → strlen str < q + fuel →
      skipSpaceAt str fuel q = some (q + skipSpace (s.drop q)) := by
  subst hs
  intro fuel
  induction fuel with
  | zero => intro q h1 h2; omega
  | succ fuel ih =>
    intro q h1 h2
    rw [skipSpaceAt, readAt_takeWhile str q h1, Option.some_bind]
    rcases drop_takeWhile_cases str q h1 with ⟨hd, hb, _⟩ | ⟨hd, _, hq⟩
    · rw [hd, hb]
      rfl
    · rw [hd, skipSpace]
      by_cases hsp : isspace (byteAt (str.takeWhile (· ≠ 0)) q) = true
      · rw [if_pos hsp, if_pos hsp, ih (q + 1) hq (by omega)]
        congr 1
        omega
      · rw [if_neg hsp, if_neg hsp]
        rfl

theorem strncmpAt_eq (str s : CString) (hs : s = str.takeWhile (· ≠ 0)) :
    ∀ (lit : List Nat) (q : Nat), (∀ l ∈ lit, l ≠ 0) → q ≤ strlen str →
      strncmpAt str q lit = some (strncmpEq (s.drop q) lit) := by
  subst hs
  intro lit
  induction lit with
  | nil => intro q _ _; rw [strncmpAt, strncmpEq]
  | cons l ls ih =>
    intro q hl h1
    have hl0 : l ≠ 0 := hl l (List.mem_cons_self _ _)
    rw [strncmpAt, readAt_takeWhile str q h1, Option.some_bind]
    rcases drop_takeWhile_cases str q h1 with ⟨hd, hb, _⟩ | ⟨hd, _, hq⟩
    · rw [hd, hb, if_neg (fun h => hl0 h.symm)]
      rfl
    · rw [hd, strncmpEq]
      by_cases hc : byteAt (str.takeWhile (· ≠ 0)) q = l
      · rw [if_pos hc, ih (q + 1) (fun x hx => hl x (List.mem_cons_of_mem _ hx)) hq]
        generalize List.drop (q + 1) (str.takeWhile (· ≠ 0)) = t
        generalize byteAt (str.takeWhile (· ≠ 0)) q = c at hc
        simp [hc]
      · rw [if_neg hc]
        generalize List.drop (q + 1) (str.takeWhile (· ≠ 0)) = t
        generalize byteAt (str.takeWhile (· ≠ 0)) q = c at hc
        simp [hc]

theorem strncasecmpAt_eq (str s : CString) (hs : s = str.takeWhile (· ≠ 0)) :
    ∀ (lit : List Nat) (q : Nat), (∀ l ∈ lit, tolower l ≠ 0) → q ≤ strlen str →
      strncasecmpAt str q lit = some (strncasecmpEq (s.drop q) lit) := by
  subst hs
  intro lit
  induction lit with
  | nil => intro q _ _; rw [strncasecmpAt, strncasecmpEq]
  | cons l ls ih =>
    intro q hl h1
    have hl0 : tolower l ≠ 0 := hl l (List.mem_cons_self _ _)
    rw [strncasecmpAt, readAt_takeWhile str q h1, Option.some_bind]
    rcases drop_takeWhile_cases str q h1 with ⟨hd, hb, _⟩ | ⟨hd, _, hq⟩
    · rw [hd, hb, tolower_zero, if_neg (fun h => hl0 h.symm)]
      rfl
    · rw [hd, strncasecmpEq]
      by_cases hc : tolower (byteAt (str.takeWhile (· ≠ 0)) q) = tolower l
      · rw [if_pos hc, ih (q + 1) (fun x hx => hl x (List.mem_cons_of_mem _ hx)) hq]
        generalize List.drop (q + 1) (str.takeWhile (· ≠ 0)) = t
        generalize byteAt (str.takeWhile (· ≠ 0)) q = c at hc
        simp [hc]
      · rw [if_neg hc]
        generalize List.drop (q + 1) (str.takeWhile (· ≠ 0)) = t
        generalize byteAt (str.takeWhile (· ≠ 0)) q = c at hc
        simp [hc]

theorem decDigitsAt_eq (str s : CString) (hs : s = str.takeWhile (· ≠ 0)) :
    ∀ (fuel q : Nat) (ans : Dbl) (k : Nat), q ≤ strlen str → strlen str < q + fuel →
      decDigitsAt str fuel q ans k =
        some (q + (decDigits ans (s.drop q)).2, (decDigits ans (s.drop q)).1,
          k + (decDigits ans (s.drop q)).2) := by
  subst hs
  intro fuel
  induction fuel with
  | zero => intro q _ _ h1 h2; omega
  | succ fuel ih =>
    intro q ans k h1 h2
    rw [decDigitsAt, readAt_takeWhile str q h1, Option.some_bind]
    rcases drop_takeWhile_cases str q h1 with ⟨hd, hb, _⟩ | ⟨hd, _, hq⟩
    · rw [hd, hb, isDigit_zero]
      rfl
    · rw [hd]
      by_cases hdg : isDigit (byteAt (str.takeWhile (· ≠ 0)) q) = true
      · rw [if_pos hdg, ih (q + 1) _ (k + 1) hq (by omega)]
        simp only [decDigits, hdg, if_true]
        congr 2
        · omega
        · congr 1
          omega
      · rw [if_neg hdg]
        simp only [decDigits, hdg, Bool.false_eq_true, if_false, Nat.add_zero]

theorem expDigitsAt_eq (str s : CString) (hs : s = str.takeWhile (· ≠ 0)) :
    ∀ (fuel q : Nat) (n : Int), q ≤ strlen str → strlen str < q + fuel →
      expDigitsAt str fuel q n =
        some (q + (expDigits n (s.drop q)).2, (expDigits n (s.drop q)).1) := by
  subst hs
  intro fuel
  induction fuel with
  | zero => intro q _ h1 h2; omega
  | succ fuel ih =>
    intro q n h1 h2
    rw [expDigitsAt, readAt_takeWhile str q h1, Option.some_bind]
    rcases drop_takeWhile_cases str q h1 with ⟨hd, hb, _⟩ | ⟨hd, _, hq⟩
    · rw [hd, hb, isDigit_zero]
      rfl
    · rw [hd]
      by_cases hdg : isDigit (byteAt (str.takeWhile (· ≠ 0)) q) = true
      · rw [if_pos hdg, ih (q + 1) _ hq (by omega)]
        simp only [expDigits, hdg, if_true]
        congr 2
        omega
      · rw [if_neg hdg]
        simp only [expDigits, hdg, Bool.false_eq_true, if_false, Nat.add_zero]

theorem hexDigitsAt_beyond (str : CString) (dec fuel q : Nat) (ans : Dbl) (exph : Int)
    (h : strlen str < q) : hexDigitsAt str dec fuel q ans exph = none := by
  cases fuel with
  | zero => rfl
  | succ fuel => rw [hexDigitsAt, readAt_of_gt str q h]; rfl

theorem decDigitsAt_beyond (str : CString) (fuel q : Nat) (ans : Dbl) (k : Nat)
    (h : strlen str < q) : decDigitsAt str fuel q ans k = none := by
  cases fuel with
  | zero => rfl
  | succ fuel => rw [decDigitsAt, readAt_of_gt str q h]; rfl

theorem hexDigitsAt_eq (str s : CString) (dec : Nat) (hs : s = str.takeWhile (· ≠ 0)) :
    ∀ (fuel q : Nat) (ans : Dbl) (exph : Int), q ≤ strlen str → strlen str < q + fuel →
      hexDigitsAt str dec fuel q ans exph =
        (hexDigits dec ans exph (s.drop q)).map fun r => (q + r.2.2, r.1, r.2.1) := by
  subst hs
  intro fuel
  induction fuel with
  | zero => intro q _ _ h1 h2; omega
  | succ fuel ih =>
    intro q ans exph h1 h2
    have hstep : ∀ (a : Dbl) (e : Int), q + 1 ≤ strlen str →
        hexDigitsAt str dec fuel (q + 1) a e =
          ((hexDigits dec a e ((str.takeWhile (· ≠ 0)).drop (q + 1))).map
            fun r => (r.1, r.2.1, r.2.2 + 1)).map fun r => (q + r.2.2, r.1, r.2.1) := by
      intro a e hq
      rw [ih (q + 1) a e hq (by omega), Option.map_map]
      congr 1
      funext r
      simp only [Function.comp]
      congr 1
      omega
    rw [hexDigitsAt, readAt_takeWhile str q h1, Option.some_bind]
    rcases drop_takeWhile_cases str q h1 with ⟨hd, hb, hq⟩ | ⟨hd, _, hq⟩
    · rw [hd, hb, isDigit_zero, hexDigits]
      have ha : ¬ (chr 'a' ≤ 0 ∧ 0 ≤ chr 'f') := by decide
      have hA : ¬ (chr 'A' ≤ 0 ∧ 0 ≤ chr 'F') := by decide
      rw [if_neg (by decide), if_neg ha, if_neg hA]
      by_cases hdec : dec = 0
      · rw [if_pos hdec.symm, if_pos hdec, hexDigitsAt_beyond str dec fuel (q + 1) _ _ (by omega)]
        rfl
      · rw [if_neg (fun h => hdec h.symm), if_neg hdec]
        rfl
    · rw [hd, hexDigits]
      by_cases h1 : isDigit (byteAt (str.takeWhile (· ≠ 0)) q) = true
      · rw [if_pos h1, if_pos h1]
        exact hstep _ _ hq
      · rw [if_neg h1, if_neg h1]
        by_cases h2 : chr 'a' ≤ byteAt (str.takeWhile (· ≠ 0)) q ∧
            byteAt (str.takeWhile (· ≠ 0)) q ≤ chr 'f'
        · rw [if_pos h2, if_pos h2]
          exact hstep _ _ hq
        · rw [if_neg h2, if_neg h2]
          by_cases h3 : chr 'A' ≤ byteAt (str.takeWhile (· ≠ 0)) q ∧
              byteAt (str.takeWhile (· ≠ 0)) q ≤ chr 'F'
          · rw [if_pos h3, if_pos h3]
            exact hstep _ _ hq
          · rw [if_neg h3, if_neg h3]
            by_cases h4 : byteAt (str.takeWhile (· ≠ 0)) q = dec
            · rw [if_pos h4, if_pos h4]
              exact hstep _ _ hq
            · rw [if_neg h4, if_neg h4]
              rfl

theorem skipSpace_length_le : ∀ l : CString, skipSpace l ≤ l.length
  | [] => Nat.le_refl _
  | c :: cs => by
    rw [skipSpace]
    split_ifs
    · exact Nat.succ_le_succ (skipSpace_length_le cs)
    · exact Nat.zero_le _

theorem decDigits_length_le : ∀ (l : CString) (ans : Dbl), (decDigits ans l).2 ≤ l.length
  | [], _ => Nat.le_refl _
  | c :: cs, ans => by
    rw [decDigits]
    split_ifs
    · exact Nat.succ_le_succ (decDigits_length_le cs _)
    · exact Nat.zero_le _

theorem hexDigits_length_le (dec : Nat) : ∀ (l : CString) (ans : Dbl) (exph : Int)
    (r : Dbl × Int × Nat), hexDigits dec ans exph l = some r → r.2.2 ≤ l.length
  | [], ans, exph, r, h => by
    rw [hexDigits] at h
    split_ifs at h
    cases h
    exact Nat.le_refl _
  | c :: cs, ans, exph, r, h => by
    have hstep : ∀ (a : Dbl) (e : Int),
        (hexDigits dec a e cs).map (fun r => (r.1, r.2.1, r.2.2 + 1)) = some r →
        r.2.2 ≤ (c :: cs).length := by
      intro a e hm
      rcases hr : hexDigits dec a e cs with _ | r1
      · rw [hr] at hm; cases hm
      · rw [hr] at hm
        cases hm
        exact Nat.succ_le_succ (hexDigits_length_le dec cs a e r1 hr)
    rw [hexDigits] at h
    by_cases h1 : isDigit c = true
    · rw [if_pos h1] at h
      exact hstep _ _ h
    · rw [if_neg h1] at h
      by_cases h2 : chr 'a' ≤ c ∧ c ≤ chr 'f'
      · rw [if_pos h2] at h
        exact hstep _ _ h
      · rw [if_neg h2] at h
        by_cases h3 : chr 'A' ≤ c ∧ c ≤ chr 'F'
        · rw [if_pos h3] at h
          exact hstep _ _ h
        · rw [if_neg h3] at h
          by_cases h4 : c = dec
          · rw [if_pos h4] at h
            exact hstep _ _ h
          · rw [if_neg h4] at h
            cases h
            exact Nat.zero_le _

theorem byteAt_takeWhile_ne_zero (str : CString) (q : Nat) (h : q ≤ strlen str)
    (hc : byteAt (str.takeWhile (· ≠ 0)) q ≠ 0) : q + 1 ≤ strlen str :=
  succ_le_strlen str q h (by rw [← byteAt_takeWhile str q h]; exact hc)

theorem expSign_takeWhile (str : CString) (q : Nat) (h : q ≤ strlen str) :
    q + (expSign (byteAt (str.takeWhile (· ≠ 0)) q)).2 ≤ strlen str := by
  rw [byteAt_takeWhile str q h]
  exact expSign_safe str q h

theorem exponentAt_eq (str s : CString) (hs : s = str.takeWhile (· ≠ 0)) (fuel p : Nat)
    (h : p + 1 ≤ strlen str) (hf : strlen str < fuel) :
    exponentAt str fuel p =
      some (p + 1 + (expSign (byteAt s (p + 1))).2 +
          (expDigits 0 (s.drop (p + 1 + (expSign (byteAt s (p + 1))).2))).2,
        (expSign (byteAt s (p + 1))).1,
        (expDigits 0 (s.drop (p + 1 + (expSign (byteAt s (p + 1))).2))).1) := by
  subst hs
  rw [exponentAt, readAt_takeWhile str (p + 1) h, Option.some_bind,
    expDigitsAt_eq str _ rfl fuel _ 0 (expSign_takeWhile str (p + 1) h) (by omega),
    Option.some_bind]

theorem strtodHexAt_eq (str s : CString) (hs : s = str.takeWhile (· ≠ 0))
    (fuel dec : Nat) (exact sign : Int) (p : Nat) (h : p + 2 ≤ strlen str)
    (hf : strlen str < fuel) :
    strtodHexAt str fuel dec exact sign p = strtodHex s dec exact sign p := by
  subst hs
  rw [strtodHexAt, strtodHex, hexDigitsAt_eq str _ dec rfl fuel (p + 2) _ _ h (by omega)]
  rcases hr : hexDigits dec (Dbl.ofNat 0) (-1) ((str.takeWhile (· ≠ 0)).drop (p + 2))
    with _ | ⟨ans, exph, k⟩
  · rfl
  · have hk := hexDigits_length_le dec _ _ _ _ hr
    rw [List.length_drop] at hk
    have hk' : p + 2 + k ≤ strlen str := by
      have : (str.takeWhile (· ≠ 0)).length = strlen str := rfl
      simp only at hk
      omega
    simp only [Option.map_some', Option.some_bind]
    by_cases hex : exact ≠ 0 ∧ ans.gt (Dbl.ofNat (2 ^ 53 - 1)) ∧ exact ≠ NA_LOGICAL
    · rw [if_pos hex, if_pos hex]
    · rw [if_neg hex, if_neg hex, readAt_takeWhile str _ hk', Option.some_bind]
      by_cases hp : byteAt (str.takeWhile (· ≠ 0)) (p + 2 + k) = chr 'p' ∨
          byteAt (str.takeWhile (· ≠ 0)) (p + 2 + k) = chr 'P'
      · have hne : byteAt (str.takeWhile (· ≠ 0)) (p + 2 + k) ≠ 0 := by
          rcases hp with hp | hp <;> rw [hp] <;> decide
        rw [if_pos hp, if_pos hp,
          exponentAt_eq str _ rfl fuel _ (byteAt_takeWhile_ne_zero str _ hk' hne) hf,
          Option.some_bind]
      · rw [if_neg hp, if_neg hp]

theorem strtodDecimalAt_eq (str s : CString) (hs : s = str.takeWhile (· ≠ 0))
    (fuel dec : Nat) (exact sign : Int) (p : Nat) (h : p ≤ strlen str)
    (hf : strlen str < fuel) :
    strtodDecimalAt str fuel dec exact sign p = strtodDecimal s dec exact sign p := by
  subst hs
  have hlen : (str.takeWhile (· ≠ 0)).length = strlen str := rfl
  have hn1 := decDigits_length_le ((str.takeWhile (· ≠ 0)).drop p) (Dbl.ofNat 0)
  rw [List.length_drop, hlen] at hn1
  generalize hans1 : (decDigits (Dbl.ofNat 0) ((str.takeWhile (· ≠ 0)).drop p)).1 = ans1
  generalize hn1e : (decDigits (Dbl.ofNat 0) ((str.takeWhile (· ≠ 0)).drop p)).2 = n1 at hn1
  have hp1 : p + n1 ≤ strlen str := by omega
  have hd1 := decDigitsAt_eq str _ rfl fuel p (Dbl.ofNat 0) 0 h (by omega)
  rw [hans1, hn1e, Nat.zero_add] at hd1
  simp only [strtodDecimalAt, strtodDecimal, hd1, Option.some_bind, hans1, hn1e,
    readAt_takeWhile str (p + n1) hp1]
  by_cases hc : byteAt (str.takeWhile (· ≠ 0)) (p + n1) = dec
  · by_cases hdec : dec = 0
    · have hbeyond : strlen str < p + n1 + 1 := by
        rcases drop_takeWhile_cases str (p + n1) hp1 with ⟨_, _, hq⟩ | ⟨_, hne, _⟩
        · omega
        · exact absurd (hc.trans hdec) hne
      rw [if_pos hc, decDigitsAt_beyond str fuel _ _ _ hbeyond, if_pos ⟨hc, hdec⟩]
      rfl
    · have hp2 : p + n1 + 1 ≤ strlen str :=
        byteAt_takeWhile_ne_zero str _ hp1 (by rw [hc]; exact hdec)
      have hn2 := decDigits_length_le ((str.takeWhile (· ≠ 0)).drop (p + n1 + 1)) ans1
      rw [List.length_drop, hlen] at hn2
      have hd2 := decDigitsAt_eq str _ rfl fuel (p + n1 + 1) ans1 0 hp2 (by omega)
      rw [Nat.zero_add] at hd2
      simp only [if_pos hc, if_neg (fun hx : _ ∧ dec = 0 => hdec hx.2), hd2, Option.some_bind]
      generalize (decDigits ans1 ((str.takeWhile (· ≠ 0)).drop (p + n1 + 1))).1 = ans2
      generalize (decDigits ans1 ((str.takeWhile (· ≠ 0)).drop (p + n1 + 1))).2 = n2 at hn2
      have hp3 : p + n1 + 1 + n2 ≤ strlen str := by omega
      by_cases hn : n1 + n2 = 0
      · rw [if_pos hn, if_pos hn]
      · rw [if_neg hn, if_neg hn]
        by_cases hex : exact ≠ 0 ∧ ans2.gt (Dbl.ofNat (2 ^ 53 - 1)) ∧ exact ≠ NA_LOGICAL
        · rw [if_pos hex, if_pos hex]
        · rw [if_neg hex, if_neg hex, readAt_takeWhile str _ hp3, Option.some_bind,
            strtodExponent]
          by_cases he : byteAt (str.takeWhile (· ≠ 0)) (p + n1 + 1 + n2) = chr 'e' ∨
              byteAt (str.takeWhile (· ≠ 0)) (p + n1 + 1 + n2) = chr 'E'
          · have hne : byteAt (str.takeWhile (· ≠ 0)) (p + n1 + 1 + n2) ≠ 0 := by
              rcases he with he | he <;> rw [he] <;> decide
            rw [if_pos he, if_pos he,
              exponentAt_eq str _ rfl fuel _ (byteAt_takeWhile_ne_zero str _ hp3 hne) hf,
              Option.some_bind]
          · rw [if_neg he, if_neg he]
  · simp only [if_neg hc, if_neg (fun hx : _ ∧ dec = 0 => hc hx.1), Option.some_bind,
      Nat.add_zero]
    by_cases hn : n1 = 0
    · rw [if_pos hn, if_pos hn]
    · rw [if_neg hn, if_neg hn]
      by_cases hex : exact ≠ 0 ∧ ans1.gt (Dbl.ofNat (2 ^ 53 - 1)) ∧ exact ≠ NA_LOGICAL
      · rw [if_pos hex, if_pos hex]
      · rw [if_neg hex, if_neg hex, readAt_takeWhile str _ hp1, Option.some_bind,
          strtodExponent]
        by_cases he : byteAt (str.takeWhile (· ≠ 0)) (p + n1) = chr 'e' ∨
            byteAt (str.takeWhile (· ≠ 0)) (p + n1) = chr 'E'
        · have hne : byteAt (str.takeWhile (· ≠ 0)) (p + n1) ≠ 0 := by
            rcases he with he | he <;> rw [he] <;> decide
          rw [if_pos he, if_pos he,
            exponentAt_eq str _ rfl fuel _ (byteAt_takeWhile_ne_zero str _ hp1 hne) hf,
            Option.some_bind]
        · rw [if_neg he, if_neg he]

theorem strtodNumberAt_eq (str s : CString) (hs : s = str.takeWhile (· ≠ 0))
    (fuel dec : Nat) (exact sign : Int) (p : Nat) (h : p ≤ strlen str)
    (hf : strlen str < fuel) :
    strtodNumberAt str fuel dec exact sign p =
      if strncasecmpEq (s.drop p) [chr 'N', chr 'a', chr 'N'] then
        some (strtodDone sign R_NaN (p + 3) false)
      else if strncasecmpEq (s.drop p)
          [chr 'i', chr 'n', chr 'f', chr 'i', chr 'n', chr 'i', chr 't', chr 'y'] then
        some (strtodDone sign R_PosInf (p + 8) false)
      else if strncasecmpEq (s.drop p) [chr 'I', chr 'n', chr 'f'] then
        some (strtodDone sign R_PosInf (p + 3) false)
      else if (s.drop p).length > 2 ∧ byteAt s p = chr '0' ∧
          (byteAt s (p + 1) = chr 'x' ∨ byteAt s (p + 1) = chr 'X') then
        strtodHex s dec exact sign p
      else strtodDecimal s dec exact sign p := by
  subst hs
  have hlen : ((str.takeWhile (· ≠ 0)).drop p).length = strlen str - p := by
    rw [List.length_drop]
    rfl
  have hlenAt : strlenAt str p = some (strlen str - p) := by rw [strlenAt, if_pos h]
  rw [strtodNumberAt, strncasecmpAt_eq str _ rfl _ p (by decide) h, Option.some_bind,
    strncasecmpAt_eq str _ rfl _ p (by decide) h, Option.some_bind,
    strncasecmpAt_eq str _ rfl _ p (by decide) h, Option.some_bind, hlenAt, Option.some_bind,
    hlen]
  by_cases h1 : strncasecmpEq ((str.takeWhile (· ≠ 0)).drop p) [chr 'N', chr 'a', chr 'N']
      = true
  · rw [if_pos h1, if_pos h1]
  · rw [if_neg h1, if_neg h1]
    by_cases h2 : strncasecmpEq ((str.takeWhile (· ≠ 0)).drop p)
        [chr 'i', chr 'n', chr 'f', chr 'i', chr 'n', chr 'i', chr 't', chr 'y'] = true
    · rw [if_pos h2, if_pos h2]
    · rw [if_neg h2, if_neg h2]
      by_cases h3 : strncasecmpEq ((str.takeWhile (· ≠ 0)).drop p) [chr 'I', chr 'n', chr 'f']
          = true
      · rw [if_pos h3, if_pos h3]
      · rw [if_neg h3, if_neg h3]
        by_cases hl : strlen str - p > 2
        · rw [if_pos hl, readAt_takeWhile str p h, Option.some_bind,
            readAt_takeWhile str (p + 1) (by omega), Option.some_bind]
          by_cases h0 : byteAt (str.takeWhile (· ≠ 0)) p = chr '0'
          · rw [if_pos h0, Option.some_bind]
            by_cases hx : byteAt (str.takeWhile (· ≠ 0)) (p + 1) = chr 'x' ∨
                byteAt (str.takeWhile (· ≠ 0)) (p + 1) = chr 'X'
            · rw [if_pos (decide_eq_true hx), if_pos ⟨hl, h0, hx⟩]
              exact strtodHexAt_eq str _ rfl fuel dec exact sign p (by omega) hf
            · rw [if_neg (by rw [decide_eq_true_eq]; exact hx), if_neg (fun hh => hx hh.2.2)]
              exact strtodDecimalAt_eq str _ rfl fuel dec exact sign p h hf
          · rw [if_neg h0, Option.some_bind, if_neg (by decide), if_neg (fun hh => h0 hh.2.1)]
            exact strtodDecimalAt_eq str _ rfl fuel dec exact sign p h hf
        · rw [if_neg hl, Option.some_bind, if_neg (by decide), if_neg (fun hh => hl hh.1)]
          exact strtodDecimalAt_eq str _ rfl fuel dec exact sign p h hf

/-- The run of `R_strtod5` with every read checked is `R_strtod5`: the same result on
every input, and `none` on the same inputs. -/
theorem R_strtod5_checked_eq (str : CString) (dec : Nat) (NA : Bool) (exact : Int) :
    R_strtod5_checked str dec NA exact = R_strtod5 str dec NA exact := by
  have hskip := skipSpaceAt_eq str _ rfl (strlen str + 2) 0 (Nat.zero_le _) (by omega)
  rw [Nat.zero_add, List.drop_zero] at hskip
  have hp : skipSpace (str.takeWhile (· ≠ 0)) ≤ strlen str :=
    skipSpace_length_le (str.takeWhile (· ≠ 0))
  simp only [R_strtod5_checked, R_strtod5, hskip, Option.some_bind]
  generalize skipSpace (str.takeWhile (· ≠ 0)) = p at hp
  have hnum : (readAt str p).bind (fun c =>
      strtodNumberAt str (strlen str + 2) dec exact (if c = chr '-' then -1 else 1)
        (if c = chr '-' ∨ c = chr '+' then p + 1 else p)) =
      strtodNumberAt str (strlen str + 2) dec exact
        (if byteAt (str.takeWhile (· ≠ 0)) p = chr '-' then -1 else 1)
        (if byteAt (str.takeWhile (· ≠ 0)) p = chr '-' ∨
          byteAt (str.takeWhile (· ≠ 0)) p = chr '+' then p + 1 else p) := by
    rw [readAt_takeWhile str p hp, Option.some_bind]
  have hp' : (if byteAt (str.takeWhile (· ≠ 0)) p = chr '-' ∨
      byteAt (str.takeWhile (· ≠ 0)) p = chr '+' then p + 1 else p) ≤ strlen str := by
    by_cases hsg : byteAt (str.takeWhile (· ≠ 0)) p = chr '-' ∨
        byteAt (str.takeWhile (· ≠ 0)) p = chr '+'
    · rw [if_pos hsg]
      exact byteAt_takeWhile_ne_zero str p hp
        (by rcases hsg with hsg | hsg <;> rw [hsg] <;> decide)
    · rw [if_neg hsg]
      exact hp
  rw [hnum, strtodNumberAt_eq str _ rfl _ dec exact _ _ hp' (by omega)]
  cases NA
  · simp only [Bool.false_eq_true, if_false, Option.some_bind, Bool.false_and]
  · rw [if_pos rfl, strncmpAt_eq str _ rfl _ p (by decide) hp, Option.some_bind, Bool.true_and]

/-! ### The claim on the reads of `R_strtod5` -/

/-- C25. For every NUL-terminated `str`, every separator `dec` other than NUL and every
`NA` and `exact`, `R_strtod5` reads no byte beyond the terminating NUL of `str` (the run
with every read checked yields a result, which is the result of `R_strtod5`) and sets
`*endptr` to a position `p` with `str <= p <= str + strlen(str)`. -/
theorem R_strtod5_reads_within_string (str : CString) (dec : Nat) (NA : Bool) (exact : Int)
    (hdec : dec ≠ 0) :
    ∃ r, R_strtod5_checked str dec NA exact = some r ∧ R_strtod5 str dec NA exact = some r ∧
      r.endptr ≤ strlen str := by
  suffices hsafe : ∃ r, R_strtod5_checked str dec NA exact = some r ∧
      r.endptr ≤ strlen str by
    obtain ⟨r, hr, hle⟩ := hsafe
    exact ⟨r, hr, by rw [← R_strtod5_checked_eq]; exact hr, hle⟩
  obtain ⟨p, hp, _, h⟩ := skipSpaceAt_safe str (strlen str + 2) 0 (Nat.zero_le _) (by omega)
  have hna : ∃ b, (if NA = true then strncmpAt str p [chr 'N', chr 'A'] else some false)
      = some b ∧ (b = true → p + 2 ≤ strlen str) := by
    cases NA
    · exact ⟨false, rfl, fun hb => by cases hb⟩
    · exact strncmpAt_safe str [chr 'N', chr 'A'] p (by decide) h
  obtain ⟨b, hb, h2⟩ := hna
  simp only [R_strtod5_checked, hp, hb, Option.some_bind]
  cases b
  · simp only [Bool.false_eq_true, if_false]
    rw [readAt_of_le str p h, Option.some_bind]
    refine strtodNumberAt_safe str _ dec exact _ _ hdec ?_ (by omega)
    by_cases hs : byteAt str p = chr '-' ∨ byteAt str p = chr '+'
    · rw [if_pos hs]
      exact succ_le_strlen str p h (by rcases hs with hs | hs <;> rw [hs] <;> decide)
    · rw [if_neg hs]
      exact h
  · simp only [if_true]
    exact ⟨_, rfl, h2 rfl⟩

theorem R_strtod5_reads_within_string_witness :
    ∃ r, R_strtod5_checked (bytes ['-', '1', '.', '5', 'e', '3', 'x']) (chr '.') true 0
        = some r ∧
      R_strtod5 (bytes ['-', '1', '.', '5', 'e', '3', 'x']) (chr '.') true 0 = some r ∧
      r.endptr ≤ strlen (bytes ['-', '1', '.', '5', 'e', '3', 'x']) :=
  R_strtod5_reads_within_string _ (chr '.') true 0 (by decide)

/-- With the separator `dec == 0` the loops step over the terminator: the run of
`R_strtod5` on `"1"` reads the byte after the NUL. -/
theorem R_strtod5_checked_nul_separator :
    R_strtod5_checked (bytes ['1']) 0 false 0 = none ∧
      R_strtod5_checked (bytes ['0', 'x', '1']) 0 false 0 = none := by
  decide

end FastR
